import Mathlib

/-!
# AVL tree of `muyangye/AVL_Tree_CPP`: `bst.h` and `avlbst.h`

The source keeps a tree of heap nodes linked by `left_`, `right_` and `parent_` pointers and
reaches it through `root_`.  The embedding keeps the same information as follows.

* The whole tree (the value of `root_` with everything reachable from it) is an `AVLNode K V`:
  `AVLNode.null` is `NULL`, `AVLNode.node left key value height right` is a node with its item,
  its stored `height_` and its two owned subtrees.
* A pointer to a node of the tree is a `NodePtr`: the list of turns taken from the node back up
  to the root (`false` = left, `true` = right, as `lastDirection` in `insert`), nearest turn
  first.  The root is `[]`, `getLeft` of `p` is `false :: p`, and `parent_` of `d :: p` is `p`.
  A pointer that may be `NULL` is an `Option NodePtr`.
* `height_` is an `int` that only ever receives `1` (constructor), `max(..) + 1`
  (`updateHeights`) or the height of another node (`nodeSwap`); it is a `Nat` here.  The
  height of a tree that fits in memory is far below the range of `int`, so overflow is not
  modelled.
* Dereferencing `NULL` is a fault: the functions that can do it return `Option`, `none` being
  the fault.
* Loops that walk up through `parent_` are recursions over the `NodePtr`; loops and recursions
  that walk down are recursions over the subtree.
* `parent_` links are not stored: they are determined by the tree.  The link surgery of
  `leftRotate`, `rightRotate`, `nodeSwap` and of the unlinking in `remove` is taken by its
  effect on the tree.  A `NodePtr` names a place, so when a rotation or a swap moves a node,
  the node is followed to its new place (stated where it happens).
-/

/-- A node pointer together with the subtree it owns: `null` is `NULL`; `node` carries the left
subtree, the key, the value, the stored `height_` and the right subtree. -/
inductive AVLNode (K V : Type) where
  | null : AVLNode K V
  | node (left : AVLNode K V) (key : K) (value : V) (height : Nat) (right : AVLNode K V) :
      AVLNode K V
  deriving DecidableEq

/-- A pointer to a node of the tree: the turns from the node up to the root (`false` = left,
`true` = right), nearest turn first. -/
abbrev NodePtr := List Bool

namespace AVLNode

variable {K V : Type}

/-- The idiom `n ? n->getHeight() : 0` of the source: the stored height, `0` for `NULL`. -/
def heightOrZero : AVLNode K V → Nat
  | null => 0
  | node _ _ _ h _ => h

/-- Whether the pointer is `NULL`. -/
def isNull : AVLNode K V → Bool
  | null => true
  | node _ _ _ _ _ => false

/-- The members `getLeft()` (`d = false`) and `getRight()` (`d = true`). -/
def child (d : Bool) : AVLNode K V → AVLNode K V
  | null => null
  | node l _ _ _ r => if d then r else l

/-- The members `setLeft(s)` (`d = false`) and `setRight(s)` (`d = true`). -/
def setChild (d : Bool) (s : AVLNode K V) : AVLNode K V → AVLNode K V
  | null => null
  | node l k v h r => if d then node l k v h s else node s k v h r

/-- The member `setValue(v)`. -/
def setValue (v : V) : AVLNode K V → AVLNode K V
  | null => null
  | node l k _ h r => node l k v h r

/-- Puts another item (key and value) at the position of a node, leaving its links and its
stored height as they are. -/
def setItem (k : K) (v : V) : AVLNode K V → AVLNode K V
  | null => null
  | node l _ _ h r => node l k v h r

/-- Dereferences a pointer: the node (with its subtree) that `p` designates in the tree
`root`. -/
def nodeAt (root : AVLNode K V) : NodePtr → AVLNode K V
  | [] => root
  | d :: p => child d (nodeAt root p)

/-- The tree in which the position `p` holds `s`: `root_ = s` for the root, otherwise
`setLeft(s)` or `setRight(s)` on the parent of `p`. -/
def setAt (root : AVLNode K V) : NodePtr → AVLNode K V → AVLNode K V
  | [], s => s
  | d :: p, s => setAt root p (setChild d s (nodeAt root p))

/-- The member `getParent()`: `NULL` for the root. -/
def getParent : NodePtr → Option NodePtr
  | [] => none
  | _ :: p => some p

/-- The member `getItem()` read through a pointer: nothing for `NULL`. -/
def getItem : AVLNode K V → Option (K × V)
  | null => none
  | node _ k v _ _ => some (k, v)

/-- A tree without its values: the shape, the keys and the stored heights. -/
def skeleton : AVLNode K V → AVLNode K Unit
  | null => null
  | node l k _ h r => node (skeleton l) k () h (skeleton r)

/-- In-order list of the items of a tree. -/
def toList : AVLNode K V → List (K × V)
  | null => []
  | node l k v _ r => toList l ++ (k, v) :: toList r

/-- In-order list of the keys of a tree. -/
def keys : AVLNode K V → List K
  | null => []
  | node l k _ _ r => keys l ++ k :: keys r

/-- BST order: at every node, every key of the left subtree is smaller than the key of the
node and every key of the right subtree is larger. -/
def BSTOrder [LT K] : AVLNode K V → Prop
  | null => True
  | node l k _ _ r => (∀ x ∈ keys l, x < k) ∧ (∀ x ∈ keys r, k < x) ∧ BSTOrder l ∧ BSTOrder r

/-- Stored heights are exact: every node stores `1 + max` of the heights stored in its
children (`0` for an absent child). -/
def HeightsExact : AVLNode K V → Prop
  | null => True
  | node l _ _ h r =>
    h = max (heightOrZero l) (heightOrZero r) + 1 ∧ HeightsExact l ∧ HeightsExact r

/-- The AVL invariant read on the stored heights: every node stores `1 + max` of the heights
stored in its children, and these two differ by at most one. -/
def StoredAVL : AVLNode K V → Prop
  | null => True
  | node l _ _ h r =>
    h = max (heightOrZero l) (heightOrZero r) + 1 ∧ heightOrZero l ≤ heightOrZero r + 1 ∧
      heightOrZero r ≤ heightOrZero l + 1 ∧ StoredAVL l ∧ StoredAVL r

instance decidableBSTOrder [LT K] [DecidableRel (fun a b : K => a < b)] :
    (t : AVLNode K V) → Decidable (BSTOrder t)
  | null => isTrue trivial
  | node l k _ _ r =>
    have := decidableBSTOrder l
    have := decidableBSTOrder r
    inferInstanceAs (Decidable ((∀ x ∈ keys l, x < k) ∧ (∀ x ∈ keys r, k < x) ∧
      BSTOrder l ∧ BSTOrder r))

instance decidableHeightsExact : (t : AVLNode K V) → Decidable (HeightsExact t)
  | null => isTrue trivial
  | node l _ _ h r =>
    have := decidableHeightsExact l
    have := decidableHeightsExact r
    inferInstanceAs (Decidable (h = max (heightOrZero l) (heightOrZero r) + 1 ∧
      HeightsExact l ∧ HeightsExact r))

end AVLNode

namespace BinarySearchTree

open AVLNode

variable {K V : Type}

/-- Embeds `BinarySearchTree::getHeight`: the height recomputed from the shape. -/
def getHeight : AVLNode K V → Nat
  | null => 0
  | node l _ _ _ r => max (getHeight l) (getHeight r) + 1

/-- AVL balance on the heights recomputed from the shape: at every node the heights of the
two subtrees differ by at most one. -/
def AVLBalanced : AVLNode K V → Prop
  | null => True
  | node l _ _ _ r =>
    Int.natAbs ((getHeight l : Int) - (getHeight r : Int)) ≤ 1 ∧ AVLBalanced l ∧ AVLBalanced r

instance decidableAVLBalanced : (t : AVLNode K V) → Decidable (AVLBalanced t)
  | null => isTrue trivial
  | node l _ _ _ r =>
    have := decidableAVLBalanced l
    have := decidableAVLBalanced r
    inferInstanceAs (Decidable (Int.natAbs ((getHeight l : Int) - (getHeight r : Int)) ≤ 1 ∧
      AVLBalanced l ∧ AVLBalanced r))

/-- Embeds `BinarySearchTree::isBalancedHelper`. -/
def isBalancedHelper : AVLNode K V → Bool
  | null => true
  | node l _ _ _ r =>
    if Int.natAbs ((getHeight l : Int) - (getHeight r : Int)) > 1 then false
    else isBalancedHelper l && isBalancedHelper r

/-- Embeds `BinarySearchTree::isBalanced`. -/
def isBalanced (root : AVLNode K V) : Bool := isBalancedHelper root

/-- Embeds `BinarySearchTree::internalFindHelper(key, node)`; `ptr` is the pointer value of
`node`. -/
def internalFindHelper [LinearOrder K] (key : K) : AVLNode K V → NodePtr → Option NodePtr
  | null, _ => none
  | node l curKey _ _ r, ptr =>
    if curKey = key then some ptr
    else if curKey > key then internalFindHelper key l (false :: ptr)
    else internalFindHelper key r (true :: ptr)

/-- Embeds `BinarySearchTree::internalFind`. -/
def internalFind [LinearOrder K] (root : AVLNode K V) (key : K) : Option NodePtr :=
  internalFindHelper key root []

/-- Embeds `BinarySearchTree::end`: the cursor whose `current_` is `NULL`. -/
def end_ : Option NodePtr := none

/-- Embeds `BinarySearchTree::find`: the cursor (its `current_`) at the node found. -/
def find [LinearOrder K] (root : AVLNode K V) (k : K) : Option NodePtr :=
  internalFind root k

/-- Embeds `iterator::operator*`: the item of the node the cursor is at.  The end cursor has
no item (the source would dereference `NULL`). -/
def itemAt (root : AVLNode K V) (it : Option NodePtr) : Option (K × V) :=
  it.bind fun current => getItem (nodeAt root current)

/-- The loop `while (predecessor->getRight()) predecessor = predecessor->getRight();` of
`BinarySearchTree::predecessor`; `ptr` is the pointer value of the node given. -/
def predecessorLoop : AVLNode K V → NodePtr → NodePtr
  | null, ptr => ptr
  | node _ _ _ _ r, ptr =>
    match r with
    | null => ptr
    | node _ _ _ _ _ => predecessorLoop r (true :: ptr)

/-- Embeds `BinarySearchTree::predecessor(current)`. -/
def predecessor (root : AVLNode K V) (current : NodePtr) : Option NodePtr :=
  match nodeAt root (false :: current) with
  | null => none
  | node l k v h r => some (predecessorLoop (node l k v h r) (false :: current))

end BinarySearchTree

namespace AVLTree

open AVLNode BinarySearchTree

variable {K V : Type}

/-- Embeds `AVLTree::leftRotate(node)`, `n` being the pointer `node`.  In the slot that held
the node (`root_` when it has no parent) comes its right child, with the node as left child;
the right child's left subtree becomes the node's right subtree.  A node without right child
makes the source dereference `NULL`. -/
def leftRotate (root : AVLNode K V) (n : NodePtr) : Option (AVLNode K V) :=
  match nodeAt root n with
  | .node a k v h (.node rightLeftChild rk rv rh c) =>
    some (setAt root n (.node (.node a k v h rightLeftChild) rk rv rh c))
  | _ => none

/-- Embeds `AVLTree::rightRotate(node)`, the mirror image of `leftRotate`. -/
def rightRotate (root : AVLNode K V) (n : NodePtr) : Option (AVLNode K V) :=
  match nodeAt root n with
  | .node (.node a lk lv lh leftRightChild) k v h c =>
    some (setAt root n (.node a lk lv lh (.node leftRightChild k v h c)))
  | _ => none

/-- The body of the loop of `AVLTree::updateHeights` on one node:
`node->setHeight(std::max(leftHeight, rightHeight) + 1)`. -/
def updateHeight : AVLNode K V → AVLNode K V
  | .null => .null
  | .node l k v _ r => .node l k v (max (heightOrZero l) (heightOrZero r) + 1) r

/-- The loop of `AVLTree::updateHeights`, entered with a node: recompute the height of the
node, then go on with its parent until the root is done. -/
def updateHeightsLoop (root : AVLNode K V) : NodePtr → AVLNode K V
  | [] => setAt root [] (updateHeight (nodeAt root []))
  | d :: p => updateHeightsLoop (setAt root (d :: p) (updateHeight (nodeAt root (d :: p)))) p

/-- Embeds `AVLTree::updateHeights(node)`; nothing happens for `NULL`. -/
def updateHeights (root : AVLNode K V) : Option NodePtr → AVLNode K V
  | none => root
  | some n => updateHeightsLoop root n

/-- Embeds `AVLTree::calculateBF(node)`, reading the node through its pointer: the absolute
difference of the stored heights of its children.  The callers apply it to existing nodes
only (their loops test the pointer first). -/
def calculateBF : AVLNode K V → Nat
  | .null => 0
  | .node l _ _ _ r => Int.natAbs ((heightOrZero r : Int) - (heightOrZero l : Int))

/-- Embeds `AVLTree::findXYZ(x, y, z, start)`: the result is `(x, y, z, balanceMode)`; `x` may
be `NULL`.  `y` is dereferenced, so a `NULL` child on the side chosen for `y` is a fault. -/
def findXYZ (root : AVLNode K V) (start : NodePtr) :
    Option (Option NodePtr × NodePtr × NodePtr × Nat) :=
  match nodeAt root start with
  | .null => none
  | .node zl _ _ _ zr =>
    let firstLeft : Bool := decide (heightOrZero zl > heightOrZero zr)
    let y : NodePtr := (!firstLeft) :: start
    match (if firstLeft then zl else zr) with
    | .null => none
    | .node yl _ _ _ yr =>
      let leftHeight := heightOrZero yl
      let rightHeight := heightOrZero yr
      let secondLeft : Bool :=
        if leftHeight > rightHeight then true
        else if leftHeight = rightHeight then firstLeft
        else false
      let x : Option NodePtr :=
        if isNull (if secondLeft then yl else yr) then none else some ((!secondLeft) :: y)
      let balanceMode : Nat :=
        if firstLeft && secondLeft then 2
        else if !firstLeft && !secondLeft then 1
        else if firstLeft && !secondLeft then 3
        else 4
      some (x, y, start, balanceMode)

/-- Embeds `AVLTree::balance(x, y, z, balanceMode)` for `x`, `y`, `z` as `findXYZ` produces
them (`y` a child of `z`, `x` a child of `y` or `NULL`).  A rotation moves nodes, so the
pointers handed to `updateHeights` are taken at the places the nodes have after the
rotations: the node that comes on top takes the place `z` had, and the two others are its
children.
`root_` is the tree itself, so `if (z == this->root_) this->root_ = ...` needs no step. -/
def balance (root : AVLNode K V) (x : Option NodePtr) (y z : NodePtr) (balanceMode : Nat) :
    Option (AVLNode K V) :=
  if balanceMode = 1 then
    (leftRotate root z).map fun r1 =>
      -- `y` is on top, `z` is its left child and `x` its right child
      updateHeights (updateHeights r1 (x.map fun _ => true :: z)) (some (false :: z))
  else if balanceMode = 2 then
    (rightRotate root z).map fun r1 =>
      -- `y` is on top, `x` is its left child and `z` its right child
      updateHeights (updateHeights r1 (x.map fun _ => false :: z)) (some (true :: z))
  else if balanceMode = 3 then
    (leftRotate root y).bind fun r1 => (rightRotate r1 z).map fun r2 =>
      -- `x` is on top, `y` is its left child and `z` its right child
      updateHeights (updateHeights r2 (some (false :: z))) (some (true :: z))
  else if balanceMode = 4 then
    (rightRotate root y).bind fun r1 => (leftRotate r1 z).map fun r2 =>
      -- `x` is on top, `z` is its left child and `y` its right child
      updateHeights (updateHeights r2 (some (true :: z))) (some (false :: z))
  else some root

/-- Outcome of the descent loop of `insert`: the node carrying the key, or the empty slot
reached, given as `lastDirection :: parent`. -/
inductive InsertWalk where
  | found (n : NodePtr) : InsertWalk
  | slot (lastDirection : Bool) (parent : NodePtr) : InsertWalk
  | emptyTree : InsertWalk
  deriving DecidableEq

/-- The loop `while (node)` of `AVLTree::insert`; `ptr` is the pointer value of `node`
(for `NULL`: the slot it was read from). -/
def insertWalk [LinearOrder K] (key : K) : AVLNode K V → NodePtr → InsertWalk
  | .null, [] => InsertWalk.emptyTree
  | .null, lastDirection :: parent => InsertWalk.slot lastDirection parent
  | .node l k _ _ r, ptr =>
    if key < k then insertWalk key l (false :: ptr)
    else if key = k then InsertWalk.found ptr
    else insertWalk key r (true :: ptr)

/-- The loop `while (temp)` of `AVLTree::insert`: the first node from `temp` upwards with
`calculateBF(temp) >= 2`, `NULL` when the root is passed without finding one. -/
def insertSearch (root : AVLNode K V) : NodePtr → Option NodePtr
  | [] => if calculateBF (nodeAt root []) ≥ 2 then some [] else none
  | d :: p =>
    if calculateBF (nodeAt root (d :: p)) ≥ 2 then some (d :: p) else insertSearch root p

/-- The part of `AVLTree::insert` after the new node is linked (`Begin AVL-specific insert
implementation`): `updateHeights(parent)`, the search for the first unbalanced node, and
`balance` when `findXYZ` delivers three nodes. -/
def insertRebalance (root : AVLNode K V) (parent : NodePtr) : Option (AVLNode K V) :=
  let root2 := updateHeights root (some parent)
  match insertSearch root2 parent with
  | none => some root2
  | some temp =>
    (findXYZ root2 temp).bind fun (x, y, z, balanceMode) =>
      if x.isSome then balance root2 x y z balanceMode else some root2

/-- Embeds `AVLTree::insert(new_item)`. -/
def insert [LinearOrder K] (root : AVLNode K V) (new_item : K × V) : Option (AVLNode K V) :=
  match insertWalk new_item.1 root [] with
  | InsertWalk.emptyTree => some (.node .null new_item.1 new_item.2 1 .null)
  | InsertWalk.found n => some (setAt root n (setValue new_item.2 (nodeAt root n)))
  | InsertWalk.slot lastDirection parent =>
    insertRebalance (setAt root (lastDirection :: parent)
      (.node .null new_item.1 new_item.2 1 .null)) parent

/-- A sequence of `insert` calls on a tree that starts empty. -/
def insertAll [LinearOrder K] (items : List (K × V)) : Option (AVLNode K V) :=
  items.foldlM insert .null

/-- Embeds `AVLTree::nodeSwap(n1, n2)`: the two nodes exchange their places in the tree
(`BinarySearchTree::nodeSwap`) and then their stored heights, so each place keeps its links
and its height and receives the item of the other node.  Afterwards the node `n1` is found
at the place `n2` and conversely. -/
def nodeSwap (root : AVLNode K V) (n1 n2 : NodePtr) : AVLNode K V :=
  match nodeAt root n1, nodeAt root n2 with
  | .node _ k1 v1 _ _, .node _ k2 v2 _ _ =>
    let root1 := setAt root n1 (setItem k2 v2 (nodeAt root n1))
    setAt root1 n2 (setItem k1 v1 (nodeAt root1 n2))
  | _, _ => root

/-- One round of the loop `while (temp)` of `AVLTree::remove`: rebalance at `temp` when
`calculateBF(temp) >= 2`.  The node that `temp` is then set to (`y` or `x`) has the place
`temp` had once `balance` is done. -/
def removeStep (root : AVLNode K V) (temp : NodePtr) : Option (AVLNode K V) :=
  if calculateBF (nodeAt root temp) ≥ 2 then
    (findXYZ root temp).bind fun (x, y, z, balanceMode) => balance root x y z balanceMode
  else some root

/-- The loop `while (temp)` of `AVLTree::remove`. -/
def removeLoop (root : AVLNode K V) : NodePtr → Option (AVLNode K V)
  | [] => removeStep root []
  | d :: p => (removeStep root (d :: p)).bind fun r => removeLoop r p

/-- The part of `AVLTree::remove` after the node is unlinked: `updateHeights(temp)` and the
loop `while (temp)`. -/
def removeRebalance (root : AVLNode K V) : Option NodePtr → Option (AVLNode K V)
  | none => some root
  | some temp => removeLoop (updateHeights root (some temp)) temp

/-- The unlinking of a node with at most one child (the leaf and the one-child branches of
`AVLTree::remove`): its slot receives `NULL`, or its only child.  A node with two children
is left alone (neither branch applies). -/
def unlink (root : AVLNode K V) (findRes : NodePtr) : AVLNode K V :=
  match nodeAt root findRes with
  | .node .null _ _ _ .null => setAt root findRes .null
  | .node (.node a k v h b) _ _ _ .null => setAt root findRes (.node a k v h b)
  | .node .null _ _ _ (.node a k v h b) => setAt root findRes (.node a k v h b)
  | _ => root

/-- The body of `if (findRes)` in `AVLTree::remove`: the node found is unlinked (after
`nodeSwap` with its predecessor when it has two children) and the tree is rebalanced from
the parent of the place that was vacated. -/
def removeFound (root : AVLNode K V) (findRes : NodePtr) : Option (AVLNode K V) :=
  let parent := getParent findRes
  match nodeAt root findRes with
  | .node (.node _ _ _ _ _) _ _ _ (.node _ _ _ _ _) =>
    match predecessor root findRes with
    | none => none
    | some pred =>
      let root1 := nodeSwap root findRes pred
      -- `findRes` now has the place `pred`
      let predParent := getParent pred
      let root2 := unlink root1 pred
      removeRebalance root2 (if predParent.isSome then predParent else parent)
  | _ => removeRebalance (unlink root findRes) parent

/-- Embeds `AVLTree::remove(key)`. -/
def remove [LinearOrder K] (root : AVLNode K V) (key : K) : Option (AVLNode K V) :=
  match internalFind root key with
  | none => some root
  | some findRes => removeFound root findRes

/-- The tree that `insert` builds from the keys `1, ..., 7` in ascending order (each key `k`
with the value `10 * k`). -/
def exampleTree : AVLNode Nat Nat :=
  .node (.node (.node .null 1 10 1 .null) 2 20 2 (.node .null 3 30 1 .null)) 4 40 3
    (.node (.node .null 5 50 1 .null) 6 60 2 (.node .null 7 70 1 .null))

/-! ### Recursive descriptions of `insert` and `remove`

The functions below describe the result of `insert` and `remove` by recursion over the tree.
They are not taken as the meaning of the source: `insert_eq_insertRec` and
`remove_eq_removeRec` prove that the functions above compute exactly these results. -/

/-- The outcome of the descent loop of `insert` seen from one node higher: the same place,
reached through the child on side `d`. -/
def liftWalk (d : Bool) : InsertWalk → InsertWalk
  | InsertWalk.found n => InsertWalk.found (n ++ [d])
  | InsertWalk.slot lastDirection parent => InsertWalk.slot lastDirection (parent ++ [d])
  | InsertWalk.emptyTree => InsertWalk.slot d []

/-- What `removeStep` does at the root of a subtree, the fault read as "nothing done". -/
def rebalance (n : AVLNode K V) : AVLNode K V := (removeStep n []).getD n

/-- What `insert` does at the first unbalanced node `n`: `findXYZ`, then `balance` when `x`
is not `NULL`; the fault is read as "nothing done". -/
def insertFix (n : AVLNode K V) : AVLNode K V :=
  match findXYZ n [] with
  | some (x, y, z, balanceMode) => if x.isSome then (balance n x y z balanceMode).getD n else n
  | none => n

/-- Where `insert` stands when it comes back up to a node: the key was found (nothing above
changes), the upward walk still looks for an unbalanced node, or it has stopped at one. -/
inductive InsertStatus where
  | found : InsertStatus
  | searching : InsertStatus
  | stopped : InsertStatus
  deriving DecidableEq

/-- The effect of `insert` on a node `n` whose child on side `d` received the insertion. -/
def insertUp (d : Bool) (n : AVLNode K V) (res : AVLNode K V × InsertStatus) :
    AVLNode K V × InsertStatus :=
  match res.2 with
  | InsertStatus.found => (setChild d res.1 n, InsertStatus.found)
  | InsertStatus.stopped => (updateHeight (setChild d res.1 n), InsertStatus.stopped)
  | InsertStatus.searching =>
    let n1 := updateHeight (setChild d res.1 n)
    if calculateBF n1 ≥ 2 then (insertFix n1, InsertStatus.stopped)
    else (n1, InsertStatus.searching)

/-- Recursive description of `insert`. -/
def insertRec [LinearOrder K] (new_item : K × V) : AVLNode K V → AVLNode K V × InsertStatus
  | .null => (.node .null new_item.1 new_item.2 1 .null, InsertStatus.searching)
  | .node l k v h r =>
    if new_item.1 < k then insertUp false (.node l k v h r) (insertRec new_item l)
    else if new_item.1 = k then (.node l k new_item.2 h r, InsertStatus.found)
    else insertUp true (.node l k v h r) (insertRec new_item r)

/-- What `insertRec` guarantees for a subtree: the AVL invariant holds again; the height is
the old one unless the upward walk is still searching, in which case it may have grown by
one, and then the two subtrees of the result differ in height (or the result is a leaf). -/
def InsertSpec (t : AVLNode K V) (res : AVLNode K V × InsertStatus) : Prop :=
  StoredAVL res.1 ∧
  (res.2 ≠ InsertStatus.searching → heightOrZero res.1 = heightOrZero t) ∧
  (res.2 = InsertStatus.searching → heightOrZero res.1 = heightOrZero t ∨
    (heightOrZero res.1 = heightOrZero t + 1 ∧
      ∃ l k v h r, res.1 = .node l k v h r ∧ (heightOrZero l ≠ heightOrZero r ∨ h = 1)))

/-- The effect of `remove` on a node `n` whose child on side `d` became `s`. -/
def removeUp (d : Bool) (n s : AVLNode K V) : AVLNode K V :=
  rebalance (updateHeight (setChild d s n))

/-- Recursive description of the removal of the rightmost node of a subtree. -/
def removeMaxRec : AVLNode K V → AVLNode K V
  | .null => .null
  | .node l k v h r =>
    match r with
    | .null => l
    | .node _ _ _ _ _ => removeUp true (.node l k v h r) (removeMaxRec r)

/-- The item of the rightmost node of a subtree. -/
def maxItem : AVLNode K V → Option (K × V)
  | .null => none
  | .node _ k v _ r =>
    match r with
    | .null => some (k, v)
    | .node _ _ _ _ _ => maxItem r

/-- Recursive description of `remove`; `none` when the key is not met. -/
def removeRec [LinearOrder K] (key : K) : AVLNode K V → Option (AVLNode K V)
  | .null => none
  | .node l k v h r =>
    if k = key then
      match l, r with
      | .node _ _ _ _ _, .node _ _ _ _ _ =>
        (maxItem l).map fun item => removeUp false (.node l item.1 item.2 h r) (removeMaxRec l)
      | .null, _ => some r
      | _, .null => some l
    else if k > key then (removeRec key l).map (removeUp false (.node l k v h r))
    else (removeRec key r).map (removeUp true (.node l k v h r))

end AVLTree

namespace BinarySearchTree

open AVLNode

variable {K V : Type}

/-- The loop `while (node->getLeft()) node = node->getLeft();` of `getSmallestNode`, which is
also the loop `while (current_->getLeft()) current_ = current_->getLeft();` of `operator++`;
`ptr` is the pointer value of the node given. -/
def leftmostLoop : AVLNode K V → NodePtr → NodePtr
  | null, ptr => ptr
  | node l _ _ _ _, ptr =>
    match l with
    | null => ptr
    | node _ _ _ _ _ => leftmostLoop l (false :: ptr)

/-- Embeds `BinarySearchTree::getSmallestNode`. -/
def getSmallestNode (root : AVLNode K V) : Option NodePtr :=
  match root with
  | null => none
  | node l k v h r => some (leftmostLoop (node l k v h r) [])

/-- Embeds `BinarySearchTree::begin`: the cursor at the smallest node. -/
def begin_ (root : AVLNode K V) : Option NodePtr := getSmallestNode root

/-- The loop `while (current_->getParent() && current_->getParent()->getRight() == current_)
current_ = current_->getParent();` of `operator++`: a node is the right child of its parent
when the turn that leads to it is `true`. -/
def climbLoop : NodePtr → NodePtr
  | [] => []
  | d :: p => if d then climbLoop p else d :: p

/-- Embeds `iterator::operator++` on the cursor `current_` of an iterator into the tree
`root`.  A cursor is the end cursor or is at a node of the tree; the function is only
meant for such cursors. -/
def operatorPlusPlus (root : AVLNode K V) : Option NodePtr → Option NodePtr
  | none => none
  | some current =>
    match child true (nodeAt root current) with
    | node l k v h r => some (leftmostLoop (node l k v h r) (true :: current))
    | null => getParent (climbLoop current)

/-- The number of nodes of a tree. -/
def size : AVLNode K V → Nat
  | null => 0
  | node l _ _ _ r => size l + size r + 1

/-- The pointers to the nodes of a tree, in in-order. -/
def nodes : AVLNode K V → List NodePtr
  | null => []
  | node l _ _ _ r =>
    (nodes l).map (fun p => p ++ [false]) ++ [] :: (nodes r).map (fun p => p ++ [true])

/-- A stretch of an iteration: from the cursor `start`, `operator++` goes through the
pointers of the list one after the other and then arrives at the cursor `stop`. -/
def IterationSeg (next : Option NodePtr → Option NodePtr) :
    Option NodePtr → List NodePtr → Option NodePtr → Prop
  | start, [], stop => start = stop
  | start, p :: ps, stop => start = some p ∧ IterationSeg next (next (some p)) ps stop

/-- The shape of a tree alone: keys, values and stored heights are left out. -/
def shape : AVLNode K V → AVLNode Unit Unit
  | null => null
  | node l _ _ _ r => node (shape l) () () 0 (shape r)

end BinarySearchTree

namespace AVLTree

open AVLNode BinarySearchTree

variable {K V : Type}

/-- A call of one of the two mutating operations of the tree. -/
inductive Operation (K V : Type) where
  | insert (new_item : K × V) : Operation K V
  | remove (key : K) : Operation K V

/-- The tree after a call. -/
def applyOperation [LinearOrder K] (root : AVLNode K V) : Operation K V → Option (AVLNode K V)
  | Operation.insert new_item => insert root new_item
  | Operation.remove key => remove root key

/-- A sequence of `insert` and `remove` calls on a tree that starts empty. -/
def runOperations [LinearOrder K] (ops : List (Operation K V)) : Option (AVLNode K V) :=
  ops.foldlM applyOperation .null

/-- The node that is unbalanced after the keys `30, 20, 10` have been linked in this order
and the heights updated: a left-left shape. -/
def leftLeftTree : AVLNode Nat Nat :=
  .node (.node (.node .null 10 100 1 .null) 20 200 2 .null) 30 300 3 .null

end AVLTree


namespace AVLTree

open AVLNode BinarySearchTree

variable {K V : Type}

/-- The node stores `1 + max` of the heights stored in its two children (`0` for an absent
child); nothing is asked of `NULL`. -/
def LocalExact : AVLNode K V → Prop
  | .null => True
  | .node l _ _ h r => h = max (heightOrZero l) (heightOrZero r) + 1

instance decidableLocalExact : (t : AVLNode K V) → Decidable (LocalExact t)
  | .null => isTrue trivial
  | .node l _ _ h r => inferInstanceAs (Decidable (h = max (heightOrZero l) (heightOrZero r) + 1))

/-- The subtrees that hang off the way from the node `s` up to the root store exact heights:
at every node passed on the way, the child that is not on the way. -/
def ExactSiblings (root : AVLNode K V) : NodePtr → Prop
  | [] => True
  | d :: q => HeightsExact (nodeAt root ((!d) :: q)) ∧ ExactSiblings root q

instance decidableExactSiblings (root : AVLNode K V) : (s : NodePtr) →
    Decidable (ExactSiblings root s)
  | [] => isTrue trivial
  | d :: q =>
    have := decidableExactSiblings root q
    inferInstanceAs (Decidable (HeightsExact (nodeAt root ((!d) :: q)) ∧ ExactSiblings root q))

/-- Every node that is not on the way from the node `s` up to the root stores its exact
height: the two subtrees below `s` and the subtrees that hang off the way up. -/
def ExactOffPath (root : AVLNode K V) (s : NodePtr) : Prop :=
  HeightsExact (nodeAt root (false :: s)) ∧ HeightsExact (nodeAt root (true :: s)) ∧
    ExactSiblings root s

instance decidableExactOffPath (root : AVLNode K V) (s : NodePtr) :
    Decidable (ExactOffPath root s) :=
  inferInstanceAs (Decidable (HeightsExact (nodeAt root (false :: s)) ∧
    HeightsExact (nodeAt root (true :: s)) ∧ ExactSiblings root s))

end AVLTree

namespace AVLTree

open AVLNode BinarySearchTree

variable {K V : Type}

/-- The node `z` that `AVLTree::insert(new_item)` hands to `balance`, `NULL` when `insert`
returns without calling `balance` (the tree was empty, the key was found, the loop
`while (temp)` met no node with `calculateBF(temp) >= 2`, or `x && y && z` failed).  This
is `insert` read up to the call and stripped of its effect on the tree. -/
def insertBalanceNode [LinearOrder K] (root : AVLNode K V) (new_item : K × V) :
    Option NodePtr :=
  match insertWalk new_item.1 root [] with
  | InsertWalk.slot lastDirection parent =>
    let root2 := updateHeights (setAt root (lastDirection :: parent)
      (.node .null new_item.1 new_item.2 1 .null)) (some parent)
    match insertSearch root2 parent with
    | none => none
    | some temp =>
      match findXYZ root2 temp with
      | some (x, _, z, _) => if x.isSome then some z else none
      | none => none
  | _ => none

/-- One round of the loop `while (temp)` of `AVLTree::remove` as `removeStep`, with a record
of the call of `balance`: the pointer `z` handed to `balance` and the item of that node. -/
def removeStepTrace (root : AVLNode K V) (temp : NodePtr) :
    Option (AVLNode K V × List (NodePtr × Option (K × V))) :=
  if calculateBF (nodeAt root temp) ≥ 2 then
    (findXYZ root temp).bind fun (x, y, z, balanceMode) =>
      (balance root x y z balanceMode).map fun r => (r, [(z, getItem (nodeAt root z))])
  else some (root, [])

/-- The loop `while (temp)` of `AVLTree::remove` as `removeLoop`, with the record of the calls
of `balance` in the order in which they are made. -/
def removeLoopTrace (root : AVLNode K V) :
    NodePtr → Option (AVLNode K V × List (NodePtr × Option (K × V)))
  | [] => removeStepTrace root []
  | d :: p =>
    (removeStepTrace root (d :: p)).bind fun res =>
      (removeLoopTrace res.1 p).map fun res2 => (res2.1, res.2 ++ res2.2)

/-- The function `removeRebalance` with the record of the calls of `balance`. -/
def removeRebalanceTrace (root : AVLNode K V) :
    Option NodePtr → Option (AVLNode K V × List (NodePtr × Option (K × V)))
  | none => some (root, [])
  | some temp => removeLoopTrace (updateHeights root (some temp)) temp

/-- The function `removeFound` with the record of the calls of `balance`. -/
def removeFoundTrace (root : AVLNode K V) (findRes : NodePtr) :
    Option (AVLNode K V × List (NodePtr × Option (K × V))) :=
  let parent := getParent findRes
  match nodeAt root findRes with
  | .node (.node _ _ _ _ _) _ _ _ (.node _ _ _ _ _) =>
    match predecessor root findRes with
    | none => none
    | some pred =>
      let root1 := nodeSwap root findRes pred
      let predParent := getParent pred
      let root2 := unlink root1 pred
      removeRebalanceTrace root2 (if predParent.isSome then predParent else parent)
  | _ => removeRebalanceTrace (unlink root findRes) parent

/-- Embeds `AVLTree::remove(key)` with the record of the calls of `balance` it makes: for each
call the pointer `z` and the item of the node `z`. -/
def removeTrace [LinearOrder K] (root : AVLNode K V) (key : K) :
    Option (AVLNode K V × List (NodePtr × Option (K × V))) :=
  match internalFind root key with
  | none => some (root, [])
  | some findRes => removeFoundTrace root findRes

end AVLTree

namespace BinarySearchTree

open AVLNode

variable {K V : Type}

/-! ### The plain `BinarySearchTree`

A plain `Node` has no `height_`.  A tree of plain nodes is given as an `AVLNode K V` all the
same; nothing in `BinarySearchTree` reads or writes the height, and the nodes it creates
carry `0` there. -/

/-- Embeds `BinarySearchTree::insert(keyValuePair)`.  Its loop `while (node)` is the one of
`AVLTree::insert`, word for word, so `AVLTree.insertWalk` is that loop. -/
def insert [LinearOrder K] (root : AVLNode K V) (keyValuePair : K × V) : AVLNode K V :=
  match AVLTree.insertWalk keyValuePair.1 root [] with
  | AVLTree.InsertWalk.emptyTree => .node .null keyValuePair.1 keyValuePair.2 0 .null
  | AVLTree.InsertWalk.found n => setAt root n (setValue keyValuePair.2 (nodeAt root n))
  | AVLTree.InsertWalk.slot lastDirection parent =>
    setAt root (lastDirection :: parent) (.node .null keyValuePair.1 keyValuePair.2 0 .null)

/-- Embeds `BinarySearchTree::nodeSwap(n1, n2)`: the two nodes exchange their places in the
tree, so each place keeps its links and receives the item of the other node.  Nothing
happens when one of the pointers is `NULL`. -/
def nodeSwap (root : AVLNode K V) (n1 n2 : NodePtr) : AVLNode K V :=
  match nodeAt root n1, nodeAt root n2 with
  | .node _ k1 v1 _ _, .node _ k2 v2 _ _ =>
    let root1 := setAt root n1 (setItem k2 v2 (nodeAt root n1))
    setAt root1 n2 (setItem k1 v1 (nodeAt root1 n2))
  | _, _ => root

/-- The unlinking of a node with at most one child (the leaf and the one-child branches of
`BinarySearchTree::remove`): its slot receives `NULL`, or its only child.  A node with two
children is left alone (neither branch applies). -/
def unlink (root : AVLNode K V) (findRes : NodePtr) : AVLNode K V :=
  match nodeAt root findRes with
  | .node .null _ _ _ .null => setAt root findRes .null
  | .node (.node a k v h b) _ _ _ .null => setAt root findRes (.node a k v h b)
  | .node .null _ _ _ (.node a k v h b) => setAt root findRes (.node a k v h b)
  | _ => root

/-- Embeds `BinarySearchTree::remove(key)`. -/
def remove [LinearOrder K] (root : AVLNode K V) (key : K) : Option (AVLNode K V) :=
  match internalFind root key with
  | none => some root
  | some findRes =>
    match nodeAt root findRes with
    | .node (.node _ _ _ _ _) _ _ _ (.node _ _ _ _ _) =>
      match predecessor root findRes with
      | none => none
      | some pred => some (unlink (nodeSwap root findRes pred) pred)
    | _ => some (unlink root findRes)

/-- The plain tree after a call. -/
def applyOperation [LinearOrder K] (root : AVLNode K V) :
    AVLTree.Operation K V → Option (AVLNode K V)
  | AVLTree.Operation.insert new_item => some (insert root new_item)
  | AVLTree.Operation.remove key => remove root key

/-- A sequence of `insert` and `remove` calls on a plain tree that starts empty. -/
def runOperations [LinearOrder K] (ops : List (AVLTree.Operation K V)) :
    Option (AVLNode K V) :=
  ops.foldlM applyOperation .null

end BinarySearchTree

namespace AVLTree

open AVLNode BinarySearchTree

/-- The tree of the keys `1` and `2`, the second below the first. -/
def twoNodeTree : AVLNode Nat Nat := .node .null 1 10 2 (.node .null 2 20 1 .null)

/-- Twelve items whose insertion in this order builds `fibonacciTree`. -/
def fibonacciItems : List (Nat × Nat) :=
  [(8, 80), (5, 50), (11, 110), (3, 30), (7, 70), (10, 100), (12, 120), (2, 20), (4, 40), (6, 60),
    (9, 90), (1, 10)]

/-- A tree of height `5` with the fewest nodes an AVL tree of that height can have: at every
node with two subtrees the left one is the higher. -/
def fibonacciTree : AVLNode Nat Nat :=
  .node
    (.node
      (.node (.node (.node .null 1 10 1 .null) 2 20 2 .null) 3 30 3 (.node .null 4 40 1 .null))
      5 50 4
      (.node (.node .null 6 60 1 .null) 7 70 2 .null))
    8 80 5
    (.node (.node (.node .null 9 90 1 .null) 10 100 2 .null) 11 110 3
      (.node .null 12 120 1 .null))

/-- The tree that `remove(12)` makes of `fibonacciTree`. -/
def fibonacciTreeWithout12 : AVLNode Nat Nat :=
  .node
    (.node (.node (.node .null 1 10 1 .null) 2 20 2 .null) 3 30 3 (.node .null 4 40 1 .null))
    5 50 4
    (.node (.node (.node .null 6 60 1 .null) 7 70 2 .null) 8 80 3
      (.node (.node .null 9 90 1 .null) 10 100 2 (.node .null 11 110 1 .null)))

end AVLTree


/-!
## The tree as objects in a store

The definitions above give the tree by its shape.  The definitions below give it as the
source has it: node objects in a store, linked by `parent_`, `left_` and `right_`, and the
member `root_` of the tree object.

* An address is a `Nat`; a pointer is an `Option Nat`, `none` being `NULL`.
* The store `mem` gives the object at an address, `none` where there is no object (never
  allocated, or deleted).
* Reading or writing through `NULL` or through an address without object is a fault: the
  functions return `Option`, `none` being the fault.  Loops that follow pointers take a
  bound on the number of rounds (`fuel`); running out of it is reported as `none` as well.
* `new` returns an address that holds no object; which one is not known, so `insert` takes
  it as an argument.
-/

/-- A node object: the members of `Node` and the member `height_` of `AVLNode`. -/
structure HeapNode (K V : Type) where
  item_ : K × V
  parent_ : Option Nat
  left_ : Option Nat
  right_ : Option Nat
  height_ : Nat
  deriving DecidableEq

/-- The store and the member `root_` of the tree object. -/
structure Heap (K V : Type) where
  mem : Nat → Option (HeapNode K V)
  root_ : Option Nat

namespace Heap

variable {K V : Type}

/-- The member `getParent()` of the node at address `n`. -/
def getParent (h : Heap K V) (n : Nat) : Option (Option Nat) := (h.mem n).map fun c => c.parent_

/-- The member `getLeft()` of the node at address `n`. -/
def getLeft (h : Heap K V) (n : Nat) : Option (Option Nat) := (h.mem n).map fun c => c.left_

/-- The member `getRight()` of the node at address `n`. -/
def getRight (h : Heap K V) (n : Nat) : Option (Option Nat) := (h.mem n).map fun c => c.right_

/-- The member `getHeight()` of the node at address `n`. -/
def getHeight (h : Heap K V) (n : Nat) : Option Nat := (h.mem n).map fun c => c.height_

/-- The member `getKey()` of the node at address `n`. -/
def getKey (h : Heap K V) (n : Nat) : Option K := (h.mem n).map fun c => c.item_.1

/-- The store after an assignment to a member of the object at address `n`; `f` maps the
object to the object with the member assigned.  An address without object stays so. -/
def modify (h : Heap K V) (n : Nat) (f : HeapNode K V → HeapNode K V) : Heap K V :=
  { h with mem := fun x => if x = n then (h.mem x).map f else h.mem x }

/-- An assignment to a member of the object at address `n`, a fault when there is no object at
`n`. -/
def assign (h : Heap K V) (n : Nat) (f : HeapNode K V → HeapNode K V) : Option (Heap K V) :=
  if (h.mem n).isSome then some (modify h n f) else none

/-- The member `setParent(parent)` of the node at address `n`. -/
def setParent (h : Heap K V) (n : Nat) (parent : Option Nat) : Option (Heap K V) :=
  assign h n fun c => { c with parent_ := parent }

/-- The member `setLeft(left)` of the node at address `n`. -/
def setLeft (h : Heap K V) (n : Nat) (left : Option Nat) : Option (Heap K V) :=
  assign h n fun c => { c with left_ := left }

/-- The member `setRight(right)` of the node at address `n`. -/
def setRight (h : Heap K V) (n : Nat) (right : Option Nat) : Option (Heap K V) :=
  assign h n fun c => { c with right_ := right }

/-- The member `setHeight(height)` of the node at address `n`. -/
def setHeight (h : Heap K V) (n : Nat) (height : Nat) : Option (Heap K V) :=
  assign h n fun c => { c with height_ := height }

/-- The member `setValue(value)` of the node at address `n`. -/
def setValue (h : Heap K V) (n : Nat) (value : V) : Option (Heap K V) :=
  assign h n fun c => { c with item_ := (c.item_.1, value) }

/-- The expression `new AVLNode<Key, Value>(key, value, parent)` when `new` returns the
address `n`: the constructor sets the two children to `NULL` and the height to `1`. -/
def newNode (h : Heap K V) (n : Nat) (key : K) (value : V) (parent : Option Nat) : Heap K V :=
  { h with mem := fun x => if x = n then some ⟨(key, value), parent, none, none, 1⟩ else h.mem x }

/-- The statement `delete n`. -/
def delete (h : Heap K V) (n : Nat) : Heap K V :=
  { h with mem := fun x => if x = n then none else h.mem x }

/-- The idiom `n ? n->getHeight() : 0` of the source. -/
def heightOrZero (h : Heap K V) : Option Nat → Option Nat
  | none => some 0
  | some n => getHeight h n

end Heap

namespace HeapAVL

open Heap

variable {K V : Type}

/-- Embeds `AVLTree::leftRotate(node)` on the store. -/
def leftRotate (h : Heap K V) (node : Nat) : Option (Heap K V) := do
  let rightChild ← (← getRight h node)
  let rightLeftChild ← getLeft h rightChild
  let h1 ← match rightLeftChild with
    | some rlc => (setParent h rlc (some node)).bind fun h' => setRight h' node (some rlc)
    | none => setRight h node none
  let h2 ← setLeft h1 rightChild (some node)
  let parent ← getParent h2 node
  let h3 ← match parent with
    | none => setParent h2 rightChild none
    | some p => do
      let h' ← setParent h2 rightChild (some p)
      if (← getLeft h' p) = some node then setLeft h' p (some rightChild)
      else setRight h' p (some rightChild)
  setParent h3 node (some rightChild)

/-- Embeds `AVLTree::rightRotate(node)` on the store. -/
def rightRotate (h : Heap K V) (node : Nat) : Option (Heap K V) := do
  let leftChild ← (← getLeft h node)
  let leftRightChild ← getRight h leftChild
  let h1 ← match leftRightChild with
    | some lrc => (setParent h lrc (some node)).bind fun h' => setLeft h' node (some lrc)
    | none => setLeft h node none
  let h2 ← setRight h1 leftChild (some node)
  let parent ← getParent h2 node
  let h3 ← match parent with
    | none => setParent h2 leftChild none
    | some p => do
      let h' ← setParent h2 leftChild (some p)
      if (← getLeft h' p) = some node then setLeft h' p (some leftChild)
      else setRight h' p (some leftChild)
  setParent h3 node (some leftChild)

/-- Embeds `AVLTree::updateHeights(node)` on the store; `fuel` bounds the rounds of its
loop. -/
def updateHeights : Nat → Heap K V → Option Nat → Option (Heap K V)
  | _, h, none => some h
  | 0, _, some _ => none
  | fuel + 1, h, some node => do
    let leftHeight ← heightOrZero h (← getLeft h node)
    let rightHeight ← heightOrZero h (← getRight h node)
    let h1 ← setHeight h node (max leftHeight rightHeight + 1)
    updateHeights fuel h1 (← getParent h1 node)

/-- Embeds `AVLTree::calculateBF(node)` on the store. -/
def calculateBF (h : Heap K V) (node : Nat) : Option Nat := do
  let leftHeight ← heightOrZero h (← getLeft h node)
  let rightHeight ← heightOrZero h (← getRight h node)
  pure (Int.natAbs ((rightHeight : Int) - (leftHeight : Int)))

/-- Embeds `AVLTree::findXYZ(x, y, z, start)` on the store: the result is
`(x, y, z, balanceMode)`; `x` may be `NULL`, `y` is dereferenced. -/
def findXYZ (h : Heap K V) (start : Nat) : Option (Option Nat × Nat × Nat × Nat) := do
  let z := start
  let zl ← getLeft h z
  let zr ← getRight h z
  let leftHeight ← heightOrZero h zl
  let rightHeight ← heightOrZero h zr
  let firstLeft : Bool := decide (leftHeight > rightHeight)
  let y ← (if firstLeft then zl else zr)
  let yl ← getLeft h y
  let yr ← getRight h y
  let leftHeight ← heightOrZero h yl
  let rightHeight ← heightOrZero h yr
  let secondLeft : Bool :=
    if leftHeight > rightHeight then true
    else if leftHeight = rightHeight then firstLeft
    else false
  let x : Option Nat := if secondLeft then yl else yr
  let balanceMode : Nat :=
    if firstLeft && secondLeft then 2
    else if !firstLeft && !secondLeft then 1
    else if firstLeft && !secondLeft then 3
    else 4
  pure (x, y, z, balanceMode)

/-- The statement `if (z == this->root_) this->root_ = top;` of `AVLTree::balance`. -/
def setRootIf (h : Heap K V) (z : Nat) (top : Option Nat) : Heap K V :=
  if h.root_ = some z then { h with root_ := top } else h

/-- Embeds `AVLTree::balance(x, y, z, balanceMode)` on the store. -/
def balance (fuel : Nat) (h : Heap K V) (x : Option Nat) (y z : Nat) (balanceMode : Nat) :
    Option (Heap K V) :=
  if balanceMode = 1 then do
    let h1 ← leftRotate h z
    let h2 := setRootIf h1 z (some y)
    let h3 ← updateHeights fuel h2 x
    updateHeights fuel h3 (some z)
  else if balanceMode = 2 then do
    let h1 ← rightRotate h z
    let h2 := setRootIf h1 z (some y)
    let h3 ← updateHeights fuel h2 x
    updateHeights fuel h3 (some z)
  else if balanceMode = 3 then do
    let h1 ← leftRotate h y
    let h2 ← rightRotate h1 z
    let h3 := setRootIf h2 z x
    let h4 ← updateHeights fuel h3 (some y)
    updateHeights fuel h4 (some z)
  else if balanceMode = 4 then do
    let h1 ← rightRotate h y
    let h2 ← leftRotate h1 z
    let h3 := setRootIf h2 z x
    let h4 ← updateHeights fuel h3 (some y)
    updateHeights fuel h4 (some z)
  else some h

end HeapAVL

namespace Heap

variable {K V : Type}

/-! ### Trees in the store

To say that the objects reachable from an address form a tree with consistent links, the
tree is written down with the address of each node next to its value: an
`AVLNode K (Nat × V)`. -/

/-- The address of the root node of a tree written with addresses; `NULL` for the empty
tree. -/
def addr : AVLNode K (Nat × V) → Option Nat
  | .null => none
  | .node _ _ av _ _ => some av.1

/-- The addresses of the nodes of a tree written with addresses, in in-order. -/
def addrs : AVLNode K (Nat × V) → List Nat
  | .null => []
  | .node l _ av _ r => addrs l ++ av.1 :: addrs r

/-- The object that stands for the root node of a tree written with addresses, `parent`
being the address of its parent. -/
def cellOf (parent : Option Nat) : AVLNode K (Nat × V) → Option (HeapNode K V)
  | .null => none
  | .node l k av h r => some ⟨(k, av.2), parent, addr l, addr r, h⟩

/-- The address of the parent of the node at `p` in a tree whose root has the parent
`par`. -/
def parentAt (par : Option Nat) (t : AVLNode K (Nat × V)) : NodePtr → Option Nat
  | [] => par
  | _ :: q => addr (AVLNode.nodeAt t q)

/-- The store holds the tree `t` below a node at address `parent` (`NULL` for a whole tree):
every node of `t` is the object at its address, with the item and the height written in
`t`, with `left_` and `right_` the addresses of its children in `t`, and with `parent_`
the address of its parent in `t`. -/
def RepAt (mem : Nat → Option (HeapNode K V)) (parent : Option Nat) :
    AVLNode K (Nat × V) → Prop
  | .null => True
  | .node l k av h r =>
    mem av.1 = some ⟨(k, av.2), parent, addr l, addr r, h⟩ ∧
      RepAt mem (some av.1) l ∧ RepAt mem (some av.1) r

instance decidableRepAt [DecidableEq K] [DecidableEq V] (mem : Nat → Option (HeapNode K V)) :
    (parent : Option Nat) → (t : AVLNode K (Nat × V)) → Decidable (RepAt mem parent t)
  | _, .null => isTrue trivial
  | parent, .node l k av h r =>
    have := decidableRepAt mem (some av.1) l
    have := decidableRepAt mem (some av.1) r
    inferInstanceAs (Decidable (mem av.1 = some ⟨(k, av.2), parent, addr l, addr r, h⟩ ∧
      RepAt mem (some av.1) l ∧ RepAt mem (some av.1) r))

/-- The objects of the store that are reachable from `root_` are the tree `t`, a tree with
consistent links: `root_` is the address of the root of `t`, the root has no parent, every
node is the object `RepAt` asks for, and no address occurs twice. -/
def Rep (h : Heap K V) (t : AVLNode K (Nat × V)) : Prop :=
  h.root_ = addr t ∧ RepAt h.mem none t ∧ (addrs t).Nodup

instance decidableRep [DecidableEq K] [DecidableEq V] (h : Heap K V)
    (t : AVLNode K (Nat × V)) : Decidable (Rep h t) :=
  inferInstanceAs (Decidable (h.root_ = addr t ∧ RepAt h.mem none t ∧ (addrs t).Nodup))

/-- Parent and child links are mutually consistent on the nodes at the addresses `nodes`:
the node `root_` points to has no parent, and when `left_` or `right_` of a node `a` is the
address `b`, then `b` is a node and `parent_` of `b` is the address `a`. -/
def LinkConsistent (h : Heap K V) (nodes : List Nat) : Prop :=
  (∀ r, h.root_ = some r → getParent h r = some none) ∧
  ∀ a ∈ nodes, ∀ b, (getLeft h a = some (some b) ∨ getRight h a = some (some b)) →
    b ∈ nodes ∧ getParent h b = some (some a)

/-- Three objects at the addresses `0`, `1`, `2` with the keys `1`, `2`, `3`, each the right
child of the one before: the store after the keys have been linked in this order and the
heights updated, before any rotation; `root_` is the address `0`. -/
def chainHeap : Heap Nat Nat :=
  { mem := fun x =>
      if x = 0 then some ⟨(1, 10), none, none, some 1, 3⟩
      else if x = 1 then some ⟨(2, 20), some 0, none, some 2, 2⟩
      else if x = 2 then some ⟨(3, 30), some 1, none, none, 1⟩
      else none
    root_ := some 0 }

/-- The tree that `chainHeap` holds, written with the addresses. -/
def chainTree : AVLNode Nat (Nat × Nat) :=
  .node .null 1 (0, 10) 3 (.node .null 2 (1, 20) 2 (.node .null 3 (2, 30) 1 .null))

/-- The mirror image of `chainHeap`: the keys `3`, `2`, `1`, each the left child of the one
before. -/
def leftChainHeap : Heap Nat Nat :=
  { mem := fun x =>
      if x = 0 then some ⟨(3, 30), none, some 1, none, 3⟩
      else if x = 1 then some ⟨(2, 20), some 0, some 2, none, 2⟩
      else if x = 2 then some ⟨(1, 10), some 1, none, none, 1⟩
      else none
    root_ := some 0 }

/-- The tree that `leftChainHeap` holds, written with the addresses. -/
def leftChainTree : AVLNode Nat (Nat × Nat) :=
  .node (.node (.node .null 1 (2, 10) 1 .null) 2 (1, 20) 2 .null) 3 (0, 30) 3 .null

end Heap


/-! ## Pointers and subtrees -/

namespace AVLNode

variable {K V : Type}

@[simp] theorem heightOrZero_null : heightOrZero (null : AVLNode K V) = 0 := rfl

@[simp] theorem heightOrZero_node (l r : AVLNode K V) (k : K) (v : V) (h : Nat) :
    heightOrZero (node l k v h r) = h := rfl

@[simp] theorem isNull_null : isNull (null : AVLNode K V) = true := rfl

@[simp] theorem isNull_node (l r : AVLNode K V) (k : K) (v : V) (h : Nat) :
    isNull (node l k v h r) = false := rfl

@[simp] theorem child_null (d : Bool) : child d (null : AVLNode K V) = null := rfl

@[simp] theorem child_false_node (l r : AVLNode K V) (k : K) (v : V) (h : Nat) :
    child false (node l k v h r) = l := rfl

@[simp] theorem child_true_node (l r : AVLNode K V) (k : K) (v : V) (h : Nat) :
    child true (node l k v h r) = r := rfl

@[simp] theorem setChild_null (d : Bool) (s : AVLNode K V) : setChild d s null = null := rfl

@[simp] theorem setChild_false_node (s l r : AVLNode K V) (k : K) (v : V) (h : Nat) :
    setChild false s (node l k v h r) = node s k v h r := rfl

@[simp] theorem setChild_true_node (s l r : AVLNode K V) (k : K) (v : V) (h : Nat) :
    setChild true s (node l k v h r) = node l k v h s := rfl

@[simp] theorem nodeAt_nil (R : AVLNode K V) : nodeAt R [] = R := rfl

@[simp] theorem nodeAt_cons (R : AVLNode K V) (d : Bool) (p : NodePtr) :
    nodeAt R (d :: p) = child d (nodeAt R p) := rfl

@[simp] theorem setAt_nil (R s : AVLNode K V) : setAt R [] s = s := rfl

@[simp] theorem setAt_cons (R s : AVLNode K V) (d : Bool) (p : NodePtr) :
    setAt R (d :: p) s = setAt R p (setChild d s (nodeAt R p)) := rfl

@[simp] theorem nodeAt_null (p : NodePtr) : nodeAt (null : AVLNode K V) p = null := by
  induction p with
  | nil => rfl
  | cons d p ih => simp [nodeAt, ih, child]

theorem nodeAt_snoc (R : AVLNode K V) (p : NodePtr) (d : Bool) :
    nodeAt R (p ++ [d]) = nodeAt (child d R) p := by
  induction p with
  | nil => rfl
  | cons e p ih => simp [nodeAt, ih]

theorem setAt_snoc (R : AVLNode K V) (p : NodePtr) (d : Bool) (s : AVLNode K V) :
    setAt R (p ++ [d]) s = setChild d (setAt (child d R) p s) R := by
  induction p generalizing s with
  | nil => simp [setAt, nodeAt]
  | cons e p ih => simp [setAt, ih, nodeAt_snoc]

@[simp] theorem child_setChild (d : Bool) (s R : AVLNode K V) (hR : R ≠ null) :
    child d (setChild d s R) = s := by
  cases R with
  | null => exact absurd rfl hR
  | node l k v h r => cases d <;> simp [setChild, child]

@[simp] theorem setChild_setChild (d : Bool) (s s' R : AVLNode K V) :
    setChild d s (setChild d s' R) = setChild d s R := by
  cases R with
  | null => rfl
  | node l k v h r => cases d <;> simp [setChild]

theorem setChild_ne_null (d : Bool) (s R : AVLNode K V) (hR : R ≠ null) :
    setChild d s R ≠ null := by
  cases R with
  | null => exact absurd rfl hR
  | node l k v h r => cases d <;> simp [setChild]

end AVLNode

namespace AVLTree

open AVLNode BinarySearchTree

variable {K V : Type}

@[simp] theorem updateHeight_null : updateHeight (null : AVLNode K V) = null := rfl

@[simp] theorem updateHeight_node (l r : AVLNode K V) (k : K) (v : V) (h : Nat) :
    updateHeight (node l k v h r) =
      node l k v (max (heightOrZero l) (heightOrZero r) + 1) r := rfl

@[simp] theorem updateHeightsLoop_nil (R : AVLNode K V) :
    updateHeightsLoop R [] = updateHeight R := rfl

@[simp] theorem updateHeightsLoop_cons (R : AVLNode K V) (d : Bool) (p : NodePtr) :
    updateHeightsLoop R (d :: p) =
      updateHeightsLoop (setAt R (d :: p) (updateHeight (nodeAt R (d :: p)))) p := rfl

@[simp] theorem calculateBF_null : calculateBF (null : AVLNode K V) = 0 := rfl

@[simp] theorem calculateBF_node (l r : AVLNode K V) (k : K) (v : V) (h : Nat) :
    calculateBF (node l k v h r) =
      Int.natAbs ((heightOrZero r : Int) - (heightOrZero l : Int)) := rfl

theorem updateHeight_ne_null (R : AVLNode K V) (hR : R ≠ null) : updateHeight R ≠ null := by
  cases R with
  | null => exact absurd rfl hR
  | node l k v h r => simp [updateHeight]

theorem updateHeight_setChild_updateHeight (d : Bool) (s R : AVLNode K V) :
    updateHeight (setChild d s (updateHeight R)) = updateHeight (setChild d s R) := by
  cases R with
  | null => rfl
  | node l k v h r => cases d <;> simp [setChild, updateHeight]

theorem leftRotate_snoc (R : AVLNode K V) (p : NodePtr) (d : Bool) :
    leftRotate R (p ++ [d]) = (leftRotate (child d R) p).map fun s => setChild d s R := by
  unfold leftRotate
  rw [nodeAt_snoc]
  split <;> simp_all [setAt_snoc]

theorem rightRotate_snoc (R : AVLNode K V) (p : NodePtr) (d : Bool) :
    rightRotate R (p ++ [d]) = (rightRotate (child d R) p).map fun s => setChild d s R := by
  unfold rightRotate
  rw [nodeAt_snoc]
  split <;> simp_all [setAt_snoc]

theorem updateHeightsLoop_snoc (R : AVLNode K V) (hR : R ≠ null) (p : NodePtr) (d : Bool) :
    updateHeightsLoop R (p ++ [d]) =
      updateHeight (setChild d (updateHeightsLoop (child d R) p) R) := by
  induction p generalizing R with
  | nil =>
    simp only [List.nil_append, updateHeightsLoop, setAt, nodeAt]
  | cons e p ih =>
    have h1 : updateHeightsLoop R (e :: p ++ [d]) =
        updateHeightsLoop (setAt R ((e :: p) ++ [d])
          (updateHeight (nodeAt R ((e :: p) ++ [d])))) (p ++ [d]) := rfl
    have h2 : updateHeightsLoop (child d R) (e :: p) =
        updateHeightsLoop (setAt (child d R) (e :: p)
          (updateHeight (nodeAt (child d R) (e :: p)))) p := rfl
    rw [h1, h2, setAt_snoc, nodeAt_snoc, ih _ (setChild_ne_null _ _ _ hR),
      child_setChild _ _ _ hR, setChild_setChild]

end AVLTree

namespace AVLTree

open AVLNode BinarySearchTree

variable {K V : Type}

@[simp] theorem child_updateHeight (d : Bool) (R : AVLNode K V) :
    child d (updateHeight R) = child d R := by
  cases R with
  | null => rfl
  | node l k v h r => rfl

@[simp] theorem updateHeight_updateHeight (R : AVLNode K V) :
    updateHeight (updateHeight R) = updateHeight R := by
  cases R with
  | null => rfl
  | node l k v h r => rfl

@[simp] theorem calculateBF_updateHeight (R : AVLNode K V) :
    calculateBF (updateHeight R) = calculateBF R := by
  cases R with
  | null => rfl
  | node l k v h r => rfl

@[simp] theorem setChild_child (d : Bool) (R : AVLNode K V) : setChild d (child d R) R = R := by
  cases R with
  | null => rfl
  | node l k v h r => cases d <;> simp [setChild, child]

theorem insertSearch_snoc (R : AVLNode K V) (p : NodePtr) (d : Bool) :
    insertSearch R (p ++ [d]) =
      match insertSearch (child d R) p with
      | some q => some (q ++ [d])
      | none => if calculateBF R ≥ 2 then some [] else none := by
  induction p with
  | nil =>
    simp only [List.nil_append, insertSearch, nodeAt]
    split <;> simp
  | cons e p ih =>
    have h1 : insertSearch R (e :: p ++ [d]) =
        if calculateBF (nodeAt R ((e :: p) ++ [d])) ≥ 2 then some ((e :: p) ++ [d])
        else insertSearch R (p ++ [d]) := rfl
    have h2 : insertSearch (child d R) (e :: p) =
        if calculateBF (nodeAt (child d R) (e :: p)) ≥ 2 then some (e :: p)
        else insertSearch (child d R) p := rfl
    rw [h1, h2, nodeAt_snoc, ih]
    split <;> simp

theorem findXYZ_snoc (R : AVLNode K V) (p : NodePtr) (d : Bool) :
    findXYZ R (p ++ [d]) =
      (findXYZ (child d R) p).map fun r =>
        (r.1.map fun x => x ++ [d], r.2.1 ++ [d], r.2.2.1 ++ [d], r.2.2.2) := by
  unfold findXYZ
  rw [nodeAt_snoc]
  cases nodeAt (child d R) p with
  | null => rfl
  | node zl zk zv zh zr =>
    simp only
    split
    · rfl
    · simp [apply_ite (Option.map _)]

theorem updateHeights_snoc (R : AVLNode K V) (hR : R ≠ null) (p : NodePtr) (d : Bool) :
    updateHeights R (some (p ++ [d])) =
      updateHeight (setChild d (updateHeights (child d R) (some p)) R) :=
  updateHeightsLoop_snoc R hR p d

/-- Two `updateHeights` in a row below a node `R`, the first one possibly on `NULL`. -/
theorem updateHeights_twice_snoc (R s : AVLNode K V) (hR : R ≠ null) (x : Option NodePtr)
    (q : NodePtr) (d : Bool) :
    updateHeights (updateHeights (setChild d s R) (x.map fun a => a ++ [d])) (some (q ++ [d])) =
      updateHeight (setChild d (updateHeights (updateHeights s x) (some q)) R) := by
  cases x with
  | none =>
    simp only [Option.map_none', updateHeights]
    rw [updateHeightsLoop_snoc _ (setChild_ne_null _ _ _ hR), child_setChild _ _ _ hR,
      setChild_setChild]
  | some a =>
    simp only [Option.map_some', updateHeights]
    rw [updateHeightsLoop_snoc _ (setChild_ne_null _ _ _ hR), child_setChild _ _ _ hR,
      setChild_setChild,
      updateHeightsLoop_snoc _ (updateHeight_ne_null _ (setChild_ne_null _ _ _ hR)),
      child_updateHeight, child_setChild _ _ _ hR, updateHeight_setChild_updateHeight,
      setChild_setChild]

theorem balance_snoc (R : AVLNode K V) (hR : R ≠ null) (x : Option NodePtr) (y z : NodePtr)
    (d : Bool) (m : Nat) (hm : m = 1 ∨ m = 2 ∨ m = 3 ∨ m = 4) :
    balance R (x.map fun a => a ++ [d]) (y ++ [d]) (z ++ [d]) m =
      (balance (child d R) x y z m).map fun s => updateHeight (setChild d s R) := by
  rcases hm with rfl | rfl | rfl | rfl
  · simp only [balance, if_true, leftRotate_snoc, Option.map_map]
    congr 1
    funext s
    have := updateHeights_twice_snoc R s hR (x.map fun _ => true :: z) (false :: z) d
    simpa [Option.map_map, Function.comp_def] using this
  · simp only [balance, leftRotate_snoc, rightRotate_snoc, Option.map_map,
      show (2 : Nat) ≠ 1 by decide, if_false, if_true]
    congr 1
    funext s
    have := updateHeights_twice_snoc R s hR (x.map fun _ => false :: z) (true :: z) d
    simpa [Option.map_map, Function.comp_def] using this
  · simp only [balance, leftRotate_snoc, rightRotate_snoc]
    simp only [show (3 : Nat) ≠ 1 by decide, show (3 : Nat) ≠ 2 by decide, if_false, if_true]
    cases h1 : leftRotate (child d R) y with
    | none => rfl
    | some s1 =>
      simp only [Option.map_some', Option.some_bind, rightRotate_snoc,
        child_setChild _ _ _ hR, Option.map_map]
      congr 1
      funext s
      have := updateHeights_twice_snoc R s hR (some (false :: z)) (true :: z) d
      simpa [Option.map_map, Function.comp_def] using this
  · simp only [balance, leftRotate_snoc, rightRotate_snoc]
    simp only [show (4 : Nat) ≠ 1 by decide, show (4 : Nat) ≠ 2 by decide,
      show (4 : Nat) ≠ 3 by decide, if_false, if_true]
    cases h1 : rightRotate (child d R) y with
    | none => rfl
    | some s1 =>
      simp only [Option.map_some', Option.some_bind, leftRotate_snoc,
        child_setChild _ _ _ hR, Option.map_map]
      congr 1
      funext s
      have := updateHeights_twice_snoc R s hR (some (true :: z)) (false :: z) d
      simpa [Option.map_map, Function.comp_def] using this

theorem balanceMode_cases (a b : Bool) :
    (if (a && b) = true then 2 else if (!a && !b) = true then 1
      else if (a && !b) = true then 3 else 4 : Nat) = 1 ∨
    (if (a && b) = true then 2 else if (!a && !b) = true then 1
      else if (a && !b) = true then 3 else 4 : Nat) = 2 ∨
    (if (a && b) = true then 2 else if (!a && !b) = true then 1
      else if (a && !b) = true then 3 else 4 : Nat) = 3 ∨
    (if (a && b) = true then 2 else if (!a && !b) = true then 1
      else if (a && !b) = true then 3 else 4 : Nat) = 4 := by
  cases a <;> cases b <;> simp

theorem findXYZ_mode (R : AVLNode K V) (p : NodePtr) (r : Option NodePtr × NodePtr × NodePtr × Nat)
    (h : findXYZ R p = some r) : r.2.2.2 = 1 ∨ r.2.2.2 = 2 ∨ r.2.2.2 = 3 ∨ r.2.2.2 = 4 := by
  unfold findXYZ at h
  split at h
  · exact absurd h (by simp)
  · simp only at h
    split at h
    · exact absurd h (by simp)
    · simp only [Option.some.injEq] at h
      subst h
      exact balanceMode_cases _ _

/-- The step `findXYZ` then `balance` below a node `R`. -/
theorem findXYZ_balance_snoc (R : AVLNode K V) (hR : R ≠ null) (p : NodePtr) (d : Bool) :
    ((findXYZ R (p ++ [d])).bind fun r => balance R r.1 r.2.1 r.2.2.1 r.2.2.2) =
      ((findXYZ (child d R) p).bind fun r => balance (child d R) r.1 r.2.1 r.2.2.1 r.2.2.2).map
        fun s => updateHeight (setChild d s R) := by
  rw [findXYZ_snoc]
  cases h : findXYZ (child d R) p with
  | none => rfl
  | some r =>
    simp only [Option.map_some', Option.some_bind]
    exact balance_snoc R hR r.1 r.2.1 r.2.2.1 d r.2.2.2 (findXYZ_mode _ _ _ h)

theorem removeStep_snoc (R : AVLNode K V) (hR : R ≠ null) (hh : updateHeight R = R)
    (p : NodePtr) (d : Bool) :
    removeStep R (p ++ [d]) =
      (removeStep (child d R) p).map fun s => updateHeight (setChild d s R) := by
  unfold removeStep
  rw [nodeAt_snoc]
  split
  · exact findXYZ_balance_snoc R hR p d
  · simp [hh]

theorem removeLoop_snoc (R : AVLNode K V) (hR : R ≠ null) (hh : updateHeight R = R)
    (p : NodePtr) (d : Bool) :
    removeLoop R (p ++ [d]) =
      (removeLoop (child d R) p).bind fun s => removeStep (updateHeight (setChild d s R)) [] := by
  induction p generalizing R with
  | nil =>
    have h1 : removeLoop R ([] ++ [d]) =
        (removeStep R ([] ++ [d])).bind fun r => removeStep r [] := rfl
    have h2 : removeLoop (child d R) [] = removeStep (child d R) [] := rfl
    rw [h1, h2, removeStep_snoc R hR hh]
    cases removeStep (child d R) [] <;> rfl
  | cons e p ih =>
    have h1 : removeLoop R ((e :: p) ++ [d]) =
        (removeStep R ((e :: p) ++ [d])).bind fun r => removeLoop r (p ++ [d]) := rfl
    have h2 : removeLoop (child d R) (e :: p) =
        (removeStep (child d R) (e :: p)).bind fun r => removeLoop r p := rfl
    rw [h1, h2, removeStep_snoc R hR hh]
    cases removeStep (child d R) (e :: p) with
    | none => rfl
    | some s =>
      simp only [Option.map_some', Option.some_bind]
      rw [ih _ (updateHeight_ne_null _ (setChild_ne_null _ _ _ hR)) (updateHeight_updateHeight _),
        child_updateHeight, child_setChild _ _ _ hR]
      congr 1
      funext s'
      rw [updateHeight_setChild_updateHeight, setChild_setChild]

theorem removeRebalance_snoc (R : AVLNode K V) (hR : R ≠ null) (p : NodePtr) (d : Bool) :
    removeRebalance R (some (p ++ [d])) =
      (removeRebalance (child d R) (some p)).bind fun s =>
        removeStep (updateHeight (setChild d s R)) [] := by
  simp only [removeRebalance]
  rw [updateHeights_snoc R hR,
    removeLoop_snoc _ (updateHeight_ne_null _ (setChild_ne_null _ _ _ hR))
      (updateHeight_updateHeight _),
    child_updateHeight, child_setChild _ _ _ hR]
  congr 1
  funext s'
  rw [updateHeight_setChild_updateHeight, setChild_setChild]

end AVLTree


/-! ## The rebalancing step at the root of a subtree -/

namespace AVLTree

open AVLNode BinarySearchTree

variable {K V : Type}

theorem removeStep_LL (ll lr r : AVLNode K V) (lk k : K) (lv v : V) (lh h : Nat)
    (h1 : heightOrZero r + 2 ≤ lh) (h2 : heightOrZero lr ≤ heightOrZero ll) :
    removeStep (.node (.node ll lk lv lh lr) k v h r) [] =
      some (updateHeight (.node (updateHeight ll) lk lv lh (updateHeight (.node lr k v h r)))) := by
  have e1 : 2 ≤ Int.natAbs ((heightOrZero r : Int) - (lh : Int)) := by omega
  have e2 : heightOrZero r < lh := by omega
  cases ll with
  | null =>
    have e3 : heightOrZero lr = 0 := by simpa using h2
    simp [removeStep, findXYZ, balance, leftRotate, rightRotate, updateHeights,
      updateHeightsLoop,
      e1, e2, e3]
  | node a b c d e =>
    by_cases e3 : heightOrZero lr < d
    · simp [removeStep, findXYZ, balance, leftRotate, rightRotate, updateHeights,
        updateHeightsLoop,
        e1, e2, e3]
    · have e4 : d = heightOrZero lr := by simp at h2; omega
      simp [removeStep, findXYZ, balance, leftRotate, rightRotate, updateHeights,
        updateHeightsLoop,
        e1, e2, e4]

theorem removeStep_RR (l rl rr : AVLNode K V) (rk k : K) (rv v : V) (rh h : Nat)
    (h1 : heightOrZero l + 2 ≤ rh) (h2 : heightOrZero rl ≤ heightOrZero rr) :
    removeStep (.node l k v h (.node rl rk rv rh rr)) [] =
      some (updateHeight (.node (updateHeight (.node l k v h rl)) rk rv rh (updateHeight rr))) := by
  have e1 : 2 ≤ Int.natAbs ((rh : Int) - (heightOrZero l : Int)) := by omega
  have e2 : ¬ rh < heightOrZero l := by omega
  cases rr with
  | null =>
    have e3 : heightOrZero rl = 0 := by simpa using h2
    simp [removeStep, findXYZ, balance, leftRotate, rightRotate, updateHeights,
      updateHeightsLoop, e1, e2, e3]
  | node a b c d e =>
    by_cases e3 : heightOrZero rl < d
    · have e5 : ¬ d < heightOrZero rl := by omega
      have e6 : ¬ heightOrZero rl = d := by omega
      simp [removeStep, findXYZ, balance, leftRotate, rightRotate, updateHeights,
        updateHeightsLoop, e1, e2, e5, e6]
    · have e4 : d = heightOrZero rl := by simp at h2; omega
      simp [removeStep, findXYZ, balance, leftRotate, rightRotate, updateHeights,
        updateHeightsLoop, e1, e2, e4]

theorem removeStep_LR (ll lrl lrr r : AVLNode K V) (lk xk k : K) (lv xv v : V) (lh xh h : Nat)
    (h1 : heightOrZero r + 2 ≤ lh) (h2 : heightOrZero ll < xh) :
    removeStep (.node (.node ll lk lv lh (.node lrl xk xv xh lrr)) k v h r) [] =
      some (updateHeight (.node (updateHeight (.node ll lk lv lh lrl)) xk xv xh
        (updateHeight (.node lrr k v h r)))) := by
  have e1 : 2 ≤ Int.natAbs ((heightOrZero r : Int) - (lh : Int)) := by omega
  have e2 : heightOrZero r < lh := by omega
  have e3 : ¬ xh < heightOrZero ll := by omega
  have e4 : ¬ heightOrZero ll = xh := by omega
  simp [removeStep, findXYZ, balance, leftRotate, rightRotate, updateHeights,
    updateHeightsLoop, e1, e2, e3, e4]

theorem removeStep_RL (l rll rlr rr : AVLNode K V) (rk xk k : K) (rv xv v : V) (rh xh h : Nat)
    (h1 : heightOrZero l + 2 ≤ rh) (h2 : heightOrZero rr < xh) :
    removeStep (.node l k v h (.node (.node rll xk xv xh rlr) rk rv rh rr)) [] =
      some (updateHeight (.node (updateHeight (.node l k v h rll)) xk xv xh
        (updateHeight (.node rlr rk rv rh rr)))) := by
  have e1 : 2 ≤ Int.natAbs ((rh : Int) - (heightOrZero l : Int)) := by omega
  have e2 : ¬ rh < heightOrZero l := by omega
  simp [removeStep, findXYZ, balance, leftRotate, rightRotate, updateHeights,
    updateHeightsLoop, e1, e2, h2]

theorem removeStep_id (n : AVLNode K V) (h : calculateBF n < 2) : removeStep n [] = some n := by
  have : ¬ calculateBF n ≥ 2 := by omega
  simp [removeStep, this]

/-- Embeds `removeStep` at the root of a subtree never dereferences `NULL`. -/
theorem removeStep_root (n : AVLNode K V) : removeStep n [] = some (rebalance n) := by
  suffices h : ∃ s, removeStep n [] = some s by
    obtain ⟨s, hs⟩ := h
    simp [rebalance, hs]
  by_cases hb : calculateBF n < 2
  · exact ⟨_, removeStep_id n hb⟩
  · cases n with
    | null => simp at hb
    | node l k v h r =>
      simp only [calculateBF_node] at hb
      by_cases hlr : heightOrZero r < heightOrZero l
      · cases l with
        | null => simp at hlr
        | node ll lk lv lh lr =>
          simp only [heightOrZero_node] at hb hlr
          by_cases h2 : heightOrZero lr ≤ heightOrZero ll
          · exact ⟨_, removeStep_LL ll lr r lk k lv v lh h (by omega) h2⟩
          · cases lr with
            | null => simp at h2
            | node lrl xk xv xh lrr =>
              simp only [heightOrZero_node] at h2
              exact ⟨_, removeStep_LR ll lrl lrr r lk xk k lv xv v lh xh h (by omega) (by omega)⟩
      · cases r with
        | null => simp at hb hlr; omega
        | node rl rk rv rh rr =>
          simp only [heightOrZero_node] at hb hlr
          by_cases h2 : heightOrZero rl ≤ heightOrZero rr
          · exact ⟨_, removeStep_RR l rl rr rk k rv v rh h (by omega) h2⟩
          · cases rl with
            | null => simp at h2
            | node rll xk xv xh rlr =>
              simp only [heightOrZero_node] at h2
              exact ⟨_, removeStep_RL l rll rlr rr rk xk k rv xv v rh xh h (by omega) (by omega)⟩

theorem rebalance_LL (ll lr r : AVLNode K V) (lk k : K) (lv v : V) (lh h : Nat)
    (h1 : heightOrZero r + 2 ≤ lh) (h2 : heightOrZero lr ≤ heightOrZero ll) :
    rebalance (.node (.node ll lk lv lh lr) k v h r) =
      updateHeight (.node (updateHeight ll) lk lv lh (updateHeight (.node lr k v h r))) := by
  simp [rebalance, removeStep_LL ll lr r lk k lv v lh h h1 h2]

theorem rebalance_RR (l rl rr : AVLNode K V) (rk k : K) (rv v : V) (rh h : Nat)
    (h1 : heightOrZero l + 2 ≤ rh) (h2 : heightOrZero rl ≤ heightOrZero rr) :
    rebalance (.node l k v h (.node rl rk rv rh rr)) =
      updateHeight (.node (updateHeight (.node l k v h rl)) rk rv rh (updateHeight rr)) := by
  simp [rebalance, removeStep_RR l rl rr rk k rv v rh h h1 h2]

theorem rebalance_LR (ll lrl lrr r : AVLNode K V) (lk xk k : K) (lv xv v : V) (lh xh h : Nat)
    (h1 : heightOrZero r + 2 ≤ lh) (h2 : heightOrZero ll < xh) :
    rebalance (.node (.node ll lk lv lh (.node lrl xk xv xh lrr)) k v h r) =
      updateHeight (.node (updateHeight (.node ll lk lv lh lrl)) xk xv xh
        (updateHeight (.node lrr k v h r))) := by
  simp [rebalance, removeStep_LR ll lrl lrr r lk xk k lv xv v lh xh h h1 h2]

theorem rebalance_RL (l rll rlr rr : AVLNode K V) (rk xk k : K) (rv xv v : V) (rh xh h : Nat)
    (h1 : heightOrZero l + 2 ≤ rh) (h2 : heightOrZero rr < xh) :
    rebalance (.node l k v h (.node (.node rll xk xv xh rlr) rk rv rh rr)) =
      updateHeight (.node (updateHeight (.node l k v h rll)) xk xv xh
        (updateHeight (.node rlr rk rv rh rr))) := by
  simp [rebalance, removeStep_RL l rll rlr rr rk xk k rv xv v rh xh h h1 h2]

theorem rebalance_id (n : AVLNode K V) (h : calculateBF n < 2) : rebalance n = n := by
  simp [rebalance, removeStep_id n h]

theorem insertFix_LL (ll lr r : AVLNode K V) (lk k : K) (lv v : V) (lh h : Nat)
    (h1 : heightOrZero r + 2 ≤ lh) (h2 : heightOrZero lr < heightOrZero ll) :
    insertFix (.node (.node ll lk lv lh lr) k v h r) =
      updateHeight (.node (updateHeight ll) lk lv lh (updateHeight (.node lr k v h r))) := by
  have e2 : heightOrZero r < lh := by omega
  cases ll with
  | null => simp at h2
  | node a b c d e =>
    simp only [heightOrZero_node] at h2
    simp [insertFix, findXYZ, balance, leftRotate, rightRotate, updateHeights,
      updateHeightsLoop, e2, h2]

theorem insertFix_RR (l rl rr : AVLNode K V) (rk k : K) (rv v : V) (rh h : Nat)
    (h1 : heightOrZero l + 2 ≤ rh) (h2 : heightOrZero rl < heightOrZero rr) :
    insertFix (.node l k v h (.node rl rk rv rh rr)) =
      updateHeight (.node (updateHeight (.node l k v h rl)) rk rv rh (updateHeight rr)) := by
  have e2 : ¬ rh < heightOrZero l := by omega
  cases rr with
  | null => simp at h2
  | node a b c d e =>
    simp only [heightOrZero_node] at h2
    have e5 : ¬ d < heightOrZero rl := by omega
    have e6 : ¬ heightOrZero rl = d := by omega
    simp [insertFix, findXYZ, balance, leftRotate, rightRotate, updateHeights,
      updateHeightsLoop, e2, e5, e6]

theorem insertFix_LR (ll lrl lrr r : AVLNode K V) (lk xk k : K) (lv xv v : V) (lh xh h : Nat)
    (h1 : heightOrZero r + 2 ≤ lh) (h2 : heightOrZero ll < xh) :
    insertFix (.node (.node ll lk lv lh (.node lrl xk xv xh lrr)) k v h r) =
      updateHeight (.node (updateHeight (.node ll lk lv lh lrl)) xk xv xh
        (updateHeight (.node lrr k v h r))) := by
  have e2 : heightOrZero r < lh := by omega
  have e3 : ¬ xh < heightOrZero ll := by omega
  have e4 : ¬ heightOrZero ll = xh := by omega
  simp [insertFix, findXYZ, balance, leftRotate, rightRotate, updateHeights,
    updateHeightsLoop, e2, e3, e4]

theorem insertFix_RL (l rll rlr rr : AVLNode K V) (rk xk k : K) (rv xv v : V) (rh xh h : Nat)
    (h1 : heightOrZero l + 2 ≤ rh) (h2 : heightOrZero rr < xh) :
    insertFix (.node l k v h (.node (.node rll xk xv xh rlr) rk rv rh rr)) =
      updateHeight (.node (updateHeight (.node l k v h rll)) xk xv xh
        (updateHeight (.node rlr rk rv rh rr))) := by
  have e2 : ¬ rh < heightOrZero l := by omega
  simp [insertFix, findXYZ, balance, leftRotate, rightRotate, updateHeights,
    updateHeightsLoop, e2, h2]

end AVLTree


/-! ## `insert` computes `insertRec` -/

namespace AVLTree

open AVLNode BinarySearchTree

variable {K V : Type}

/-- The step of `insert` at the first unbalanced node never dereferences `NULL`. -/
theorem insertFix_root (n : AVLNode K V) (hb : calculateBF n ≥ 2) :
    ((findXYZ n []).bind fun r =>
      if r.1.isSome then balance n r.1 r.2.1 r.2.2.1 r.2.2.2 else some n) =
      some (insertFix n) := by
  have h := removeStep_root n
  simp only [removeStep, nodeAt_nil, hb, if_true] at h
  cases hf : findXYZ n [] with
  | none => rw [hf] at h; exact absurd h (by simp)
  | some r =>
    rw [hf] at h
    simp only [Option.some_bind] at h
    simp only [Option.some_bind, insertFix, hf]
    split
    · rw [h]; rfl
    · rfl

theorem insertFixAt_snoc (R : AVLNode K V) (hR : R ≠ null) (hh : updateHeight R = R)
    (p : NodePtr) (d : Bool) :
    ((findXYZ R (p ++ [d])).bind fun r =>
      if r.1.isSome then balance R r.1 r.2.1 r.2.2.1 r.2.2.2 else some R) =
      ((findXYZ (child d R) p).bind fun r =>
        if r.1.isSome then balance (child d R) r.1 r.2.1 r.2.2.1 r.2.2.2
        else some (child d R)).map fun s => updateHeight (setChild d s R) := by
  rw [findXYZ_snoc]
  cases h : findXYZ (child d R) p with
  | none => rfl
  | some r =>
    simp only [Option.map_some', Option.some_bind]
    cases hx : r.1 with
    | none => simp [hh]
    | some x =>
      simp only [Option.map_some', Option.isSome_some, if_true]
      have := balance_snoc R hR r.1 r.2.1 r.2.2.1 d r.2.2.2 (findXYZ_mode _ _ _ h)
      rw [hx] at this
      exact this

end AVLTree

namespace AVLTree

open AVLNode BinarySearchTree

variable {K V : Type}

theorem insertRebalance_nil (R : AVLNode K V) :
    insertRebalance R [] =
      some (if calculateBF (updateHeight R) ≥ 2 then insertFix (updateHeight R)
        else updateHeight R) := by
  simp only [insertRebalance, updateHeights, updateHeightsLoop_nil, insertSearch, nodeAt_nil]
  by_cases hb : calculateBF (updateHeight R) ≥ 2
  · simp only [hb, if_true]
    exact insertFix_root _ hb
  · simp only [hb, if_false]

theorem insertRebalance_snoc (R : AVLNode K V) (hR : R ≠ null) (p : NodePtr) (d : Bool) :
    insertRebalance R (p ++ [d]) =
      match insertSearch (updateHeights (child d R) (some p)) p with
      | some _ => (insertRebalance (child d R) p).map fun s => updateHeight (setChild d s R)
      | none =>
        some (if calculateBF (updateHeight (setChild d (updateHeights (child d R) (some p)) R)) ≥ 2
          then insertFix (updateHeight (setChild d (updateHeights (child d R) (some p)) R))
          else updateHeight (setChild d (updateHeights (child d R) (some p)) R)) := by
  have hne : updateHeight (setChild d (updateHeights (child d R) (some p)) R) ≠ null :=
    updateHeight_ne_null _ (setChild_ne_null _ _ _ hR)
  simp only [insertRebalance]
  rw [updateHeights_snoc R hR, insertSearch_snoc, child_updateHeight, child_setChild _ _ _ hR]
  cases hs : insertSearch (updateHeights (child d R) (some p)) p with
  | none =>
    simp only
    by_cases hb : calculateBF (updateHeight (setChild d (updateHeights (child d R) (some p)) R)) ≥ 2
    · simp only [hb, if_true]
      exact insertFix_root _ hb
    · simp only [hb, if_false]
  | some q =>
    simp only
    have := insertFixAt_snoc _ hne (updateHeight_updateHeight _) q d
    rw [child_updateHeight, child_setChild _ _ _ hR] at this
    rw [this]
    congr 1
    funext s
    rw [updateHeight_setChild_updateHeight, setChild_setChild]

theorem insertWalk_snoc [LinearOrder K] (key : K) (t : AVLNode K V) (q : NodePtr) (d : Bool) :
    insertWalk key t (q ++ [d]) = liftWalk d (insertWalk key t q) := by
  induction t generalizing q with
  | null =>
    cases q with
    | nil => rfl
    | cons e q => rfl
  | node l k v h r ihl ihr =>
    simp only [insertWalk]
    split
    · rw [← List.cons_append, ihl]
    · split
      · rfl
      · rw [← List.cons_append, ihr]

theorem insertWalk_emptyTree [LinearOrder K] (key : K) (t : AVLNode K V)
    (h : insertWalk key t [] = InsertWalk.emptyTree) : t = null := by
  cases t with
  | null => rfl
  | node l k v hh r =>
    simp only [insertWalk] at h
    split at h
    · have := insertWalk_snoc key l [] false
      simp only [List.nil_append] at this
      rw [this] at h
      cases hw : insertWalk key l [] <;> rw [hw] at h <;> simp [liftWalk] at h
    · split at h
      · exact absurd h (by simp)
      · have := insertWalk_snoc key r [] true
        simp only [List.nil_append] at this
        rw [this] at h
        cases hw : insertWalk key r [] <;> rw [hw] at h <;> simp [liftWalk] at h

end AVLTree

namespace AVLTree

open AVLNode BinarySearchTree

variable {K V : Type}

/-- The new node is linked directly below `R`. -/
theorem insertUp_base (d : Bool) (R leaf : AVLNode K V) :
    insertRebalance (setAt R [d] leaf) [] = some (insertUp d R (leaf, InsertStatus.searching)).1 ∧
    (insertUp d R (leaf, InsertStatus.searching)).2 =
      (if (insertSearch (updateHeights (setAt R [d] leaf) (some [])) []).isSome
        then InsertStatus.stopped else InsertStatus.searching) := by
  simp only [setAt_cons, setAt_nil, nodeAt_nil, insertRebalance_nil, insertUp, updateHeights,
    updateHeightsLoop_nil, insertSearch, calculateBF_updateHeight]
  by_cases hb : calculateBF (setChild d leaf R) ≥ 2
  · simp [hb]
  · simp [hb]

/-- The new node is linked further down, below the child of `R` on side `d`. -/
theorem insertUp_lift (d : Bool) (R leaf : AVLNode K V) (hR : R ≠ null) (e : Bool) (p : NodePtr)
    (res : AVLNode K V × InsertStatus)
    (h1 : insertRebalance (setAt (child d R) (e :: p) leaf) p = some res.1)
    (h2 : res.2 = (if (insertSearch (updateHeights (setAt (child d R) (e :: p) leaf) (some p))
      p).isSome then InsertStatus.stopped else InsertStatus.searching)) :
    insertRebalance (setAt R (e :: (p ++ [d])) leaf) (p ++ [d]) = some (insertUp d R res).1 ∧
    (insertUp d R res).2 =
      (if (insertSearch (updateHeights (setAt R (e :: (p ++ [d])) leaf) (some (p ++ [d])))
        (p ++ [d])).isSome then InsertStatus.stopped else InsertStatus.searching) := by
  have hset : setAt R (e :: (p ++ [d])) leaf = setChild d (setAt (child d R) (e :: p) leaf) R := by
    rw [← List.cons_append, setAt_snoc]
  have hne : setChild d (setAt (child d R) (e :: p) leaf) R ≠ null := setChild_ne_null _ _ _ hR
  rw [hset, insertRebalance_snoc _ hne, updateHeights_snoc _ hne, insertSearch_snoc]
  simp only [child_updateHeight, child_setChild _ _ _ hR, setChild_setChild]
  cases hs : insertSearch (updateHeights (setAt (child d R) (e :: p) leaf) (some p)) p with
  | some q =>
    rw [hs] at h2
    simp only [Option.isSome_some, if_true] at h2
    simp only [h1, Option.map_some', setChild_setChild, insertUp, h2, Option.isSome_some, if_true,
      and_self]
  | none =>
    rw [hs] at h2
    simp only [Option.isSome_none, Bool.false_eq_true, if_false] at h2
    have h3 : res.1 = updateHeights (setAt (child d R) (e :: p) leaf) (some p) := by
      simp only [insertRebalance, hs, Option.some.injEq] at h1
      exact h1.symm
    simp only [insertUp, h2, h3, setChild_setChild, calculateBF_updateHeight]
    by_cases hb : calculateBF (setChild d
        (updateHeights (setAt (child d R) (e :: p) leaf) (some p)) R) ≥ 2
    · simp only [hb, if_true, Option.isSome_some, and_self]
    · simp only [hb, if_false, Option.isSome_none, Bool.false_eq_true, and_self]

theorem insertRec_found [LinearOrder K] (kv : K × V) (t : AVLNode K V) (q : NodePtr)
    (h : insertWalk kv.1 t [] = InsertWalk.found q) :
    insertRec kv t = (setAt t q (setValue kv.2 (nodeAt t q)), InsertStatus.found) := by
  induction t generalizing q with
  | null => simp [insertWalk] at h
  | node l k v hh r ihl ihr =>
    simp only [insertWalk] at h
    simp only [insertRec]
    split at h
    · rename_i hlt
      have hw := insertWalk_snoc kv.1 l [] false
      simp only [List.nil_append] at hw
      rw [hw] at h
      cases hl : insertWalk kv.1 l [] with
      | emptyTree => rw [hl] at h; simp [liftWalk] at h
      | slot e p => rw [hl] at h; simp [liftWalk] at h
      | found q' =>
        rw [hl] at h
        simp only [liftWalk, InsertWalk.found.injEq] at h
        subst h
        simp only [hlt, if_true, ihl q' hl, insertUp, setAt_snoc, nodeAt_snoc, child_false_node,
          setChild_false_node]
    · split at h
      · rename_i hlt heq
        simp only [InsertWalk.found.injEq] at h
        subst h
        simp [hlt, heq, setValue]
      · rename_i hlt hne
        have hw := insertWalk_snoc kv.1 r [] true
        simp only [List.nil_append] at hw
        rw [hw] at h
        cases hl : insertWalk kv.1 r [] with
        | emptyTree => rw [hl] at h; simp [liftWalk] at h
        | slot e p => rw [hl] at h; simp [liftWalk] at h
        | found q' =>
          rw [hl] at h
          simp only [liftWalk, InsertWalk.found.injEq] at h
          subst h
          simp only [hlt, hne, if_false, ihr q' hl, insertUp, setAt_snoc, nodeAt_snoc,
            child_true_node, setChild_true_node]

theorem insertRec_slot [LinearOrder K] (kv : K × V) (t : AVLNode K V) (e : Bool) (p : NodePtr)
    (h : insertWalk kv.1 t [] = InsertWalk.slot e p) :
    insertRebalance (setAt t (e :: p) (.node .null kv.1 kv.2 1 .null)) p =
      some (insertRec kv t).1 ∧
    (insertRec kv t).2 =
      (if (insertSearch (updateHeights (setAt t (e :: p) (.node .null kv.1 kv.2 1 .null))
        (some p)) p).isSome then InsertStatus.stopped else InsertStatus.searching) := by
  induction t generalizing e p with
  | null => simp [insertWalk] at h
  | node l k v hh r ihl ihr =>
    simp only [insertWalk] at h
    simp only [insertRec]
    split at h
    · rename_i hlt
      have hw := insertWalk_snoc kv.1 l [] false
      simp only [List.nil_append] at hw
      rw [hw] at h
      simp only [hlt, if_true]
      cases hl : insertWalk kv.1 l [] with
      | found q' => rw [hl] at h; simp [liftWalk] at h
      | emptyTree =>
        rw [hl] at h
        simp only [liftWalk, InsertWalk.slot.injEq] at h
        obtain ⟨rfl, rfl⟩ := h
        have := insertWalk_emptyTree kv.1 l hl
        subst this
        exact insertUp_base false (.node .null k v hh r) _
      | slot e' p' =>
        rw [hl] at h
        simp only [liftWalk, InsertWalk.slot.injEq] at h
        obtain ⟨rfl, rfl⟩ := h
        obtain ⟨h1, h2⟩ := ihl e' p' hl
        exact insertUp_lift false (.node l k v hh r) _ (by simp) e' p' _ h1 h2
    · split at h
      · exact absurd h (by simp)
      · rename_i hlt hne
        have hw := insertWalk_snoc kv.1 r [] true
        simp only [List.nil_append] at hw
        rw [hw] at h
        simp only [hlt, hne, if_false]
        cases hl : insertWalk kv.1 r [] with
        | found q' => rw [hl] at h; simp [liftWalk] at h
        | emptyTree =>
          rw [hl] at h
          simp only [liftWalk, InsertWalk.slot.injEq] at h
          obtain ⟨rfl, rfl⟩ := h
          have := insertWalk_emptyTree kv.1 r hl
          subst this
          exact insertUp_base true (.node l k v hh .null) _
        | slot e' p' =>
          rw [hl] at h
          simp only [liftWalk, InsertWalk.slot.injEq] at h
          obtain ⟨rfl, rfl⟩ := h
          obtain ⟨h1, h2⟩ := ihr e' p' hl
          exact insertUp_lift true (.node l k v hh r) _ (by simp) e' p' _ h1 h2

/-- Embeds `insert` never dereferences `NULL` and returns the tree that `insertRec` describes. -/
theorem insert_eq_insertRec [LinearOrder K] (t : AVLNode K V) (kv : K × V) :
    insert t kv = some (insertRec kv t).1 := by
  unfold insert
  cases hw : insertWalk kv.1 t [] with
  | emptyTree =>
    have := insertWalk_emptyTree kv.1 t hw
    subst this
    rfl
  | found q => simp only [insertRec_found kv t q hw]
  | slot e p => exact (insertRec_slot kv t e p hw).1

end AVLTree


/-! ## `remove` computes `removeRec` -/

namespace AVLTree

open AVLNode BinarySearchTree

variable {K V : Type}

theorem internalFindHelper_snoc [LinearOrder K] (key : K) (t : AVLNode K V) (q : NodePtr)
    (d : Bool) :
    internalFindHelper key t (q ++ [d]) = (internalFindHelper key t q).map fun a => a ++ [d] := by
  induction t generalizing q with
  | null => rfl
  | node l k v h r ihl ihr =>
    simp only [internalFindHelper]
    split
    · rfl
    · split
      · rw [← List.cons_append, ihl]
      · rw [← List.cons_append, ihr]

theorem predecessorLoop_snoc (t : AVLNode K V) (q : NodePtr) (d : Bool) :
    predecessorLoop t (q ++ [d]) = predecessorLoop t q ++ [d] := by
  induction t generalizing q with
  | null => rfl
  | node l k v h r _ ihr =>
    cases r with
    | null => rfl
    | node a b c e f => exact ihr (true :: q)

theorem predecessorLoop_ne_nil (t : AVLNode K V) (q : NodePtr) (hq : q ≠ []) :
    predecessorLoop t q ≠ [] := by
  induction t generalizing q with
  | null => exact hq
  | node l k v h r _ ihr =>
    cases r with
    | null => exact hq
    | node a b c e f => exact ihr (true :: q) (by simp)

theorem predecessor_snoc (R : AVLNode K V) (q : NodePtr) (d : Bool) :
    predecessor R (q ++ [d]) = (predecessor (child d R) q).map fun a => a ++ [d] := by
  unfold predecessor
  rw [← List.cons_append, nodeAt_snoc]
  cases nodeAt (child d R) (false :: q) with
  | null => rfl
  | node l k v h r =>
    simp only [Option.map_some', Option.some.injEq]
    rw [predecessorLoop_snoc]

theorem predecessor_ne_nil (R : AVLNode K V) (q pred : NodePtr)
    (h : predecessor R q = some pred) : pred ≠ [] := by
  unfold predecessor at h
  split at h
  · exact absurd h (by simp)
  · simp only [Option.some.injEq] at h
    subst h
    exact predecessorLoop_ne_nil _ _ (by simp)

theorem nodeSwap_snoc (R : AVLNode K V) (hR : R ≠ null) (a b : NodePtr) (d : Bool) :
    nodeSwap R (a ++ [d]) (b ++ [d]) = setChild d (nodeSwap (child d R) a b) R := by
  unfold nodeSwap
  simp only [nodeAt_snoc, setAt_snoc, child_setChild _ _ _ hR, setChild_setChild]
  split <;> simp_all

theorem unlink_snoc (R : AVLNode K V) (q : NodePtr) (d : Bool) :
    unlink R (q ++ [d]) = setChild d (unlink (child d R) q) R := by
  unfold unlink
  simp only [nodeAt_snoc, setAt_snoc]
  split <;> simp_all

theorem getParent_snoc (q : NodePtr) (d : Bool) (hq : q ≠ []) :
    getParent (q ++ [d]) = (getParent q).map fun a => a ++ [d] := by
  cases q with
  | nil => exact absurd rfl hq
  | cons e q => rfl

/-- Rebalancing from the parent of a place below `R`, seen from `R`. -/
theorem removeRebalance_parent_snoc (R X : AVLNode K V) (hR : R ≠ null) (q : NodePtr)
    (d : Bool) :
    removeRebalance (setChild d X R) (getParent (q ++ [d])) =
      (removeRebalance X (getParent q)).bind fun s =>
        removeStep (updateHeight (setChild d s R)) [] := by
  cases q with
  | nil =>
    simp [getParent, removeRebalance, updateHeights, removeLoop]
  | cons e q =>
    simp only [List.cons_append, getParent]
    rw [removeRebalance_snoc _ (setChild_ne_null _ _ _ hR)]
    simp only [child_setChild _ _ _ hR, setChild_setChild]

theorem removeFound_snoc (R : AVLNode K V) (hR : R ≠ null) (q : NodePtr) (d : Bool) :
    removeFound R (q ++ [d]) =
      (removeFound (child d R) q).bind fun s =>
        removeStep (updateHeight (setChild d s R)) [] := by
  unfold removeFound
  simp only [nodeAt_snoc, predecessor_snoc]
  split
  · cases hp : predecessor (child d R) q with
    | none => rfl
    | some pred =>
      have hne := predecessor_ne_nil _ _ _ hp
      simp only [Option.map_some']
      obtain ⟨e, pp, rfl⟩ : ∃ e pp, pred = e :: pp := by
        cases pred with
        | nil => exact absurd rfl hne
        | cons e pp => exact ⟨e, pp, rfl⟩
      simp only [List.cons_append, getParent, Option.isSome_some, if_true]
      rw [← List.cons_append, nodeSwap_snoc R hR, unlink_snoc,
        child_setChild _ _ _ hR, setChild_setChild]
      have := removeRebalance_parent_snoc R (unlink (nodeSwap (child d R) q (e :: pp)) (e :: pp))
        hR (e :: pp) d
      simpa [getParent] using this
  · rw [unlink_snoc]
    exact removeRebalance_parent_snoc R _ hR q d

end AVLTree

namespace AVLTree

open AVLNode BinarySearchTree

variable {K V : Type}

theorem getParent_snoc_isSome (q : NodePtr) (d : Bool) : (getParent (q ++ [d])).isSome = true := by
  cases q <;> rfl

/-- The rightmost node of a subtree: `predecessorLoop` reaches it, it has no right child, and
unlinking it and rebalancing from its parent gives `removeMaxRec`. -/
theorem removeMaxRec_spec (l : AVLNode K V) (hl : l ≠ null) (k : K) (v : V) :
    (∃ ml mk mv mh, nodeAt l (predecessorLoop l []) = .node ml mk mv mh .null ∧
      maxItem l = some (mk, mv)) ∧
    removeRebalance
      (unlink (setAt l (predecessorLoop l []) (setItem k v (nodeAt l (predecessorLoop l []))))
        (predecessorLoop l []))
      (getParent (predecessorLoop l [])) = some (removeMaxRec l) := by
  induction l with
  | null => exact absurd rfl hl
  | node a b c e f _ ihf =>
    cases f with
    | null =>
      refine ⟨⟨a, b, c, e, rfl, rfl⟩, ?_⟩
      cases a <;> rfl
    | node fa fb fc fe ff =>
      obtain ⟨⟨ml, mk, mv, mh, h1, h2⟩, h3⟩ := ihf (by simp)
      have hp : predecessorLoop (.node a b c e (.node fa fb fc fe ff)) [] =
          predecessorLoop (.node fa fb fc fe ff) [] ++ [true] :=
        predecessorLoop_snoc (.node fa fb fc fe ff) [] true
      rw [hp]
      refine ⟨⟨ml, mk, mv, mh, ?_, ?_⟩, ?_⟩
      · rw [nodeAt_snoc]; exact h1
      · exact h2
      · rw [nodeAt_snoc, setAt_snoc, unlink_snoc]
        simp only [child_true_node, setChild_true_node]
        have := removeRebalance_parent_snoc (.node a b c e (.node fa fb fc fe ff))
          (unlink (setAt (.node fa fb fc fe ff) (predecessorLoop (.node fa fb fc fe ff) [])
            (setItem k v (nodeAt (.node fa fb fc fe ff)
              (predecessorLoop (.node fa fb fc fe ff) []))))
            (predecessorLoop (.node fa fb fc fe ff) [])) (by simp)
          (predecessorLoop (.node fa fb fc fe ff) []) true
        simp only [setChild_true_node] at this
        rw [this, h3]
        simp only [Option.some_bind, removeStep_root]
        rfl

/-- Embeds `removeFound` at the root of a subtree when the node there has two children. -/
theorem removeFound_two (la lr ra rr : AVLNode K V) (lk k rk : K) (lv v rv : V) (lh h rh : Nat) :
    removeFound (.node (.node la lk lv lh lr) k v h (.node ra rk rv rh rr)) [] =
      (maxItem (.node la lk lv lh lr)).map fun item =>
        removeUp false (.node (.node la lk lv lh lr) item.1 item.2 h (.node ra rk rv rh rr))
          (removeMaxRec (.node la lk lv lh lr)) := by
  obtain ⟨⟨ml, mk, mv, mh, h1, h2⟩, h3⟩ :=
    removeMaxRec_spec (.node la lk lv lh lr) (by simp) k v
  have hp : predecessorLoop (.node la lk lv lh lr) [false] =
      predecessorLoop (.node la lk lv lh lr) [] ++ [false] :=
    predecessorLoop_snoc (.node la lk lv lh lr) [] false
  simp only [removeFound, nodeAt_nil, predecessor, nodeAt_cons, child_false_node, hp,
    getParent_snoc_isSome, if_true, h2, Option.map_some']
  have hs : nodeSwap (.node (.node la lk lv lh lr) k v h (.node ra rk rv rh rr)) []
      (predecessorLoop (.node la lk lv lh lr) [] ++ [false]) =
      .node (setAt (.node la lk lv lh lr) (predecessorLoop (.node la lk lv lh lr) [])
        (setItem k v (nodeAt (.node la lk lv lh lr) (predecessorLoop (.node la lk lv lh lr) []))))
        mk mv h (.node ra rk rv rh rr) := by
    simp only [nodeSwap, nodeAt_nil, nodeAt_snoc, child_false_node, h1, setAt_nil, setItem,
      setAt_snoc, setChild_false_node]
  rw [hs, unlink_snoc]
  simp only [child_false_node, setChild_false_node]
  have := removeRebalance_parent_snoc
    (.node (.node la lk lv lh lr) mk mv h (.node ra rk rv rh rr))
    (unlink (setAt (.node la lk lv lh lr) (predecessorLoop (.node la lk lv lh lr) [])
      (setItem k v (nodeAt (.node la lk lv lh lr) (predecessorLoop (.node la lk lv lh lr) []))))
      (predecessorLoop (.node la lk lv lh lr) [])) (by simp)
    (predecessorLoop (.node la lk lv lh lr) []) false
  simp only [setChild_false_node] at this
  rw [this, h3]
  simp only [Option.some_bind, removeStep_root]
  rfl

theorem removeRec_spec [LinearOrder K] (key : K) (t : AVLNode K V) :
    (internalFind t key = none → removeRec key t = none) ∧
    (∀ q, internalFind t key = some q → removeFound t q = removeRec key t ∧
      (removeRec key t).isSome = true) := by
  induction t with
  | null =>
    refine ⟨fun _ => rfl, fun q h => ?_⟩
    simp [internalFind, internalFindHelper] at h
  | node l k v h r ihl ihr =>
    simp only [internalFind, internalFindHelper, removeRec]
    by_cases hk : k = key
    · simp only [hk, if_true]
      refine ⟨fun h => absurd h (by simp), fun q hq => ?_⟩
      simp only [Option.some.injEq] at hq
      subst hq
      cases l with
      | null =>
        cases r with
        | null => exact ⟨rfl, rfl⟩
        | node ra rk rv rh rr => exact ⟨rfl, rfl⟩
      | node la lk lv lh lr =>
        cases r with
        | null => exact ⟨rfl, rfl⟩
        | node ra rk rv rh rr =>
          refine ⟨removeFound_two la lr ra rr lk key rk lv v rv lh h rh, ?_⟩
          obtain ⟨⟨ml, mk, mv, mh, _, h2⟩, _⟩ :=
            removeMaxRec_spec (.node la lk lv lh lr) (by simp) key v
          simp [h2]
    · simp only [hk, if_false]
      by_cases hgt : k > key
      · simp only [hgt, if_true]
        have hw := internalFindHelper_snoc key l [] false
        simp only [List.nil_append] at hw
        rw [hw]
        refine ⟨fun hn => ?_, fun q hq => ?_⟩
        · simp only [Option.map_eq_none'] at hn
          rw [ihl.1 hn]; rfl
        · simp only [Option.map_eq_some'] at hq
          obtain ⟨q', hq', rfl⟩ := hq
          obtain ⟨h1, h2⟩ := ihl.2 q' hq'
          rw [removeFound_snoc _ (by simp), child_false_node, h1]
          cases hr : removeRec key l with
          | none => rw [hr] at h2; exact absurd h2 (by simp)
          | some s => simp [removeStep_root, removeUp]
      · simp only [hgt, if_false]
        have hw := internalFindHelper_snoc key r [] true
        simp only [List.nil_append] at hw
        rw [hw]
        refine ⟨fun hn => ?_, fun q hq => ?_⟩
        · simp only [Option.map_eq_none'] at hn
          rw [ihr.1 hn]; rfl
        · simp only [Option.map_eq_some'] at hq
          obtain ⟨q', hq', rfl⟩ := hq
          obtain ⟨h1, h2⟩ := ihr.2 q' hq'
          rw [removeFound_snoc _ (by simp), child_true_node, h1]
          cases hr : removeRec key r with
          | none => rw [hr] at h2; exact absurd h2 (by simp)
          | some s => simp [removeStep_root, removeUp]

/-- Embeds `remove` never dereferences `NULL` and returns the tree that `removeRec` describes (the
tree itself when the key is not met). -/
theorem remove_eq_removeRec [LinearOrder K] (t : AVLNode K V) (key : K) :
    remove t key = some ((removeRec key t).getD t) := by
  unfold remove
  cases hf : internalFind t key with
  | none => simp [(removeRec_spec key t).1 hf]
  | some q =>
    obtain ⟨h1, h2⟩ := (removeRec_spec key t).2 q hf
    simp only [h1]
    cases hr : removeRec key t with
    | none => rw [hr] at h2; exact absurd h2 (by simp)
    | some s => rfl

end AVLTree


/-! ## The items of a tree are not touched by rotations and height updates -/

namespace AVLTree

open AVLNode BinarySearchTree

variable {K V : Type}

@[simp] theorem toList_null : toList (null : AVLNode K V) = [] := rfl

@[simp] theorem toList_node (l r : AVLNode K V) (k : K) (v : V) (h : Nat) :
    toList (node l k v h r) = toList l ++ (k, v) :: toList r := rfl

theorem keys_eq_map (t : AVLNode K V) : keys t = (toList t).map Prod.fst := by
  induction t with
  | null => rfl
  | node l k v h r ihl ihr => simp [keys, ihl, ihr]

theorem toList_setChild (d : Bool) (s N : AVLNode K V) (h : toList s = toList (child d N)) :
    toList (setChild d s N) = toList N := by
  cases N with
  | null => rfl
  | node l k v hh r => cases d <;> simp_all

theorem toList_setAt (R : AVLNode K V) (p : NodePtr) (s : AVLNode K V)
    (h : toList s = toList (nodeAt R p)) : toList (setAt R p s) = toList R := by
  induction p generalizing s with
  | nil => exact h
  | cons d p ih =>
    rw [setAt_cons]
    exact ih _ (toList_setChild d s _ h)

@[simp] theorem toList_updateHeight (n : AVLNode K V) : toList (updateHeight n) = toList n := by
  cases n <;> rfl

theorem toList_leftRotate (R R' : AVLNode K V) (p : NodePtr) (h : leftRotate R p = some R') :
    toList R' = toList R := by
  unfold leftRotate at h
  split at h
  · rename_i hn
    simp only [Option.some.injEq] at h
    subst h
    exact toList_setAt R p _ (by rw [hn]; simp)
  · exact absurd h (by simp)

theorem toList_rightRotate (R R' : AVLNode K V) (p : NodePtr) (h : rightRotate R p = some R') :
    toList R' = toList R := by
  unfold rightRotate at h
  split at h
  · rename_i hn
    simp only [Option.some.injEq] at h
    subst h
    exact toList_setAt R p _ (by rw [hn]; simp)
  · exact absurd h (by simp)

theorem toList_updateHeightsLoop (R : AVLNode K V) (p : NodePtr) :
    toList (updateHeightsLoop R p) = toList R := by
  induction p generalizing R with
  | nil => simp
  | cons d p ih =>
    rw [updateHeightsLoop_cons, ih]
    exact toList_setAt R _ _ (by simp)

@[simp] theorem toList_updateHeights (R : AVLNode K V) (p : Option NodePtr) :
    toList (updateHeights R p) = toList R := by
  cases p with
  | none => rfl
  | some p => exact toList_updateHeightsLoop R p

theorem toList_balance (R R' : AVLNode K V) (x : Option NodePtr) (y z : NodePtr) (m : Nat)
    (h : balance R x y z m = some R') : toList R' = toList R := by
  unfold balance at h
  split at h
  · simp only [Option.map_eq_some'] at h
    obtain ⟨r1, h1, rfl⟩ := h
    simp [toList_leftRotate _ _ _ h1]
  · split at h
    · simp only [Option.map_eq_some'] at h
      obtain ⟨r1, h1, rfl⟩ := h
      simp [toList_rightRotate _ _ _ h1]
    · split at h
      · simp only [Option.bind_eq_some, Option.map_eq_some'] at h
        obtain ⟨r1, h1, r2, h2, rfl⟩ := h
        simp [toList_leftRotate _ _ _ h1, toList_rightRotate _ _ _ h2]
      · split at h
        · simp only [Option.bind_eq_some, Option.map_eq_some'] at h
          obtain ⟨r1, h1, r2, h2, rfl⟩ := h
          simp [toList_leftRotate _ _ _ h2, toList_rightRotate _ _ _ h1]
        · simp only [Option.some.injEq] at h
          rw [h]

theorem toList_removeStep (R R' : AVLNode K V) (p : NodePtr) (h : removeStep R p = some R') :
    toList R' = toList R := by
  unfold removeStep at h
  split at h
  · simp only [Option.bind_eq_some] at h
    obtain ⟨r, _, h2⟩ := h
    exact toList_balance _ _ _ _ _ _ h2
  · simp only [Option.some.injEq] at h
    rw [h]

@[simp] theorem toList_rebalance (n : AVLNode K V) : toList (rebalance n) = toList n :=
  toList_removeStep n _ [] (removeStep_root n)

@[simp] theorem toList_insertFix (n : AVLNode K V) : toList (insertFix n) = toList n := by
  unfold insertFix
  split
  · split
    · rename_i x y z m _ _
      cases hb : balance n x y z m with
      | none => rfl
      | some s => exact toList_balance _ _ _ _ _ _ hb
    · rfl
  · rfl

@[simp] theorem toList_insertUp (d : Bool) (n : AVLNode K V) (res : AVLNode K V × InsertStatus) :
    toList (insertUp d n res).1 = toList (setChild d res.1 n) := by
  unfold insertUp
  split
  · rfl
  · simp
  · simp only
    split <;> simp

@[simp] theorem toList_removeUp (d : Bool) (n s : AVLNode K V) :
    toList (removeUp d n s) = toList (setChild d s n) := by
  simp [removeUp]

end AVLTree

/-! ## BST order and lookup -/

namespace AVLTree

open AVLNode BinarySearchTree

variable {K V : Type}

theorem bstOrder_iff_pairwise [LinearOrder K] (t : AVLNode K V) :
    BSTOrder t ↔ (keys t).Pairwise (fun a b => a < b) := by
  induction t with
  | null => simp [BSTOrder, keys]
  | node l k v h r ihl ihr =>
    simp only [BSTOrder, keys, List.pairwise_append, List.pairwise_cons, ihl, ihr,
      List.mem_cons]
    constructor
    · rintro ⟨h1, h2, h3, h4⟩
      refine ⟨h3, ⟨h2, h4⟩, ?_⟩
      intro a ha b hb
      rcases hb with rfl | hb
      · exact h1 a ha
      · exact lt_trans (h1 a ha) (h2 b hb)
    · rintro ⟨h3, ⟨h2, h4⟩, h5⟩
      exact ⟨fun x hx => h5 x hx k (Or.inl rfl), h2, h3, h4⟩

theorem bstOrder_of_toList_eq [LinearOrder K] (a b : AVLNode K V) (h : toList a = toList b)
    (hb : BSTOrder b) : BSTOrder a := by
  rw [bstOrder_iff_pairwise, keys_eq_map, h, ← keys_eq_map, ← bstOrder_iff_pairwise]
  exact hb

theorem find_node [LinearOrder K] (l r : AVLNode K V) (key k : K) (v : V) (h : Nat) :
    find (node l key v h r) k =
      if key = k then some []
      else if key > k then (find l k).map fun a => a ++ [false]
      else (find r k).map fun a => a ++ [true] := by
  have h1 := internalFindHelper_snoc k l [] false
  have h2 := internalFindHelper_snoc k r [] true
  simp only [List.nil_append] at h1 h2
  simp only [find, internalFind, internalFindHelper, h1, h2]

theorem itemAt_map_snoc (R : AVLNode K V) (it : Option NodePtr) (d : Bool) :
    itemAt R (it.map fun a => a ++ [d]) = itemAt (child d R) it := by
  cases it with
  | none => rfl
  | some p => simp [itemAt, nodeAt_snoc]

theorem itemAt_find_node [LinearOrder K] (l r : AVLNode K V) (key k : K) (v : V) (h : Nat) :
    itemAt (node l key v h r) (find (node l key v h r) k) =
      if key = k then some (key, v)
      else if key > k then itemAt l (find l k)
      else itemAt r (find r k) := by
  rw [find_node]
  split
  · rfl
  · split
    · rw [itemAt_map_snoc]; rfl
    · rw [itemAt_map_snoc]; rfl

theorem find_some_mem [LinearOrder K] (t : AVLNode K V) (k : K) (p : NodePtr)
    (h : find t k = some p) : ∃ v, getItem (nodeAt t p) = some (k, v) ∧ k ∈ keys t := by
  induction t generalizing p with
  | null => simp [find, internalFind, internalFindHelper] at h
  | node l key v hh r ihl ihr =>
    rw [find_node] at h
    split at h
    · rename_i heq
      simp only [Option.some.injEq] at h
      subst h
      exact ⟨v, by simp [getItem, heq], by simp [keys, heq]⟩
    · split at h
      · simp only [Option.map_eq_some'] at h
        obtain ⟨q, hq, rfl⟩ := h
        obtain ⟨v', h1, h2⟩ := ihl q hq
        exact ⟨v', by rw [nodeAt_snoc]; exact h1, by simp [keys, h2]⟩
      · simp only [Option.map_eq_some'] at h
        obtain ⟨q, hq, rfl⟩ := h
        obtain ⟨v', h1, h2⟩ := ihr q hq
        exact ⟨v', by rw [nodeAt_snoc]; exact h1, by simp [keys, h2]⟩

theorem find?_eq_none_of_keys [DecidableEq K] (t : AVLNode K V) (k : K) (h : k ∉ keys t) :
    (toList t).find? (fun x => decide (x.1 = k)) = none := by
  rw [List.find?_eq_none]
  intro x hx
  simp only [decide_eq_true_eq]
  intro hk
  apply h
  rw [keys_eq_map, ← hk]
  exact List.mem_map_of_mem _ hx

/-- In a tree in BST order, `find` yields the first item of the in-order list that carries
the key. -/
theorem itemAt_find [LinearOrder K] (t : AVLNode K V) (k : K) (ho : BSTOrder t) :
    itemAt t (find t k) = (toList t).find? (fun x => decide (x.1 = k)) := by
  induction t with
  | null => rfl
  | node l key v h r ihl ihr =>
    obtain ⟨h1, h2, h3, h4⟩ := ho
    rw [itemAt_find_node, toList_node, List.find?_append, List.find?_cons]
    by_cases heq : key = k
    · subst heq
      have : key ∉ keys l := fun hm => lt_irrefl _ (h1 _ hm)
      simp [find?_eq_none_of_keys l key this]
    · simp only [heq, if_false, decide_False]
      by_cases hgt : key > k
      · have : k ∉ keys r := fun hm => lt_asymm (h2 _ hm) hgt
        simp [hgt, ihl h3, find?_eq_none_of_keys r k this]
      · have hlt : key < k := lt_of_le_of_ne (not_lt.mp hgt) heq
        have : k ∉ keys l := fun hm => lt_asymm (h1 _ hm) hlt
        simp [hgt, ihr h4, find?_eq_none_of_keys l k this]

end AVLTree

/-! ## The items after `insertRec` and `removeRec` -/

namespace AVLTree

open AVLNode BinarySearchTree

variable {K V : Type}

theorem toList_insertRec_node [LinearOrder K] (kv : K × V) (l r : AVLNode K V) (k : K) (v : V)
    (h : Nat) :
    toList (insertRec kv (node l k v h r)).1 =
      if kv.1 < k then toList (insertRec kv l).1 ++ (k, v) :: toList r
      else if kv.1 = k then toList l ++ (k, kv.2) :: toList r
      else toList l ++ (k, v) :: toList (insertRec kv r).1 := by
  simp only [insertRec]
  split
  · simp
  · split
    · simp
    · simp

theorem mem_keys_insertRec [LinearOrder K] (kv : K × V) (t : AVLNode K V) (x : K) :
    x ∈ keys (insertRec kv t).1 ↔ x = kv.1 ∨ x ∈ keys t := by
  induction t with
  | null => simp [insertRec, keys]
  | node l k v h r ihl ihr =>
    rw [keys_eq_map, toList_insertRec_node]
    split
    · simp only [List.map_append, List.map_cons, List.mem_append, List.mem_cons,
        ← keys_eq_map, ihl, keys]
      tauto
    · split
      · rename_i heq
        simp only [List.map_append, List.map_cons, List.mem_append, List.mem_cons,
          ← keys_eq_map, keys, heq]
        tauto
      · simp only [List.map_append, List.map_cons, List.mem_append, List.mem_cons,
          ← keys_eq_map, ihr, keys]
        tauto

theorem bstOrder_insertRec [LinearOrder K] (kv : K × V) (t : AVLNode K V) (ho : BSTOrder t) :
    BSTOrder (insertRec kv t).1 := by
  induction t with
  | null => simp [insertRec, BSTOrder, keys]
  | node l k v h r ihl ihr =>
    obtain ⟨h1, h2, h3, h4⟩ := ho
    by_cases hlt : kv.1 < k
    · apply bstOrder_of_toList_eq _ (node (insertRec kv l).1 k v h r)
      · rw [toList_insertRec_node, if_pos hlt]; rfl
      · refine ⟨fun x hx => ?_, h2, ihl h3, h4⟩
        rcases (mem_keys_insertRec kv l x).1 hx with rfl | hx
        · exact hlt
        · exact h1 x hx
    · by_cases heq : kv.1 = k
      · apply bstOrder_of_toList_eq _ (node l k kv.2 h r)
        · rw [toList_insertRec_node, if_neg hlt, if_pos heq]; rfl
        · exact ⟨h1, h2, h3, h4⟩
      · apply bstOrder_of_toList_eq _ (node l k v h (insertRec kv r).1)
        · rw [toList_insertRec_node, if_neg hlt, if_neg heq]; rfl
        · refine ⟨h1, fun x hx => ?_, h3, ihr h4⟩
          rcases (mem_keys_insertRec kv r x).1 hx with rfl | hx
          · exact lt_of_le_of_ne (not_lt.mp hlt) (Ne.symm heq)
          · exact h2 x hx

theorem find?_insertRec [LinearOrder K] (kv : K × V) (t : AVLNode K V) (ho : BSTOrder t)
    (k' : K) :
    (toList (insertRec kv t).1).find? (fun x => decide (x.1 = k')) =
      if kv.1 = k' then some kv else (toList t).find? (fun x => decide (x.1 = k')) := by
  induction t with
  | null =>
    simp only [insertRec, toList_node, toList_null, List.nil_append, List.find?_cons,
      List.find?_nil]
    by_cases h : kv.1 = k'
    · subst h; simp
    · simp [h]
  | node l k v h r ihl ihr =>
    obtain ⟨h1, h2, h3, h4⟩ := ho
    rw [toList_insertRec_node]
    by_cases hlt : kv.1 < k
    · simp only [hlt, if_true, List.find?_append, ihl h3, toList_node]
      by_cases hk : kv.1 = k' <;> simp [hk]
    · simp only [hlt, if_false]
      by_cases heq : kv.1 = k
      · simp only [heq, if_true, List.find?_append, toList_node, List.find?_cons]
        by_cases hk : k = k'
        · subst hk
          have : k ∉ keys l := fun hm => lt_irrefl _ (h1 _ hm)
          have hkv : kv = (k, kv.2) := by rw [← heq]
          simp [find?_eq_none_of_keys l k this, ← hkv]
        · simp [hk]
      · simp only [heq, if_false, List.find?_append, toList_node, List.find?_cons, ihr h4]
        by_cases hk : kv.1 = k'
        · subst hk
          have hlt' : k < kv.1 := lt_of_le_of_ne (not_lt.mp hlt) (Ne.symm heq)
          have : kv.1 ∉ keys l := fun hm => lt_asymm (h1 _ hm) hlt'
          have hne : ¬ k = kv.1 := fun h => heq h.symm
          simp [find?_eq_none_of_keys l kv.1 this, hne]
        · simp [hk]

theorem toList_removeMaxRec (l : AVLNode K V) (hl : l ≠ null) :
    ∃ item, maxItem l = some item ∧ toList l = toList (removeMaxRec l) ++ [item] := by
  induction l with
  | null => exact absurd rfl hl
  | node a b c e f _ ihf =>
    cases f with
    | null => exact ⟨(b, c), rfl, by simp [removeMaxRec]⟩
    | node fa fb fc fe ff =>
      obtain ⟨item, h1, h2⟩ := ihf (by simp)
      refine ⟨item, h1, ?_⟩
      have e1 : removeMaxRec (node a b c e (node fa fb fc fe ff)) =
          removeUp true (node a b c e (node fa fb fc fe ff))
            (removeMaxRec (node fa fb fc fe ff)) := rfl
      rw [e1, toList_removeUp, setChild_true_node, toList_node, h2, toList_node]
      simp

/-- Embeds `removeRec` takes one item with the key out of the in-order list and leaves the rest
in place. -/
theorem toList_removeRec [LinearOrder K] (key : K) (t t' : AVLNode K V)
    (h : removeRec key t = some t') :
    ∃ l1 v l2, toList t = l1 ++ (key, v) :: l2 ∧ toList t' = l1 ++ l2 := by
  induction t generalizing t' with
  | null => simp [removeRec] at h
  | node l k v hh r ihl ihr =>
    simp only [removeRec] at h
    split at h
    · rename_i heq
      subst heq
      split at h
      · rename_i la lk lv lh lr ra rk rv rh rr
        obtain ⟨item, h1, h2⟩ := toList_removeMaxRec (node la lk lv lh lr) (by simp)
        simp only [h1, Option.map_some', Option.some.injEq] at h
        subst h
        refine ⟨toList (node la lk lv lh lr), v, toList (node ra rk rv rh rr), rfl, ?_⟩
        rw [toList_removeUp, setChild_false_node, toList_node, h2]
        simp
      · simp only [Option.some.injEq] at h
        subst h
        exact ⟨[], v, toList r, by simp, by simp⟩
      · simp only [Option.some.injEq] at h
        subst h
        exact ⟨toList l, v, [], by simp, by simp⟩
    · split at h
      · simp only [Option.map_eq_some'] at h
        obtain ⟨s, hs, rfl⟩ := h
        obtain ⟨l1, v', l2, h1, h2⟩ := ihl s hs
        refine ⟨l1, v', l2 ++ (k, v) :: toList r, ?_, ?_⟩
        · simp [h1]
        · simp [h2]
      · simp only [Option.map_eq_some'] at h
        obtain ⟨s, hs, rfl⟩ := h
        obtain ⟨l1, v', l2, h1, h2⟩ := ihr s hs
        refine ⟨toList l ++ (k, v) :: l1, v', l2, ?_, ?_⟩
        · simp [h1]
        · simp [h2]

end AVLTree


/-! ## The AVL invariant on stored heights -/

namespace AVLTree

open AVLNode BinarySearchTree

variable {K V : Type}

@[simp] theorem storedAVL_null : StoredAVL (null : AVLNode K V) = True := rfl

theorem storedAVL_node (l r : AVLNode K V) (k : K) (v : V) (h : Nat) :
    StoredAVL (node l k v h r) ↔
      (h = max (heightOrZero l) (heightOrZero r) + 1 ∧ heightOrZero l ≤ heightOrZero r + 1 ∧
        heightOrZero r ≤ heightOrZero l + 1 ∧ StoredAVL l ∧ StoredAVL r) := Iff.rfl

theorem updateHeight_of_storedAVL (t : AVLNode K V) (h : StoredAVL t) : updateHeight t = t := by
  cases t with
  | null => rfl
  | node l k v hh r =>
    obtain ⟨h1, _⟩ := h
    simp [h1]

theorem heightOrZero_eq_getHeight (t : AVLNode K V) (h : HeightsExact t) :
    heightOrZero t = getHeight t := by
  induction t with
  | null => rfl
  | node l k v hh r ihl ihr =>
    obtain ⟨h1, h2, h3⟩ := h
    simp only [heightOrZero_node, getHeight, h1, ihl h2, ihr h3]

theorem storedAVL_iff (t : AVLNode K V) : StoredAVL t ↔ HeightsExact t ∧ AVLBalanced t := by
  induction t with
  | null => simp [HeightsExact, AVLBalanced]
  | node l k v h r ihl ihr =>
    simp only [storedAVL_node, HeightsExact, AVLBalanced, ihl, ihr]
    constructor
    · rintro ⟨h1, h2, h3, ⟨h4, h5⟩, h6, h7⟩
      refine ⟨⟨h1, h4, h6⟩, ?_, h5, h7⟩
      rw [← heightOrZero_eq_getHeight l h4, ← heightOrZero_eq_getHeight r h6]
      omega
    · rintro ⟨⟨h1, h4, h6⟩, h8, h5, h7⟩
      rw [← heightOrZero_eq_getHeight l h4, ← heightOrZero_eq_getHeight r h6] at h8
      exact ⟨h1, by omega, by omega, ⟨h4, h5⟩, h6, h7⟩

/-- Rebalancing after the left or right subtree changed its height by at most one. -/
theorem storedAVL_rebalance (a b : AVLNode K V) (k : K) (v : V) (h : Nat)
    (ha : StoredAVL a) (hb : StoredAVL b)
    (h1 : heightOrZero a ≤ heightOrZero b + 2) (h2 : heightOrZero b ≤ heightOrZero a + 2) :
    StoredAVL (rebalance (updateHeight (node a k v h b))) ∧
    (heightOrZero (rebalance (updateHeight (node a k v h b))) =
        max (heightOrZero a) (heightOrZero b) + 1 ∨
      (heightOrZero (rebalance (updateHeight (node a k v h b))) =
          max (heightOrZero a) (heightOrZero b) ∧
        (heightOrZero a + 2 = heightOrZero b ∨ heightOrZero b + 2 = heightOrZero a))) := by
  simp only [updateHeight_node]
  by_cases hbf : heightOrZero a ≤ heightOrZero b + 1 ∧ heightOrZero b ≤ heightOrZero a + 1
  · rw [rebalance_id _ (by simp only [calculateBF_node]; omega)]
    simp only [storedAVL_node, heightOrZero_node]
    exact ⟨⟨trivial, hbf.1, hbf.2, ha, hb⟩, Or.inl trivial⟩
  · by_cases hlr : heightOrZero b < heightOrZero a
    · -- left-heavy
      cases a with
      | null => simp at hlr
      | node ll lk lv lh lr =>
        simp only [heightOrZero_node] at hbf hlr h1 h2 ⊢
        obtain ⟨e1, e2, e3, hll, hlr'⟩ := ha
        by_cases ht : heightOrZero lr ≤ heightOrZero ll
        · rw [rebalance_LL _ _ _ _ _ _ _ _ _ (by omega) ht, updateHeight_of_storedAVL ll hll]
          simp only [updateHeight_node, storedAVL_node, heightOrZero_node]
          refine ⟨⟨trivial, by omega, by omega, hll, trivial, by omega, by omega, hlr', hb⟩, ?_⟩
          omega
        · cases lr with
          | null => simp at ht
          | node lrl xk xv xh lrr =>
            simp only [heightOrZero_node] at ht e1 e2 e3
            obtain ⟨f1, f2, f3, hlrl, hlrr⟩ := hlr'
            rw [rebalance_LR _ _ _ _ _ _ _ _ _ _ _ _ _ (by omega) (by omega)]
            simp only [updateHeight_node, storedAVL_node, heightOrZero_node]
            refine ⟨⟨trivial, by omega, by omega, ⟨trivial, by omega, by omega, hll, hlrl⟩,
              trivial, by omega, by omega, hlrr, hb⟩, ?_⟩
            omega
    · -- right-heavy
      cases b with
      | null => simp at hbf hlr; omega
      | node rl rk rv rh rr =>
        simp only [heightOrZero_node] at hbf hlr h1 h2 ⊢
        obtain ⟨e1, e2, e3, hrl, hrr⟩ := hb
        by_cases ht : heightOrZero rl ≤ heightOrZero rr
        · rw [rebalance_RR _ _ _ _ _ _ _ _ _ (by omega) ht, updateHeight_of_storedAVL rr hrr]
          simp only [updateHeight_node, storedAVL_node, heightOrZero_node]
          refine ⟨⟨trivial, by omega, by omega, ⟨trivial, by omega, by omega, ha, hrl⟩, hrr⟩, ?_⟩
          omega
        · cases rl with
          | null => simp at ht
          | node rll xk xv xh rlr =>
            simp only [heightOrZero_node] at ht e1 e2 e3
            obtain ⟨f1, f2, f3, hrll, hrlr⟩ := hrl
            rw [rebalance_RL _ _ _ _ _ _ _ _ _ _ _ _ _ (by omega) (by omega)]
            simp only [updateHeight_node, storedAVL_node, heightOrZero_node]
            refine ⟨⟨trivial, by omega, by omega, ⟨trivial, by omega, by omega, ha, hrll⟩,
              trivial, by omega, by omega, hrlr, hrr⟩, ?_⟩
            omega

end AVLTree

namespace AVLTree

open AVLNode BinarySearchTree

variable {K V : Type}

/-- The rotation of `insert` at a node whose left subtree became two higher than the right
one: the subtree gets back the height it had. -/
theorem storedAVL_insertFix_left (ll lr b : AVLNode K V) (lk k : K) (lv v : V) (lh h : Nat)
    (ha : StoredAVL (node ll lk lv lh lr)) (hb : StoredAVL b)
    (h1 : lh = heightOrZero b + 2) (h2 : heightOrZero ll ≠ heightOrZero lr) :
    StoredAVL (insertFix (updateHeight (node (node ll lk lv lh lr) k v h b))) ∧
    heightOrZero (insertFix (updateHeight (node (node ll lk lv lh lr) k v h b))) = lh := by
  simp only [updateHeight_node, heightOrZero_node]
  obtain ⟨e1, e2, e3, hll, hlr⟩ := ha
  by_cases ht : heightOrZero lr < heightOrZero ll
  · rw [insertFix_LL _ _ _ _ _ _ _ _ _ (by omega) ht, updateHeight_of_storedAVL ll hll]
    simp only [updateHeight_node, storedAVL_node, heightOrZero_node]
    refine ⟨⟨trivial, by omega, by omega, hll, trivial, by omega, by omega, hlr, hb⟩, ?_⟩
    omega
  · cases lr with
    | null => simp at ht h2; omega
    | node lrl xk xv xh lrr =>
      simp only [heightOrZero_node] at ht e1 e2 e3 h2
      obtain ⟨f1, f2, f3, hlrl, hlrr⟩ := hlr
      rw [insertFix_LR _ _ _ _ _ _ _ _ _ _ _ _ _ (by omega) (by omega)]
      simp only [updateHeight_node, storedAVL_node, heightOrZero_node]
      refine ⟨⟨trivial, by omega, by omega, ⟨trivial, by omega, by omega, hll, hlrl⟩,
        trivial, by omega, by omega, hlrr, hb⟩, ?_⟩
      omega

theorem storedAVL_insertFix_right (a rl rr : AVLNode K V) (rk k : K) (rv v : V) (rh h : Nat)
    (ha : StoredAVL a) (hb : StoredAVL (node rl rk rv rh rr))
    (h1 : rh = heightOrZero a + 2) (h2 : heightOrZero rl ≠ heightOrZero rr) :
    StoredAVL (insertFix (updateHeight (node a k v h (node rl rk rv rh rr)))) ∧
    heightOrZero (insertFix (updateHeight (node a k v h (node rl rk rv rh rr)))) = rh := by
  simp only [updateHeight_node, heightOrZero_node]
  obtain ⟨e1, e2, e3, hrl, hrr⟩ := hb
  by_cases ht : heightOrZero rl < heightOrZero rr
  · rw [insertFix_RR _ _ _ _ _ _ _ _ _ (by omega) ht, updateHeight_of_storedAVL rr hrr]
    simp only [updateHeight_node, storedAVL_node, heightOrZero_node]
    refine ⟨⟨trivial, by omega, by omega, ⟨trivial, by omega, by omega, ha, hrl⟩, hrr⟩, ?_⟩
    omega
  · cases rl with
    | null => simp at ht h2; omega
    | node rll xk xv xh rlr =>
      simp only [heightOrZero_node] at ht e1 e2 e3 h2
      obtain ⟨f1, f2, f3, hrll, hrlr⟩ := hrl
      rw [insertFix_RL _ _ _ _ _ _ _ _ _ _ _ _ _ (by omega) (by omega)]
      simp only [updateHeight_node, storedAVL_node, heightOrZero_node]
      refine ⟨⟨trivial, by omega, by omega, ⟨trivial, by omega, by omega, ha, hrll⟩,
        trivial, by omega, by omega, hrlr, hrr⟩, ?_⟩
      omega

end AVLTree

namespace AVLTree

open AVLNode BinarySearchTree

variable {K V : Type}

theorem insertSpec_insertUp_left (l r : AVLNode K V) (k : K) (v : V) (h : Nat)
    (res : AVLNode K V × InsertStatus) (ht : StoredAVL (node l k v h r))
    (hres : InsertSpec l res) :
    InsertSpec (node l k v h r) (insertUp false (node l k v h r) res) := by
  obtain ⟨e1, e2, e3, hl, hr⟩ := ht
  obtain ⟨s1, s2, s3⟩ := hres
  obtain ⟨l', st⟩ := res
  simp only at s1 s2 s3
  cases st with
  | found =>
    have := s2 (by simp)
    simp only [insertUp, setChild_false_node, InsertSpec, storedAVL_node, heightOrZero_node]
    exact ⟨⟨by omega, by omega, by omega, s1, hr⟩, fun _ => trivial, fun h => absurd h (by simp)⟩
  | stopped =>
    have := s2 (by simp)
    simp only [insertUp, setChild_false_node, InsertSpec, storedAVL_node, heightOrZero_node,
      updateHeight_node]
    exact ⟨⟨trivial, by omega, by omega, s1, hr⟩, fun _ => by omega,
      fun h => absurd h (by simp)⟩
  | searching =>
    simp only [insertUp, setChild_false_node, calculateBF_updateHeight, calculateBF_node]
    rcases s3 rfl with hs | ⟨hs, ll, lk, lv, lh, lr, rfl, hg⟩
    · have hbf : ¬ Int.natAbs ((heightOrZero r : Int) - (heightOrZero l' : Int)) ≥ 2 := by omega
      simp only [hbf, if_false, InsertSpec, updateHeight_node, storedAVL_node, heightOrZero_node]
      exact ⟨⟨trivial, by omega, by omega, s1, hr⟩, fun h => absurd rfl h,
        fun _ => Or.inl (by omega)⟩
    · simp only [heightOrZero_node] at hs ⊢
      by_cases hbf : Int.natAbs ((heightOrZero r : Int) - (lh : Int)) ≥ 2
      · simp only [hbf, if_true, InsertSpec]
        have hne : heightOrZero ll ≠ heightOrZero lr := by
          rcases hg with hg | hg
          · exact hg
          · omega
        obtain ⟨g1, g2⟩ := storedAVL_insertFix_left ll lr r lk k lv v lh h s1 hr (by omega) hne
        exact ⟨g1, fun _ => by rw [g2]; simp only [heightOrZero_node]; omega,
          fun h => absurd h (by simp)⟩
      · simp only [hbf, if_false, InsertSpec, updateHeight_node, storedAVL_node,
          heightOrZero_node]
        refine ⟨⟨trivial, by omega, by omega, s1, hr⟩, fun h => absurd rfl h, fun _ => ?_⟩
        by_cases hc : heightOrZero r ≤ heightOrZero l
        · exact Or.inr ⟨by omega, _, _, _, _, _, rfl, Or.inl (by
            simp only [heightOrZero_node]; omega)⟩
        · exact Or.inl (by omega)

theorem insertSpec_insertUp_right (l r : AVLNode K V) (k : K) (v : V) (h : Nat)
    (res : AVLNode K V × InsertStatus) (ht : StoredAVL (node l k v h r))
    (hres : InsertSpec r res) :
    InsertSpec (node l k v h r) (insertUp true (node l k v h r) res) := by
  obtain ⟨e1, e2, e3, hl, hr⟩ := ht
  obtain ⟨s1, s2, s3⟩ := hres
  obtain ⟨r', st⟩ := res
  simp only at s1 s2 s3
  cases st with
  | found =>
    have := s2 (by simp)
    simp only [insertUp, setChild_true_node, InsertSpec, storedAVL_node, heightOrZero_node]
    exact ⟨⟨by omega, by omega, by omega, hl, s1⟩, fun _ => trivial, fun h => absurd h (by simp)⟩
  | stopped =>
    have := s2 (by simp)
    simp only [insertUp, setChild_true_node, InsertSpec, storedAVL_node, heightOrZero_node,
      updateHeight_node]
    exact ⟨⟨trivial, by omega, by omega, hl, s1⟩, fun _ => by omega,
      fun h => absurd h (by simp)⟩
  | searching =>
    simp only [insertUp, setChild_true_node, calculateBF_updateHeight, calculateBF_node]
    rcases s3 rfl with hs | ⟨hs, rl, rk, rv, rh, rr, rfl, hg⟩
    · have hbf : ¬ Int.natAbs ((heightOrZero r' : Int) - (heightOrZero l : Int)) ≥ 2 := by omega
      simp only [hbf, if_false, InsertSpec, updateHeight_node, storedAVL_node, heightOrZero_node]
      exact ⟨⟨trivial, by omega, by omega, hl, s1⟩, fun h => absurd rfl h,
        fun _ => Or.inl (by omega)⟩
    · simp only [heightOrZero_node] at hs ⊢
      by_cases hbf : Int.natAbs ((rh : Int) - (heightOrZero l : Int)) ≥ 2
      · simp only [hbf, if_true, InsertSpec]
        have hne : heightOrZero rl ≠ heightOrZero rr := by
          rcases hg with hg | hg
          · exact hg
          · omega
        obtain ⟨g1, g2⟩ := storedAVL_insertFix_right l rl rr rk k rv v rh h hl s1 (by omega) hne
        exact ⟨g1, fun _ => by rw [g2]; simp only [heightOrZero_node]; omega,
          fun h => absurd h (by simp)⟩
      · simp only [hbf, if_false, InsertSpec, updateHeight_node, storedAVL_node,
          heightOrZero_node]
        refine ⟨⟨trivial, by omega, by omega, hl, s1⟩, fun h => absurd rfl h, fun _ => ?_⟩
        by_cases hc : heightOrZero l ≤ heightOrZero r
        · exact Or.inr ⟨by omega, _, _, _, _, _, rfl, Or.inl (by
            simp only [heightOrZero_node]; omega)⟩
        · exact Or.inl (by omega)

theorem insertSpec_insertRec [LinearOrder K] (kv : K × V) (t : AVLNode K V)
    (ht : StoredAVL t) : InsertSpec t (insertRec kv t) := by
  induction t with
  | null =>
    simp only [insertRec, InsertSpec, storedAVL_node, heightOrZero_null, heightOrZero_node]
    exact ⟨⟨by simp, by simp, by simp, trivial, trivial⟩, fun h => absurd rfl h,
      fun _ => Or.inr ⟨trivial, _, _, _, _, _, rfl, Or.inr rfl⟩⟩
  | node l k v h r ihl ihr =>
    have ht' := ht
    obtain ⟨e1, e2, e3, hl, hr⟩ := ht
    simp only [insertRec]
    split
    · exact insertSpec_insertUp_left l r k v h _ ht' (ihl hl)
    · split
      · simp only [InsertSpec, storedAVL_node, heightOrZero_node]
        exact ⟨⟨e1, e2, e3, hl, hr⟩, fun _ => trivial, fun h => absurd h (by simp)⟩
      · exact insertSpec_insertUp_right l r k v h _ ht' (ihr hr)

/-- Embeds `insertRec` keeps the AVL invariant on stored heights. -/
theorem storedAVL_insertRec [LinearOrder K] (kv : K × V) (t : AVLNode K V)
    (ht : StoredAVL t) : StoredAVL (insertRec kv t).1 :=
  (insertSpec_insertRec kv t ht).1

end AVLTree

namespace AVLTree

open AVLNode BinarySearchTree

variable {K V : Type}

theorem storedAVL_removeUp (d : Bool) (l r s : AVLNode K V) (k : K) (v : V) (h : Nat)
    (ht : StoredAVL (node l k v h r)) (hs : StoredAVL s)
    (hh : heightOrZero s = heightOrZero (child d (node l k v h r)) ∨
      heightOrZero s + 1 = heightOrZero (child d (node l k v h r))) :
    StoredAVL (removeUp d (node l k v h r) s) ∧
    (heightOrZero (removeUp d (node l k v h r) s) = h ∨
      heightOrZero (removeUp d (node l k v h r) s) + 1 = h) := by
  obtain ⟨e1, e2, e3, hl, hr⟩ := ht
  cases d with
  | false =>
    simp only [child_false_node] at hh
    simp only [removeUp, setChild_false_node]
    obtain ⟨g1, g2⟩ := storedAVL_rebalance s r k v h hs hr (by omega) (by omega)
    exact ⟨g1, by omega⟩
  | true =>
    simp only [child_true_node] at hh
    simp only [removeUp, setChild_true_node]
    obtain ⟨g1, g2⟩ := storedAVL_rebalance l s k v h hl hs (by omega) (by omega)
    exact ⟨g1, by omega⟩

theorem storedAVL_removeMaxRec (l : AVLNode K V) (hl : StoredAVL l) :
    StoredAVL (removeMaxRec l) ∧
    (heightOrZero (removeMaxRec l) = heightOrZero l ∨
      heightOrZero (removeMaxRec l) + 1 = heightOrZero l) := by
  induction l with
  | null => exact ⟨trivial, Or.inl rfl⟩
  | node a b c e f _ ihf =>
    cases f with
    | null =>
      obtain ⟨e1, e2, e3, ha, _⟩ := hl
      simp only [heightOrZero_null] at e1 e2 e3
      simp only [removeMaxRec, heightOrZero_node]
      exact ⟨ha, by omega⟩
    | node fa fb fc fe ff =>
      have e1 : removeMaxRec (node a b c e (node fa fb fc fe ff)) =
          removeUp true (node a b c e (node fa fb fc fe ff))
            (removeMaxRec (node fa fb fc fe ff)) := rfl
      rw [e1]
      obtain ⟨g1, g2⟩ := ihf hl.2.2.2.2
      exact storedAVL_removeUp true a (node fa fb fc fe ff) _ b c e hl g1 g2

/-- Embeds `removeRec` keeps the AVL invariant on stored heights; the height stays or drops by
one. -/
theorem storedAVL_removeRec [LinearOrder K] (key : K) (t t' : AVLNode K V) (ht : StoredAVL t)
    (h : removeRec key t = some t') :
    StoredAVL t' ∧ (heightOrZero t' = heightOrZero t ∨ heightOrZero t' + 1 = heightOrZero t) := by
  induction t generalizing t' with
  | null => simp [removeRec] at h
  | node l k v hh r ihl ihr =>
    have ht' := ht
    obtain ⟨e1, e2, e3, hl, hr⟩ := ht
    simp only [removeRec] at h
    split at h
    · split at h
      · rename_i la lk lv lh lr ra rk rv rh rr
        obtain ⟨item, h1, _⟩ := toList_removeMaxRec (node la lk lv lh lr) (by simp)
        simp only [h1, Option.map_some', Option.some.injEq] at h
        subst h
        obtain ⟨g1, g2⟩ := storedAVL_removeMaxRec (node la lk lv lh lr) hl
        exact storedAVL_removeUp false (node la lk lv lh lr) (node ra rk rv rh rr) _
          item.1 item.2 hh ⟨e1, e2, e3, hl, hr⟩ g1 g2
      · simp only [Option.some.injEq] at h
        subst h
        simp only [heightOrZero_null, heightOrZero_node] at e1 e2 e3 ⊢
        exact ⟨hr, by omega⟩
      · simp only [Option.some.injEq] at h
        subst h
        simp only [heightOrZero_null, heightOrZero_node] at e1 e2 e3 ⊢
        exact ⟨hl, by omega⟩
    · split at h
      · simp only [Option.map_eq_some'] at h
        obtain ⟨s, hs, rfl⟩ := h
        obtain ⟨g1, g2⟩ := ihl s hl hs
        exact storedAVL_removeUp false l r s k v hh ht' g1 g2
      · simp only [Option.map_eq_some'] at h
        obtain ⟨s, hs, rfl⟩ := h
        obtain ⟨g1, g2⟩ := ihr s hr hs
        exact storedAVL_removeUp true l r s k v hh ht' g1 g2

end AVLTree


/-! ## Helper lemmas for the statements about `insert`, `remove` and `find` -/

namespace AVLTree

open AVLNode BinarySearchTree

variable {K V : Type}

theorem heightsExact_child (d : Bool) (t : AVLNode K V) (h : HeightsExact t) :
    HeightsExact (child d t) := by
  cases t with
  | null => exact h
  | node l k v hh r => cases d <;> simp [h.2.1, h.2.2]

theorem heightsExact_nodeAt (t : AVLNode K V) (p : NodePtr) (h : HeightsExact t) :
    HeightsExact (nodeAt t p) := by
  induction p with
  | nil => exact h
  | cons d p ih => exact heightsExact_child d _ ih

theorem insertAll_storedAVL [LinearOrder K] (items : List (K × V)) (t : AVLNode K V)
    (ht : StoredAVL t) : ∃ t', items.foldlM insert t = some t' ∧ StoredAVL t' := by
  induction items generalizing t with
  | nil => exact ⟨t, rfl, ht⟩
  | cons a items ih =>
    simp only [List.foldlM_cons, insert_eq_insertRec, Option.some_bind, Option.bind_eq_bind]
    exact ih _ (storedAVL_insertRec a t ht)

theorem find_isSome_iff [LinearOrder K] (t : AVLNode K V) (k : K) :
    (find t k).isSome = (itemAt t (find t k)).isSome := by
  cases h : find t k with
  | none => rfl
  | some p =>
    obtain ⟨v, hv, _⟩ := find_some_mem t k p h
    simp [itemAt, hv]

theorem find_eq_none_of_not_mem [LinearOrder K] (t : AVLNode K V) (k : K) (h : k ∉ keys t) :
    find t k = none := by
  cases hf : find t k with
  | none => rfl
  | some p =>
    obtain ⟨_, _, hm⟩ := find_some_mem t k p hf
    exact absurd hm h

theorem find_of_mem [LinearOrder K] (t : AVLNode K V) (k : K) (ho : BSTOrder t)
    (h : k ∈ keys t) : ∃ p v, find t k = some p ∧ getItem (nodeAt t p) = some (k, v) := by
  have h1 := itemAt_find t k ho
  cases hf : find t k with
  | some p =>
    obtain ⟨v, hv, _⟩ := find_some_mem t k p hf
    exact ⟨p, v, rfl, hv⟩
  | none =>
    rw [hf] at h1
    have h2 : (toList t).find? (fun x => decide (x.1 = k)) = none := h1.symm
    rw [List.find?_eq_none] at h2
    rw [keys_eq_map, List.mem_map] at h
    obtain ⟨x, hx, rfl⟩ := h
    exact absurd (h2 x hx) (by simp)

theorem insertWalk_found_iff [LinearOrder K] (key : K) (t : AVLNode K V) (q p : NodePtr) :
    insertWalk key t q = InsertWalk.found p ↔ internalFindHelper key t q = some p := by
  induction t generalizing q with
  | null => cases q <;> simp [insertWalk, internalFindHelper]
  | node l k v h r ihl ihr =>
    simp only [insertWalk, internalFindHelper]
    by_cases hlt : key < k
    · have h1 : ¬ k = key := fun h => lt_irrefl _ (h ▸ hlt)
      have h2 : k > key := hlt
      simp only [hlt, h1, h2, if_true, if_false, ihl]
    · by_cases heq : key = k
      · subst heq
        simp
      · have h1 : ¬ k = key := fun h => heq h.symm
        have h2 : ¬ k > key := hlt
        simp only [hlt, heq, h1, h2, if_false, ihr]

theorem skeleton_setChild (d : Bool) (s N : AVLNode K V)
    (h : skeleton s = skeleton (child d N)) : skeleton (setChild d s N) = skeleton N := by
  cases N with
  | null => rfl
  | node l k v hh r => cases d <;> simp_all [skeleton]

theorem skeleton_setAt (R : AVLNode K V) (p : NodePtr) (s : AVLNode K V)
    (h : skeleton s = skeleton (nodeAt R p)) : skeleton (setAt R p s) = skeleton R := by
  induction p generalizing s with
  | nil => exact h
  | cons d p ih =>
    rw [setAt_cons]
    exact ih _ (skeleton_setChild d s _ h)

theorem skeleton_setValue (v : V) (n : AVLNode K V) : skeleton (setValue v n) = skeleton n := by
  cases n <;> rfl

/-- The items of `remove`'s result in a tree in BST order: BST order again, the key is gone,
and the lookup of every other key sees what it saw. -/
theorem removeRec_content [LinearOrder K] (key : K) (t t' : AVLNode K V) (ho : BSTOrder t)
    (h : removeRec key t = some t') :
    BSTOrder t' ∧ key ∉ keys t' ∧ (∀ x, x ∈ keys t' ↔ x ≠ key ∧ x ∈ keys t) ∧
    ∀ k', k' ≠ key → (toList t').find? (fun x => decide (x.1 = k')) =
      (toList t).find? (fun x => decide (x.1 = k')) := by
  obtain ⟨l1, v, l2, h1, h2⟩ := toList_removeRec key t t' h
  rw [bstOrder_iff_pairwise, keys_eq_map, h1] at ho
  simp only [List.map_append, List.map_cons, List.pairwise_append, List.pairwise_cons,
    List.mem_map, List.mem_cons, forall_exists_index, and_imp] at ho
  obtain ⟨p1, ⟨p2, p3⟩, p4⟩ := ho
  have n1 : ∀ x ∈ l1, x.1 ≠ key := fun x hx he =>
    lt_irrefl key (by have := p4 x.1 x hx rfl key (Or.inl rfl); rwa [he] at this)
  have n2 : ∀ x ∈ l2, x.1 ≠ key := fun x hx he =>
    lt_irrefl key (by have := p2 x.1 x hx rfl; rwa [he] at this)
  refine ⟨?_, ?_, ?_, ?_⟩
  · rw [bstOrder_iff_pairwise, keys_eq_map, h2]
    simp only [List.map_append, List.pairwise_append, List.mem_map, forall_exists_index, and_imp]
    exact ⟨p1, p3, fun a x hx ha b y hy hb => p4 a x hx ha b (Or.inr ⟨y, hy, hb⟩)⟩
  · rw [keys_eq_map, h2]
    simp only [List.map_append, List.mem_append, List.mem_map, not_or, not_exists, not_and]
    exact ⟨fun x hx => n1 x hx, fun x hx => n2 x hx⟩
  · intro x
    rw [keys_eq_map, keys_eq_map, h1, h2]
    simp only [List.map_append, List.map_cons, List.mem_append, List.mem_map, List.mem_cons]
    constructor
    · rintro (⟨y, hy, rfl⟩ | ⟨y, hy, rfl⟩)
      · exact ⟨n1 y hy, Or.inl ⟨y, hy, rfl⟩⟩
      · exact ⟨n2 y hy, Or.inr (Or.inr ⟨y, hy, rfl⟩)⟩
    · rintro ⟨hne, (hx | hx | hx)⟩
      · exact Or.inl hx
      · exact absurd hx hne
      · exact Or.inr hx
  · intro k' hk
    rw [h1, h2]
    have : ¬ key = k' := fun h => hk h.symm
    simp [List.find?_append, List.find?_cons, this]

theorem removeRec_isSome_of_mem [LinearOrder K] (key : K) (t : AVLNode K V) (ho : BSTOrder t)
    (h : key ∈ keys t) : ∃ t', removeRec key t = some t' := by
  obtain ⟨p, _, hp, _⟩ := find_of_mem t key ho h
  have := ((removeRec_spec key t).2 p hp).2
  cases hr : removeRec key t with
  | none => rw [hr] at this; exact absurd this (by simp)
  | some s => exact ⟨s, rfl⟩

end AVLTree


/-! ## The invariants of `insert` and `remove` -/

namespace AVLTree

open AVLNode BinarySearchTree

variable {K V : Type}

/-- C1: `AVLTree::insert` preserves AVL balance.  For every tree whose stored heights are
exact and in which the heights of the two subtrees of every node differ by at most one, and
for every item, `insert` returns a tree (it does not fault) in which the heights recomputed
from the shape again differ by at most one at every node; BST order is not needed for this.
Hence the one rebalancing step at the first unbalanced ancestor is enough, and the tree is
balanced after every sequence of insertions into the empty tree. -/
theorem insert_preserves_balance [LinearOrder K] :
    (∀ (t : AVLNode K V) (new_item : K × V), HeightsExact t → AVLBalanced t →
      ∃ t', insert t new_item = some t' ∧ AVLBalanced t') ∧
    (∀ items : List (K × V), ∃ t', insertAll items = some t' ∧ AVLBalanced t') := by
  constructor
  · intro t kv hh hb
    refine ⟨_, insert_eq_insertRec t kv, ?_⟩
    exact ((storedAVL_iff _).1 (storedAVL_insertRec kv t ((storedAVL_iff t).2 ⟨hh, hb⟩))).2
  · intro items
    obtain ⟨t', h1, h2⟩ := insertAll_storedAVL items (null : AVLNode K V) trivial
    exact ⟨t', h1, ((storedAVL_iff _).1 h2).2⟩

theorem insert_preserves_balance_witness :
    HeightsExact exampleTree ∧ AVLBalanced exampleTree ∧
      ∃ t', insert exampleTree (8, 80) = some t' ∧ AVLBalanced t' :=
  ⟨by decide, by decide,
    insert_preserves_balance.1 exampleTree (8, 80) (by decide) (by decide)⟩

/-- C2: `AVLTree::remove` preserves AVL balance.  For every tree whose stored heights are
exact and which is AVL-balanced, and for every key, present or not, `remove` returns a tree
(it does not fault) in which the heights recomputed from the shape differ by at most one at
every node; BST order is not needed for this. -/
theorem remove_preserves_balance [LinearOrder K] (t : AVLNode K V) (key : K)
    (hh : HeightsExact t) (hb : AVLBalanced t) :
    ∃ t', remove t key = some t' ∧ AVLBalanced t' := by
  refine ⟨_, remove_eq_removeRec t key, ?_⟩
  cases hr : removeRec key t with
  | none => exact hb
  | some s =>
    exact ((storedAVL_iff _).1
      (storedAVL_removeRec key t s ((storedAVL_iff t).2 ⟨hh, hb⟩) hr).1).2

theorem remove_preserves_balance_witness :
    HeightsExact exampleTree ∧ AVLBalanced exampleTree ∧
      ∃ t', remove exampleTree 4 = some t' ∧ AVLBalanced t' :=
  ⟨by decide, by decide, remove_preserves_balance exampleTree 4 (by decide) (by decide)⟩

/-- C3: `AVLTree::insert` preserves BST order.  For every tree in BST order (so with unique
keys) and for every item, `insert` returns a tree (it does not fault) that is again in BST
order, whichever single or double rotation it applies; nothing is assumed about the stored
heights. -/
theorem insert_preserves_order [LinearOrder K] (t : AVLNode K V) (new_item : K × V)
    (ho : BSTOrder t) : ∃ t', insert t new_item = some t' ∧ BSTOrder t' :=
  ⟨_, insert_eq_insertRec t new_item, bstOrder_insertRec new_item t ho⟩

theorem insert_preserves_order_witness :
    BSTOrder exampleTree ∧ ∃ t', insert exampleTree (8, 80) = some t' ∧ BSTOrder t' :=
  ⟨by decide, insert_preserves_order exampleTree (8, 80) (by decide)⟩

/-- C4: `AVLTree::remove` preserves BST order.  For every tree in BST order and every key,
`remove` returns a tree (it does not fault) that is again in BST order: also when the node
has two children and changes places with its in-order predecessor, adjacent or not, at the
root or not, and whatever rotations follow. -/
theorem remove_preserves_order [LinearOrder K] (t : AVLNode K V) (key : K)
    (ho : BSTOrder t) : ∃ t', remove t key = some t' ∧ BSTOrder t' := by
  refine ⟨_, remove_eq_removeRec t key, ?_⟩
  cases hr : removeRec key t with
  | none => exact ho
  | some s => exact (removeRec_content key t s ho hr).1

theorem remove_preserves_order_witness :
    BSTOrder exampleTree ∧ ∃ t', remove exampleTree 4 = some t' ∧ BSTOrder t' :=
  ⟨by decide, remove_preserves_order exampleTree 4 (by decide)⟩

/-- C5: stored heights stay exact under `insert` and `remove`.  For every AVL-balanced tree
whose nodes all store `1 + max` of the heights stored in their children, the tree returned
by `insert` of any item and the tree returned by `remove` of any key have the same
property, and at every node (every pointer `p`) the stored height is the height of the
subtree recomputed from the shape. -/
theorem stored_heights_stay_exact [LinearOrder K] (t : AVLNode K V)
    (hh : HeightsExact t) (hb : AVLBalanced t) :
    (∀ new_item : K × V, ∃ t', insert t new_item = some t' ∧ HeightsExact t' ∧
      ∀ p, heightOrZero (nodeAt t' p) = getHeight (nodeAt t' p)) ∧
    (∀ key : K, ∃ t', remove t key = some t' ∧ HeightsExact t' ∧
      ∀ p, heightOrZero (nodeAt t' p) = getHeight (nodeAt t' p)) := by
  have hs := (storedAVL_iff t).2 ⟨hh, hb⟩
  constructor
  · intro kv
    have h1 := ((storedAVL_iff _).1 (storedAVL_insertRec kv t hs)).1
    exact ⟨_, insert_eq_insertRec t kv, h1,
      fun p => heightOrZero_eq_getHeight _ (heightsExact_nodeAt _ p h1)⟩
  · intro key
    refine ⟨_, remove_eq_removeRec t key, ?_⟩
    cases hr : removeRec key t with
    | none => exact ⟨hh, fun p => heightOrZero_eq_getHeight _ (heightsExact_nodeAt _ p hh)⟩
    | some s =>
      have h1 := ((storedAVL_iff _).1 (storedAVL_removeRec key t s hs hr).1).1
      exact ⟨h1, fun p => heightOrZero_eq_getHeight _ (heightsExact_nodeAt _ p h1)⟩

theorem stored_heights_stay_exact_witness :
    HeightsExact exampleTree ∧ AVLBalanced exampleTree ∧
      (∀ new_item : Nat × Nat, ∃ t', insert exampleTree new_item = some t' ∧ HeightsExact t' ∧
        ∀ p, heightOrZero (nodeAt t' p) = getHeight (nodeAt t' p)) ∧
      (∀ key : Nat, ∃ t', remove exampleTree key = some t' ∧ HeightsExact t' ∧
        ∀ p, heightOrZero (nodeAt t' p) = getHeight (nodeAt t' p)) :=
  ⟨by decide, by decide, stored_heights_stay_exact exampleTree (by decide) (by decide)⟩

/-- C6: `find` is a correct lookup.  In a tree in BST order, `find(k)` is a cursor at a node
whose key is `k` when some node has the key `k`, and it is the end cursor when no node has
it; `find` has no failure outcome at all. -/
theorem find_correct [LinearOrder K] (t : AVLNode K V) (k : K) (ho : BSTOrder t) :
    (k ∈ keys t → ∃ p v, find t k = some p ∧ getItem (nodeAt t p) = some (k, v)) ∧
    (k ∉ keys t → find t k = end_) :=
  ⟨find_of_mem t k ho, find_eq_none_of_not_mem t k⟩

theorem find_correct_witness :
    BSTOrder exampleTree ∧
      (6 ∈ keys exampleTree →
        ∃ p v, find exampleTree 6 = some p ∧ getItem (nodeAt exampleTree p) = some (6, v)) ∧
      (6 ∉ keys exampleTree → find exampleTree 6 = end_) :=
  ⟨by decide, find_correct exampleTree 6 (by decide)⟩

/-- C7: `AVLTree::insert` has map-insert semantics.  For every tree in BST order, every key
`k` and value `v`, `insert((k, v))` returns a tree in which `find(k)` is a cursor at a node
with key `k` and value `v`; for every other key `find` is present exactly when it was
present before and then designates the same item; and the keys of the result are the old
keys and `k`. -/
theorem insert_map_semantics [LinearOrder K] (t : AVLNode K V) (k : K) (v : V)
    (ho : BSTOrder t) :
    ∃ t', insert t (k, v) = some t' ∧
      (∃ p, find t' k = some p ∧ getItem (nodeAt t' p) = some (k, v)) ∧
      (∀ k', k' ≠ k → (find t' k').isSome = (find t k').isSome ∧
        itemAt t' (find t' k') = itemAt t (find t k')) ∧
      (∀ x, x ∈ keys t' ↔ x = k ∨ x ∈ keys t) := by
  have ho' := bstOrder_insertRec (k, v) t ho
  have hitem : ∀ k', itemAt (insertRec (k, v) t).1 (find (insertRec (k, v) t).1 k') =
      if k = k' then some (k, v) else itemAt t (find t k') := by
    intro k'
    rw [itemAt_find _ k' ho', itemAt_find t k' ho]
    exact find?_insertRec (k, v) t ho k'
  refine ⟨_, insert_eq_insertRec t (k, v), ?_, ?_, mem_keys_insertRec (k, v) t⟩
  · have h1 := hitem k
    simp only [if_true] at h1
    cases hf : find (insertRec (k, v) t).1 k with
    | none => rw [hf] at h1; exact absurd h1 (by simp [itemAt])
    | some p =>
      rw [hf] at h1
      exact ⟨p, rfl, by simpa [itemAt] using h1⟩
  · intro k' hk
    have h1 := hitem k'
    have hne : ¬ k = k' := fun h => hk h.symm
    simp only [hne, if_false] at h1
    exact ⟨by rw [find_isSome_iff, find_isSome_iff t, h1], h1⟩

theorem insert_map_semantics_witness :
    BSTOrder exampleTree ∧
      ∃ t', insert exampleTree (8, 80) = some t' ∧
        (∃ p, find t' 8 = some p ∧ getItem (nodeAt t' p) = some (8, 80)) ∧
        (∀ k', k' ≠ 8 → (find t' k').isSome = (find exampleTree k').isSome ∧
          itemAt t' (find t' k') = itemAt exampleTree (find exampleTree k')) ∧
        (∀ x, x ∈ keys t' ↔ x = 8 ∨ x ∈ keys exampleTree) :=
  ⟨by decide, insert_map_semantics exampleTree 8 80 (by decide)⟩

/-- C8: `AVLTree::remove` has map-delete semantics.  For every tree in BST order and every
key `k` present in it, `remove(k)` returns a tree in which `find(k)` is the end cursor; for
every other key `find` is present exactly when it was present before and then designates the
same item; and the keys of the result are the old keys without `k`. -/
theorem remove_map_semantics [LinearOrder K] (t : AVLNode K V) (k : K)
    (ho : BSTOrder t) (hk : k ∈ keys t) :
    ∃ t', remove t k = some t' ∧ find t' k = end_ ∧
      (∀ k', k' ≠ k → (find t' k').isSome = (find t k').isSome ∧
        itemAt t' (find t' k') = itemAt t (find t k')) ∧
      (∀ x, x ∈ keys t' ↔ x ≠ k ∧ x ∈ keys t) := by
  obtain ⟨s, hs⟩ := removeRec_isSome_of_mem k t ho hk
  obtain ⟨c1, c2, c3, c4⟩ := removeRec_content k t s ho hs
  refine ⟨s, by rw [remove_eq_removeRec, hs]; rfl, find_eq_none_of_not_mem s k c2, ?_, c3⟩
  intro k' hne
  have h1 : itemAt s (find s k') = itemAt t (find t k') := by
    rw [itemAt_find s k' c1, itemAt_find t k' ho]
    exact c4 k' hne
  exact ⟨by rw [find_isSome_iff, find_isSome_iff t, h1], h1⟩

theorem remove_map_semantics_witness :
    BSTOrder exampleTree ∧ 4 ∈ keys exampleTree ∧
      ∃ t', remove exampleTree 4 = some t' ∧ find t' 4 = end_ ∧
        (∀ k', k' ≠ 4 → (find t' k').isSome = (find exampleTree k').isSome ∧
          itemAt t' (find t' k') = itemAt exampleTree (find exampleTree k')) ∧
        (∀ x, x ∈ keys t' ↔ x ≠ 4 ∧ x ∈ keys exampleTree) :=
  ⟨by decide, by decide, remove_map_semantics exampleTree 4 (by decide) (by decide)⟩

/-- C9: inserting a key that is present is an update in place.  For every tree in BST order
and every key `k` some node carries, `insert((k, v))` returns the tree in which the node
that `find(k)` designates has the value `v` and nothing else differs: the result has the
same shape, keys and stored heights (`skeleton`), no node is added and no rotation is made,
and every other key is looked up to the same item. -/
theorem insert_duplicate_updates_in_place [LinearOrder K] (t : AVLNode K V) (k : K) (v : V)
    (ho : BSTOrder t) (hk : k ∈ keys t) :
    ∃ p, find t k = some p ∧
      insert t (k, v) = some (setAt t p (setValue v (nodeAt t p))) ∧
      skeleton (setAt t p (setValue v (nodeAt t p))) = skeleton t ∧
      getItem (nodeAt (setAt t p (setValue v (nodeAt t p))) p) = some (k, v) ∧
      ∀ k', k' ≠ k →
        itemAt (setAt t p (setValue v (nodeAt t p)))
          (find (setAt t p (setValue v (nodeAt t p))) k') = itemAt t (find t k') := by
  obtain ⟨p, v0, hp, hv0⟩ := find_of_mem t k ho hk
  have hw : insertWalk k t [] = InsertWalk.found p := (insertWalk_found_iff k t [] p).2 hp
  have hins : insert t (k, v) = some (setAt t p (setValue v (nodeAt t p))) := by
    simp only [insert, hw]
  have hrec : (insertRec (k, v) t).1 = setAt t p (setValue v (nodeAt t p)) := by
    have := insert_eq_insertRec t (k, v)
    rw [hins] at this
    exact (Option.some.inj this).symm
  refine ⟨p, hp, hins, skeleton_setAt t p _ (skeleton_setValue v _), ?_, ?_⟩
  · have ho' := bstOrder_insertRec (k, v) t ho
    have h1 : itemAt (insertRec (k, v) t).1 (find (insertRec (k, v) t).1 k) = some (k, v) := by
      rw [itemAt_find _ k ho', find?_insertRec (k, v) t ho k]
      simp
    have h2 : find (setAt t p (setValue v (nodeAt t p))) k = some p := by
      have hsk : ∀ (a b : AVLNode K V) (q : NodePtr), skeleton a = skeleton b →
          internalFindHelper k a q = internalFindHelper k b q := by
        intro a
        induction a with
        | null =>
          intro b q h
          cases b with
          | null => rfl
          | node _ _ _ _ _ => simp [skeleton] at h
        | node l key val hh r ihl ihr =>
          intro b q h
          cases b with
          | null => simp [skeleton] at h
          | node l' key' val' hh' r' =>
            simp only [skeleton, node.injEq] at h
            obtain ⟨e1, e2, _, _, e3⟩ := h
            subst e2
            simp only [internalFindHelper, ihl l' _ e1, ihr r' _ e3]
      have := hsk _ t [] (skeleton_setAt t p _ (skeleton_setValue v (nodeAt t p)))
      simp only [find, internalFind, this]
      exact hp
    rw [hrec, h2] at h1
    simpa [itemAt] using h1
  · intro k' hne
    have ho' := bstOrder_insertRec (k, v) t ho
    rw [← hrec, itemAt_find _ k' ho', itemAt_find t k' ho, find?_insertRec (k, v) t ho k']
    have : ¬ k = k' := fun h => hne h.symm
    simp [this]

theorem insert_duplicate_updates_in_place_witness :
    BSTOrder exampleTree ∧ 6 ∈ keys exampleTree ∧
      ∃ p, find exampleTree 6 = some p ∧
        insert exampleTree (6, 61) =
          some (setAt exampleTree p (setValue 61 (nodeAt exampleTree p))) ∧
        skeleton (setAt exampleTree p (setValue 61 (nodeAt exampleTree p))) =
          skeleton exampleTree ∧
        getItem (nodeAt (setAt exampleTree p (setValue 61 (nodeAt exampleTree p))) p) =
          some (6, 61) ∧
        ∀ k', k' ≠ 6 →
          itemAt (setAt exampleTree p (setValue 61 (nodeAt exampleTree p)))
            (find (setAt exampleTree p (setValue 61 (nodeAt exampleTree p))) k') =
          itemAt exampleTree (find exampleTree k') :=
  ⟨by decide, by decide,
    insert_duplicate_updates_in_place exampleTree 6 61 (by decide) (by decide)⟩

/-- C10: removing an absent key is a no-op.  For every tree and every key that no node
carries, `remove` returns the very tree it was given: same shape, keys, values, stored
heights and root (BST order is not needed for this). -/
theorem remove_absent_is_noop [LinearOrder K] (t : AVLNode K V) (k : K) (hk : k ∉ keys t) :
    remove t k = some t := by
  have h := find_eq_none_of_not_mem t k hk
  simp only [find] at h
  simp only [remove, h]

theorem remove_absent_is_noop_witness :
    9 ∉ keys exampleTree ∧ remove exampleTree 9 = some exampleTree :=
  ⟨by decide, remove_absent_is_noop exampleTree 9 (by decide)⟩

end AVLTree

/-! ## In-order iteration -/

namespace AVLTree

open AVLNode BinarySearchTree

variable {K V : Type}

theorem leftmostLoop_snoc (t : AVLNode K V) (q : NodePtr) (d : Bool) :
    leftmostLoop t (q ++ [d]) = leftmostLoop t q ++ [d] := by
  induction t generalizing q with
  | null => rfl
  | node l k v h r ihl _ =>
    cases l with
    | null => rfl
    | node a b c e f => exact ihl (false :: q)

theorem begin_node (l r : AVLNode K V) (k : K) (v : V) (h : Nat) :
    begin_ (node l k v h r) =
      some (match begin_ l with
        | some q => q ++ [false]
        | none => []) := by
  cases l with
  | null => rfl
  | node a b c e f =>
    simp only [begin_, getSmallestNode, Option.some.injEq]
    exact leftmostLoop_snoc (node a b c e f) [] false

theorem getParent_climbLoop_true (p : NodePtr) :
    getParent (climbLoop (p ++ [true])) = (getParent (climbLoop p)).map fun q => q ++ [true] := by
  induction p with
  | nil => rfl
  | cons d p ih =>
    cases d with
    | true => exact ih
    | false => rfl

theorem getParent_climbLoop_false (p : NodePtr) :
    getParent (climbLoop (p ++ [false])) =
      some (match getParent (climbLoop p) with
        | some q => q ++ [false]
        | none => []) := by
  induction p with
  | nil => rfl
  | cons d p ih =>
    cases d with
    | true => exact ih
    | false => rfl

theorem operatorPlusPlus_left (l r : AVLNode K V) (k : K) (v : V) (h : Nat) (p : NodePtr) :
    operatorPlusPlus (node l k v h r) (some (p ++ [false])) =
      some (match operatorPlusPlus l (some p) with
        | some q => q ++ [false]
        | none => []) := by
  simp only [operatorPlusPlus, nodeAt_snoc, child_false_node]
  cases hc : child true (nodeAt l p) with
  | null => simp only [getParent_climbLoop_false]
  | node a b c e f =>
    simp only [Option.some.injEq]
    exact leftmostLoop_snoc (node a b c e f) (true :: p) false

theorem operatorPlusPlus_right (l r : AVLNode K V) (k : K) (v : V) (h : Nat) (p : NodePtr) :
    operatorPlusPlus (node l k v h r) (some (p ++ [true])) =
      (operatorPlusPlus r (some p)).map fun q => q ++ [true] := by
  simp only [operatorPlusPlus, nodeAt_snoc, child_true_node]
  cases hc : child true (nodeAt r p) with
  | null => simp only [getParent_climbLoop_true]
  | node a b c e f =>
    simp only [Option.map_some', Option.some.injEq]
    exact leftmostLoop_snoc (node a b c e f) (true :: p) true

theorem operatorPlusPlus_root (l r : AVLNode K V) (k : K) (v : V) (h : Nat) :
    operatorPlusPlus (node l k v h r) (some []) = (begin_ r).map fun q => q ++ [true] := by
  cases r with
  | null => rfl
  | node a b c e f =>
    simp only [operatorPlusPlus, nodeAt_nil, child_true_node, begin_, getSmallestNode,
      Option.map_some', Option.some.injEq]
    exact leftmostLoop_snoc (node a b c e f) [] true

theorem iterationSeg_append (next : Option NodePtr → Option NodePtr) (s m e : Option NodePtr)
    (L1 L2 : List NodePtr) (h1 : IterationSeg next s L1 m) (h2 : IterationSeg next m L2 e) :
    IterationSeg next s (L1 ++ L2) e := by
  induction L1 generalizing s with
  | nil =>
    simp only [IterationSeg] at h1
    subst h1
    exact h2
  | cons a L1 ih => exact ⟨h1.1, ih _ h1.2⟩

/-- An iteration in a subtree, seen from the tree. -/
theorem iterationSeg_map (next next' : Option NodePtr → Option NodePtr)
    (g : Option NodePtr → Option NodePtr) (f : NodePtr → NodePtr)
    (hg : ∀ a, g (some a) = some (f a)) (hnext : ∀ a, next' (some (f a)) = g (next (some a)))
    (s e : Option NodePtr) (L : List NodePtr) (h : IterationSeg next s L e) :
    IterationSeg next' (g s) (L.map f) (g e) := by
  induction L generalizing s with
  | nil =>
    simp only [IterationSeg] at h
    subst h
    rfl
  | cons a L ih =>
    obtain ⟨h1, h2⟩ := h
    subst h1
    refine ⟨hg a, ?_⟩
    rw [hnext]
    exact ih _ h2

theorem iterationSeg_iterate (next : Option NodePtr → Option NodePtr) (hn : next none = none)
    (s : Option NodePtr) (L : List NodePtr) (h : IterationSeg next s L none) (i : Nat) :
    next^[i] s = L[i]? := by
  induction L generalizing s i with
  | nil =>
    simp only [IterationSeg] at h
    subst h
    simp only [List.getElem?_nil]
    induction i with
    | zero => rfl
    | succ i ih => rw [Function.iterate_succ_apply, hn, ih]
  | cons a L ih =>
    obtain ⟨h1, h2⟩ := h
    subst h1
    cases i with
    | zero => simp
    | succ i =>
      rw [Function.iterate_succ_apply, List.getElem?_cons_succ]
      exact ih _ h2 i

theorem iterationSeg_next (next : Option NodePtr → Option NodePtr) (s e : Option NodePtr)
    (L1 L2 : List NodePtr) (p : NodePtr) (h : IterationSeg next s (L1 ++ p :: L2) e) :
    IterationSeg next (next (some p)) L2 e := by
  induction L1 generalizing s with
  | nil => exact h.2
  | cons a L1 ih => exact ih _ h.2

/-- From `begin`, `operator++` goes through the nodes in in-order and then reaches the end
cursor. -/
theorem iterationSeg_nodes (t : AVLNode K V) :
    IterationSeg (operatorPlusPlus t) (begin_ t) (nodes t) none := by
  induction t with
  | null => rfl
  | node l k v h r ihl ihr =>
    have h1 := iterationSeg_map (operatorPlusPlus l) (operatorPlusPlus (node l k v h r))
      (fun s => some (match s with
        | some q => q ++ [false]
        | none => []))
      (fun q => q ++ [false]) (fun _ => rfl) (operatorPlusPlus_left l r k v h) _ _ _ ihl
    have h2 := iterationSeg_map (operatorPlusPlus r) (operatorPlusPlus (node l k v h r))
      (fun s => s.map fun q => q ++ [true])
      (fun q => q ++ [true]) (fun _ => rfl) (operatorPlusPlus_right l r k v h) _ _ _ ihr
    simp only [Option.map_none'] at h2
    have h3 : IterationSeg (operatorPlusPlus (node l k v h r)) (some [])
        ([] :: (nodes r).map (fun q => q ++ [true])) none :=
      ⟨rfl, by rw [operatorPlusPlus_root]; exact h2⟩
    rw [begin_node]
    exact iterationSeg_append _ _ _ _ _ _ h1 h3

end AVLTree

namespace AVLTree

open AVLNode BinarySearchTree

variable {K V : Type}

theorem length_nodes (t : AVLNode K V) : (nodes t).length = size t := by
  induction t with
  | null => rfl
  | node l k v h r ihl ihr => simp [nodes, size, ihl, ihr]; omega

theorem length_toList (t : AVLNode K V) : (toList t).length = size t := by
  induction t with
  | null => rfl
  | node l k v h r ihl ihr => simp [size, ihl, ihr]; omega

theorem map_getItem_nodes (t : AVLNode K V) :
    (nodes t).map (fun p => getItem (nodeAt t p)) = (toList t).map some := by
  induction t with
  | null => rfl
  | node l k v h r ihl ihr =>
    simp only [nodes, List.map_append, List.map_cons, List.map_map, toList_node, nodeAt_nil,
      getItem, ← ihl, ← ihr]
    congr 1
    · apply List.map_congr_left
      intro p _
      simp [nodeAt_snoc]
    · congr 1
      apply List.map_congr_left
      intro p _
      simp [nodeAt_snoc]

theorem mem_nodes (t : AVLNode K V) (p : NodePtr) : p ∈ nodes t ↔ nodeAt t p ≠ null := by
  induction t generalizing p with
  | null => simp [nodes]
  | node l k v h r ihl ihr =>
    simp only [nodes, List.mem_append, List.mem_map, List.mem_cons]
    rcases List.eq_nil_or_concat p with rfl | ⟨q, d, rfl⟩
    · simp
    · rw [List.concat_eq_append, nodeAt_snoc]
      cases d with
      | false =>
        simp only [child_false_node, ← ihl]
        constructor
        · rintro (⟨a, ha, he⟩ | he | ⟨a, ha, he⟩)
          · rw [List.append_left_inj] at he
            exact he ▸ ha
          · simp at he
          · have := List.append_inj_right' he rfl
            simp at this
        · intro hq
          exact Or.inl ⟨q, hq, rfl⟩
      | true =>
        simp only [child_true_node, ← ihr]
        constructor
        · rintro (⟨a, ha, he⟩ | he | ⟨a, ha, he⟩)
          · have := List.append_inj_right' he rfl
            simp at this
          · simp at he
          · rw [List.append_left_inj] at he
            exact he ▸ ha
        · intro hq
          exact Or.inr (Or.inr ⟨q, hq, rfl⟩)

theorem nodup_nodes (t : AVLNode K V) : (nodes t).Nodup := by
  induction t with
  | null => exact List.nodup_nil
  | node l k v h r ihl ihr =>
    have inj : ∀ d : Bool, Function.Injective (fun p : NodePtr => p ++ [d]) :=
      fun d a b hab => List.append_cancel_right hab
    simp only [nodes]
    rw [List.nodup_append]
    refine ⟨ihl.map (inj false), ?_, ?_⟩
    · rw [List.nodup_cons]
      refine ⟨?_, ihr.map (inj true)⟩
      simp
    · intro a ha hb
      simp only [List.mem_map] at ha
      obtain ⟨q, _, rfl⟩ := ha
      simp only [List.mem_cons, List.mem_map] at hb
      rcases hb with hb | ⟨q', _, hb⟩
      · simp at hb
      · have := List.append_inj_right' hb rfl
        simp at this

end AVLTree

namespace AVLTree

open AVLNode BinarySearchTree

variable {K V : Type}

/-- The node that follows a node in in-order is where `operator++` goes; after the last one
it goes to the end cursor. -/
theorem operatorPlusPlus_of_split (t : AVLNode K V) (L1 L2 : List NodePtr) (p : NodePtr)
    (h : nodes t = L1 ++ p :: L2) : operatorPlusPlus t (some p) = L2.head? := by
  have h1 := iterationSeg_nodes t
  rw [h] at h1
  have h2 := iterationSeg_next _ _ _ _ _ _ h1
  cases L2 with
  | nil => exact h2
  | cons q L2 => exact h2.1

/-- The in-order lists of the pointers and of the items split at the same place. -/
theorem toList_of_split (t : AVLNode K V) (L1 L2 : List NodePtr) (p : NodePtr)
    (h : nodes t = L1 ++ p :: L2) :
    ∃ T1 T2 item, toList t = T1 ++ item :: T2 ∧ getItem (nodeAt t p) = some item ∧
      T2.map some = L2.map (fun q => getItem (nodeAt t q)) := by
  have h1 := map_getItem_nodes t
  rw [h, List.map_append, List.map_cons] at h1
  obtain ⟨T1, T2', e1, _, e3⟩ := List.map_eq_append_iff.1 h1.symm
  obtain ⟨item, T2, e4, e5, e6⟩ := List.map_eq_cons_iff.1 e3
  exact ⟨T1, T2, item, by rw [e1, e4], e5.symm, e6⟩

end AVLTree

/-! ## Size, height and the balance diagnostic -/

namespace AVLTree

open AVLNode BinarySearchTree

variable {K V : Type}

/-- An AVL tree of height `h` has at least `fib (h + 2) - 1` nodes. -/
theorem fib_le_size (t : AVLNode K V) (ht : StoredAVL t) :
    Nat.fib (heightOrZero t + 2) ≤ size t + 1 := by
  induction t with
  | null => simp [size]
  | node l k v h r ihl ihr =>
    obtain ⟨e1, e2, e3, hl, hr⟩ := ht
    have h1 := ihl hl
    have h2 := ihr hr
    simp only [heightOrZero_node, size]
    by_cases hc : heightOrZero r ≤ heightOrZero l
    · have e4 : h = heightOrZero l + 1 := by omega
      have e5 : heightOrZero l ≤ heightOrZero r + 1 := e2
      have m : Nat.fib (heightOrZero l + 1) ≤ Nat.fib (heightOrZero r + 2) :=
        Nat.fib_mono (by omega)
      have key : Nat.fib (heightOrZero l + 1 + 2) =
          Nat.fib (heightOrZero l + 1) + Nat.fib (heightOrZero l + 2) := Nat.fib_add_two
      rw [e4, key]
      omega
    · have e4 : h = heightOrZero r + 1 := by omega
      have m : Nat.fib (heightOrZero r + 1) ≤ Nat.fib (heightOrZero l + 2) :=
        Nat.fib_mono (by omega)
      have key : Nat.fib (heightOrZero r + 1 + 2) =
          Nat.fib (heightOrZero r + 1) + Nat.fib (heightOrZero r + 2) := Nat.fib_add_two
      rw [e4, key]
      omega

theorem two_pow_le_fib_sq (h : Nat) : 2 ^ h ≤ Nat.fib (h + 2) ^ 2 := by
  induction h using Nat.strong_induction_on with
  | _ h ih =>
    match h with
    | 0 => decide
    | 1 => decide
    | n + 2 =>
      have h1 := ih n (by omega)
      have h2 : 2 * Nat.fib (n + 2) ≤ Nat.fib (n + 2 + 2) := by
        have key : Nat.fib (n + 2 + 2) = Nat.fib (n + 2) + Nat.fib (n + 3) := Nat.fib_add_two
        have m : Nat.fib (n + 2) ≤ Nat.fib (n + 3) := Nat.fib_mono (by omega)
        omega
      calc 2 ^ (n + 2) = 4 * 2 ^ n := by ring
        _ ≤ 4 * Nat.fib (n + 2) ^ 2 := by omega
        _ = (2 * Nat.fib (n + 2)) ^ 2 := by ring
        _ ≤ Nat.fib (n + 2 + 2) ^ 2 := Nat.pow_le_pow_left h2 2

/-- Every sequence of `insert` and `remove` calls runs without fault and keeps the AVL
invariant on stored heights and the BST order. -/
theorem foldlM_applyOperation [LinearOrder K] (ops : List (Operation K V)) (t : AVLNode K V)
    (ht : StoredAVL t) (ho : BSTOrder t) :
    ∃ t', ops.foldlM applyOperation t = some t' ∧ StoredAVL t' ∧ BSTOrder t' := by
  induction ops generalizing t with
  | nil => exact ⟨t, rfl, ht, ho⟩
  | cons op ops ih =>
    cases op with
    | insert kv =>
      simp only [List.foldlM_cons, applyOperation, insert_eq_insertRec, Option.some_bind,
        Option.bind_eq_bind]
      exact ih _ (storedAVL_insertRec kv t ht) (bstOrder_insertRec kv t ho)
    | remove key =>
      simp only [List.foldlM_cons, applyOperation, remove_eq_removeRec, Option.some_bind,
        Option.bind_eq_bind]
      cases hr : removeRec key t with
      | none => exact ih _ ht ho
      | some s =>
        exact ih _ (storedAVL_removeRec key t s ht hr).1 (removeRec_content key t s ho hr).1

theorem foldlM_insert [LinearOrder K] (items : List (K × V)) (t : AVLNode K V)
    (ht : StoredAVL t) (ho : BSTOrder t) :
    ∃ t', items.foldlM insert t = some t' ∧ StoredAVL t' ∧ BSTOrder t' := by
  induction items generalizing t with
  | nil => exact ⟨t, rfl, ht, ho⟩
  | cons kv items ih =>
    simp only [List.foldlM_cons, insert_eq_insertRec, Option.some_bind, Option.bind_eq_bind]
    exact ih _ (storedAVL_insertRec kv t ht) (bstOrder_insertRec kv t ho)

theorem isBalancedHelper_iff (t : AVLNode K V) : isBalancedHelper t = true ↔ AVLBalanced t := by
  induction t with
  | null => simp [isBalancedHelper, AVLBalanced]
  | node l k v h r ihl ihr =>
    simp only [isBalancedHelper, AVLBalanced, ← ihl, ← ihr]
    by_cases hc : Int.natAbs ((getHeight l : Int) - (getHeight r : Int)) > 1
    · simp only [hc, if_true]
      constructor
      · intro h; exact absurd h (by simp)
      · intro h; omega
    · simp only [hc, if_false, Bool.and_eq_true]
      constructor
      · intro h; exact ⟨by omega, h⟩
      · intro h; exact h.2

theorem getHeight_shape (t : AVLNode K V) : getHeight (shape t) = getHeight t := by
  induction t with
  | null => rfl
  | node l k v h r ihl ihr => simp only [shape, getHeight, ihl, ihr]

theorem isBalancedHelper_shape (t : AVLNode K V) :
    isBalancedHelper (shape t) = isBalancedHelper t := by
  induction t with
  | null => rfl
  | node l k v h r ihl ihr =>
    simp only [shape, isBalancedHelper, getHeight_shape, ihl, ihr]

theorem size_removeRec [LinearOrder K] (key : K) (t t' : AVLNode K V)
    (h : removeRec key t = some t') : size t' + 1 = size t := by
  obtain ⟨l1, v, l2, h1, h2⟩ := toList_removeRec key t t' h
  rw [← length_toList, ← length_toList, h1, h2]
  simp
  omega

end AVLTree

/-! ## The three nodes of a rebalancing step -/

namespace AVLTree

open AVLNode BinarySearchTree

variable {K V : Type}

/-- What `findXYZ` returns at a node whose children's stored heights differ by two or more:
`y` is the child on the side `d1` of the greater height (`true` = right), `x` is looked up
on the side `d2` of `y`, the side of the greater height or, when both are equal, the side
`d1`. -/
theorem findXYZ_of_unbalanced (root : AVLNode K V) (z : NodePtr) (zl zr : AVLNode K V) (zk : K)
    (zv : V) (zh : Nat) (hn : nodeAt root z = node zl zk zv zh zr)
    (hb : heightOrZero zl + 2 ≤ heightOrZero zr ∨ heightOrZero zr + 2 ≤ heightOrZero zl) :
    ∃ yl yk yv yh yr,
      nodeAt root (decide (heightOrZero zl ≤ heightOrZero zr) :: z) = node yl yk yv yh yr ∧
      findXYZ root z = some
        (if isNull (nodeAt root
            (decide (heightOrZero yl < heightOrZero yr ∨
              (heightOrZero yl = heightOrZero yr ∧ heightOrZero zl ≤ heightOrZero zr)) ::
              decide (heightOrZero zl ≤ heightOrZero zr) :: z))
          then none
          else some (decide (heightOrZero yl < heightOrZero yr ∨
              (heightOrZero yl = heightOrZero yr ∧ heightOrZero zl ≤ heightOrZero zr)) ::
              decide (heightOrZero zl ≤ heightOrZero zr) :: z),
          decide (heightOrZero zl ≤ heightOrZero zr) :: z, z,
          if heightOrZero zl ≤ heightOrZero zr then
            (if heightOrZero yl < heightOrZero yr ∨
              (heightOrZero yl = heightOrZero yr ∧ heightOrZero zl ≤ heightOrZero zr)
              then 1 else 4)
          else
            (if heightOrZero yl < heightOrZero yr ∨
              (heightOrZero yl = heightOrZero yr ∧ heightOrZero zl ≤ heightOrZero zr)
              then 3 else 2)) := by
  by_cases hc : heightOrZero zl ≤ heightOrZero zr
  · cases zr with
    | null => simp at hb hc; omega
    | node yl yk yv yh yr =>
      simp only [heightOrZero_node] at hb hc ⊢
      have h1 : ¬ yh < heightOrZero zl := by omega
      refine ⟨yl, yk, yv, yh, yr, by simp [hn, hc], ?_⟩
      by_cases h2 : heightOrZero yl < heightOrZero yr
      · have h3 : ¬ heightOrZero yr < heightOrZero yl := by omega
        have h4 : ¬ heightOrZero yl = heightOrZero yr := by omega
        simp [findXYZ, hn, hc, h1, h2, h3, h4]
      · by_cases h5 : heightOrZero yl = heightOrZero yr
        · simp [findXYZ, hn, hc, h1, h5]
        · have h3 : heightOrZero yr < heightOrZero yl := by omega
          simp [findXYZ, hn, hc, h1, h2, h3, h5]
  · cases zl with
    | null => simp at hc
    | node yl yk yv yh yr =>
      simp only [heightOrZero_node] at hb hc ⊢
      have h1 : heightOrZero zr < yh := by omega
      refine ⟨yl, yk, yv, yh, yr, by simp [hn, hc], ?_⟩
      by_cases h2 : heightOrZero yl < heightOrZero yr
      · have h3 : ¬ heightOrZero yr < heightOrZero yl := by omega
        have h4 : ¬ heightOrZero yl = heightOrZero yr := by omega
        simp [findXYZ, hn, hc, h1, h2, h3, h4]
      · by_cases h5 : heightOrZero yl = heightOrZero yr
        · simp [findXYZ, hn, hc, h1, h5]
        · have h3 : heightOrZero yr < heightOrZero yl := by omega
          simp [findXYZ, hn, hc, h1, h2, h3, h5]

end AVLTree

/-! ## Iteration, height bound, scenarios and `findXYZ` -/

namespace AVLTree

open AVLNode BinarySearchTree

variable {K V : Type}

/-- C11: in-order iteration is sorted and exact.  In a tree in BST order (parent and child
links agree by construction), the cursor reached from `begin()` by `i` applications of
`operator++` is at the `i`-th node in in-order, for every `i`, and is the end cursor from
`i = n` on, `n` being the number of nodes; the pointers of that in-order list are distinct
and are exactly the pointers to the nodes of the tree, their items are the in-order list of
the items, and the keys met are strictly ascending.  So every node is visited exactly once
and the end cursor is reached after exactly `n` advances, not before. -/
theorem inorder_iteration [LinearOrder K] (t : AVLNode K V) (ho : BSTOrder t) :
    (∀ i, (operatorPlusPlus t)^[i] (begin_ t) = (nodes t)[i]?) ∧
    (nodes t).Nodup ∧ (∀ p, p ∈ nodes t ↔ nodeAt t p ≠ null) ∧
    (nodes t).length = size t ∧
    (nodes t).map (fun p => getItem (nodeAt t p)) = (toList t).map some ∧
    (keys t).Pairwise (fun a b => a < b) ∧
    (operatorPlusPlus t)^[size t] (begin_ t) = end_ ∧
    ∀ i, i < size t → (operatorPlusPlus t)^[i] (begin_ t) ≠ end_ := by
  have hit := iterationSeg_iterate (operatorPlusPlus t) rfl _ _ (iterationSeg_nodes t)
  refine ⟨hit, nodup_nodes t, mem_nodes t, length_nodes t, map_getItem_nodes t,
    (bstOrder_iff_pairwise t).1 ho, ?_, ?_⟩
  · rw [hit, List.getElem?_eq_none (by rw [length_nodes])]
    rfl
  · intro i hi
    rw [hit, List.getElem?_eq_getElem (by rw [length_nodes]; exact hi)]
    simp [end_]

theorem inorder_iteration_witness :
    BSTOrder exampleTree ∧
      (∀ i, (operatorPlusPlus exampleTree)^[i] (begin_ exampleTree) = (nodes exampleTree)[i]?) ∧
      (nodes exampleTree).Nodup ∧ (∀ p, p ∈ nodes exampleTree ↔ nodeAt exampleTree p ≠ null) ∧
      (nodes exampleTree).length = size exampleTree ∧
      (nodes exampleTree).map (fun p => getItem (nodeAt exampleTree p)) =
        (toList exampleTree).map some ∧
      (keys exampleTree).Pairwise (fun a b => a < b) ∧
      (operatorPlusPlus exampleTree)^[size exampleTree] (begin_ exampleTree) = end_ ∧
      ∀ i, i < size exampleTree → (operatorPlusPlus exampleTree)^[i] (begin_ exampleTree) ≠ end_ :=
  ⟨by decide, inorder_iteration exampleTree (by decide)⟩

/-- C12: logarithmic height.  Every sequence of `insert` and `remove` calls on a tree that
starts empty runs without fault and ends in a tree with `n` nodes and height `h` such that
`fib (h + 2) ≤ n + 1` (`fib 1 = fib 2 = 1`); hence `2 ^ h ≤ (n + 1) ^ 2`, that is
`h ≤ 2 * log2 (n + 1)`, stated with the integer logarithm as `h ≤ 2 * log 2 (n + 1) + 1`. -/
theorem logarithmic_height [LinearOrder K] (ops : List (Operation K V)) :
    ∃ t, runOperations ops = some t ∧
      Nat.fib (getHeight t + 2) ≤ size t + 1 ∧
      2 ^ getHeight t ≤ (size t + 1) ^ 2 ∧
      getHeight t ≤ 2 * Nat.log 2 (size t + 1) + 1 := by
  obtain ⟨t, h1, h2, _⟩ := foldlM_applyOperation ops (null : AVLNode K V) trivial trivial
  have h3 := fib_le_size t h2
  rw [heightOrZero_eq_getHeight t ((storedAVL_iff t).1 h2).1] at h3
  have h4 : 2 ^ getHeight t ≤ (size t + 1) ^ 2 :=
    le_trans (two_pow_le_fib_sq _) (Nat.pow_le_pow_left h3 2)
  refine ⟨t, h1, h3, h4, ?_⟩
  have h5 : size t + 1 < 2 ^ (Nat.log 2 (size t + 1) + 1) :=
    Nat.lt_pow_succ_log_self (by decide) _
  have h6 : (size t + 1) ^ 2 < (2 ^ (Nat.log 2 (size t + 1) + 1)) ^ 2 :=
    Nat.pow_lt_pow_left h5 (by decide)
  rw [← pow_mul] at h6
  have h7 : getHeight t < (Nat.log 2 (size t + 1) + 1) * 2 :=
    (Nat.pow_lt_pow_iff_right (by decide : 1 < 2)).1 (lt_of_le_of_lt h4 h6)
  omega

/-- C13: three keys inserted in ascending order.  For all keys `a < b < c` (with any
values), inserting `a`, `b`, `c` in this order into the empty tree gives the tree whose root
is `b`, with the leaf `a` as left child and the leaf `c` as right child (stored heights
`1`, `2`, `1`); in particular for `10, 20, 30`. -/
theorem insert_ascending_three [LinearOrder K] (a b c : K) (va vb vc : V)
    (hab : a < b) (hbc : b < c) :
    insertAll [(a, va), (b, vb), (c, vc)] =
      some (.node (.node .null a va 1 .null) b vb 2 (.node .null c vc 1 .null)) := by
  have h1 : ¬ b < a := not_lt.mpr hab.le
  have h2 : ¬ b = a := fun h => lt_irrefl _ (h ▸ hab)
  have h3 : ¬ c < a := not_lt.mpr (hab.trans hbc).le
  have h4 : ¬ c = a := fun h => lt_irrefl _ (h ▸ (hab.trans hbc))
  have h5 : ¬ c < b := not_lt.mpr hbc.le
  have h6 : ¬ c = b := fun h => lt_irrefl _ (h ▸ hbc)
  simp [insertAll, insert_eq_insertRec, insertRec, insertUp, h1, h2, h3, h4, h5, h6,
    insertFix, findXYZ, balance, leftRotate, rightRotate, updateHeights]

theorem insert_ascending_three_witness :
    (10 : Nat) < 20 ∧ (20 : Nat) < 30 ∧
      insertAll [((10 : Nat), (100 : Nat)), (20, 200), (30, 300)] =
        some (.node (.node .null 10 100 1 .null) 20 200 2 (.node .null 30 300 1 .null)) :=
  ⟨by decide, by decide, insert_ascending_three 10 20 30 100 200 300 (by decide) (by decide)⟩

/-- C14: three keys inserted in zig-zag order.  For all keys `a < b < c` (with any values),
inserting `c`, `a`, `b` in this order into the empty tree gives the tree whose root is `b`,
with the leaf `a` as left child and the leaf `c` as right child (stored heights `1`, `2`,
`1`); in particular for `30, 10, 20`. -/
theorem insert_zigzag_three [LinearOrder K] (a b c : K) (va vb vc : V)
    (hab : a < b) (hbc : b < c) :
    insertAll [(c, vc), (a, va), (b, vb)] =
      some (.node (.node .null a va 1 .null) b vb 2 (.node .null c vc 1 .null)) := by
  have h1 : ¬ b < a := not_lt.mpr hab.le
  have h2 : ¬ b = a := fun h => lt_irrefl _ (h ▸ hab)
  have h3 : a < c := hab.trans hbc
  simp [insertAll, insert_eq_insertRec, insertRec, insertUp, h1, h2, h3, hbc,
    insertFix, findXYZ, balance, leftRotate, rightRotate, updateHeights]

theorem insert_zigzag_three_witness :
    (10 : Nat) < 20 ∧ (20 : Nat) < 30 ∧
      insertAll [((30 : Nat), (300 : Nat)), (10, 100), (20, 200)] =
        some (.node (.node .null 10 100 1 .null) 20 200 2 (.node .null 30 300 1 .null)) :=
  ⟨by decide, by decide, insert_zigzag_three 10 20 30 100 200 300 (by decide) (by decide)⟩

/-- C15: ascending insertion stays shallow.  Inserting the keys `1, 2, ..., 7` in ascending
order (with any values) into the empty tree gives the complete tree with root `4`; the
height stored in its root is `3` and its height recomputed from the shape is `3`. -/
theorem insert_one_to_seven (v1 v2 v3 v4 v5 v6 v7 : V) :
    ∃ t, insertAll [((1 : Nat), v1), (2, v2), (3, v3), (4, v4), (5, v5), (6, v6), (7, v7)] =
        some t ∧
      t = .node (.node (.node .null 1 v1 1 .null) 2 v2 2 (.node .null 3 v3 1 .null)) 4 v4 3
        (.node (.node .null 5 v5 1 .null) 6 v6 2 (.node .null 7 v7 1 .null)) ∧
      heightOrZero t = 3 ∧ getHeight t = 3 := by
  refine ⟨_, ?_, rfl, rfl, rfl⟩
  simp [insertAll, insert_eq_insertRec, insertRec, insertUp,
    insertFix, findXYZ, balance, leftRotate, rightRotate, updateHeights]

end AVLTree

namespace AVLTree

open AVLNode BinarySearchTree

variable {K V : Type}

/-- C16: deleting the root of a tree of seven nodes.  For every tree with seven nodes that
a sequence of `insert` calls builds from the empty tree, `remove` of the key of the root
returns a tree for which `isBalanced()` is true, that has six nodes, whose keys are exactly
the other keys, each of which `find` locates with the item it had, and in which `find` of
the removed key is the end cursor. -/
theorem remove_root_of_seven [LinearOrder K] (items : List (K × V)) (t l r : AVLNode K V)
    (k : K) (v : V) (h : Nat) (hi : insertAll items = some t) (hs : size t = 7)
    (hroot : t = .node l k v h r) :
    ∃ t', remove t k = some t' ∧ isBalanced t' = true ∧ size t' = 6 ∧
      (∀ x, x ∈ keys t' ↔ x ≠ k ∧ x ∈ keys t) ∧
      (∀ x, x ∈ keys t' → ∃ p w, find t' x = some p ∧ getItem (nodeAt t' p) = some (x, w) ∧
        itemAt t (find t x) = some (x, w)) ∧
      find t' k = end_ := by
  obtain ⟨t0, h0, hst, hor⟩ := foldlM_insert items (null : AVLNode K V) trivial trivial
  have e : t0 = t := Option.some.inj (h0.symm.trans hi)
  subst e
  have hk : k ∈ keys t0 := by rw [hroot]; simp [keys]
  obtain ⟨s, hrec⟩ := removeRec_isSome_of_mem k t0 hor hk
  obtain ⟨c1, c2, c3, c4⟩ := removeRec_content k t0 s hor hrec
  have hbal := ((storedAVL_iff s).1 (storedAVL_removeRec k t0 s hst hrec).1).2
  have hsz := size_removeRec k t0 s hrec
  refine ⟨s, by rw [remove_eq_removeRec, hrec]; rfl, (isBalancedHelper_iff s).2 hbal,
    by omega, c3, ?_, find_eq_none_of_not_mem s k c2⟩
  intro x hx
  obtain ⟨p, w, hp, hw⟩ := find_of_mem s x c1 hx
  refine ⟨p, w, hp, hw, ?_⟩
  have hne : x ≠ k := ((c3 x).1 hx).1
  rw [itemAt_find t0 x hor, ← c4 x hne, ← itemAt_find s x c1, hp]
  simpa [itemAt] using hw

theorem remove_root_of_seven_witness :
    insertAll [((1 : Nat), (10 : Nat)), (2, 20), (3, 30), (4, 40), (5, 50), (6, 60), (7, 70)] =
        some exampleTree ∧
      size exampleTree = 7 ∧
      ∃ t', remove exampleTree 4 = some t' ∧ isBalanced t' = true ∧ size t' = 6 ∧
        (∀ x, x ∈ keys t' ↔ x ≠ 4 ∧ x ∈ keys exampleTree) ∧
        (∀ x, x ∈ keys t' → ∃ p w, find t' x = some p ∧ getItem (nodeAt t' p) = some (x, w) ∧
          itemAt exampleTree (find exampleTree x) = some (x, w)) ∧
        find t' 4 = end_ :=
  ⟨by decide, by decide,
    remove_root_of_seven
      [((1 : Nat), (10 : Nat)), (2, 20), (3, 30), (4, 40), (5, 50), (6, 60), (7, 70)]
      exampleTree _ _ 4 40 3 (by decide) (by decide) rfl⟩

/-- C17: `isBalanced` is an exact and independent diagnostic.  For every tree, whatever its
stored heights, `isBalanced()` is true if and only if at every node the heights of the two
subtrees, recomputed from the shape, differ by at most one; it is true on the empty tree;
and it depends on the shape of the tree alone, so it does not read the stored heights. -/
theorem isBalanced_exact :
    (∀ t : AVLNode K V, isBalanced t = true ↔ AVLBalanced t) ∧
    isBalanced (null : AVLNode K V) = true ∧
    (∀ t t' : AVLNode K V, shape t = shape t' → isBalanced t = isBalanced t') := by
  refine ⟨fun t => isBalancedHelper_iff t, rfl, fun t t' h => ?_⟩
  simp only [isBalanced]
  rw [← isBalancedHelper_shape t, ← isBalancedHelper_shape t', h]

theorem isBalanced_exact_witness :
    shape (.node (.node .null 1 10 7 .null) 2 20 0 .null : AVLNode Nat Nat) =
        shape (.node (.node .null 1 10 1 .null) 2 20 2 .null : AVLNode Nat Nat) ∧
      isBalanced (.node (.node .null 1 10 7 .null) 2 20 0 .null : AVLNode Nat Nat) =
        isBalanced (.node (.node .null 1 10 1 .null) 2 20 2 .null : AVLNode Nat Nat) :=
  ⟨by decide, isBalanced_exact.2.2 _ _ (by decide)⟩

/-- C18: `operator++` is the in-order successor.  In a tree in BST order, from a cursor at a
node with key `k`, `operator++` goes to a node whose key is the smallest key of the tree
greater than `k`; it goes to the end cursor exactly when `k` is the largest key; and on the
end cursor it stays at the end cursor. -/
theorem operatorPlusPlus_successor [LinearOrder K] (t : AVLNode K V) (p : NodePtr) (k : K)
    (v : V) (ho : BSTOrder t) (hp : getItem (nodeAt t p) = some (k, v)) :
    (∀ q, operatorPlusPlus t (some p) = some q →
      ∃ k' v', getItem (nodeAt t q) = some (k', v') ∧ k < k' ∧ ∀ x ∈ keys t, k < x → k' ≤ x) ∧
    (operatorPlusPlus t (some p) = end_ ↔ ∀ x ∈ keys t, x ≤ k) ∧
    operatorPlusPlus t end_ = end_ := by
  have hmem : p ∈ nodes t := (mem_nodes t p).2 (by intro h; rw [h] at hp; simp [getItem] at hp)
  obtain ⟨L1, L2, hsplit⟩ := List.append_of_mem hmem
  have hnext := operatorPlusPlus_of_split t L1 L2 p hsplit
  obtain ⟨T1, T2, item, e1, e2, e3⟩ := toList_of_split t L1 L2 p hsplit
  rw [hp, Option.some.injEq] at e2
  subst e2
  have hpw := (bstOrder_iff_pairwise t).1 ho
  rw [keys_eq_map, e1] at hpw
  simp only [List.map_append, List.map_cons, List.pairwise_append, List.pairwise_cons,
    List.mem_map, List.mem_cons, forall_exists_index, and_imp] at hpw
  obtain ⟨_, ⟨p2, p3⟩, p4⟩ := hpw
  have hkeys : ∀ x, x ∈ keys t ↔ (∃ y ∈ T1, y.1 = x) ∨ x = k ∨ ∃ y ∈ T2, y.1 = x := by
    intro x
    rw [keys_eq_map, e1]
    simp only [List.map_append, List.map_cons, List.mem_append, List.mem_map, List.mem_cons]
  have hlow : ∀ y ∈ T1, y.1 < k := fun y hy => p4 y.1 y hy rfl k (Or.inl rfl)
  cases L2 with
  | nil =>
    have hT2 : T2 = [] := by simpa using e3
    subst hT2
    rw [hnext]
    refine ⟨fun q hq => absurd hq (by simp), ⟨fun _ x hx => ?_, fun _ => rfl⟩, rfl⟩
    rcases (hkeys x).1 hx with ⟨y, hy, rfl⟩ | rfl | ⟨y, hy, _⟩
    · exact (hlow y hy).le
    · exact le_refl _
    · simp at hy
  | cons q L2 =>
    obtain ⟨qi, T2', e4, e5, _⟩ := List.map_eq_cons_iff.1 e3
    subst e4
    have hq1 : k < qi.1 := p2 qi.1 qi (List.mem_cons_self _ _) rfl
    rw [hnext]
    simp only [List.head?_cons]
    refine ⟨fun q' hq' => ?_, ⟨fun h => absurd h (by simp [end_]), fun h => ?_⟩, rfl⟩
    · rw [Option.some.injEq] at hq'
      subst hq'
      refine ⟨qi.1, qi.2, by simpa using e5.symm, hq1, fun x hx hkx => ?_⟩
      rcases (hkeys x).1 hx with ⟨y, hy, rfl⟩ | rfl | ⟨y, hy, rfl⟩
      · exact absurd (hlow y hy) (lt_asymm hkx)
      · exact absurd hkx (lt_irrefl _)
      · rcases List.mem_cons.1 hy with rfl | hy'
        · exact le_refl _
        · have hp3 := p3
          simp only [List.map_cons, List.pairwise_cons, List.mem_map, forall_exists_index,
            and_imp] at hp3
          exact (hp3.1 y.1 y hy' rfl).le
    · have := h qi.1 ((hkeys qi.1).2 (Or.inr (Or.inr ⟨qi, List.mem_cons_self _ _, rfl⟩)))
      exact absurd hq1 (not_lt.mpr this)

theorem operatorPlusPlus_successor_witness :
    BSTOrder exampleTree ∧ getItem (nodeAt exampleTree [true, false]) = some (3, 30) ∧
      (∀ q, operatorPlusPlus exampleTree (some [true, false]) = some q →
        ∃ k' v', getItem (nodeAt exampleTree q) = some (k', v') ∧ 3 < k' ∧
          ∀ x ∈ keys exampleTree, 3 < x → k' ≤ x) ∧
      (operatorPlusPlus exampleTree (some [true, false]) = end_ ↔
        ∀ x ∈ keys exampleTree, x ≤ 3) ∧
      operatorPlusPlus exampleTree end_ = end_ :=
  ⟨by decide, by decide,
    operatorPlusPlus_successor exampleTree [true, false] 3 30 (by decide) (by decide)⟩

end AVLTree

namespace AVLTree

open AVLNode BinarySearchTree

variable {K V : Type}

/-- C19, as stated, fails on a left-left shape: at the root `z` of `leftLeftTree`, whose
children's stored heights are `2` and `0`, `findXYZ` takes `y` as the left child of `z` and
`x` as the left child of `y`, and the code it returns is `2`, not `1`. -/
theorem findXYZ_leftLeft_code :
    calculateBF (nodeAt leftLeftTree []) ≥ 2 ∧
      findXYZ leftLeftTree [] = some (some [false, false], [false], [], 2) ∧
      ¬ ∃ x y z, findXYZ leftLeftTree [] = some (x, y, z, 1) := by
  have h2 : findXYZ leftLeftTree [] = some (some [false, false], [false], [], 2) := by decide
  refine ⟨by decide, h2, ?_⟩
  rintro ⟨x, y, z, h⟩
  rw [h2] at h
  simp at h

/-- C19, amended: the pattern codes of `findXYZ`.  At every node `z` whose children's stored
heights differ by two or more, `findXYZ` returns without fault; `y` is a child of `z`, on
the side `d1`, `x` is what the side `d2` of `y` holds (a node whenever the stored heights
below `z` are exact), and the code is `2` for left-left, `1` for right-right, `3` for
left-right and `4` for right-left (`false` = left, `true` = right). -/
theorem findXYZ_pattern_codes (root : AVLNode K V) (z : NodePtr)
    (hb : calculateBF (nodeAt root z) ≥ 2) :
    ∃ d1 d2 m,
      findXYZ root z = some
        (if isNull (nodeAt root (d2 :: d1 :: z)) then none else some (d2 :: d1 :: z),
          d1 :: z, z, m) ∧
      nodeAt root (d1 :: z) ≠ null ∧
      (HeightsExact (nodeAt root z) → nodeAt root (d2 :: d1 :: z) ≠ null) ∧
      (d1 = false ∧ d2 = false → m = 2) ∧ (d1 = true ∧ d2 = true → m = 1) ∧
      (d1 = false ∧ d2 = true → m = 3) ∧ (d1 = true ∧ d2 = false → m = 4) := by
  cases hn : nodeAt root z with
  | null => rw [hn] at hb; simp at hb
  | node zl zk zv zh zr =>
    rw [hn] at hb
    simp only [calculateBF_node] at hb
    obtain ⟨yl, yk, yv, yh, yr, hy, hf⟩ :=
      findXYZ_of_unbalanced root z zl zr zk zv zh hn (by omega)
    refine ⟨_, _, _, hf, by rw [hy]; simp, ?_, ?_, ?_, ?_, ?_⟩
    · intro hh
      have hy' := hy
      simp only [nodeAt_cons, hn] at hy'
      have hyh : HeightsExact (node yl yk yv yh yr) := by
        rw [← hy']; exact heightsExact_child _ _ hh
      have hyv : yh = max (heightOrZero zl) (heightOrZero zr) := by
        have := congrArg heightOrZero hy'
        simp only [heightOrZero_node] at this
        rw [← this]
        by_cases hc : heightOrZero zl ≤ heightOrZero zr
        · simp [hc]
        · simp [hc]; omega
      obtain ⟨e1, _, _⟩ := hyh
      rw [nodeAt_cons, hy]
      by_cases hc2 : heightOrZero yl < heightOrZero yr ∨
          (heightOrZero yl = heightOrZero yr ∧ heightOrZero zl ≤ heightOrZero zr)
      · simp only [hc2, decide_True, child_true_node]
        intro hnull
        rw [hnull] at e1 hc2
        simp only [heightOrZero_null] at e1 hc2
        omega
      · simp only [hc2, decide_False, child_false_node]
        intro hnull
        rw [hnull] at e1 hc2
        simp only [heightOrZero_null] at e1 hc2
        omega
    · rintro ⟨h1, h2⟩
      simp only [decide_eq_false_iff_not] at h1 h2
      rw [if_neg h1, if_neg h2]
    · rintro ⟨h1, h2⟩
      simp only [decide_eq_true_eq] at h1 h2
      rw [if_pos h1, if_pos h2]
    · rintro ⟨h1, h2⟩
      simp only [decide_eq_false_iff_not, decide_eq_true_eq] at h1 h2
      rw [if_neg h1, if_pos h2]
    · rintro ⟨h1, h2⟩
      simp only [decide_eq_false_iff_not, decide_eq_true_eq] at h1 h2
      rw [if_pos h1, if_neg h2]

theorem findXYZ_pattern_codes_witness :
    calculateBF (nodeAt leftLeftTree []) ≥ 2 ∧
      ∃ d1 d2 m,
        findXYZ leftLeftTree [] = some
          (if isNull (nodeAt leftLeftTree (d2 :: d1 :: [])) then none
            else some (d2 :: d1 :: []), d1 :: [], [], m) ∧
        nodeAt leftLeftTree (d1 :: []) ≠ null ∧
        (HeightsExact (nodeAt leftLeftTree []) → nodeAt leftLeftTree (d2 :: d1 :: []) ≠ null) ∧
        (d1 = false ∧ d2 = false → m = 2) ∧ (d1 = true ∧ d2 = true → m = 1) ∧
        (d1 = false ∧ d2 = true → m = 3) ∧ (d1 = true ∧ d2 = false → m = 4) :=
  ⟨by decide, findXYZ_pattern_codes leftLeftTree [] (by decide)⟩

/-- C20: the selection of `findXYZ` and its tie-break.  At a node `z` whose children's
stored heights differ by two or more, with exact stored heights below, `findXYZ` returns
without fault; `y` is the child of `z` of the greater height and `x` the child of `y` of the
greater height, both existing nodes; when the two children of `y` have equal heights, `x` is
the child of `y` on the side on which `y` is a child of `z`, and the code returned is `1` or
`2`, a single rotation, never `3` or `4`. -/
theorem findXYZ_selection (root : AVLNode K V) (z : NodePtr) (zl zr : AVLNode K V) (zk : K)
    (zv : V) (zh : Nat) (hn : nodeAt root z = .node zl zk zv zh zr)
    (hb : heightOrZero zl + 2 ≤ heightOrZero zr ∨ heightOrZero zr + 2 ≤ heightOrZero zl)
    (hh : HeightsExact (.node zl zk zv zh zr)) :
    ∃ d1 d2 m yl yk yv yh yr xl xk xv xh xr,
      findXYZ root z = some (some (d2 :: d1 :: z), d1 :: z, z, m) ∧
      nodeAt root (d1 :: z) = .node yl yk yv yh yr ∧
      yh = max (heightOrZero zl) (heightOrZero zr) ∧
      (d1 = true ↔ heightOrZero zl < heightOrZero zr) ∧
      nodeAt root (d2 :: d1 :: z) = .node xl xk xv xh xr ∧
      xh = max (heightOrZero yl) (heightOrZero yr) ∧
      (heightOrZero yl ≠ heightOrZero yr → (d2 = true ↔ heightOrZero yl < heightOrZero yr)) ∧
      (heightOrZero yl = heightOrZero yr → d2 = d1 ∧ (m = 1 ∨ m = 2)) := by
  obtain ⟨yl, yk, yv, yh, yr, hy, hf⟩ := findXYZ_of_unbalanced root z zl zr zk zv zh hn hb
  have hy' := hy
  simp only [nodeAt_cons, hn] at hy'
  have hyh : HeightsExact (node yl yk yv yh yr) := by
    rw [← hy']; exact heightsExact_child _ _ hh
  have hyv : yh = max (heightOrZero zl) (heightOrZero zr) := by
    have := congrArg heightOrZero hy'
    simp only [heightOrZero_node] at this
    rw [← this]
    by_cases hc : heightOrZero zl ≤ heightOrZero zr
    · simp [hc]
    · simp [hc]; omega
  obtain ⟨e1, _, _⟩ := hyh
  have hx : ∃ xl xk xv xh xr,
      nodeAt root (decide (heightOrZero yl < heightOrZero yr ∨
        (heightOrZero yl = heightOrZero yr ∧ heightOrZero zl ≤ heightOrZero zr)) ::
        decide (heightOrZero zl ≤ heightOrZero zr) :: z) = node xl xk xv xh xr ∧
      xh = max (heightOrZero yl) (heightOrZero yr) := by
    rw [nodeAt_cons, hy]
    by_cases hc2 : heightOrZero yl < heightOrZero yr ∨
        (heightOrZero yl = heightOrZero yr ∧ heightOrZero zl ≤ heightOrZero zr)
    · simp only [hc2, decide_True, child_true_node]
      cases yr with
      | null => simp only [heightOrZero_null] at e1 hc2; omega
      | node a b c d e =>
        simp only [heightOrZero_node] at hc2 ⊢
        exact ⟨a, b, c, d, e, rfl, by omega⟩
    · simp only [hc2, decide_False, child_false_node]
      cases yl with
      | null => simp only [heightOrZero_null] at e1 hc2; omega
      | node a b c d e =>
        simp only [heightOrZero_node] at hc2 ⊢
        exact ⟨a, b, c, d, e, rfl, by omega⟩
  obtain ⟨xl, xk, xv, xh, xr, hx1, hx2⟩ := hx
  rw [hx1] at hf
  simp only [isNull_node, Bool.false_eq_true, if_false] at hf
  refine ⟨_, _, _, yl, yk, yv, yh, yr, xl, xk, xv, xh, xr, hf, hy, hyv, ?_, hx1, hx2, ?_, ?_⟩
  · simp only [decide_eq_true_eq]
    omega
  · intro hne
    simp only [decide_eq_true_eq]
    constructor
    · rintro (h | h)
      · exact h
      · exact absurd h.1 hne
    · intro h; exact Or.inl h
  · intro heq
    by_cases hc : heightOrZero zl ≤ heightOrZero zr
    · simp [heq, hc]
    · simp [heq, hc]

theorem findXYZ_selection_witness :
    nodeAt leftLeftTree [] =
        .node (.node (.node .null 10 100 1 .null) 20 200 2 .null) 30 300 3 .null ∧
      HeightsExact leftLeftTree ∧
      ∃ d1 d2 m yl yk yv yh yr xl xk xv xh xr,
        findXYZ leftLeftTree [] = some (some (d2 :: d1 :: []), d1 :: [], [], m) ∧
        nodeAt leftLeftTree (d1 :: []) = .node yl yk yv yh yr ∧
        yh = max (heightOrZero (.node (.node .null 10 100 1 .null) 20 200 2 .null :
          AVLNode Nat Nat)) (heightOrZero (.null : AVLNode Nat Nat)) ∧
        (d1 = true ↔ heightOrZero (.node (.node .null 10 100 1 .null) 20 200 2 .null :
          AVLNode Nat Nat) < heightOrZero (.null : AVLNode Nat Nat)) ∧
        nodeAt leftLeftTree (d2 :: d1 :: []) = .node xl xk xv xh xr ∧
        xh = max (heightOrZero yl) (heightOrZero yr) ∧
        (heightOrZero yl ≠ heightOrZero yr → (d2 = true ↔ heightOrZero yl < heightOrZero yr)) ∧
        (heightOrZero yl = heightOrZero yr → d2 = d1 ∧ (m = 1 ∨ m = 2)) :=
  ⟨rfl, by decide,
    findXYZ_selection leftLeftTree [] _ _ 30 300 3 rfl (by decide) (by decide)⟩

end AVLTree

/-! ## The postcondition of `updateHeights` -/

namespace AVLTree

open AVLNode BinarySearchTree

variable {K V : Type}

theorem setAt_null_null (p : NodePtr) : setAt (null : AVLNode K V) p null = null := by
  induction p with
  | nil => rfl
  | cons d p ih => simp [ih]

theorem updateHeightsLoop_null (p : NodePtr) :
    updateHeightsLoop (null : AVLNode K V) p = null := by
  induction p with
  | nil => rfl
  | cons d p ih => simp [setAt_null_null, ih]

theorem child_setChild_ne (d e : Bool) (s R : AVLNode K V) (h : e ≠ d) :
    child e (setChild d s R) = child e R := by
  cases R with
  | null => rfl
  | node l k v hh r => cases d <;> cases e <;> simp_all

theorem suffix_snoc_iff (q p : NodePtr) (d : Bool) :
    q <:+ p ++ [d] ↔ q = [] ∨ ∃ q0, q = q0 ++ [d] ∧ q0 <:+ p := by
  rw [← List.reverse_prefix, List.reverse_append, List.reverse_singleton, List.singleton_append,
    List.prefix_cons_iff]
  constructor
  · rintro (h | ⟨t, h1, h2⟩)
    · left
      simpa using h
    · right
      refine ⟨t.reverse, ?_, ?_⟩
      · have := congrArg List.reverse h1
        simpa using this
      · rw [← List.reverse_prefix]
        simpa using h2
  · rintro (rfl | ⟨q0, rfl, h0⟩)
    · left
      rfl
    · right
      refine ⟨q0.reverse, by simp, ?_⟩
      rwa [List.reverse_prefix]

theorem localExact_updateHeight (R : AVLNode K V) : LocalExact (updateHeight R) := by
  cases R with
  | null => trivial
  | node l k v h r => simp [LocalExact]

theorem localExact_updateHeightsLoop (R : AVLNode K V) (s q : NodePtr) (h : q <:+ s) :
    LocalExact (nodeAt (updateHeightsLoop R s) q) := by
  induction s using List.reverseRecOn generalizing R q with
  | nil =>
    have : q = [] := by simpa using h
    subst this
    exact localExact_updateHeight R
  | append_singleton p d ih =>
    by_cases hR : R = null
    · subst hR
      simp [updateHeightsLoop_null, LocalExact]
    · rw [updateHeightsLoop_snoc R hR]
      rcases (suffix_snoc_iff q p d).1 h with rfl | ⟨q0, rfl, h0⟩
      · exact localExact_updateHeight _
      · rw [nodeAt_snoc, child_updateHeight, child_setChild _ _ _ hR]
        exact ih _ _ h0

theorem nodeAt_updateHeightsLoop_off (R : AVLNode K V) (s q : NodePtr) (h : ¬ q <:+ s) :
    nodeAt (updateHeightsLoop R s) q = nodeAt R q := by
  induction s using List.reverseRecOn generalizing R q with
  | nil =>
    rcases List.eq_nil_or_concat q with rfl | ⟨q0, e, rfl⟩
    · exact absurd (List.suffix_refl _) h
    · simp [nodeAt_snoc]
  | append_singleton p d ih =>
    by_cases hR : R = null
    · subst hR
      simp [updateHeightsLoop_null]
    · rw [updateHeightsLoop_snoc R hR]
      rcases List.eq_nil_or_concat q with rfl | ⟨q0, e, rfl⟩
      · exact absurd List.nil_suffix h
      · simp only [List.concat_eq_append, nodeAt_snoc, child_updateHeight]
        by_cases he : e = d
        · subst he
          rw [child_setChild _ _ _ hR]
          apply ih
          intro h0
          exact h ((suffix_snoc_iff _ _ _).2 (Or.inr ⟨q0, by simp, h0⟩))
        · rw [child_setChild_ne _ _ _ _ he]

theorem shape_setChild (d : Bool) (s N : AVLNode K V) (h : shape s = shape (child d N)) :
    shape (setChild d s N) = shape N := by
  cases N with
  | null => rfl
  | node l k v hh r => cases d <;> simp_all [shape]

theorem shape_updateHeight (R : AVLNode K V) : shape (updateHeight R) = shape R := by
  cases R with
  | null => rfl
  | node l k v h r => rfl

theorem shape_updateHeightsLoop (R : AVLNode K V) (s : NodePtr) :
    shape (updateHeightsLoop R s) = shape R := by
  induction s using List.reverseRecOn generalizing R with
  | nil => exact shape_updateHeight R
  | append_singleton p d ih =>
    by_cases hR : R = null
    · subst hR
      simp [updateHeightsLoop_null]
    · rw [updateHeightsLoop_snoc R hR, shape_updateHeight]
      exact shape_setChild _ _ _ (ih _)

theorem exactSiblings_snoc (R : AVLNode K V) (p : NodePtr) (d : Bool) :
    ExactSiblings R (p ++ [d]) ↔ ExactSiblings (child d R) p ∧ HeightsExact (child (!d) R) := by
  induction p with
  | nil => simp [ExactSiblings]
  | cons e p ih =>
    have h1 : ExactSiblings R ((e :: p) ++ [d]) ↔
        HeightsExact (nodeAt R (((!e) :: p) ++ [d])) ∧ ExactSiblings R (p ++ [d]) := Iff.rfl
    have h2 : ExactSiblings (child d R) (e :: p) ↔
        HeightsExact (nodeAt (child d R) ((!e) :: p)) ∧ ExactSiblings (child d R) p := Iff.rfl
    rw [h1, h2, ih, nodeAt_snoc, and_assoc]

theorem exactOffPath_snoc (R : AVLNode K V) (p : NodePtr) (d : Bool) :
    ExactOffPath R (p ++ [d]) ↔ ExactOffPath (child d R) p ∧ HeightsExact (child (!d) R) := by
  have h1 : nodeAt R (false :: (p ++ [d])) = nodeAt (child d R) (false :: p) := by
    rw [← List.cons_append, nodeAt_snoc]
  have h2 : nodeAt R (true :: (p ++ [d])) = nodeAt (child d R) (true :: p) := by
    rw [← List.cons_append, nodeAt_snoc]
  simp only [ExactOffPath, exactSiblings_snoc, h1, h2, and_assoc]

theorem heightsExact_updateHeightsLoop (R : AVLNode K V) (s : NodePtr) (h : ExactOffPath R s) :
    HeightsExact (updateHeightsLoop R s) := by
  induction s using List.reverseRecOn generalizing R with
  | nil =>
    cases R with
    | null => trivial
    | node l k v hh r =>
      obtain ⟨h1, h2, _⟩ := h
      exact ⟨rfl, h1, h2⟩
  | append_singleton p d ih =>
    rw [exactOffPath_snoc] at h
    cases R with
    | null => simp [updateHeightsLoop_null, HeightsExact]
    | node l k v hh r =>
      rw [updateHeightsLoop_snoc _ (by simp)]
      have := ih _ h.1
      cases d
      · exact ⟨rfl, this, h.2⟩
      · exact ⟨rfl, h.2, this⟩

/-- C23: `updateHeights(s)` leaves every node on the way from `s` up to the root (the
pointers that are a final part of `s`) storing `1 + max` of the heights stored in its two
children, `0` for an absent child; a pointer that is not on this way designates afterwards
the subtree it designated before, so the stored height of every node off the way is
unchanged; the shape and the items of the tree stay; when every node off the way stored its
exact height, every node of the tree does afterwards; and `updateHeights(NULL)` changes
nothing.  The first parts hold whatever the heights off the way are. -/
theorem updateHeights_postcondition (root : AVLNode K V) (s : NodePtr) :
    (∀ q, q <:+ s → LocalExact (nodeAt (updateHeights root (some s)) q)) ∧
    (∀ q, ¬ q <:+ s → nodeAt (updateHeights root (some s)) q = nodeAt root q) ∧
    shape (updateHeights root (some s)) = shape root ∧
    toList (updateHeights root (some s)) = toList root ∧
    (ExactOffPath root s → HeightsExact (updateHeights root (some s))) ∧
    updateHeights root none = root :=
  ⟨localExact_updateHeightsLoop root s, nodeAt_updateHeightsLoop_off root s,
    shape_updateHeightsLoop root s, toList_updateHeightsLoop root s,
    heightsExact_updateHeightsLoop root s, rfl⟩

/-- C23 on the tree of the keys `1, ..., 7` after a new leaf `0` is linked below the node
`1`: every node off the way from the node `1` to the root stores its exact height, so
`updateHeights` of the node `1` makes all stored heights exact. -/
theorem updateHeights_postcondition_witness :
    ExactOffPath (setAt exampleTree [false, false, false] (.node .null 0 0 1 .null))
        [false, false] ∧
      HeightsExact (updateHeights
        (setAt exampleTree [false, false, false] (.node .null 0 0 1 .null))
        (some [false, false])) :=
  ⟨by decide, (updateHeights_postcondition _ _).2.2.2.2.1 (by decide)⟩

end AVLTree

/-! ## A removal that rebalances twice -/

namespace AVLTree

open AVLNode BinarySearchTree

variable {K V : Type}

theorem removeStepTrace_fst (root : AVLNode K V) (temp : NodePtr) :
    (removeStepTrace root temp).map Prod.fst = removeStep root temp := by
  unfold removeStepTrace removeStep
  split
  · cases findXYZ root temp with
    | none => rfl
    | some r =>
      simp only [Option.some_bind]
      cases balance root r.1 r.2.1 r.2.2.1 r.2.2.2 <;> rfl
  · rfl

theorem removeLoopTrace_fst (root : AVLNode K V) (temp : NodePtr) :
    (removeLoopTrace root temp).map Prod.fst = removeLoop root temp := by
  induction temp generalizing root with
  | nil => exact removeStepTrace_fst root []
  | cons d p ih =>
    simp only [removeLoopTrace, removeLoop]
    rw [← removeStepTrace_fst]
    cases removeStepTrace root (d :: p) with
    | none => rfl
    | some res =>
      simp only [Option.some_bind, Option.map_some', Option.map_map]
      rw [← ih]
      cases removeLoopTrace res.1 p <;> rfl

theorem removeRebalanceTrace_fst (root : AVLNode K V) (temp : Option NodePtr) :
    (removeRebalanceTrace root temp).map Prod.fst = removeRebalance root temp := by
  cases temp with
  | none => rfl
  | some p => exact removeLoopTrace_fst _ p

theorem removeFoundTrace_fst (root : AVLNode K V) (findRes : NodePtr) :
    (removeFoundTrace root findRes).map Prod.fst = removeFound root findRes := by
  unfold removeFoundTrace removeFound
  simp only
  cases nodeAt root findRes with
  | null => exact removeRebalanceTrace_fst _ _
  | node l k v h r =>
    cases l with
    | null => exact removeRebalanceTrace_fst _ _
    | node la lk lv lh lr =>
      cases r with
      | null => exact removeRebalanceTrace_fst _ _
      | node ra rk rv rh rr =>
        simp only
        cases predecessor root findRes with
        | none => rfl
        | some pred => exact removeRebalanceTrace_fst _ _

/-- The function `removeTrace` returns the tree that `remove` returns. -/
theorem removeTrace_fst [LinearOrder K] (root : AVLNode K V) (key : K) :
    (removeTrace root key).map Prod.fst = remove root key := by
  unfold removeTrace remove
  cases internalFind root key with
  | none => rfl
  | some findRes => exact removeFoundTrace_fst _ _

/-- C27: one `remove` can call `balance` at two nodes.  The tree `fibonacciTree` is what
`insert` builds from the empty tree with the twelve items of `fibonacciItems`; the key `12` is
in it; `remove(12)` calls `balance` first at the node with key `11` (the right child of the
root) and then, one level up, at the root, the node with key `8`, which has a height
difference of `2` once the first call is done; and the tree returned is AVL-balanced, as
`isBalanced` confirms. -/
theorem remove_rebalances_twice :
    insertAll fibonacciItems = some fibonacciTree ∧
    12 ∈ keys fibonacciTree ∧
    removeTrace fibonacciTree 12 =
      some (fibonacciTreeWithout12, [([true], some (11, 110)), ([], some (8, 80))]) ∧
    remove fibonacciTree 12 = some fibonacciTreeWithout12 ∧
    (removeStep (updateHeights (unlink fibonacciTree [true, true]) (some [true])) [true]).map
      (fun r => calculateBF r) = some 2 ∧
    AVLBalanced fibonacciTreeWithout12 ∧ HeightsExact fibonacciTreeWithout12 ∧
    isBalanced fibonacciTreeWithout12 = true := by
  refine ⟨by decide, by decide, by decide, by decide, by decide, by decide, by decide, by decide⟩

end AVLTree

/-! ## The height after a rebalancing insertion, and insertion undone by removal -/

namespace AVLTree

open AVLNode BinarySearchTree

variable {K V : Type}

theorem findXYZ_z (R : AVLNode K V) (p : NodePtr)
    (r : Option NodePtr × NodePtr × NodePtr × Nat) (h : findXYZ R p = some r) : r.2.2.1 = p := by
  unfold findXYZ at h
  split at h
  · exact absurd h (by simp)
  · simp only at h
    split at h
    · exact absurd h (by simp)
    · simp only [Option.some.injEq] at h
      subst h
      rfl

theorem insertSearch_nil_eq (R : AVLNode K V) (z : NodePtr) (h : insertSearch R [] = some z) :
    z = [] := by
  simp only [insertSearch] at h
  split at h
  · simpa using h.symm
  · exact absurd h (by simp)

theorem insertSearch_ge (R : AVLNode K V) (p z : NodePtr) (h : insertSearch R p = some z) :
    calculateBF (nodeAt R z) ≥ 2 := by
  induction p with
  | nil =>
    simp only [insertSearch] at h
    split at h
    · rename_i hb
      simp only [Option.some.injEq] at h
      subst h
      exact hb
    · exact absurd h (by simp)
  | cons d p ih =>
    simp only [insertSearch] at h
    split at h
    · rename_i hb
      simp only [Option.some.injEq] at h
      subst h
      exact hb
    · exact ih h

/-- The search for the first unbalanced node above a slot that lies below the child of `R`
on side `d`: it stops at `R` or it is the search made in that child. -/
theorem insertSearch_setAt_snoc (R leaf : AVLNode K V) (hR : R ≠ null) (d e : Bool)
    (p z : NodePtr)
    (hz : insertSearch (updateHeights (setAt R (e :: (p ++ [d])) leaf) (some (p ++ [d])))
      (p ++ [d]) = some z) :
    z = [] ∨ ∃ q, z = q ++ [d] ∧
      insertSearch (updateHeights (setAt (child d R) (e :: p) leaf) (some p)) p = some q := by
  have hset : setAt R (e :: (p ++ [d])) leaf = setChild d (setAt (child d R) (e :: p) leaf) R := by
    rw [← List.cons_append, setAt_snoc]
  have hne : setChild d (setAt (child d R) (e :: p) leaf) R ≠ null := setChild_ne_null _ _ _ hR
  rw [hset, updateHeights_snoc _ hne, insertSearch_snoc] at hz
  simp only [child_updateHeight, child_setChild _ _ _ hR, setChild_setChild] at hz
  cases hs : insertSearch (updateHeights (setAt (child d R) (e :: p) leaf) (some p)) p with
  | some q =>
    rw [hs] at hz
    simp only [Option.some.injEq] at hz
    exact Or.inr ⟨q, hz.symm, rfl⟩
  | none =>
    rw [hs] at hz
    simp only at hz
    split at hz
    · simp only [Option.some.injEq] at hz
      exact Or.inl hz.symm
    · exact absurd hz (by simp)

theorem heightOrZero_insertRec_stopped [LinearOrder K] (kv : K × V) (t : AVLNode K V)
    (ht : StoredAVL t) (e : Bool) (p z : NodePtr)
    (h : insertWalk kv.1 t [] = InsertWalk.slot e p)
    (hz : insertSearch (updateHeights (setAt t (e :: p) (.node .null kv.1 kv.2 1 .null))
      (some p)) p = some z) :
    (insertRec kv t).2 = InsertStatus.stopped ∧
      heightOrZero (insertRec kv t).1 = heightOrZero t := by
  have h2 := (insertRec_slot kv t e p h).2
  rw [hz] at h2
  simp only [Option.isSome_some, if_true] at h2
  exact ⟨h2, (insertSpec_insertRec kv t ht).2.1 (by rw [h2]; decide)⟩

theorem insertUp_stopped (d : Bool) (n : AVLNode K V) (hn : n ≠ null)
    (res : AVLNode K V × InsertStatus) (h : res.2 = InsertStatus.stopped) :
    child d (insertUp d n res).1 = res.1 := by
  simp only [insertUp, h, child_updateHeight, child_setChild _ _ _ hn]

/-- The subtree found after `insert` at the place of the first unbalanced node `z` stores the
height that the node `z` stored before. -/
theorem heightOrZero_insertRec_at [LinearOrder K] (kv : K × V) (t : AVLNode K V)
    (ht : StoredAVL t) (e : Bool) (p z : NodePtr)
    (h : insertWalk kv.1 t [] = InsertWalk.slot e p)
    (hz : insertSearch (updateHeights (setAt t (e :: p) (.node .null kv.1 kv.2 1 .null))
      (some p)) p = some z) :
    heightOrZero (nodeAt (insertRec kv t).1 z) = heightOrZero (nodeAt t z) := by
  induction t generalizing e p z with
  | null => simp [insertWalk] at h
  | node l k v hh r ihl ihr =>
    have hroot := (heightOrZero_insertRec_stopped kv _ ht e p z h hz).2
    have hl' : StoredAVL l := ht.2.2.2.1
    have hr' : StoredAVL r := ht.2.2.2.2
    simp only [insertWalk] at h
    split at h
    · rename_i hlt
      have hw := insertWalk_snoc kv.1 l [] false
      simp only [List.nil_append] at hw
      rw [hw] at h
      cases hl : insertWalk kv.1 l [] with
      | found q' => rw [hl] at h; simp [liftWalk] at h
      | emptyTree =>
        rw [hl] at h
        simp only [liftWalk, InsertWalk.slot.injEq] at h
        obtain ⟨rfl, rfl⟩ := h
        have := insertSearch_nil_eq _ _ hz
        subst this
        exact hroot
      | slot e' p' =>
        rw [hl] at h
        simp only [liftWalk, InsertWalk.slot.injEq] at h
        obtain ⟨rfl, rfl⟩ := h
        rcases insertSearch_setAt_snoc _ _ (by simp) false e' p' z hz with rfl | ⟨q, rfl, hq⟩
        · exact hroot
        · simp only [child_false_node] at hq
          have hs := (heightOrZero_insertRec_stopped kv l hl' e' p' q hl hq).1
          have e1 : insertRec kv (node l k v hh r) =
              insertUp false (node l k v hh r) (insertRec kv l) := by
            simp only [insertRec, hlt, if_true]
          rw [nodeAt_snoc, nodeAt_snoc, e1, insertUp_stopped _ _ (by simp) _ hs, child_false_node]
          exact ihl hl' e' p' q hl hq
    · split at h
      · exact absurd h (by simp)
      · rename_i hlt hne
        have hw := insertWalk_snoc kv.1 r [] true
        simp only [List.nil_append] at hw
        rw [hw] at h
        cases hl : insertWalk kv.1 r [] with
        | found q' => rw [hl] at h; simp [liftWalk] at h
        | emptyTree =>
          rw [hl] at h
          simp only [liftWalk, InsertWalk.slot.injEq] at h
          obtain ⟨rfl, rfl⟩ := h
          have := insertSearch_nil_eq _ _ hz
          subst this
          exact hroot
        | slot e' p' =>
          rw [hl] at h
          simp only [liftWalk, InsertWalk.slot.injEq] at h
          obtain ⟨rfl, rfl⟩ := h
          rcases insertSearch_setAt_snoc _ _ (by simp) true e' p' z hz with rfl | ⟨q, rfl, hq⟩
          · exact hroot
          · simp only [child_true_node] at hq
            have hs := (heightOrZero_insertRec_stopped kv r hr' e' p' q hl hq).1
            have e1 : insertRec kv (node l k v hh r) =
                insertUp true (node l k v hh r) (insertRec kv r) := by
              simp only [insertRec, hlt, hne, if_false]
            rw [nodeAt_snoc, nodeAt_snoc, e1, insertUp_stopped _ _ (by simp) _ hs,
              child_true_node]
            exact ihr hr' e' p' q hl hq

/-- When `insert` calls `balance`, the node `z` it hands over is the node at which the loop
`while (temp)` has stopped. -/
theorem insertBalanceNode_some [LinearOrder K] (t : AVLNode K V) (kv : K × V) (z : NodePtr)
    (h : insertBalanceNode t kv = some z) :
    ∃ e p, insertWalk kv.1 t [] = InsertWalk.slot e p ∧
      insertSearch (updateHeights (setAt t (e :: p) (.node .null kv.1 kv.2 1 .null))
        (some p)) p = some z := by
  unfold insertBalanceNode at h
  cases hw : insertWalk kv.1 t [] with
  | found q => rw [hw] at h; exact absurd h (by simp)
  | emptyTree => rw [hw] at h; exact absurd h (by simp)
  | slot e p =>
    rw [hw] at h
    simp only at h
    refine ⟨e, p, rfl, ?_⟩
    cases hs : insertSearch (updateHeights (setAt t (e :: p) (.node .null kv.1 kv.2 1 .null))
        (some p)) p with
    | none => rw [hs] at h; exact absurd h (by simp)
    | some temp =>
      rw [hs] at h
      simp only at h
      cases hf : findXYZ (updateHeights (setAt t (e :: p) (.node .null kv.1 kv.2 1 .null))
          (some p)) temp with
      | none => rw [hf] at h; exact absurd h (by simp)
      | some r =>
        have hz := findXYZ_z _ _ _ hf
        rw [hf] at h
        simp only at h
        split at h
        · simp only [Option.some.injEq] at h
          rw [← h, hz]
        · exact absurd h (by simp)

/-- C30: a rebalancing insertion does not grow the tree.  For every tree that keeps the AVL
invariant on its stored heights (which are then the heights of its subtrees) and every
item, `insert` returns a tree; when `insert` calls `balance` at a node `z`, the subtree
found afterwards at the place of `z` has the height the subtree of `z` had before, and the
whole tree has the height it had before; and in every case the height of the tree after
`insert` is the old height or the old height plus one.  Heights are recomputed from the
shape (`getHeight`). -/
theorem insert_rebalancing_keeps_height [LinearOrder K] (t : AVLNode K V) (new_item : K × V)
    (ht : StoredAVL t) :
    ∃ t', insert t new_item = some t' ∧
      (∀ z, insertBalanceNode t new_item = some z →
        getHeight (nodeAt t' z) = getHeight (nodeAt t z) ∧ getHeight t' = getHeight t) ∧
      (getHeight t' = getHeight t ∨ getHeight t' = getHeight t + 1) := by
  have hex := ((storedAVL_iff t).1 ht).1
  have hex' := ((storedAVL_iff _).1 (storedAVL_insertRec new_item t ht)).1
  have hg : ∀ p, getHeight (nodeAt t p) = heightOrZero (nodeAt t p) := fun p =>
    (heightOrZero_eq_getHeight _ (heightsExact_nodeAt t p hex)).symm
  have hg' : ∀ p, getHeight (nodeAt (insertRec new_item t).1 p) =
      heightOrZero (nodeAt (insertRec new_item t).1 p) := fun p =>
    (heightOrZero_eq_getHeight _ (heightsExact_nodeAt _ p hex')).symm
  have h0 : getHeight t = heightOrZero t := hg []
  have h0' : getHeight (insertRec new_item t).1 = heightOrZero (insertRec new_item t).1 := hg' []
  refine ⟨_, insert_eq_insertRec t new_item, ?_, ?_⟩
  · intro z hz
    obtain ⟨e, p, hw, hs⟩ := insertBalanceNode_some t new_item z hz
    rw [hg, hg', h0, h0']
    exact ⟨heightOrZero_insertRec_at new_item t ht e p z hw hs,
      (heightOrZero_insertRec_stopped new_item t ht e p z hw hs).2⟩
  · rw [h0, h0']
    have hspec := insertSpec_insertRec new_item t ht
    by_cases hst : (insertRec new_item t).2 = InsertStatus.searching
    · rcases hspec.2.2 hst with h | h
      · exact Or.inl h
      · exact Or.inr h.1
    · exact Or.inl (hspec.2.1 hst)

/-- C30 on the tree of the keys `1, 2` with the new key `3`: `insert` calls `balance` at the
root. -/
theorem insert_rebalancing_keeps_height_witness :
    HeightsExact twoNodeTree ∧ AVLBalanced twoNodeTree ∧
      insertBalanceNode twoNodeTree (3, 30) = some [] ∧
      ∃ t', insert twoNodeTree (3, 30) = some t' ∧
        (∀ z, insertBalanceNode twoNodeTree (3, 30) = some z →
          getHeight (nodeAt t' z) = getHeight (nodeAt twoNodeTree z) ∧
          getHeight t' = getHeight twoNodeTree) ∧
        (getHeight t' = getHeight twoNodeTree ∨ getHeight t' = getHeight twoNodeTree + 1) :=
  ⟨by decide, by decide, by decide,
    insert_rebalancing_keeps_height twoNodeTree (3, 30)
      ((storedAVL_iff _).2 ⟨by decide, by decide⟩)⟩

end AVLTree

/-! ## Insertion undone by removal -/

namespace AVLTree

open AVLNode BinarySearchTree

variable {K V : Type}

/-- In a tree with exact stored heights `findXYZ` delivers three nodes at every node whose
children differ in height by two or more. -/
theorem findXYZ_x_isSome (R : AVLNode K V) (z : NodePtr) (hR : HeightsExact R)
    (hb : calculateBF (nodeAt R z) ≥ 2) :
    ∃ x y m, findXYZ R z = some (some x, y, z, m) := by
  cases hn : nodeAt R z with
  | null => rw [hn] at hb; simp at hb
  | node zl zk zv zh zr =>
    rw [hn, calculateBF_node] at hb
    have hb' : heightOrZero zl + 2 ≤ heightOrZero zr ∨ heightOrZero zr + 2 ≤ heightOrZero zl := by
      omega
    obtain ⟨yl, yk, yv, yh, yr, hy, hf⟩ := findXYZ_of_unbalanced R z zl zr zk zv zh hn hb'
    have hye := heightsExact_nodeAt R (decide (heightOrZero zl ≤ heightOrZero zr) :: z) hR
    rw [hy] at hye
    have hyh : yh ≥ 2 := by
      have := congrArg heightOrZero hy
      simp only [nodeAt_cons, hn, heightOrZero_node] at this
      by_cases hc : heightOrZero zl ≤ heightOrZero zr
      · simp only [hc, decide_True, child_true_node] at this
        omega
      · simp only [hc, decide_False, child_false_node] at this
        omega
    have hx : isNull (nodeAt R
        (decide (heightOrZero yl < heightOrZero yr ∨
          (heightOrZero yl = heightOrZero yr ∧ heightOrZero zl ≤ heightOrZero zr)) ::
          decide (heightOrZero zl ≤ heightOrZero zr) :: z)) = false := by
      have e1 : nodeAt R
          (decide (heightOrZero yl < heightOrZero yr ∨
            (heightOrZero yl = heightOrZero yr ∧ heightOrZero zl ≤ heightOrZero zr)) ::
            decide (heightOrZero zl ≤ heightOrZero zr) :: z) =
          child (decide (heightOrZero yl < heightOrZero yr ∨
            (heightOrZero yl = heightOrZero yr ∧ heightOrZero zl ≤ heightOrZero zr)))
            (node yl yk yv yh yr) := by
        rw [← hy]
        rfl
      rw [e1]
      have hmax := hye.1
      by_cases hd : heightOrZero yl < heightOrZero yr ∨
          (heightOrZero yl = heightOrZero yr ∧ heightOrZero zl ≤ heightOrZero zr)
      · simp only [hd, decide_True, child_true_node]
        cases yr with
        | null => simp only [heightOrZero_null] at hmax hd; omega
        | node _ _ _ _ _ => rfl
      · simp only [hd, decide_False, child_false_node]
        cases yl with
        | null => simp only [heightOrZero_null] at hmax hd; omega
        | node _ _ _ _ _ => rfl
    rw [hx] at hf
    exact ⟨_, _, _, hf⟩

theorem exactOffPath_setAt (t s : AVLNode K V) (e : Bool) (p : NodePtr) (ht : HeightsExact t)
    (hs : HeightsExact s) : ExactOffPath (setAt t (e :: p) s) p := by
  induction p using List.reverseRecOn generalizing t with
  | nil =>
    cases t with
    | null => exact ⟨trivial, trivial, trivial⟩
    | node l k v h r =>
      cases e
      · exact ⟨hs, ht.2.2, trivial⟩
      · exact ⟨ht.2.1, hs, trivial⟩
  | append_singleton p d ih =>
    rw [← List.cons_append, setAt_snoc, exactOffPath_snoc]
    cases t with
    | null => exact ⟨⟨by simp [HeightsExact], by simp [HeightsExact], by
        clear ih
        induction p with
        | nil => trivial
        | cons a p ihp => exact ⟨by simp [HeightsExact], ihp⟩⟩, by simp [HeightsExact]⟩
    | node l k v h r =>
      rw [child_setChild _ _ _ (by simp)]
      refine ⟨ih _ (heightsExact_child d _ ht), ?_⟩
      rw [child_setChild_ne _ _ _ _ (by cases d <;> simp)]
      exact heightsExact_child _ _ ht

/-- In a tree with exact stored heights, `insert` calls `balance` as soon as its loop
`while (temp)` stops at a node: when there is no call, the loop has passed the root. -/
theorem insertSearch_none_of_no_balance [LinearOrder K] (t : AVLNode K V) (kv : K × V)
    (ht : HeightsExact t) (e : Bool) (p : NodePtr)
    (hw : insertWalk kv.1 t [] = InsertWalk.slot e p)
    (h : insertBalanceNode t kv = none) :
    insertSearch (updateHeights (setAt t (e :: p) (.node .null kv.1 kv.2 1 .null)) (some p)) p =
      none := by
  cases hs : insertSearch (updateHeights (setAt t (e :: p) (.node .null kv.1 kv.2 1 .null))
      (some p)) p with
  | none => rfl
  | some temp =>
    have hex : HeightsExact (updateHeights (setAt t (e :: p) (.node .null kv.1 kv.2 1 .null))
        (some p)) :=
      heightsExact_updateHeightsLoop _ _ (exactOffPath_setAt t _ e p ht ⟨rfl, trivial, trivial⟩)
    obtain ⟨x, y, m, hf⟩ := findXYZ_x_isSome _ temp hex (insertSearch_ge _ _ _ hs)
    unfold insertBalanceNode at h
    rw [hw] at h
    simp only at h
    rw [hs] at h
    simp only at h
    rw [hf] at h
    simp at h

/-- An insertion that leaves the upward walk searching up to the root is undone by the
removal of the key. -/
theorem removeRec_insertRec [LinearOrder K] (kv : K × V) (t : AVLNode K V) (ht : StoredAVL t)
    (hs : (insertRec kv t).2 = InsertStatus.searching) :
    removeRec kv.1 (insertRec kv t).1 = some t := by
  induction t with
  | null => simp [insertRec, removeRec]
  | node l k v h r ihl ihr =>
    have ht' := ht
    obtain ⟨e1, e2, e3, hl, hr⟩ := ht
    have hbf : ¬ calculateBF (node l k v h r) ≥ 2 := by
      simp only [calculateBF_node]
      omega
    simp only [insertRec] at hs ⊢
    split
    · rename_i hlt
      rw [if_pos hlt] at hs
      have hsub : (insertRec kv l).2 = InsertStatus.searching := by
        cases hc : (insertRec kv l).2 with
        | searching => rfl
        | found => simp [insertUp, hc] at hs
        | stopped => simp [insertUp, hc] at hs
      have hb : ¬ calculateBF (updateHeight (setChild false (insertRec kv l).1
          (node l k v h r))) ≥ 2 := by
        intro hb
        simp only [insertUp, hsub] at hs
        rw [if_pos hb] at hs
        exact InsertStatus.noConfusion hs
      have e : (insertUp false (node l k v h r) (insertRec kv l)).1 =
          updateHeight (setChild false (insertRec kv l).1 (node l k v h r)) := by
        simp only [insertUp, hsub, hb, if_false]
      rw [e]
      have hne : ¬ k = kv.1 := fun he => lt_irrefl _ (he ▸ hlt)
      have hgt : k > kv.1 := hlt
      simp only [setChild_false_node, updateHeight_node, removeRec, hne, hgt, if_false, if_true,
        ihl hl hsub, Option.map_some', removeUp, Option.some.injEq]
      rw [← e1, rebalance_id _ (by simpa using hbf)]
    · split
      · rename_i hlt heq
        rw [if_neg hlt, if_pos heq] at hs
        exact InsertStatus.noConfusion hs
      · rename_i hlt hne
        rw [if_neg hlt, if_neg hne] at hs
        have hsub : (insertRec kv r).2 = InsertStatus.searching := by
          cases hc : (insertRec kv r).2 with
          | searching => rfl
          | found => simp [insertUp, hc] at hs
          | stopped => simp [insertUp, hc] at hs
        have hb : ¬ calculateBF (updateHeight (setChild true (insertRec kv r).1
            (node l k v h r))) ≥ 2 := by
          intro hb
          simp only [insertUp, hsub] at hs
          rw [if_pos hb] at hs
          exact InsertStatus.noConfusion hs
        have e : (insertUp true (node l k v h r) (insertRec kv r)).1 =
            updateHeight (setChild true (insertRec kv r).1 (node l k v h r)) := by
          simp only [insertUp, hsub, hb, if_false]
        rw [e]
        have hne' : ¬ k = kv.1 := fun he => hne he.symm
        have hgt : ¬ k > kv.1 := fun hg => hlt hg
        simp only [setChild_true_node, updateHeight_node, removeRec, hne', hgt, if_false,
          ihr hr hsub, Option.map_some', removeUp, Option.some.injEq]
        rw [← e1, rebalance_id _ (by simpa using hbf)]

/-- C28: insert, then remove, gives the tree back when `insert` makes no rotation.  For
every tree that keeps the AVL invariant on its stored heights, every key `k` that is not in
it and every value `v`: when `insert((k, v))` does not call `balance` (the only caller of
the rotations), `insert` returns a tree from which `remove(k)` returns the tree given to
`insert`, equal in shape, keys, values and stored heights.  The BST order is not needed for
this. -/
theorem insert_remove_round_trip [LinearOrder K] (t : AVLNode K V) (k : K) (v : V)
    (ht : StoredAVL t) (hk : k ∉ keys t) (hrot : insertBalanceNode t (k, v) = none) :
    ∃ t1, insert t (k, v) = some t1 ∧ remove t1 k = some t := by
  refine ⟨_, insert_eq_insertRec t (k, v), ?_⟩
  have hs : (insertRec (k, v) t).2 = InsertStatus.searching := by
    cases hw : insertWalk k t [] with
    | emptyTree =>
      have := insertWalk_emptyTree k t hw
      subst this
      rfl
    | found q =>
      have hf : find t k = some q := (insertWalk_found_iff k t [] q).1 hw
      obtain ⟨_, _, hm⟩ := find_some_mem t k q hf
      exact absurd hm hk
    | slot e p =>
      have h1 := (insertRec_slot (k, v) t e p hw).2
      rw [insertSearch_none_of_no_balance t (k, v) ((storedAVL_iff t).1 ht).1 e p hw hrot] at h1
      simpa using h1
  rw [remove_eq_removeRec]
  have := removeRec_insertRec (k, v) t ht hs
  simp only at this
  rw [this]
  rfl

/-- C28 on the tree of the keys `1, ..., 7` with the new key `8`. -/
theorem insert_remove_round_trip_witness :
    HeightsExact exampleTree ∧ AVLBalanced exampleTree ∧ 8 ∉ keys exampleTree ∧
      insertBalanceNode exampleTree (8, 80) = none ∧
      ∃ t1, insert exampleTree (8, 80) = some t1 ∧ remove t1 8 = some exampleTree :=
  ⟨by decide, by decide, by decide, by decide,
    insert_remove_round_trip exampleTree 8 80 ((storedAVL_iff _).2 ⟨by decide, by decide⟩)
      (by decide) (by decide)⟩

end AVLTree

/-! ## The AVL tree against the plain `BinarySearchTree` -/

namespace AVLTree

open AVLNode BinarySearchTree

variable {K V : Type}

theorem toList_setChild_congr (d : Bool) (s s' N : AVLNode K V) (h : toList s = toList s') :
    toList (setChild d s N) = toList (setChild d s' N) := by
  cases N with
  | null => rfl
  | node l k v hh r => cases d <;> simp [h]

theorem toList_setAt_congr (R : AVLNode K V) (p : NodePtr) (s s' : AVLNode K V)
    (h : toList s = toList s') : toList (setAt R p s) = toList (setAt R p s') := by
  induction p generalizing s s' with
  | nil => exact h
  | cons d p ih => exact ih _ _ (toList_setChild_congr d s s' _ h)

theorem toList_insertRebalance (R r : AVLNode K V) (p : NodePtr)
    (h : insertRebalance R p = some r) : toList r = toList R := by
  unfold insertRebalance at h
  simp only at h
  split at h
  · simp only [Option.some.injEq] at h
    rw [← h, toList_updateHeights]
  · simp only [Option.bind_eq_some] at h
    obtain ⟨res, _, h2⟩ := h
    split at h2
    · rw [toList_balance _ _ _ _ _ _ h2, toList_updateHeights]
    · simp only [Option.some.injEq] at h2
      rw [← h2, toList_updateHeights]

theorem toList_removeLoop (R r : AVLNode K V) (p : NodePtr) (h : removeLoop R p = some r) :
    toList r = toList R := by
  induction p generalizing R with
  | nil => exact toList_removeStep _ _ _ h
  | cons d p ih =>
    simp only [removeLoop, Option.bind_eq_some] at h
    obtain ⟨s, h1, h2⟩ := h
    rw [ih _ h2, toList_removeStep _ _ _ h1]

theorem toList_removeRebalance (R r : AVLNode K V) (p : Option NodePtr)
    (h : removeRebalance R p = some r) : toList r = toList R := by
  cases p with
  | none =>
    simp only [removeRebalance, Option.some.injEq] at h
    rw [h]
  | some p =>
    simp only [removeRebalance] at h
    rw [toList_removeLoop _ _ _ h, toList_updateHeights]

/-- On one and the same tree, `BinarySearchTree::insert` and `AVLTree::insert` leave the same
items in the same order. -/
theorem toList_bst_insert [LinearOrder K] (t : AVLNode K V) (kv : K × V) :
    toList (BinarySearchTree.insert t kv) = toList (insertRec kv t).1 := by
  have h := insert_eq_insertRec t kv
  unfold AVLTree.insert at h
  unfold BinarySearchTree.insert
  cases hw : insertWalk kv.1 t [] with
  | emptyTree =>
    rw [hw] at h
    simp only [Option.some.injEq] at h
    rw [← h]
    rfl
  | found q =>
    rw [hw] at h
    simp only [Option.some.injEq] at h
    rw [← h]
  | slot e p =>
    rw [hw] at h
    simp only at h
    rw [toList_insertRebalance _ _ _ h]
    exact toList_setAt_congr _ _ _ _ rfl

theorem bst_unlink_eq (t : AVLNode K V) (p : NodePtr) :
    BinarySearchTree.unlink t p = AVLTree.unlink t p := rfl

theorem bst_nodeSwap_eq (t : AVLNode K V) (p q : NodePtr) :
    BinarySearchTree.nodeSwap t p q = AVLTree.nodeSwap t p q := rfl

/-- On one and the same tree, `BinarySearchTree::remove` and `AVLTree::remove` leave the same
items in the same order; neither dereferences `NULL`. -/
theorem toList_bst_remove [LinearOrder K] (t : AVLNode K V) (key : K) :
    ∃ b, BinarySearchTree.remove t key = some b ∧
      toList b = toList ((removeRec key t).getD t) := by
  have h := remove_eq_removeRec t key
  unfold AVLTree.remove at h
  unfold BinarySearchTree.remove
  cases hf : internalFind t key with
  | none =>
    rw [hf] at h
    simp only [Option.some.injEq] at h
    exact ⟨t, rfl, by rw [← h]⟩
  | some findRes =>
    rw [hf] at h
    simp only at h ⊢
    unfold removeFound at h
    simp only at h
    simp only [bst_unlink_eq, bst_nodeSwap_eq]
    cases hn : nodeAt t findRes with
    | null =>
      rw [hn] at h
      exact ⟨_, rfl, (toList_removeRebalance _ _ _ h).symm⟩
    | node l k v hh r =>
      rw [hn] at h
      cases l with
      | null => exact ⟨_, rfl, (toList_removeRebalance _ _ _ h).symm⟩
      | node la lk lv lh lr =>
        cases r with
        | null => exact ⟨_, rfl, (toList_removeRebalance _ _ _ h).symm⟩
        | node ra rk rv rh rr =>
          simp only at h ⊢
          cases hp : predecessor t findRes with
          | none => rw [hp] at h; exact absurd h (by simp)
          | some pred =>
            rw [hp] at h
            exact ⟨_, rfl, (toList_removeRebalance _ _ _ h).symm⟩

/-- A list of items with strictly ascending keys is determined by what a lookup finds for
each key. -/
theorem eq_of_find?_eq [LinearOrder K] (L1 L2 : List (K × V))
    (h1 : L1.Pairwise (fun a b => a.1 < b.1)) (h2 : L2.Pairwise (fun a b => a.1 < b.1))
    (h : ∀ k, L1.find? (fun x => decide (x.1 = k)) = L2.find? (fun x => decide (x.1 = k))) :
    L1 = L2 := by
  induction L1 generalizing L2 with
  | nil =>
    cases L2 with
    | nil => rfl
    | cons b L2 =>
      have := h b.1
      simp at this
  | cons a L1 ih =>
    cases L2 with
    | nil =>
      have := h a.1
      simp at this
    | cons b L2 =>
      rw [List.pairwise_cons] at h1 h2
      have hab : a = b := by
        have ha := h a.1
        have hb := h b.1
        simp only [List.find?_cons, decide_True] at ha hb
        by_cases e : b.1 = a.1
        · simp only [e, decide_True, Option.some.injEq] at ha
          exact ha
        · have e' : ¬ a.1 = b.1 := fun x => e x.symm
          simp only [e, e', decide_False] at ha hb
          have m1 := List.mem_of_find?_eq_some ha.symm
          have m2 := List.mem_of_find?_eq_some hb
          exact absurd (h1.1 b m2) (not_lt_of_lt (h2.1 a m1))
      subst hab
      congr 1
      apply ih _ h1.2 h2.2
      intro k
      by_cases e : a.1 = k
      · subst e
        have n1 : L1.find? (fun x => decide (x.1 = a.1)) = none := by
          rw [List.find?_eq_none]
          intro x hx
          simpa using ne_of_gt (h1.1 x hx)
        have n2 : L2.find? (fun x => decide (x.1 = a.1)) = none := by
          rw [List.find?_eq_none]
          intro x hx
          simpa using ne_of_gt (h2.1 x hx)
        rw [n1, n2]
      · have := h k
        simpa [List.find?_cons, e] using this

theorem pairwise_toList [LinearOrder K] (t : AVLNode K V) (ho : BSTOrder t) :
    (toList t).Pairwise (fun a b => a.1 < b.1) := by
  rw [bstOrder_iff_pairwise, keys_eq_map, List.pairwise_map] at ho
  exact ho

/-- What `insert` leaves in the tree depends on the items of the tree alone, not on its
shape. -/
theorem toList_insertRec_congr [LinearOrder K] (kv : K × V) (a b : AVLNode K V)
    (ha : BSTOrder a) (hb : BSTOrder b) (h : toList a = toList b) :
    toList (insertRec kv a).1 = toList (insertRec kv b).1 := by
  apply eq_of_find?_eq _ _ (pairwise_toList _ (bstOrder_insertRec kv a ha))
    (pairwise_toList _ (bstOrder_insertRec kv b hb))
  intro k
  rw [find?_insertRec kv a ha, find?_insertRec kv b hb, h]

theorem mem_keys_of_removeRec [LinearOrder K] (key : K) (t t' : AVLNode K V)
    (h : removeRec key t = some t') : key ∈ keys t := by
  obtain ⟨l1, v, l2, h1, _⟩ := toList_removeRec key t t' h
  rw [keys_eq_map, h1]
  simp

/-- What `remove` leaves in the tree depends on the items of the tree alone, not on its
shape. -/
theorem toList_removeRec_congr [LinearOrder K] (key : K) (a b : AVLNode K V)
    (ha : BSTOrder a) (hb : BSTOrder b) (h : toList a = toList b) :
    toList ((removeRec key a).getD a) = toList ((removeRec key b).getD b) := by
  have hk : keys a = keys b := by rw [keys_eq_map, keys_eq_map, h]
  cases hra : removeRec key a with
  | none =>
    cases hrb : removeRec key b with
    | none => exact h
    | some b' =>
      have := mem_keys_of_removeRec key b b' hrb
      rw [← hk] at this
      obtain ⟨a', ha'⟩ := removeRec_isSome_of_mem key a ha this
      rw [hra] at ha'
      exact absurd ha' (by simp)
  | some a' =>
    cases hrb : removeRec key b with
    | none =>
      have := mem_keys_of_removeRec key a a' hra
      rw [hk] at this
      obtain ⟨b', hb'⟩ := removeRec_isSome_of_mem key b hb this
      rw [hrb] at hb'
      exact absurd hb' (by simp)
    | some b' =>
      obtain ⟨a1, a2, _, a4⟩ := removeRec_content key a a' ha hra
      obtain ⟨b1, b2, _, b4⟩ := removeRec_content key b b' hb hrb
      simp only [Option.getD_some]
      apply eq_of_find?_eq _ _ (pairwise_toList _ a1) (pairwise_toList _ b1)
      intro k
      by_cases e : k = key
      · subst e
        rw [find?_eq_none_of_keys a' k a2, find?_eq_none_of_keys b' k b2]
      · rw [a4 k e, b4 k e, h]

/-- The two trees after the same calls: both runs are free of faults, and the items agree. -/
theorem foldlM_refines [LinearOrder K] (ops : List (Operation K V)) (a b : AVLNode K V)
    (ha : BSTOrder a) (hb : BSTOrder b) (h : toList a = toList b) :
    ∃ a' b', ops.foldlM AVLTree.applyOperation a = some a' ∧
      ops.foldlM BinarySearchTree.applyOperation b = some b' ∧
      BSTOrder a' ∧ BSTOrder b' ∧ toList a' = toList b' := by
  induction ops generalizing a b with
  | nil => exact ⟨a, b, rfl, rfl, ha, hb, h⟩
  | cons op ops ih =>
    cases op with
    | insert kv =>
      simp only [List.foldlM_cons, AVLTree.applyOperation, BinarySearchTree.applyOperation,
        insert_eq_insertRec, Option.some_bind, Option.bind_eq_bind]
      have e : toList (insertRec kv a).1 = toList (BinarySearchTree.insert b kv) := by
        rw [toList_bst_insert]
        exact toList_insertRec_congr kv a b ha hb h
      have ha' := bstOrder_insertRec kv a ha
      exact ih _ _ ha' (bstOrder_of_toList_eq _ _ e.symm ha') e
    | remove key =>
      obtain ⟨b', hb1, hb2⟩ := toList_bst_remove b key
      simp only [List.foldlM_cons, AVLTree.applyOperation, BinarySearchTree.applyOperation,
        remove_eq_removeRec, hb1, Option.some_bind, Option.bind_eq_bind]
      have e : toList ((removeRec key a).getD a) = toList b' := by
        rw [hb2]
        exact toList_removeRec_congr key a b ha hb h
      have ha' : BSTOrder ((removeRec key a).getD a) := by
        cases hr : removeRec key a with
        | none => exact ha
        | some s => exact (removeRec_content key a s ha hr).1
      exact ih _ _ ha' (bstOrder_of_toList_eq _ _ e.symm ha') e

/-- C29: the AVL tree refines the plain `BinarySearchTree`.  For every finite sequence of
`insert` and `remove` calls, run from the empty tree once with `AVLTree::insert` and
`AVLTree::remove` and once with `BinarySearchTree::insert` and `BinarySearchTree::remove`,
both runs return a tree (neither dereferences `NULL`), the two trees have the same in-order
list of (key, value) pairs, and `find` designates the same item in both for every key
(nothing in both when the key is absent). -/
theorem avl_refines_bst [LinearOrder K] (ops : List (Operation K V)) :
    ∃ a b, AVLTree.runOperations ops = some a ∧ BinarySearchTree.runOperations ops = some b ∧
      toList a = toList b ∧ ∀ k, itemAt a (find a k) = itemAt b (find b k) := by
  obtain ⟨a, b, h1, h2, ha, hb, h⟩ :=
    foldlM_refines ops (null : AVLNode K V) null trivial trivial rfl
  refine ⟨a, b, h1, h2, h, fun k => ?_⟩
  rw [itemAt_find a k ha, itemAt_find b k hb, h]

end AVLTree

/-! ## Trees in the store: the representation relation -/

namespace Heap

open AVLNode

variable {K V : Type}

theorem mem_modify (h : Heap K V) (n : Nat) (f : HeapNode K V → HeapNode K V)
    (x : Nat) : (modify h n f).mem x = if x = n then (h.mem x).map f else h.mem x := rfl

@[simp] theorem mem_modify_same (h : Heap K V) (n : Nat) (f : HeapNode K V → HeapNode K V) :
    (modify h n f).mem n = (h.mem n).map f := by
  simp [mem_modify]

theorem mem_modify_ne (h : Heap K V) (n : Nat) (f : HeapNode K V → HeapNode K V) (x : Nat)
    (hx : x ≠ n) : (modify h n f).mem x = h.mem x := by
  simp [mem_modify, hx]

@[simp] theorem root_modify (h : Heap K V) (n : Nat) (f : HeapNode K V → HeapNode K V) :
    (modify h n f).root_ = h.root_ := rfl

theorem mem_newNode (h : Heap K V) (n : Nat) (key : K) (value : V)
    (parent : Option Nat) (x : Nat) :
    (newNode h n key value parent).mem x =
      if x = n then some ⟨(key, value), parent, none, none, 1⟩ else h.mem x := rfl

@[simp] theorem mem_newNode_same (h : Heap K V) (n : Nat) (key : K) (value : V)
    (parent : Option Nat) :
    (newNode h n key value parent).mem n = some ⟨(key, value), parent, none, none, 1⟩ := by
  simp [mem_newNode]

theorem mem_newNode_ne (h : Heap K V) (n : Nat) (key : K) (value : V)
    (parent : Option Nat) (x : Nat) (hx : x ≠ n) :
    (newNode h n key value parent).mem x = h.mem x := by
  simp [mem_newNode, hx]

@[simp] theorem root_newNode (h : Heap K V) (n : Nat) (key : K) (value : V)
    (parent : Option Nat) : (newNode h n key value parent).root_ = h.root_ := rfl

theorem mem_delete (h : Heap K V) (n : Nat) (x : Nat) :
    (delete h n).mem x = if x = n then none else h.mem x := rfl

@[simp] theorem mem_delete_same (h : Heap K V) (n : Nat) : (delete h n).mem n = none := by
  simp [mem_delete]

theorem mem_delete_ne (h : Heap K V) (n : Nat) (x : Nat) (hx : x ≠ n) :
    (delete h n).mem x = h.mem x := by
  simp [mem_delete, hx]

@[simp] theorem root_delete (h : Heap K V) (n : Nat) : (delete h n).root_ = h.root_ := rfl

theorem assign_of_mem (h : Heap K V) (n : Nat) (f : HeapNode K V → HeapNode K V)
    (c : HeapNode K V) (hc : h.mem n = some c) : assign h n f = some (modify h n f) := by
  simp [assign, hc]

@[simp] theorem addr_null : addr (null : AVLNode K (Nat × V)) = none := rfl

@[simp] theorem addr_node (l r : AVLNode K (Nat × V)) (k : K) (av : Nat × V) (h : Nat) :
    addr (node l k av h r) = some av.1 := rfl

@[simp] theorem addrs_null : addrs (null : AVLNode K (Nat × V)) = [] := rfl

@[simp] theorem addrs_node (l r : AVLNode K (Nat × V)) (k : K) (av : Nat × V) (h : Nat) :
    addrs (node l k av h r) = addrs l ++ av.1 :: addrs r := rfl

@[simp] theorem cellOf_null (par : Option Nat) :
    cellOf par (null : AVLNode K (Nat × V)) = none := rfl

@[simp] theorem cellOf_node (par : Option Nat) (l r : AVLNode K (Nat × V)) (k : K)
    (av : Nat × V) (h : Nat) :
    cellOf par (node l k av h r) = some ⟨(k, av.2), par, addr l, addr r, h⟩ := rfl

@[simp] theorem parentAt_nil (par : Option Nat) (t : AVLNode K (Nat × V)) :
    parentAt par t [] = par := rfl

@[simp] theorem parentAt_cons (par : Option Nat) (t : AVLNode K (Nat × V)) (d : Bool)
    (q : NodePtr) : parentAt par t (d :: q) = addr (nodeAt t q) := rfl

@[simp] theorem repAt_null (mem : Nat → Option (HeapNode K V)) (par : Option Nat) :
    RepAt mem par (null : AVLNode K (Nat × V)) ↔ True := Iff.rfl

theorem repAt_node (mem : Nat → Option (HeapNode K V)) (par : Option Nat)
    (l r : AVLNode K (Nat × V)) (k : K) (av : Nat × V) (h : Nat) :
    RepAt mem par (node l k av h r) ↔
      mem av.1 = some ⟨(k, av.2), par, addr l, addr r, h⟩ ∧
        RepAt mem (some av.1) l ∧ RepAt mem (some av.1) r := Iff.rfl

theorem addr_mem_addrs (t : AVLNode K (Nat × V)) (a : Nat) (h : addr t = some a) :
    a ∈ addrs t := by
  cases t with
  | null => simp at h
  | node l k av hh r =>
    simp only [addr_node, Option.some.injEq] at h
    simp [h]

theorem addr_child_mem (d : Bool) (t : AVLNode K (Nat × V)) (a : Nat)
    (h : addr (child d t) = some a) : a ∈ addrs t := by
  cases t with
  | null => simp at h
  | node l k av hh r =>
    cases d
    · simp only [child_false_node] at h
      simp [addr_mem_addrs l a h]
    · simp only [child_true_node] at h
      simp [addr_mem_addrs r a h]

theorem addrs_child_sublist (d : Bool) (t : AVLNode K (Nat × V)) :
    (addrs (child d t)).Sublist (addrs t) := by
  cases t with
  | null => simp
  | node l k av hh r =>
    cases d
    · simp only [child_false_node, addrs_node]
      exact List.sublist_append_left _ _
    · simp only [child_true_node, addrs_node]
      exact (List.sublist_cons_self _ _).trans (List.sublist_append_right _ _)

theorem addrs_nodeAt_sublist (t : AVLNode K (Nat × V)) (p : NodePtr) :
    (addrs (nodeAt t p)).Sublist (addrs t) := by
  induction p with
  | nil => exact List.Sublist.refl _
  | cons d p ih => exact (addrs_child_sublist d _).trans ih

theorem nodup_nodeAt (t : AVLNode K (Nat × V)) (p : NodePtr) (h : (addrs t).Nodup) :
    (addrs (nodeAt t p)).Nodup :=
  h.sublist (addrs_nodeAt_sublist t p)

theorem mem_addrs_of_nodeAt (t : AVLNode K (Nat × V)) (p : NodePtr) (x : Nat)
    (h : x ∈ addrs (nodeAt t p)) : x ∈ addrs t :=
  (addrs_nodeAt_sublist t p).subset h

/-- Cells that are not touched keep representing the tree. -/
theorem repAt_frame (mem mem' : Nat → Option (HeapNode K V)) (par : Option Nat)
    (t : AVLNode K (Nat × V)) (h : ∀ x ∈ addrs t, mem' x = mem x) (hr : RepAt mem par t) :
    RepAt mem' par t := by
  induction t generalizing par with
  | null => trivial
  | node l k av hh r ihl ihr =>
    rw [repAt_node] at hr ⊢
    refine ⟨?_, ihl _ (fun x hx => h x (by simp [hx])) hr.2.1,
      ihr _ (fun x hx => h x (by simp [hx])) hr.2.2⟩
    rw [h av.1 (by simp)]
    exact hr.1

theorem repAt_nodeAt (mem : Nat → Option (HeapNode K V)) (par : Option Nat)
    (t : AVLNode K (Nat × V)) (p : NodePtr) (hr : RepAt mem par t) :
    RepAt mem (parentAt par t p) (nodeAt t p) := by
  induction p with
  | nil => exact hr
  | cons d p ih =>
    simp only [nodeAt_cons, parentAt_cons]
    cases hn : nodeAt t p with
    | null => simp
    | node l k av hh r =>
      rw [hn, repAt_node] at ih
      cases d
      · exact ih.2.1
      · exact ih.2.2

/-- The object found at the address of the node at `p`. -/
theorem mem_of_nodeAt (mem : Nat → Option (HeapNode K V)) (par : Option Nat)
    (t : AVLNode K (Nat × V)) (p : NodePtr) (hr : RepAt mem par t)
    (l r : AVLNode K (Nat × V)) (k : K) (av : Nat × V) (hh : Nat)
    (hn : nodeAt t p = node l k av hh r) :
    mem av.1 = some ⟨(k, av.2), parentAt par t p, addr l, addr r, hh⟩ := by
  have := repAt_nodeAt mem par t p hr
  rw [hn, repAt_node] at this
  exact this.1

theorem parentAt_snoc (par : Option Nat) (t : AVLNode K (Nat × V)) (q : NodePtr) (d : Bool) :
    parentAt par t (q ++ [d]) = parentAt (addr t) (child d t) q := by
  cases q with
  | nil => rfl
  | cons e q => simp only [List.cons_append, parentAt_cons, nodeAt_snoc]

theorem parentAt_mem (par : Option Nat) (t : AVLNode K (Nat × V)) (q : NodePtr) (x : Nat)
    (h : parentAt par t q = some x) : par = some x ∨ x ∈ addrs t := by
  cases q with
  | nil => exact Or.inl h
  | cons e q => exact Or.inr (mem_addrs_of_nodeAt t q x (addr_mem_addrs _ x h))

theorem addr_setChild (d : Bool) (s N : AVLNode K (Nat × V)) :
    addr (setChild d s N) = addr N := by
  cases N with
  | null => rfl
  | node l k av hh r => cases d <;> rfl

theorem addr_setAt (t : AVLNode K (Nat × V)) (q : NodePtr) (x : AVLNode K (Nat × V))
    (h : addr x = addr (nodeAt t q)) : addr (setAt t q x) = addr t := by
  induction q generalizing x with
  | nil => exact h
  | cons e q ih => exact ih _ (addr_setChild _ _ _)

theorem addr_setAt_cons (t : AVLNode K (Nat × V)) (e : Bool) (q : NodePtr)
    (x : AVLNode K (Nat × V)) : addr (setAt t (e :: q) x) = addr t :=
  addr_setAt t q _ (addr_setChild _ _ _)

theorem setAt_null_cons (e : Bool) (q : NodePtr) (s : AVLNode K (Nat × V)) :
    setAt (null : AVLNode K (Nat × V)) (e :: q) s = null := by
  simp [AVLTree.setAt_null_null]

end Heap

/-! ## Replacing a subtree in the store -/

namespace Heap

open AVLNode

variable {K V : Type}

theorem not_mem_addrs_nodeAt_child (l : AVLNode K (Nat × V)) (q : NodePtr) (x : Nat)
    (h : x ∉ addrs l) : x ∉ addrs (nodeAt l q) :=
  fun hx => h (mem_addrs_of_nodeAt l q x hx)

/-- The store holds the tree in which the subtree at `p` is replaced by `s`, when it holds
`s` below the parent of `p`, the slot of that parent points to `s`, and the objects of the
rest of the tree are as they were. -/
theorem repAt_setAt (mem mem' : Nat → Option (HeapNode K V)) (par : Option Nat)
    (t : AVLNode K (Nat × V)) (p : NodePtr) (s : AVLNode K (Nat × V))
    (hrep : RepAt mem par t) (hnd : (addrs t).Nodup)
    (hs : RepAt mem' (parentAt par t p) s)
    (hframe : ∀ x ∈ addrs t, x ∉ addrs (nodeAt t p) → parentAt par t p ≠ some x →
      mem' x = mem x)
    (hparent : ∀ d q, p = d :: q → ∀ a, addr (nodeAt t q) = some a →
      mem' a = cellOf (parentAt par t q) (setChild d s (nodeAt t q))) :
    RepAt mem' par (setAt t p s) := by
  induction p using List.reverseRecOn generalizing t par with
  | nil => exact hs
  | append_singleton q d ih =>
    cases t with
    | null =>
      rw [setAt_snoc]
      trivial
    | node l k av hh r =>
      rw [repAt_node] at hrep
      simp only [addrs_node, List.nodup_append, List.nodup_cons, List.mem_cons] at hnd
      obtain ⟨hndl, ⟨havr, hndr⟩, hdisj⟩ := hnd
      have havl : av.1 ∉ addrs l := fun hx => hdisj hx (List.mem_cons_self _ _)
      have hlr : ∀ x ∈ addrs l, x ∉ addrs r := fun x hx hx' => hdisj hx (List.mem_cons_of_mem _ hx')
      rw [setAt_snoc]
      -- the side `d` holds the path, the other side is framed
      have hsub : RepAt mem' (some av.1) (setAt (child d (node l k av hh r)) q s) := by
        apply ih (some av.1) (child d (node l k av hh r))
        · cases d
          · exact hrep.2.1
          · exact hrep.2.2
        · cases d
          · exact hndl
          · exact hndr
        · rw [parentAt_snoc] at hs
          exact hs
        · intro x hx hx1 hx2
          apply hframe x
          · cases d
            · simp only [child_false_node] at hx
              simp [hx]
            · simp only [child_true_node] at hx
              simp [hx]
          · rw [nodeAt_snoc]
            exact hx1
          · rw [parentAt_snoc]
            exact hx2
        · intro d' q' hq a ha
          subst hq
          have := hparent d' (q' ++ [d]) rfl a (by rw [nodeAt_snoc]; exact ha)
          rw [nodeAt_snoc, parentAt_snoc] at this
          exact this
      have hother : RepAt mem' (some av.1) (child (!d) (node l k av hh r)) := by
        apply repAt_frame mem mem'
        · intro x hx
          apply hframe x
          · cases d
            · simp only [Bool.not_false, child_true_node] at hx
              simp [hx]
            · simp only [Bool.not_true, child_false_node] at hx
              simp [hx]
          · rw [nodeAt_snoc]
            apply not_mem_addrs_nodeAt_child
            cases d
            · simp only [Bool.not_false, child_true_node] at hx
              simp only [child_false_node]
              exact fun hx' => hlr x hx' hx
            · simp only [Bool.not_true, child_false_node] at hx
              simp only [child_true_node]
              exact hlr x hx
          · rw [parentAt_snoc]
            intro hp
            rcases parentAt_mem _ _ _ _ hp with h1 | h1
            · simp only [addr_node, Option.some.injEq] at h1
              subst h1
              cases d
              · simp only [Bool.not_false, child_true_node] at hx
                exact havr hx
              · simp only [Bool.not_true, child_false_node] at hx
                exact havl hx
            · cases d
              · simp only [Bool.not_false, child_true_node] at hx
                simp only [child_false_node] at h1
                exact hlr x h1 hx
              · simp only [Bool.not_true, child_false_node] at hx
                simp only [child_true_node] at h1
                exact hlr x hx h1
        · cases d
          · exact hrep.2.2
          · exact hrep.2.1
      have htop : mem' av.1 = cellOf par
          (setChild d (setAt (child d (node l k av hh r)) q s) (node l k av hh r)) := by
        cases q with
        | nil =>
          have := hparent d [] rfl av.1 rfl
          simpa using this
        | cons e q' =>
          have h1 : mem' av.1 = mem av.1 := by
            apply hframe av.1 (by simp)
            · rw [nodeAt_snoc]
              apply not_mem_addrs_nodeAt_child
              cases d
              · exact havl
              · exact havr
            · rw [parentAt_snoc]
              simp only [parentAt_cons, addr_node]
              intro hp
              have := mem_addrs_of_nodeAt _ q' _ (addr_mem_addrs _ _ hp)
              cases d
              · exact havl this
              · exact havr this
          rw [h1, hrep.1]
          cases d
          · simp only [child_false_node, setChild_false_node, cellOf_node, addr_setAt_cons]
          · simp only [child_true_node, setChild_true_node, cellOf_node, addr_setAt_cons]
      cases d
      · simp only [child_false_node, setChild_false_node, Bool.not_false, child_true_node]
          at hsub hother htop ⊢
        exact ⟨by simpa using htop, hsub, hother⟩
      · simp only [child_true_node, setChild_true_node, Bool.not_true, child_false_node]
          at hsub hother htop ⊢
        exact ⟨by simpa using htop, hother, hsub⟩

end Heap

/-! ## The rotations in the store -/

namespace HeapAVL

open Heap

variable {K V : Type}

/-- The store after `leftRotate(N)`, object by object: `R` is the child that comes on top. -/
theorem leftRotate_spec (h : Heap K V) (N R : Nat) (cN cR : HeapNode K V)
    (hN : h.mem N = some cN) (hR : h.mem R = some cR) (hNR : cN.right_ = some R)
    (hne : N ≠ R)
    (hB : ∀ b, cR.left_ = some b → b ≠ N ∧ b ≠ R ∧ ∃ cB, h.mem b = some cB)
    (hP : ∀ p, cN.parent_ = some p → p ≠ N ∧ p ≠ R ∧ cR.left_ ≠ some p ∧
      ∃ cP, h.mem p = some cP) :
    ∃ h', leftRotate h N = some h' ∧ h'.root_ = h.root_ ∧
      h'.mem N = some { cN with right_ := cR.left_, parent_ := some R } ∧
      h'.mem R = some { cR with left_ := some N, parent_ := cN.parent_ } ∧
      (∀ b cB, cR.left_ = some b → h.mem b = some cB →
        h'.mem b = some { cB with parent_ := some N }) ∧
      (∀ p cP, cN.parent_ = some p → h.mem p = some cP →
        h'.mem p = some (if cP.left_ = some N then { cP with left_ := some R }
          else { cP with right_ := some R })) ∧
      (∀ x, x ≠ N → x ≠ R → cR.left_ ≠ some x → cN.parent_ ≠ some x → h'.mem x = h.mem x) := by
  cases hb : cR.left_ with
  | none =>
    rw [hb] at hB hP
    cases hp : cN.parent_ with
    | none =>
      apply Exists.intro
      refine ⟨?_, ?_⟩
      · simp only [leftRotate, getRight, getLeft, Heap.getParent, setParent, setLeft, setRight, assign, mem_modify_same, mem_modify_ne, hN, hR, hNR, hb, hp, hne, hne.symm, Option.map_some', Option.bind_eq_bind, Option.some_bind, Option.isSome_some, if_true, if_false, ne_eq, not_false_eq_true, Option.pure_def, Option.some.injEq, reduceCtorEq]
        rfl
      refine ⟨rfl, ?_, ?_, ?_, ?_, ?_⟩
      · simp only [mem_modify_same, mem_modify_ne, hN, hR, hNR, hb, hp, hne, hne.symm, Option.map_some', ne_eq, not_false_eq_true, if_true, if_false]
      · simp only [mem_modify_same, mem_modify_ne, hN, hR, hNR, hb, hp, hne, hne.symm, Option.map_some', ne_eq, not_false_eq_true, if_true, if_false]
      · intro b' cB' e1 e2
        exact absurd e1 (by simp)
      · intro p' cP' e1 e2
        exact absurd e1 (by simp)
      · intro x h1 h2 h3 h4
        simp only [mem_modify_ne, h1, h2, ne_eq, not_false_eq_true]
    | some p =>
      rw [hp] at hP
      obtain ⟨hp1, hp2, _, cP, hcP⟩ := hP p rfl
      by_cases hl : cP.left_ = some N
      ·
        apply Exists.intro
        refine ⟨?_, ?_⟩
        · simp only [leftRotate, getRight, getLeft, Heap.getParent, setParent, setLeft, setRight, assign, mem_modify_same, mem_modify_ne, hN, hR, hNR, hb, hp, hne, hne.symm, hcP, hl, hp1, hp2, hp1.symm, hp2.symm, Option.map_some', Option.bind_eq_bind, Option.some_bind, Option.isSome_some, if_true, if_false, ne_eq, not_false_eq_true, Option.pure_def, Option.some.injEq, reduceCtorEq]
          rfl
        refine ⟨rfl, ?_, ?_, ?_, ?_, ?_⟩
        · simp only [mem_modify_same, mem_modify_ne, hN, hR, hNR, hb, hp, hne, hne.symm, hcP, hl, hp1, hp2, hp1.symm, hp2.symm, Option.map_some', ne_eq, not_false_eq_true, if_true, if_false]
        · simp only [mem_modify_same, mem_modify_ne, hN, hR, hNR, hb, hp, hne, hne.symm, hcP, hl, hp1, hp2, hp1.symm, hp2.symm, Option.map_some', ne_eq, not_false_eq_true, if_true, if_false]
        · intro b' cB' e1 e2
          exact absurd e1 (by simp)
        · intro p' cP' e1 e2
          simp only [Option.some.injEq] at e1
          subst e1
          rw [hcP] at e2
          simp only [Option.some.injEq] at e2
          subst e2
          simp only [mem_modify_same, mem_modify_ne, hN, hR, hNR, hb, hp, hne, hne.symm, hcP, hl, hp1, hp2, hp1.symm, hp2.symm, Option.map_some', ne_eq, not_false_eq_true, if_true, if_false]
        · intro x h1 h2 h3 h4
          have h4' : x ≠ p := fun e => h4 (by rw [e])
          simp only [mem_modify_ne, h1, h2, h4', ne_eq, not_false_eq_true]
      ·
        apply Exists.intro
        refine ⟨?_, ?_⟩
        · simp only [leftRotate, getRight, getLeft, Heap.getParent, setParent, setLeft, setRight, assign, mem_modify_same, mem_modify_ne, hN, hR, hNR, hb, hp, hne, hne.symm, hcP, hl, hp1, hp2, hp1.symm, hp2.symm, Option.map_some', Option.bind_eq_bind, Option.some_bind, Option.isSome_some, if_true, if_false, ne_eq, not_false_eq_true, Option.pure_def, Option.some.injEq, reduceCtorEq]
          rfl
        refine ⟨rfl, ?_, ?_, ?_, ?_, ?_⟩
        · simp only [mem_modify_same, mem_modify_ne, hN, hR, hNR, hb, hp, hne, hne.symm, hcP, hl, hp1, hp2, hp1.symm, hp2.symm, Option.map_some', ne_eq, not_false_eq_true, if_true, if_false]
        · simp only [mem_modify_same, mem_modify_ne, hN, hR, hNR, hb, hp, hne, hne.symm, hcP, hl, hp1, hp2, hp1.symm, hp2.symm, Option.map_some', ne_eq, not_false_eq_true, if_true, if_false]
        · intro b' cB' e1 e2
          exact absurd e1 (by simp)
        · intro p' cP' e1 e2
          simp only [Option.some.injEq] at e1
          subst e1
          rw [hcP] at e2
          simp only [Option.some.injEq] at e2
          subst e2
          simp only [mem_modify_same, mem_modify_ne, hN, hR, hNR, hb, hp, hne, hne.symm, hcP, hl, hp1, hp2, hp1.symm, hp2.symm, Option.map_some', ne_eq, not_false_eq_true, if_true, if_false]
        · intro x h1 h2 h3 h4
          have h4' : x ≠ p := fun e => h4 (by rw [e])
          simp only [mem_modify_ne, h1, h2, h4', ne_eq, not_false_eq_true]
  | some b =>
    rw [hb] at hB hP
    obtain ⟨hb1, hb2, cB, hcB⟩ := hB b rfl
    cases hp : cN.parent_ with
    | none =>
      apply Exists.intro
      refine ⟨?_, ?_⟩
      · simp only [leftRotate, getRight, getLeft, Heap.getParent, setParent, setLeft, setRight, assign, mem_modify_same, mem_modify_ne, hN, hR, hNR, hb, hp, hne, hne.symm, hcB, hb1, hb2, hb1.symm, hb2.symm, Option.map_some', Option.bind_eq_bind, Option.some_bind, Option.isSome_some, if_true, if_false, ne_eq, not_false_eq_true, Option.pure_def, Option.some.injEq, reduceCtorEq]
        rfl
      refine ⟨rfl, ?_, ?_, ?_, ?_, ?_⟩
      · simp only [mem_modify_same, mem_modify_ne, hN, hR, hNR, hb, hp, hne, hne.symm, hcB, hb1, hb2, hb1.symm, hb2.symm, Option.map_some', ne_eq, not_false_eq_true, if_true, if_false]
      · simp only [mem_modify_same, mem_modify_ne, hN, hR, hNR, hb, hp, hne, hne.symm, hcB, hb1, hb2, hb1.symm, hb2.symm, Option.map_some', ne_eq, not_false_eq_true, if_true, if_false]
      · intro b' cB' e1 e2
        simp only [Option.some.injEq] at e1
        subst e1
        rw [hcB] at e2
        simp only [Option.some.injEq] at e2
        subst e2
        simp only [mem_modify_same, mem_modify_ne, hN, hR, hNR, hb, hp, hne, hne.symm, hcB, hb1, hb2, hb1.symm, hb2.symm, Option.map_some', ne_eq, not_false_eq_true, if_true, if_false]
      · intro p' cP' e1 e2
        exact absurd e1 (by simp)
      · intro x h1 h2 h3 h4
        have h3' : x ≠ b := fun e => h3 (by rw [e])
        simp only [mem_modify_ne, h1, h2, h3', ne_eq, not_false_eq_true]
    | some p =>
      rw [hp] at hP
      obtain ⟨hp1, hp2, hp3, cP, hcP⟩ := hP p rfl
      have hpb : p ≠ b := fun e => hp3 (by rw [e])
      by_cases hl : cP.left_ = some N
      ·
        apply Exists.intro
        refine ⟨?_, ?_⟩
        · simp only [leftRotate, getRight, getLeft, Heap.getParent, setParent, setLeft, setRight, assign, mem_modify_same, mem_modify_ne, hN, hR, hNR, hb, hp, hne, hne.symm, hcB, hb1, hb2, hb1.symm, hb2.symm, hcP, hl, hp1, hp2, hp1.symm, hp2.symm, hpb, hpb.symm, Option.map_some', Option.bind_eq_bind, Option.some_bind, Option.isSome_some, if_true, if_false, ne_eq, not_false_eq_true, Option.pure_def, Option.some.injEq, reduceCtorEq]
          rfl
        refine ⟨rfl, ?_, ?_, ?_, ?_, ?_⟩
        · simp only [mem_modify_same, mem_modify_ne, hN, hR, hNR, hb, hp, hne, hne.symm, hcB, hb1, hb2, hb1.symm, hb2.symm, hcP, hl, hp1, hp2, hp1.symm, hp2.symm, hpb, hpb.symm, Option.map_some', ne_eq, not_false_eq_true, if_true, if_false]
        · simp only [mem_modify_same, mem_modify_ne, hN, hR, hNR, hb, hp, hne, hne.symm, hcB, hb1, hb2, hb1.symm, hb2.symm, hcP, hl, hp1, hp2, hp1.symm, hp2.symm, hpb, hpb.symm, Option.map_some', ne_eq, not_false_eq_true, if_true, if_false]
        · intro b' cB' e1 e2
          simp only [Option.some.injEq] at e1
          subst e1
          rw [hcB] at e2
          simp only [Option.some.injEq] at e2
          subst e2
          simp only [mem_modify_same, mem_modify_ne, hN, hR, hNR, hb, hp, hne, hne.symm, hcB, hb1, hb2, hb1.symm, hb2.symm, hcP, hl, hp1, hp2, hp1.symm, hp2.symm, hpb, hpb.symm, Option.map_some', ne_eq, not_false_eq_true, if_true, if_false]
        · intro p' cP' e1 e2
          simp only [Option.some.injEq] at e1
          subst e1
          rw [hcP] at e2
          simp only [Option.some.injEq] at e2
          subst e2
          simp only [mem_modify_same, mem_modify_ne, hN, hR, hNR, hb, hp, hne, hne.symm, hcB, hb1, hb2, hb1.symm, hb2.symm, hcP, hl, hp1, hp2, hp1.symm, hp2.symm, hpb, hpb.symm, Option.map_some', ne_eq, not_false_eq_true, if_true, if_false]
        · intro x h1 h2 h3 h4
          have h3' : x ≠ b := fun e => h3 (by rw [e])
          have h4' : x ≠ p := fun e => h4 (by rw [e])
          simp only [mem_modify_ne, h1, h2, h3', h4', ne_eq, not_false_eq_true]
      ·
        apply Exists.intro
        refine ⟨?_, ?_⟩
        · simp only [leftRotate, getRight, getLeft, Heap.getParent, setParent, setLeft, setRight, assign, mem_modify_same, mem_modify_ne, hN, hR, hNR, hb, hp, hne, hne.symm, hcB, hb1, hb2, hb1.symm, hb2.symm, hcP, hl, hp1, hp2, hp1.symm, hp2.symm, hpb, hpb.symm, Option.map_some', Option.bind_eq_bind, Option.some_bind, Option.isSome_some, if_true, if_false, ne_eq, not_false_eq_true, Option.pure_def, Option.some.injEq, reduceCtorEq]
          rfl
        refine ⟨rfl, ?_, ?_, ?_, ?_, ?_⟩
        · simp only [mem_modify_same, mem_modify_ne, hN, hR, hNR, hb, hp, hne, hne.symm, hcB, hb1, hb2, hb1.symm, hb2.symm, hcP, hl, hp1, hp2, hp1.symm, hp2.symm, hpb, hpb.symm, Option.map_some', ne_eq, not_false_eq_true, if_true, if_false]
        · simp only [mem_modify_same, mem_modify_ne, hN, hR, hNR, hb, hp, hne, hne.symm, hcB, hb1, hb2, hb1.symm, hb2.symm, hcP, hl, hp1, hp2, hp1.symm, hp2.symm, hpb, hpb.symm, Option.map_some', ne_eq, not_false_eq_true, if_true, if_false]
        · intro b' cB' e1 e2
          simp only [Option.some.injEq] at e1
          subst e1
          rw [hcB] at e2
          simp only [Option.some.injEq] at e2
          subst e2
          simp only [mem_modify_same, mem_modify_ne, hN, hR, hNR, hb, hp, hne, hne.symm, hcB, hb1, hb2, hb1.symm, hb2.symm, hcP, hl, hp1, hp2, hp1.symm, hp2.symm, hpb, hpb.symm, Option.map_some', ne_eq, not_false_eq_true, if_true, if_false]
        · intro p' cP' e1 e2
          simp only [Option.some.injEq] at e1
          subst e1
          rw [hcP] at e2
          simp only [Option.some.injEq] at e2
          subst e2
          simp only [mem_modify_same, mem_modify_ne, hN, hR, hNR, hb, hp, hne, hne.symm, hcB, hb1, hb2, hb1.symm, hb2.symm, hcP, hl, hp1, hp2, hp1.symm, hp2.symm, hpb, hpb.symm, Option.map_some', ne_eq, not_false_eq_true, if_true, if_false]
        · intro x h1 h2 h3 h4
          have h3' : x ≠ b := fun e => h3 (by rw [e])
          have h4' : x ≠ p := fun e => h4 (by rw [e])
          simp only [mem_modify_ne, h1, h2, h3', h4', ne_eq, not_false_eq_true]

/-- The store after `rightRotate(N)`, object by object: `R` is the child that comes on top. -/
theorem rightRotate_spec (h : Heap K V) (N R : Nat) (cN cR : HeapNode K V)
    (hN : h.mem N = some cN) (hR : h.mem R = some cR) (hNR : cN.left_ = some R)
    (hne : N ≠ R)
    (hB : ∀ b, cR.right_ = some b → b ≠ N ∧ b ≠ R ∧ ∃ cB, h.mem b = some cB)
    (hP : ∀ p, cN.parent_ = some p → p ≠ N ∧ p ≠ R ∧ cR.right_ ≠ some p ∧
      ∃ cP, h.mem p = some cP) :
    ∃ h', rightRotate h N = some h' ∧ h'.root_ = h.root_ ∧
      h'.mem N = some { cN with left_ := cR.right_, parent_ := some R } ∧
      h'.mem R = some { cR with right_ := some N, parent_ := cN.parent_ } ∧
      (∀ b cB, cR.right_ = some b → h.mem b = some cB →
        h'.mem b = some { cB with parent_ := some N }) ∧
      (∀ p cP, cN.parent_ = some p → h.mem p = some cP →
        h'.mem p = some (if cP.left_ = some N then { cP with left_ := some R }
          else { cP with right_ := some R })) ∧
      (∀ x, x ≠ N → x ≠ R → cR.right_ ≠ some x → cN.parent_ ≠ some x → h'.mem x = h.mem x) := by
  cases hb : cR.right_ with
  | none =>
    rw [hb] at hB hP
    cases hp : cN.parent_ with
    | none =>
      apply Exists.intro
      refine ⟨?_, ?_⟩
      · simp only [rightRotate, getRight, getLeft, Heap.getParent, setParent, setLeft, setRight, assign, mem_modify_same, mem_modify_ne, hN, hR, hNR, hb, hp, hne, hne.symm, Option.map_some', Option.bind_eq_bind, Option.some_bind, Option.isSome_some, if_true, if_false, ne_eq, not_false_eq_true, Option.pure_def, Option.some.injEq, reduceCtorEq]
        rfl
      refine ⟨rfl, ?_, ?_, ?_, ?_, ?_⟩
      · simp only [mem_modify_same, mem_modify_ne, hN, hR, hNR, hb, hp, hne, hne.symm, Option.map_some', ne_eq, not_false_eq_true, if_true, if_false]
      · simp only [mem_modify_same, mem_modify_ne, hN, hR, hNR, hb, hp, hne, hne.symm, Option.map_some', ne_eq, not_false_eq_true, if_true, if_false]
      · intro b' cB' e1 e2
        exact absurd e1 (by simp)
      · intro p' cP' e1 e2
        exact absurd e1 (by simp)
      · intro x h1 h2 h3 h4
        simp only [mem_modify_ne, h1, h2, ne_eq, not_false_eq_true]
    | some p =>
      rw [hp] at hP
      obtain ⟨hp1, hp2, _, cP, hcP⟩ := hP p rfl
      by_cases hl : cP.left_ = some N
      ·
        apply Exists.intro
        refine ⟨?_, ?_⟩
        · simp only [rightRotate, getRight, getLeft, Heap.getParent, setParent, setLeft, setRight, assign, mem_modify_same, mem_modify_ne, hN, hR, hNR, hb, hp, hne, hne.symm, hcP, hl, hp1, hp2, hp1.symm, hp2.symm, Option.map_some', Option.bind_eq_bind, Option.some_bind, Option.isSome_some, if_true, if_false, ne_eq, not_false_eq_true, Option.pure_def, Option.some.injEq, reduceCtorEq]
          rfl
        refine ⟨rfl, ?_, ?_, ?_, ?_, ?_⟩
        · simp only [mem_modify_same, mem_modify_ne, hN, hR, hNR, hb, hp, hne, hne.symm, hcP, hl, hp1, hp2, hp1.symm, hp2.symm, Option.map_some', ne_eq, not_false_eq_true, if_true, if_false]
        · simp only [mem_modify_same, mem_modify_ne, hN, hR, hNR, hb, hp, hne, hne.symm, hcP, hl, hp1, hp2, hp1.symm, hp2.symm, Option.map_some', ne_eq, not_false_eq_true, if_true, if_false]
        · intro b' cB' e1 e2
          exact absurd e1 (by simp)
        · intro p' cP' e1 e2
          simp only [Option.some.injEq] at e1
          subst e1
          rw [hcP] at e2
          simp only [Option.some.injEq] at e2
          subst e2
          simp only [mem_modify_same, mem_modify_ne, hN, hR, hNR, hb, hp, hne, hne.symm, hcP, hl, hp1, hp2, hp1.symm, hp2.symm, Option.map_some', ne_eq, not_false_eq_true, if_true, if_false]
        · intro x h1 h2 h3 h4
          have h4' : x ≠ p := fun e => h4 (by rw [e])
          simp only [mem_modify_ne, h1, h2, h4', ne_eq, not_false_eq_true]
      ·
        apply Exists.intro
        refine ⟨?_, ?_⟩
        · simp only [rightRotate, getRight, getLeft, Heap.getParent, setParent, setLeft, setRight, assign, mem_modify_same, mem_modify_ne, hN, hR, hNR, hb, hp, hne, hne.symm, hcP, hl, hp1, hp2, hp1.symm, hp2.symm, Option.map_some', Option.bind_eq_bind, Option.some_bind, Option.isSome_some, if_true, if_false, ne_eq, not_false_eq_true, Option.pure_def, Option.some.injEq, reduceCtorEq]
          rfl
        refine ⟨rfl, ?_, ?_, ?_, ?_, ?_⟩
        · simp only [mem_modify_same, mem_modify_ne, hN, hR, hNR, hb, hp, hne, hne.symm, hcP, hl, hp1, hp2, hp1.symm, hp2.symm, Option.map_some', ne_eq, not_false_eq_true, if_true, if_false]
        · simp only [mem_modify_same, mem_modify_ne, hN, hR, hNR, hb, hp, hne, hne.symm, hcP, hl, hp1, hp2, hp1.symm, hp2.symm, Option.map_some', ne_eq, not_false_eq_true, if_true, if_false]
        · intro b' cB' e1 e2
          exact absurd e1 (by simp)
        · intro p' cP' e1 e2
          simp only [Option.some.injEq] at e1
          subst e1
          rw [hcP] at e2
          simp only [Option.some.injEq] at e2
          subst e2
          simp only [mem_modify_same, mem_modify_ne, hN, hR, hNR, hb, hp, hne, hne.symm, hcP, hl, hp1, hp2, hp1.symm, hp2.symm, Option.map_some', ne_eq, not_false_eq_true, if_true, if_false]
        · intro x h1 h2 h3 h4
          have h4' : x ≠ p := fun e => h4 (by rw [e])
          simp only [mem_modify_ne, h1, h2, h4', ne_eq, not_false_eq_true]
  | some b =>
    rw [hb] at hB hP
    obtain ⟨hb1, hb2, cB, hcB⟩ := hB b rfl
    cases hp : cN.parent_ with
    | none =>
      apply Exists.intro
      refine ⟨?_, ?_⟩
      · simp only [rightRotate, getRight, getLeft, Heap.getParent, setParent, setLeft, setRight, assign, mem_modify_same, mem_modify_ne, hN, hR, hNR, hb, hp, hne, hne.symm, hcB, hb1, hb2, hb1.symm, hb2.symm, Option.map_some', Option.bind_eq_bind, Option.some_bind, Option.isSome_some, if_true, if_false, ne_eq, not_false_eq_true, Option.pure_def, Option.some.injEq, reduceCtorEq]
        rfl
      refine ⟨rfl, ?_, ?_, ?_, ?_, ?_⟩
      · simp only [mem_modify_same, mem_modify_ne, hN, hR, hNR, hb, hp, hne, hne.symm, hcB, hb1, hb2, hb1.symm, hb2.symm, Option.map_some', ne_eq, not_false_eq_true, if_true, if_false]
      · simp only [mem_modify_same, mem_modify_ne, hN, hR, hNR, hb, hp, hne, hne.symm, hcB, hb1, hb2, hb1.symm, hb2.symm, Option.map_some', ne_eq, not_false_eq_true, if_true, if_false]
      · intro b' cB' e1 e2
        simp only [Option.some.injEq] at e1
        subst e1
        rw [hcB] at e2
        simp only [Option.some.injEq] at e2
        subst e2
        simp only [mem_modify_same, mem_modify_ne, hN, hR, hNR, hb, hp, hne, hne.symm, hcB, hb1, hb2, hb1.symm, hb2.symm, Option.map_some', ne_eq, not_false_eq_true, if_true, if_false]
      · intro p' cP' e1 e2
        exact absurd e1 (by simp)
      · intro x h1 h2 h3 h4
        have h3' : x ≠ b := fun e => h3 (by rw [e])
        simp only [mem_modify_ne, h1, h2, h3', ne_eq, not_false_eq_true]
    | some p =>
      rw [hp] at hP
      obtain ⟨hp1, hp2, hp3, cP, hcP⟩ := hP p rfl
      have hpb : p ≠ b := fun e => hp3 (by rw [e])
      by_cases hl : cP.left_ = some N
      ·
        apply Exists.intro
        refine ⟨?_, ?_⟩
        · simp only [rightRotate, getRight, getLeft, Heap.getParent, setParent, setLeft, setRight, assign, mem_modify_same, mem_modify_ne, hN, hR, hNR, hb, hp, hne, hne.symm, hcB, hb1, hb2, hb1.symm, hb2.symm, hcP, hl, hp1, hp2, hp1.symm, hp2.symm, hpb, hpb.symm, Option.map_some', Option.bind_eq_bind, Option.some_bind, Option.isSome_some, if_true, if_false, ne_eq, not_false_eq_true, Option.pure_def, Option.some.injEq, reduceCtorEq]
          rfl
        refine ⟨rfl, ?_, ?_, ?_, ?_, ?_⟩
        · simp only [mem_modify_same, mem_modify_ne, hN, hR, hNR, hb, hp, hne, hne.symm, hcB, hb1, hb2, hb1.symm, hb2.symm, hcP, hl, hp1, hp2, hp1.symm, hp2.symm, hpb, hpb.symm, Option.map_some', ne_eq, not_false_eq_true, if_true, if_false]
        · simp only [mem_modify_same, mem_modify_ne, hN, hR, hNR, hb, hp, hne, hne.symm, hcB, hb1, hb2, hb1.symm, hb2.symm, hcP, hl, hp1, hp2, hp1.symm, hp2.symm, hpb, hpb.symm, Option.map_some', ne_eq, not_false_eq_true, if_true, if_false]
        · intro b' cB' e1 e2
          simp only [Option.some.injEq] at e1
          subst e1
          rw [hcB] at e2
          simp only [Option.some.injEq] at e2
          subst e2
          simp only [mem_modify_same, mem_modify_ne, hN, hR, hNR, hb, hp, hne, hne.symm, hcB, hb1, hb2, hb1.symm, hb2.symm, hcP, hl, hp1, hp2, hp1.symm, hp2.symm, hpb, hpb.symm, Option.map_some', ne_eq, not_false_eq_true, if_true, if_false]
        · intro p' cP' e1 e2
          simp only [Option.some.injEq] at e1
          subst e1
          rw [hcP] at e2
          simp only [Option.some.injEq] at e2
          subst e2
          simp only [mem_modify_same, mem_modify_ne, hN, hR, hNR, hb, hp, hne, hne.symm, hcB, hb1, hb2, hb1.symm, hb2.symm, hcP, hl, hp1, hp2, hp1.symm, hp2.symm, hpb, hpb.symm, Option.map_some', ne_eq, not_false_eq_true, if_true, if_false]
        · intro x h1 h2 h3 h4
          have h3' : x ≠ b := fun e => h3 (by rw [e])
          have h4' : x ≠ p := fun e => h4 (by rw [e])
          simp only [mem_modify_ne, h1, h2, h3', h4', ne_eq, not_false_eq_true]
      ·
        apply Exists.intro
        refine ⟨?_, ?_⟩
        · simp only [rightRotate, getRight, getLeft, Heap.getParent, setParent, setLeft, setRight, assign, mem_modify_same, mem_modify_ne, hN, hR, hNR, hb, hp, hne, hne.symm, hcB, hb1, hb2, hb1.symm, hb2.symm, hcP, hl, hp1, hp2, hp1.symm, hp2.symm, hpb, hpb.symm, Option.map_some', Option.bind_eq_bind, Option.some_bind, Option.isSome_some, if_true, if_false, ne_eq, not_false_eq_true, Option.pure_def, Option.some.injEq, reduceCtorEq]
          rfl
        refine ⟨rfl, ?_, ?_, ?_, ?_, ?_⟩
        · simp only [mem_modify_same, mem_modify_ne, hN, hR, hNR, hb, hp, hne, hne.symm, hcB, hb1, hb2, hb1.symm, hb2.symm, hcP, hl, hp1, hp2, hp1.symm, hp2.symm, hpb, hpb.symm, Option.map_some', ne_eq, not_false_eq_true, if_true, if_false]
        · simp only [mem_modify_same, mem_modify_ne, hN, hR, hNR, hb, hp, hne, hne.symm, hcB, hb1, hb2, hb1.symm, hb2.symm, hcP, hl, hp1, hp2, hp1.symm, hp2.symm, hpb, hpb.symm, Option.map_some', ne_eq, not_false_eq_true, if_true, if_false]
        · intro b' cB' e1 e2
          simp only [Option.some.injEq] at e1
          subst e1
          rw [hcB] at e2
          simp only [Option.some.injEq] at e2
          subst e2
          simp only [mem_modify_same, mem_modify_ne, hN, hR, hNR, hb, hp, hne, hne.symm, hcB, hb1, hb2, hb1.symm, hb2.symm, hcP, hl, hp1, hp2, hp1.symm, hp2.symm, hpb, hpb.symm, Option.map_some', ne_eq, not_false_eq_true, if_true, if_false]
        · intro p' cP' e1 e2
          simp only [Option.some.injEq] at e1
          subst e1
          rw [hcP] at e2
          simp only [Option.some.injEq] at e2
          subst e2
          simp only [mem_modify_same, mem_modify_ne, hN, hR, hNR, hb, hp, hne, hne.symm, hcB, hb1, hb2, hb1.symm, hb2.symm, hcP, hl, hp1, hp2, hp1.symm, hp2.symm, hpb, hpb.symm, Option.map_some', ne_eq, not_false_eq_true, if_true, if_false]
        · intro x h1 h2 h3 h4
          have h3' : x ≠ b := fun e => h3 (by rw [e])
          have h4' : x ≠ p := fun e => h4 (by rw [e])
          simp only [mem_modify_ne, h1, h2, h3', h4', ne_eq, not_false_eq_true]

end HeapAVL

/-! ## The rotations keep the tree in the store -/

namespace Heap

open AVLNode

variable {K V : Type}

theorem nodup_node (l r : AVLNode K (Nat × V)) (k : K) (av : Nat × V) (h : Nat) :
    (addrs (node l k av h r)).Nodup ↔
      (addrs l).Nodup ∧ (addrs r).Nodup ∧ av.1 ∉ addrs l ∧ av.1 ∉ addrs r ∧
        ∀ x ∈ addrs l, x ∉ addrs r := by
  simp only [addrs_node, List.nodup_append, List.nodup_cons]
  constructor
  · rintro ⟨h1, ⟨h2, h3⟩, h4⟩
    exact ⟨h1, h3, fun hx => h4 hx (List.mem_cons_self _ _), h2,
      fun x hx hx' => h4 hx (List.mem_cons_of_mem _ hx')⟩
  · rintro ⟨h1, h2, h3, h4, h5⟩
    refine ⟨h1, ⟨h4, h2⟩, ?_⟩
    intro x hx hy
    rcases List.mem_cons.1 hy with rfl | hy
    · exact h3 hx
    · exact h5 x hx hy

/-- The parent of a node of the tree is a node of the tree that is not in the subtree of the
node. -/
theorem parent_of_nodeAt (t : AVLNode K (Nat × V)) (hnd : (addrs t).Nodup) (d : Bool)
    (q : NodePtr) (hne : nodeAt t (d :: q) ≠ null) :
    ∃ pl pk pav ph pr, nodeAt t q = node pl pk pav ph pr ∧
      nodeAt t (d :: q) = child d (node pl pk pav ph pr) ∧
      pav.1 ∉ addrs (nodeAt t (d :: q)) ∧
      (∀ x ∈ addrs (nodeAt t (d :: q)), x ∉ addrs (child (!d) (node pl pk pav ph pr))) := by
  cases hq : nodeAt t q with
  | null => simp [hq] at hne
  | node pl pk pav ph pr =>
    have hnd' := nodup_nodeAt t q hnd
    rw [hq, nodup_node] at hnd'
    obtain ⟨_, _, h3, h4, h5⟩ := hnd'
    refine ⟨pl, pk, pav, ph, pr, rfl, by simp [hq], ?_, ?_⟩
    · cases d
      · simpa [hq] using h3
      · simpa [hq] using h4
    · cases d
      · simpa [hq] using h5
      · simp only [nodeAt_cons, hq, child_true_node, Bool.not_true, child_false_node]
        exact fun x hx hx' => h5 x hx' hx

end Heap

namespace HeapAVL

open AVLNode Heap

variable {K V : Type}

/-- The function `leftRotate` on a tree in the store: the store then holds the tree with the
subtree at the node rotated, and `root_` is not assigned to. -/
theorem leftRotate_rep (h : Heap K V) (t : AVLNode K (Nat × V)) (p : NodePtr)
    (hrep : RepAt h.mem none t) (hnd : (addrs t).Nodup)
    (a b c : AVLNode K (Nat × V)) (k rk : K) (av rav : Nat × V) (hh rh : Nat)
    (hn : nodeAt t p = node a k av hh (node b rk rav rh c)) :
    ∃ h', leftRotate h av.1 = some h' ∧ h'.root_ = h.root_ ∧
      RepAt h'.mem none (setAt t p (node (node a k av hh b) rk rav rh c)) ∧
      (∀ x, x ∉ addrs t → h'.mem x = h.mem x) ∧
      h'.mem av.1 = some ⟨(k, av.2), some rav.1, addr a, addr b, hh⟩ ∧
      h'.mem rav.1 = some ⟨(rk, rav.2), parentAt none t p, some av.1, addr c, rh⟩ ∧
      (∀ x cB, addr b = some x → h.mem x = some cB →
        h'.mem x = some { cB with parent_ := some av.1 }) ∧
      (∀ x cP, parentAt none t p = some x → h.mem x = some cP →
        h'.mem x = some (if cP.left_ = some av.1 then { cP with left_ := some rav.1 }
          else { cP with right_ := some rav.1 })) ∧
      (∀ x, x ≠ av.1 → x ≠ rav.1 → addr b ≠ some x → parentAt none t p ≠ some x →
        h'.mem x = h.mem x) := by
  have hcN := mem_of_nodeAt h.mem none t p hrep _ _ _ _ _ hn
  have hsubrep := repAt_nodeAt h.mem none t p hrep
  rw [hn, repAt_node, repAt_node] at hsubrep
  obtain ⟨_, hra, hcR, hrb, hrc⟩ := hsubrep
  have hndsub := nodup_nodeAt t p hnd
  rw [hn, nodup_node, nodup_node] at hndsub
  obtain ⟨nda, ⟨ndb, ndc, hRb, hRc, hbc⟩, hNa, hNr, har⟩ := hndsub
  simp only [addrs_node, List.mem_append, List.mem_cons, not_or] at hNr har
  have hne : av.1 ≠ rav.1 := hNr.2.1
  have hsubmem : ∀ x, x ∈ addrs (nodeAt t p) ↔
      x ∈ addrs a ∨ x = av.1 ∨ x ∈ addrs b ∨ x = rav.1 ∨ x ∈ addrs c := by
    intro x
    rw [hn]
    simp only [addrs_node, List.mem_append, List.mem_cons]
  -- the parent
  have hpar : ∀ pa, parentAt none t p = some pa →
      pa ∉ addrs (nodeAt t p) ∧ ∃ d q pl pk pav ph pr, p = d :: q ∧ pav.1 = pa ∧
        nodeAt t q = node pl pk pav ph pr ∧
        (∀ x ∈ addrs (nodeAt t p), x ∉ addrs (child (!d) (node pl pk pav ph pr))) := by
    intro pa hpa
    cases p with
    | nil => simp at hpa
    | cons d q =>
      obtain ⟨pl, pk, pav, ph, pr, e1, e2, e3, e4⟩ :=
        parent_of_nodeAt t hnd d q (by rw [hn]; simp)
      simp only [parentAt_cons, e1, addr_node, Option.some.injEq] at hpa
      subst hpa
      exact ⟨e3, d, q, pl, pk, pav, ph, pr, rfl, rfl, e1, e4⟩
  obtain ⟨h', e, hroot, mN, mR, mB, mP, mF⟩ := leftRotate_spec h av.1 rav.1 _ _ hcN hcR rfl hne
    (by
      intro x hx
      simp only at hx
      have hxb := addr_mem_addrs b x hx
      refine ⟨fun e => hNr.1 (e ▸ hxb), fun e => hRb (e ▸ hxb), ?_⟩
      cases b with
      | null => simp at hx
      | node bl bk bav bh br =>
        simp only [addr_node, Option.some.injEq] at hx
        subst hx
        exact ⟨_, hrb.1⟩)
    (by
      intro pa hpa
      simp only at hpa
      obtain ⟨h1, d, q, pl, pk, pav, ph, pr, rfl, rfl, e1, _⟩ := hpar pa hpa
      rw [hsubmem] at h1
      simp only [not_or] at h1
      refine ⟨h1.2.1, h1.2.2.2.1, fun e => h1.2.2.1 (addr_mem_addrs b _ e), ?_⟩
      exact ⟨_, mem_of_nodeAt h.mem none t q hrep _ _ _ _ _ e1⟩)
  simp only at mN mR mB mP mF
  refine ⟨h', e, hroot, ?_, ?_, mN, mR, mB, mP, mF⟩
  · apply repAt_setAt h.mem h'.mem none t p _ hrep hnd
    · -- the rotated subtree
      rw [repAt_node, repAt_node]
      refine ⟨by rw [mR]; rfl, ⟨by rw [mN], ?_, ?_⟩, ?_⟩
      · apply repAt_frame h.mem _ _ _ _ hra
        intro x hx
        apply mF x
        · exact fun e => hNa (e ▸ hx)
        · exact fun e => (har x hx).2.1 e
        · exact fun e => (har x hx).1 (addr_mem_addrs b x e)
        · intro e
          have := (hpar x e).1
          rw [hsubmem] at this
          exact this (Or.inl hx)
      · cases b with
        | null => trivial
        | node bl bk bav bh br =>
          rw [repAt_node] at hrb ⊢
          have ndb' := (nodup_node _ _ _ _ _).1 ndb
          refine ⟨by rw [mB bav.1 _ rfl hrb.1], ?_, ?_⟩
          · apply repAt_frame h.mem _ _ _ _ hrb.2.1
            intro x hx
            have hxb : x ∈ addrs (node bl bk bav bh br) := by simp [hx]
            apply mF x
            · exact fun e => hNr.1 (e ▸ hxb)
            · exact fun e => hRb (e ▸ hxb)
            · simp only [addr_node, ne_eq, Option.some.injEq]
              exact fun e => ndb'.2.2.1 (e ▸ hx)
            · intro e
              have := (hpar x e).1
              rw [hsubmem] at this
              exact this (Or.inr (Or.inr (Or.inl hxb)))
          · apply repAt_frame h.mem _ _ _ _ hrb.2.2
            intro x hx
            have hxb : x ∈ addrs (node bl bk bav bh br) := by simp [hx]
            apply mF x
            · exact fun e => hNr.1 (e ▸ hxb)
            · exact fun e => hRb (e ▸ hxb)
            · simp only [addr_node, ne_eq, Option.some.injEq]
              exact fun e => ndb'.2.2.2.1 (e ▸ hx)
            · intro e
              have := (hpar x e).1
              rw [hsubmem] at this
              exact this (Or.inr (Or.inr (Or.inl hxb)))
      · apply repAt_frame h.mem _ _ _ _ hrc
        intro x hx
        apply mF x
        · exact fun e => hNr.2.2 (e ▸ hx)
        · exact fun e => hRc (e ▸ hx)
        · exact fun e => hbc x (addr_mem_addrs b x e) hx
        · intro e
          have := (hpar x e).1
          rw [hsubmem] at this
          exact this (Or.inr (Or.inr (Or.inr (Or.inr hx))))
    · intro x _ hx1 hx2
      rw [hsubmem] at hx1
      simp only [not_or] at hx1
      exact mF x hx1.2.1 hx1.2.2.2.1 (fun e => hx1.2.2.1 (addr_mem_addrs b x e))
        (fun e => hx2 e)
    · intro d q hp pa hpa
      subst hp
      obtain ⟨pl, pk, pav, ph, pr, e1, e2, e3, e4⟩ :=
        parent_of_nodeAt t hnd d q (by rw [hn]; simp)
      rw [e1] at hpa ⊢
      simp only [addr_node, Option.some.injEq] at hpa
      subst hpa
      have hcP := mem_of_nodeAt h.mem none t q hrep _ _ _ _ _ e1
      rw [mP pav.1 _ (by simp [e1]) hcP]
      rw [hn] at e2
      cases d
      · simp only [child_false_node] at e2
        subst e2
        simp
      · simp only [child_true_node] at e2
        subst e2
        have : addr pl ≠ some av.1 := by
          intro e
          have hx := addr_mem_addrs pl _ e
          simp only [Bool.not_true, child_false_node, nodeAt_cons, e1, child_true_node] at e4
          exact e4 av.1 (by simp) hx
        simp [this]
  · intro x hx
    apply mF x
    · exact fun e => hx (e ▸ mem_addrs_of_nodeAt t p _ ((hsubmem _).2 (Or.inr (Or.inl rfl))))
    · exact fun e => hx (e ▸ mem_addrs_of_nodeAt t p _
        ((hsubmem _).2 (Or.inr (Or.inr (Or.inr (Or.inl rfl))))))
    · exact fun e => hx (mem_addrs_of_nodeAt t p _
        ((hsubmem _).2 (Or.inr (Or.inr (Or.inl (addr_mem_addrs b x e))))))
    · intro e
      rcases parentAt_mem _ _ _ _ e with h1 | h1
      · simp at h1
      · exact hx h1

/-- The function `rightRotate` on a tree in the store: the store then holds the tree with the
subtree at the node rotated, and `root_` is not assigned to. -/
theorem rightRotate_rep (h : Heap K V) (t : AVLNode K (Nat × V)) (p : NodePtr)
    (hrep : RepAt h.mem none t) (hnd : (addrs t).Nodup)
    (a b c : AVLNode K (Nat × V)) (k lk : K) (av lav : Nat × V) (hh lh : Nat)
    (hn : nodeAt t p = node (node a lk lav lh b) k av hh c) :
    ∃ h', rightRotate h av.1 = some h' ∧ h'.root_ = h.root_ ∧
      RepAt h'.mem none (setAt t p (node a lk lav lh (node b k av hh c))) ∧
      (∀ x, x ∉ addrs t → h'.mem x = h.mem x) ∧
      h'.mem av.1 = some ⟨(k, av.2), some lav.1, addr b, addr c, hh⟩ ∧
      h'.mem lav.1 = some ⟨(lk, lav.2), parentAt none t p, addr a, some av.1, lh⟩ ∧
      (∀ x cB, addr b = some x → h.mem x = some cB →
        h'.mem x = some { cB with parent_ := some av.1 }) ∧
      (∀ x cP, parentAt none t p = some x → h.mem x = some cP →
        h'.mem x = some (if cP.left_ = some av.1 then { cP with left_ := some lav.1 }
          else { cP with right_ := some lav.1 })) ∧
      (∀ x, x ≠ av.1 → x ≠ lav.1 → addr b ≠ some x → parentAt none t p ≠ some x →
        h'.mem x = h.mem x) := by
  have hcN := mem_of_nodeAt h.mem none t p hrep _ _ _ _ _ hn
  have hsubrep := repAt_nodeAt h.mem none t p hrep
  rw [hn, repAt_node, repAt_node] at hsubrep
  obtain ⟨_, ⟨hcL, hra, hrb⟩, hrc⟩ := hsubrep
  have hndsub := nodup_nodeAt t p hnd
  rw [hn, nodup_node, nodup_node] at hndsub
  obtain ⟨⟨nda, ndb, hLa, hLb, hab⟩, ndc, hNl, hNc, hlc⟩ := hndsub
  simp only [addrs_node, List.mem_append, List.mem_cons, not_or] at hNl
  have hne : av.1 ≠ lav.1 := hNl.2.1
  have hsubmem : ∀ x, x ∈ addrs (nodeAt t p) ↔
      x ∈ addrs a ∨ x = lav.1 ∨ x ∈ addrs b ∨ x = av.1 ∨ x ∈ addrs c := by
    intro x
    rw [hn]
    simp only [addrs_node, List.mem_append, List.mem_cons, List.append_assoc, List.cons_append,
      or_assoc]
  have hmemL : ∀ x, x ∈ addrs (node a lk lav lh b) ↔ x ∈ addrs a ∨ x = lav.1 ∨ x ∈ addrs b := by
    intro x
    simp only [addrs_node, List.mem_append, List.mem_cons]
  -- the parent
  have hpar : ∀ pa, parentAt none t p = some pa →
      pa ∉ addrs (nodeAt t p) ∧ ∃ d q pl pk pav ph pr, p = d :: q ∧ pav.1 = pa ∧
        nodeAt t q = node pl pk pav ph pr ∧
        (∀ x ∈ addrs (nodeAt t p), x ∉ addrs (child (!d) (node pl pk pav ph pr))) := by
    intro pa hpa
    cases p with
    | nil => simp at hpa
    | cons d q =>
      obtain ⟨pl, pk, pav, ph, pr, e1, e2, e3, e4⟩ :=
        parent_of_nodeAt t hnd d q (by rw [hn]; simp)
      simp only [parentAt_cons, e1, addr_node, Option.some.injEq] at hpa
      subst hpa
      exact ⟨e3, d, q, pl, pk, pav, ph, pr, rfl, rfl, e1, e4⟩
  obtain ⟨h', e, hroot, mN, mL, mB, mP, mF⟩ := rightRotate_spec h av.1 lav.1 _ _ hcN hcL rfl hne
    (by
      intro x hx
      simp only at hx
      have hxb := addr_mem_addrs b x hx
      refine ⟨fun e => hNl.2.2 (e ▸ hxb), fun e => hLb (e ▸ hxb), ?_⟩
      cases b with
      | null => simp at hx
      | node bl bk bav bh br =>
        simp only [addr_node, Option.some.injEq] at hx
        subst hx
        exact ⟨_, hrb.1⟩)
    (by
      intro pa hpa
      simp only at hpa
      obtain ⟨h1, d, q, pl, pk, pav, ph, pr, rfl, rfl, e1, _⟩ := hpar pa hpa
      rw [hsubmem] at h1
      simp only [not_or] at h1
      refine ⟨h1.2.2.2.1, h1.2.1, fun e => h1.2.2.1 (addr_mem_addrs b _ e), ?_⟩
      exact ⟨_, mem_of_nodeAt h.mem none t q hrep _ _ _ _ _ e1⟩)
  simp only at mN mL mB mP mF
  refine ⟨h', e, hroot, ?_, ?_, mN, mL, mB, mP, mF⟩
  · apply repAt_setAt h.mem h'.mem none t p _ hrep hnd
    · -- the rotated subtree
      rw [repAt_node, repAt_node]
      refine ⟨by rw [mL]; rfl, ?_, ⟨by rw [mN], ?_, ?_⟩⟩
      · apply repAt_frame h.mem _ _ _ _ hra
        intro x hx
        apply mF x
        · exact fun e => hNl.1 (e ▸ hx)
        · exact fun e => hLa (e ▸ hx)
        · exact fun e => hab x hx (addr_mem_addrs b x e)
        · intro e
          have := (hpar x e).1
          rw [hsubmem] at this
          exact this (Or.inl hx)
      · cases b with
        | null => trivial
        | node bl bk bav bh br =>
          rw [repAt_node] at hrb ⊢
          have ndb' := (nodup_node _ _ _ _ _).1 ndb
          refine ⟨by rw [mB bav.1 _ rfl hrb.1], ?_, ?_⟩
          · apply repAt_frame h.mem _ _ _ _ hrb.2.1
            intro x hx
            have hxb : x ∈ addrs (node bl bk bav bh br) := by simp [hx]
            apply mF x
            · exact fun e => hNl.2.2 (e ▸ hxb)
            · exact fun e => hLb (e ▸ hxb)
            · simp only [addr_node, ne_eq, Option.some.injEq]
              exact fun e => ndb'.2.2.1 (e ▸ hx)
            · intro e
              have := (hpar x e).1
              rw [hsubmem] at this
              exact this (Or.inr (Or.inr (Or.inl hxb)))
          · apply repAt_frame h.mem _ _ _ _ hrb.2.2
            intro x hx
            have hxb : x ∈ addrs (node bl bk bav bh br) := by simp [hx]
            apply mF x
            · exact fun e => hNl.2.2 (e ▸ hxb)
            · exact fun e => hLb (e ▸ hxb)
            · simp only [addr_node, ne_eq, Option.some.injEq]
              exact fun e => ndb'.2.2.2.1 (e ▸ hx)
            · intro e
              have := (hpar x e).1
              rw [hsubmem] at this
              exact this (Or.inr (Or.inr (Or.inl hxb)))
      · apply repAt_frame h.mem _ _ _ _ hrc
        intro x hx
        apply mF x
        · exact fun e => hNc (e ▸ hx)
        · exact fun e => hlc lav.1 ((hmemL _).2 (Or.inr (Or.inl rfl))) (e ▸ hx)
        · exact fun e => hlc x ((hmemL _).2 (Or.inr (Or.inr (addr_mem_addrs b x e)))) hx
        · intro e
          have := (hpar x e).1
          rw [hsubmem] at this
          exact this (Or.inr (Or.inr (Or.inr (Or.inr hx))))
    · intro x _ hx1 hx2
      rw [hsubmem] at hx1
      simp only [not_or] at hx1
      exact mF x hx1.2.2.2.1 hx1.2.1 (fun e => hx1.2.2.1 (addr_mem_addrs b x e))
        (fun e => hx2 e)
    · intro d q hp pa hpa
      subst hp
      obtain ⟨pl, pk, pav, ph, pr, e1, e2, e3, e4⟩ :=
        parent_of_nodeAt t hnd d q (by rw [hn]; simp)
      rw [e1] at hpa ⊢
      simp only [addr_node, Option.some.injEq] at hpa
      subst hpa
      have hcP := mem_of_nodeAt h.mem none t q hrep _ _ _ _ _ e1
      rw [mP pav.1 _ (by simp [e1]) hcP]
      rw [hn] at e2
      cases d
      · simp only [child_false_node] at e2
        subst e2
        simp
      · simp only [child_true_node] at e2
        subst e2
        have : addr pl ≠ some av.1 := by
          intro e
          have hx := addr_mem_addrs pl _ e
          simp only [Bool.not_true, child_false_node, nodeAt_cons, e1, child_true_node] at e4
          exact e4 av.1 (by simp) hx
        simp [this]
  · intro x hx
    apply mF x
    · exact fun e => hx (e ▸ mem_addrs_of_nodeAt t p _
        ((hsubmem _).2 (Or.inr (Or.inr (Or.inr (Or.inl rfl))))))
    · exact fun e => hx (e ▸ mem_addrs_of_nodeAt t p _ ((hsubmem _).2 (Or.inr (Or.inl rfl))))
    · exact fun e => hx (mem_addrs_of_nodeAt t p _
        ((hsubmem _).2 (Or.inr (Or.inr (Or.inl (addr_mem_addrs b x e))))))
    · intro e
      rcases parentAt_mem _ _ _ _ e with h1 | h1
      · simp at h1
      · exact hx h1

end HeapAVL

/-! ## The shape of a rotation, and the root reference -/

namespace Heap

open AVLNode

variable {K V : Type}

theorem addrs_eq_map (t : AVLNode K (Nat × V)) :
    addrs t = (toList t).map fun kv => kv.2.1 := by
  induction t with
  | null => rfl
  | node l k av h r ihl ihr => simp [ihl, ihr]

theorem addrs_eq_of_toList_eq (t t' : AVLNode K (Nat × V)) (h : toList t' = toList t) :
    addrs t' = addrs t := by
  rw [addrs_eq_map, addrs_eq_map, h]

theorem assign_root (h h' : Heap K V) (n : Nat) (f : HeapNode K V → HeapNode K V)
    (e : assign h n f = some h') : h'.root_ = h.root_ := by
  unfold assign at e
  split at e
  · simp only [Option.some.injEq] at e
    rw [← e]
    rfl
  · exact absurd e (by simp)

theorem getParent_of_mem (h : Heap K V) (n : Nat) (c : HeapNode K V) (hc : h.mem n = some c) :
    Heap.getParent h n = some c.parent_ := by
  simp [Heap.getParent, hc]

theorem getLeft_of_mem (h : Heap K V) (n : Nat) (c : HeapNode K V) (hc : h.mem n = some c) :
    getLeft h n = some c.left_ := by
  simp [getLeft, hc]

theorem getRight_of_mem (h : Heap K V) (n : Nat) (c : HeapNode K V) (hc : h.mem n = some c) :
    getRight h n = some c.right_ := by
  simp [getRight, hc]

theorem getHeight_of_mem (h : Heap K V) (n : Nat) (c : HeapNode K V) (hc : h.mem n = some c) :
    Heap.getHeight h n = some c.height_ := by
  simp [Heap.getHeight, hc]

end Heap

namespace HeapAVL

open AVLNode Heap

variable {K V : Type}

/-- C21: the shape of a rotation.  Let the store hold a tree `t` with consistent links
(`Rep`), and let `N` be the node at `p`, with left subtree `a`, right child `R`, and `b`, `c`
the subtrees of `R`.  Then `leftRotate(N)` returns, and afterwards: `parent_` of `R` is the
old parent of `N`; when that parent exists, its slot that held `N` holds `R` and its other
slot is as before; `left_` of `R` is `N` and `parent_` of `N` is `R`; `right_` of `N` is the
root of `b` (`NULL` when `b` is empty) and `parent_` of that root is `N`; `left_` of `N` is
still the root of `a` and `right_` of `R` still the root of `c`, and no object of `a` or
`c` has changed; the store holds the tree with the subtree at `p` rotated, again with
consistent links and without repeated address; and the in-order sequence of the keys (and of
the items) of the whole tree is unchanged.  `rightRotate` is the mirror image. -/
theorem rotation_shape (h : Heap K V) (t : AVLNode K (Nat × V)) (p : NodePtr)
    (hrep : Rep h t) :
    (∀ a b c k rk N R hN hR, nodeAt t p = node a k N hN (node b rk R hR c) →
      ∃ h', leftRotate h N.1 = some h' ∧
        Heap.getParent h N.1 = some (parentAt none t p) ∧
        Heap.getParent h' R.1 = some (parentAt none t p) ∧
        (∀ pa, parentAt none t p = some pa →
          (getLeft h pa = some (some N.1) ∧ getLeft h' pa = some (some R.1) ∧
            getRight h' pa = getRight h pa) ∨
          (getRight h pa = some (some N.1) ∧ getRight h' pa = some (some R.1) ∧
            getLeft h' pa = getLeft h pa)) ∧
        getLeft h' R.1 = some (some N.1) ∧ Heap.getParent h' N.1 = some (some R.1) ∧
        getRight h' N.1 = some (addr b) ∧
        (∀ x, addr b = some x → Heap.getParent h' x = some (some N.1)) ∧
        getLeft h' N.1 = some (addr a) ∧ getRight h' R.1 = some (addr c) ∧
        (∀ x, x ∈ addrs a ∨ x ∈ addrs c → h'.mem x = h.mem x) ∧
        RepAt h'.mem none (setAt t p (node (node a k N hN b) rk R hR c)) ∧
        (addrs (setAt t p (node (node a k N hN b) rk R hR c))).Nodup ∧
        AVLTree.leftRotate t p = some (setAt t p (node (node a k N hN b) rk R hR c)) ∧
        keys (setAt t p (node (node a k N hN b) rk R hR c)) = keys t ∧
        toList (setAt t p (node (node a k N hN b) rk R hR c)) = toList t) ∧
    (∀ a b c k lk N L hN hL, nodeAt t p = node (node a lk L hL b) k N hN c →
      ∃ h', rightRotate h N.1 = some h' ∧
        Heap.getParent h N.1 = some (parentAt none t p) ∧
        Heap.getParent h' L.1 = some (parentAt none t p) ∧
        (∀ pa, parentAt none t p = some pa →
          (getLeft h pa = some (some N.1) ∧ getLeft h' pa = some (some L.1) ∧
            getRight h' pa = getRight h pa) ∨
          (getRight h pa = some (some N.1) ∧ getRight h' pa = some (some L.1) ∧
            getLeft h' pa = getLeft h pa)) ∧
        getRight h' L.1 = some (some N.1) ∧ Heap.getParent h' N.1 = some (some L.1) ∧
        getLeft h' N.1 = some (addr b) ∧
        (∀ x, addr b = some x → Heap.getParent h' x = some (some N.1)) ∧
        getRight h' N.1 = some (addr c) ∧ getLeft h' L.1 = some (addr a) ∧
        (∀ x, x ∈ addrs a ∨ x ∈ addrs c → h'.mem x = h.mem x) ∧
        RepAt h'.mem none (setAt t p (node a lk L hL (node b k N hN c))) ∧
        (addrs (setAt t p (node a lk L hL (node b k N hN c)))).Nodup ∧
        AVLTree.rightRotate t p = some (setAt t p (node a lk L hL (node b k N hN c))) ∧
        keys (setAt t p (node a lk L hL (node b k N hN c))) = keys t ∧
        toList (setAt t p (node a lk L hL (node b k N hN c))) = toList t) := by
  obtain ⟨_, hr, hnd⟩ := hrep
  constructor
  · intro a b c k rk N R hN hR hn
    obtain ⟨h', e, _, hrep', _, mN, mR, mB, mP, mF⟩ :=
      leftRotate_rep h t p hr hnd a b c k rk N R hN hR hn
    have hrot : AVLTree.leftRotate t p = some (setAt t p (node (node a k N hN b) rk R hR c)) := by
      simp only [AVLTree.leftRotate, hn]
    have hlist := AVLTree.toList_leftRotate _ _ _ hrot
    have hcN := mem_of_nodeAt h.mem none t p hr _ _ _ _ _ hn
    have hndsub := nodup_nodeAt t p hnd
    rw [hn, nodup_node, nodup_node] at hndsub
    obtain ⟨nda, ⟨ndb, ndc, hRb, hRc, hbc⟩, hNa, hNr, har⟩ := hndsub
    simp only [addrs_node, List.mem_append, List.mem_cons, not_or] at hNr har
    have hsubmem : ∀ x, x ∈ addrs (nodeAt t p) ↔
        x ∈ addrs a ∨ x = N.1 ∨ x ∈ addrs b ∨ x = R.1 ∨ x ∈ addrs c := by
      intro x
      rw [hn]
      simp only [addrs_node, List.mem_append, List.mem_cons]
    refine ⟨h', e, getParent_of_mem _ _ _ hcN, getParent_of_mem _ _ _ mR, ?_,
      getLeft_of_mem _ _ _ mR, getParent_of_mem _ _ _ mN, getRight_of_mem _ _ _ mN, ?_,
      getLeft_of_mem _ _ _ mN, getRight_of_mem _ _ _ mR, ?_, hrep', ?_, hrot, ?_, hlist⟩
    · intro pa hpa
      cases p with
      | nil => simp at hpa
      | cons d q =>
        obtain ⟨pl, pk, pav, ph, pr, e1, e2, e3, e4⟩ :=
          parent_of_nodeAt t hnd d q (by rw [hn]; simp)
        have hpa' : pav.1 = pa := by simpa [e1] using hpa
        subst hpa'
        have hcP := mem_of_nodeAt h.mem none t q hr _ _ _ _ _ e1
        have m := mP pav.1 _ hpa hcP
        rw [hn] at e2
        cases d
        · simp only [child_false_node] at e2
          subst e2
          left
          simp only [addr_node, if_true] at m
          exact ⟨by rw [getLeft_of_mem _ _ _ hcP]; rfl, getLeft_of_mem _ _ _ m,
            by rw [getRight_of_mem _ _ _ m, getRight_of_mem _ _ _ hcP]⟩
        · simp only [child_true_node] at e2
          subst e2
          right
          have hne : addr pl ≠ some N.1 := by
            intro e
            have hx := addr_mem_addrs pl _ e
            simp only [Bool.not_true, child_false_node, nodeAt_cons, e1, child_true_node] at e4
            exact e4 N.1 (by simp) hx
          simp only [hne, if_false] at m
          exact ⟨by rw [getRight_of_mem _ _ _ hcP]; rfl, getRight_of_mem _ _ _ m,
            by rw [getLeft_of_mem _ _ _ m, getLeft_of_mem _ _ _ hcP]⟩
    · intro x hx
      cases b with
      | null => simp at hx
      | node bl bk bav bh br =>
        simp only [addr_node, Option.some.injEq] at hx
        subst hx
        have hsub := repAt_nodeAt h.mem none t (false :: true :: p) hr
        simp only [nodeAt_cons, hn, child_true_node, child_false_node] at hsub
        exact getParent_of_mem _ _ _ (mB bav.1 _ rfl hsub.1)
    · intro x hx
      apply mF x
      · rintro rfl
        rcases hx with hx | hx
        · exact hNa hx
        · exact hNr.2.2 hx
      · rintro rfl
        rcases hx with hx | hx
        · exact (har _ hx).2.1 rfl
        · exact hRc hx
      · intro e
        have hxb := addr_mem_addrs b x e
        rcases hx with hx | hx
        · exact (har _ hx).1 hxb
        · exact hbc x hxb hx
      · intro e
        cases p with
        | nil => simp at e
        | cons d q =>
          obtain ⟨pl, pk, pav, ph, pr, e1, _, e3, _⟩ :=
            parent_of_nodeAt t hnd d q (by rw [hn]; simp)
          have : pav.1 = x := by simpa [e1] using e
          subst this
          rw [hsubmem] at e3
          rcases hx with hx | hx
          · exact e3 (Or.inl hx)
          · exact e3 (Or.inr (Or.inr (Or.inr (Or.inr hx))))
    · rw [addrs_eq_of_toList_eq _ _ hlist]
      exact hnd
    · rw [AVLTree.keys_eq_map, AVLTree.keys_eq_map, hlist]
  · intro a b c k lk N L hN hL hn
    obtain ⟨h', e, _, hrep', _, mN, mL, mB, mP, mF⟩ :=
      rightRotate_rep h t p hr hnd a b c k lk N L hN hL hn
    have hrot : AVLTree.rightRotate t p =
        some (setAt t p (node a lk L hL (node b k N hN c))) := by
      simp only [AVLTree.rightRotate, hn]
    have hlist := AVLTree.toList_rightRotate _ _ _ hrot
    have hcN := mem_of_nodeAt h.mem none t p hr _ _ _ _ _ hn
    have hndsub := nodup_nodeAt t p hnd
    rw [hn, nodup_node, nodup_node] at hndsub
    obtain ⟨⟨nda, ndb, hLa, hLb, hab⟩, ndc, hNl, hNc, hlc⟩ := hndsub
    simp only [addrs_node, List.mem_append, List.mem_cons, not_or] at hNl
    have hmemL : ∀ x, x ∈ addrs (node a lk L hL b) ↔
        x ∈ addrs a ∨ x = L.1 ∨ x ∈ addrs b := by
      intro x
      simp only [addrs_node, List.mem_append, List.mem_cons]
    have hsubmem : ∀ x, x ∈ addrs (nodeAt t p) ↔
        x ∈ addrs a ∨ x = L.1 ∨ x ∈ addrs b ∨ x = N.1 ∨ x ∈ addrs c := by
      intro x
      rw [hn]
      simp only [addrs_node, List.mem_append, List.mem_cons, List.append_assoc,
        List.cons_append, or_assoc]
    refine ⟨h', e, getParent_of_mem _ _ _ hcN, getParent_of_mem _ _ _ mL, ?_,
      getRight_of_mem _ _ _ mL, getParent_of_mem _ _ _ mN, getLeft_of_mem _ _ _ mN, ?_,
      getRight_of_mem _ _ _ mN, getLeft_of_mem _ _ _ mL, ?_, hrep', ?_, hrot, ?_, hlist⟩
    · intro pa hpa
      cases p with
      | nil => simp at hpa
      | cons d q =>
        obtain ⟨pl, pk, pav, ph, pr, e1, e2, e3, e4⟩ :=
          parent_of_nodeAt t hnd d q (by rw [hn]; simp)
        have hpa' : pav.1 = pa := by simpa [e1] using hpa
        subst hpa'
        have hcP := mem_of_nodeAt h.mem none t q hr _ _ _ _ _ e1
        have m := mP pav.1 _ hpa hcP
        rw [hn] at e2
        cases d
        · simp only [child_false_node] at e2
          subst e2
          left
          simp only [addr_node, if_true] at m
          exact ⟨by rw [getLeft_of_mem _ _ _ hcP]; rfl, getLeft_of_mem _ _ _ m,
            by rw [getRight_of_mem _ _ _ m, getRight_of_mem _ _ _ hcP]⟩
        · simp only [child_true_node] at e2
          subst e2
          right
          have hne : addr pl ≠ some N.1 := by
            intro e
            have hx := addr_mem_addrs pl _ e
            simp only [Bool.not_true, child_false_node, nodeAt_cons, e1, child_true_node] at e4
            exact e4 N.1 (by simp) hx
          simp only [hne, if_false] at m
          exact ⟨by rw [getRight_of_mem _ _ _ hcP]; rfl, getRight_of_mem _ _ _ m,
            by rw [getLeft_of_mem _ _ _ m, getLeft_of_mem _ _ _ hcP]⟩
    · intro x hx
      cases b with
      | null => simp at hx
      | node bl bk bav bh br =>
        simp only [addr_node, Option.some.injEq] at hx
        subst hx
        have hsub := repAt_nodeAt h.mem none t (true :: false :: p) hr
        simp only [nodeAt_cons, hn, child_true_node, child_false_node] at hsub
        exact getParent_of_mem _ _ _ (mB bav.1 _ rfl hsub.1)
    · intro x hx
      apply mF x
      · rintro rfl
        rcases hx with hx | hx
        · exact hNl.1 hx
        · exact hNc hx
      · rintro rfl
        rcases hx with hx | hx
        · exact hLa hx
        · exact hlc _ ((hmemL _).2 (Or.inr (Or.inl rfl))) hx
      · intro e
        have hxb := addr_mem_addrs b x e
        rcases hx with hx | hx
        · exact hab x hx hxb
        · exact hlc x ((hmemL _).2 (Or.inr (Or.inr hxb))) hx
      · intro e
        cases p with
        | nil => simp at e
        | cons d q =>
          obtain ⟨pl, pk, pav, ph, pr, e1, _, e3, _⟩ :=
            parent_of_nodeAt t hnd d q (by rw [hn]; simp)
          have : pav.1 = x := by simpa [e1] using e
          subst this
          rw [hsubmem] at e3
          rcases hx with hx | hx
          · exact e3 (Or.inl hx)
          · exact e3 (Or.inr (Or.inr (Or.inr (Or.inr hx))))
    · rw [addrs_eq_of_toList_eq _ _ hlist]
      exact hnd
    · rw [AVLTree.keys_eq_map, AVLTree.keys_eq_map, hlist]

/-- C21 on the store `chainHeap`, at the node at address `1` (key `2`), whose parent is the
node at address `0` and whose right child is the node at address `2`. -/
theorem rotation_shape_witness :
    Rep chainHeap chainTree ∧
      ∃ h', leftRotate chainHeap 1 = some h' ∧ Heap.getParent h' 2 = some (some 0) ∧
        getLeft h' 2 = some (some 1) ∧ Heap.getParent h' 1 = some (some 2) ∧
        getRight h' 1 = some none ∧ getRight h' 0 = some (some 2) := by
  refine ⟨by decide, ?_⟩
  obtain ⟨h', e, _, h2, h3, h4, h5, h6, _⟩ :=
    (rotation_shape chainHeap chainTree [true] (by decide)).1 .null .null .null 2 3 (1, 20)
      (2, 30) 2 1 rfl
  refine ⟨h', e, h2, h4, h5, h6, ?_⟩
  rcases h3 0 rfl with ⟨h7, _, _⟩ | ⟨_, h8, _⟩
  · exact absurd h7 (by decide)
  · exact h8

/-- C22, as stated, fails on the store `chainHeap`: `root_` designates the node `N` at
address `0`, whose right child `R` is the node at address `1`; `leftRotate(N)` returns, and
`root_` is then still the address `0` of `N`, not the address `1` of `R`.  In the same way
`rightRotate` of the root of `leftChainHeap` leaves `root_` at the address `0`, not at the
address `1` of the left child. -/
theorem rotation_at_root_keeps_root_reference :
    Rep chainHeap chainTree ∧ chainHeap.root_ = some 0 ∧
      getRight chainHeap 0 = some (some 1) ∧
      (leftRotate chainHeap 0).map (fun h' => h'.root_) = some (some 0) ∧
      (leftRotate chainHeap 0).map (fun h' => h'.root_) ≠ some (some 1) ∧
      Rep leftChainHeap leftChainTree ∧ leftChainHeap.root_ = some 0 ∧
      getLeft leftChainHeap 0 = some (some 1) ∧
      (rightRotate leftChainHeap 0).map (fun h' => h'.root_) = some (some 0) ∧
      (rightRotate leftChainHeap 0).map (fun h' => h'.root_) ≠ some (some 1) := by
  decide

/-- C22, amended: a rotation at the root does not update the root reference; the caller
does.  Let the store hold a tree with consistent links whose root `N` has the right child
`R`.  Then `leftRotate(N)` returns, and afterwards `root_` is unchanged: it still designates
`N` and not `R`, although `R` has no parent any more and `N` is its left child.  `root_`
designates `R`, and the store holds the rotated tree with `root_` at its root, once the
statement `if (z == this->root_) this->root_ = y;` of `balance` has been executed with
`z = N` and `y = R`.  `rightRotate` on a root with a left child `L` is the mirror image. -/
theorem rotation_leaves_root_reference (h : Heap K V) (t : AVLNode K (Nat × V))
    (hrep : Rep h t) :
    (∀ a b c k rk N R hN hR, t = node a k N hN (node b rk R hR c) →
      ∃ h', leftRotate h N.1 = some h' ∧ h'.root_ = h.root_ ∧ h'.root_ = some N.1 ∧
        h'.root_ ≠ some R.1 ∧ Heap.getParent h' R.1 = some none ∧
        getLeft h' R.1 = some (some N.1) ∧ Heap.getParent h' N.1 = some (some R.1) ∧
        (setRootIf h' N.1 (some R.1)).root_ = some R.1 ∧
        Rep (setRootIf h' N.1 (some R.1)) (node (node a k N hN b) rk R hR c)) ∧
    (∀ a b c k lk N L hN hL, t = node (node a lk L hL b) k N hN c →
      ∃ h', rightRotate h N.1 = some h' ∧ h'.root_ = h.root_ ∧ h'.root_ = some N.1 ∧
        h'.root_ ≠ some L.1 ∧ Heap.getParent h' L.1 = some none ∧
        getRight h' L.1 = some (some N.1) ∧ Heap.getParent h' N.1 = some (some L.1) ∧
        (setRootIf h' N.1 (some L.1)).root_ = some L.1 ∧
        Rep (setRootIf h' N.1 (some L.1)) (node a lk L hL (node b k N hN c))) := by
  obtain ⟨hroot, hr, hnd⟩ := hrep
  constructor
  · intro a b c k rk N R hN hR ht
    subst ht
    obtain ⟨h', e, hroot', hrep', _, mN, mR, _, _, _⟩ :=
      leftRotate_rep h _ [] hr hnd a b c k rk N R hN hR rfl
    have hne : N.1 ≠ R.1 := by
      rw [nodup_node] at hnd
      have := hnd.2.2.2.1
      simp only [addrs_node, List.mem_append, List.mem_cons, not_or] at this
      exact this.2.1
    have hN' : h'.root_ = some N.1 := by rw [hroot', hroot]; rfl
    have hset : setRootIf h' N.1 (some R.1) = { h' with root_ := some R.1 } := by
      simp only [setRootIf, hN', if_true]
    refine ⟨h', e, hroot', hN', ?_, getParent_of_mem _ _ _ mR, getLeft_of_mem _ _ _ mR,
      getParent_of_mem _ _ _ mN, by rw [hset], ?_⟩
    · rw [hN']
      simpa using hne
    · rw [hset]
      refine ⟨rfl, hrep', ?_⟩
      have : toList (node (node a k N hN b) rk R hR c) =
          toList (node a k N hN (node b rk R hR c)) := by simp
      rw [addrs_eq_of_toList_eq _ _ this]
      exact hnd
  · intro a b c k lk N L hN hL ht
    subst ht
    obtain ⟨h', e, hroot', hrep', _, mN, mL, _, _, _⟩ :=
      rightRotate_rep h _ [] hr hnd a b c k lk N L hN hL rfl
    have hne : N.1 ≠ L.1 := by
      rw [nodup_node] at hnd
      have := hnd.2.2.1
      simp only [addrs_node, List.mem_append, List.mem_cons, not_or] at this
      exact this.2.1
    have hN' : h'.root_ = some N.1 := by rw [hroot', hroot]; rfl
    have hset : setRootIf h' N.1 (some L.1) = { h' with root_ := some L.1 } := by
      simp only [setRootIf, hN', if_true]
    refine ⟨h', e, hroot', hN', ?_, getParent_of_mem _ _ _ mL, getRight_of_mem _ _ _ mL,
      getParent_of_mem _ _ _ mN, by rw [hset], ?_⟩
    · rw [hN']
      simpa using hne
    · rw [hset]
      refine ⟨rfl, hrep', ?_⟩
      have : toList (node a lk L hL (node b k N hN c)) =
          toList (node (node a lk L hL b) k N hN c) := by simp
      rw [addrs_eq_of_toList_eq _ _ this]
      exact hnd

/-- C22, amended, on the store `chainHeap`. -/
theorem rotation_leaves_root_reference_witness :
    Rep chainHeap chainTree ∧
      ∃ h', leftRotate chainHeap 0 = some h' ∧ h'.root_ = some 0 ∧
        Heap.getParent h' 1 = some none ∧ (setRootIf h' 0 (some 1)).root_ = some 1 := by
  refine ⟨by decide, ?_⟩
  obtain ⟨h', e, _, h2, _, h4, _, _, h7, _⟩ :=
    (rotation_leaves_root_reference chainHeap chainTree (by decide)).1 .null .null
      (.node .null 3 (2, 30) 1 .null) 1 2 (0, 10) (1, 20) 3 2 rfl
  exact ⟨h', e, h2, h4, h7⟩

end HeapAVL

/-! ## `updateHeights` in the store -/

namespace Heap

open AVLNode

variable {K V : Type}

/-- The subtree put at a place is found there, when the place has a parent (or is the
root). -/
theorem nodeAt_setAt_self (t : AVLNode K (Nat × V)) (q : NodePtr) (x : AVLNode K (Nat × V))
    (hv : ∀ d q', q = d :: q' → nodeAt t q' ≠ null) : nodeAt (setAt t q x) q = x := by
  induction q using List.reverseRecOn generalizing t with
  | nil => rfl
  | append_singleton q0 e ih =>
    have ht : t ≠ null := by
      rintro rfl
      cases q0 with
      | nil => exact hv e [] rfl (by simp)
      | cons d q0' => exact hv d (q0' ++ [e]) rfl (by simp)
    rw [setAt_snoc, nodeAt_snoc, child_setChild _ _ _ ht]
    apply ih
    intro d q' hq
    subst hq
    have := hv d (q' ++ [e]) rfl
    rwa [nodeAt_snoc] at this

theorem nodeAt_setAt_parent (t : AVLNode K (Nat × V)) (d : Bool) (q : NodePtr)
    (s : AVLNode K (Nat × V)) (hq : nodeAt t q ≠ null) :
    nodeAt (setAt t (d :: q) s) q = setChild d s (nodeAt t q) := by
  rw [setAt_cons]
  apply nodeAt_setAt_self
  intro e q' hq'
  subst hq'
  intro h0
  apply hq
  simp [h0]

theorem nodeAt_setAt_of_node (t : AVLNode K (Nat × V)) (q : NodePtr)
    (x : AVLNode K (Nat × V)) (hq : nodeAt t q ≠ null) : nodeAt (setAt t q x) q = x := by
  apply nodeAt_setAt_self
  intro e q' hq'
  subst hq'
  intro h0
  apply hq
  simp [h0]

theorem addrs_setAt (t : AVLNode K (Nat × V)) (q : NodePtr) (s : AVLNode K (Nat × V))
    (h : toList s = toList (nodeAt t q)) : addrs (setAt t q s) = addrs t :=
  addrs_eq_of_toList_eq _ _ (AVLTree.toList_setAt t q s h)

theorem heightOrZero_rep (h : Heap K V) (par : Option Nat) (s : AVLNode K (Nat × V))
    (hs : RepAt h.mem par s) : Heap.heightOrZero h (addr s) = some (AVLNode.heightOrZero s) := by
  cases s with
  | null => rfl
  | node l k av hh r => simp [Heap.heightOrZero, Heap.getHeight, hs.1]

/-- The store after `setHeight` on the node at `p` holds the tree with that height
changed. -/
theorem setHeight_rep (h : Heap K V) (t : AVLNode K (Nat × V)) (p : NodePtr)
    (hrep : RepAt h.mem none t) (hnd : (addrs t).Nodup)
    (l r : AVLNode K (Nat × V)) (k : K) (av : Nat × V) (hh : Nat)
    (hn : nodeAt t p = node l k av hh r) (n : Nat) :
    RepAt (modify h av.1 fun c => { c with height_ := n }).mem none
      (setAt t p (node l k av n r)) := by
  have hc := mem_of_nodeAt h.mem none t p hrep _ _ _ _ _ hn
  have hsub := repAt_nodeAt h.mem none t p hrep
  rw [hn, repAt_node] at hsub
  have hndsub := nodup_nodeAt t p hnd
  rw [hn, nodup_node] at hndsub
  obtain ⟨_, _, hl, hr, _⟩ := hndsub
  apply repAt_setAt h.mem _ none t p _ hrep hnd
  · rw [repAt_node]
    refine ⟨by rw [mem_modify_same, hc]; rfl, ?_, ?_⟩
    · apply repAt_frame h.mem _ _ _ _ hsub.2.1
      intro x hx
      exact mem_modify_ne _ _ _ _ (fun e => hl (e ▸ hx))
    · apply repAt_frame h.mem _ _ _ _ hsub.2.2
      intro x hx
      exact mem_modify_ne _ _ _ _ (fun e => hr (e ▸ hx))
  · intro x _ hx _
    apply mem_modify_ne
    intro e
    apply hx
    rw [hn, e]
    simp
  · intro d q hp a ha
    subst hp
    obtain ⟨pl, pk, pav, ph, pr, e1, e2, e3, _⟩ :=
      parent_of_nodeAt t hnd d q (by rw [hn]; simp)
    rw [e1] at ha ⊢
    simp only [addr_node, Option.some.injEq] at ha
    subst ha
    have hne : pav.1 ≠ av.1 := by
      intro e
      apply e3
      rw [hn, e]
      simp
    rw [mem_modify_ne _ _ _ _ hne, mem_of_nodeAt h.mem none t q hrep _ _ _ _ _ e1]
    rw [hn] at e2
    cases d
    · simp only [child_false_node] at e2
      subst e2
      rfl
    · simp only [child_true_node] at e2
      subst e2
      rfl

end Heap

namespace HeapAVL

open AVLNode Heap

variable {K V : Type}

/-- The function `updateHeights` on a tree in the store, started at the node at `p`: with
fuel for the way up, it returns, and the store holds the tree that `updateHeights` makes of
the tree. -/
theorem updateHeights_rep (fuel : Nat) (h : Heap K V) (t : AVLNode K (Nat × V))
    (p : NodePtr) (hrep : RepAt h.mem none t) (hnd : (addrs t).Nodup) (a : Nat)
    (ha : addr (nodeAt t p) = some a) (hf : p.length < fuel) :
    ∃ h', updateHeights fuel h (some a) = some h' ∧ h'.root_ = h.root_ ∧
      RepAt h'.mem none (AVLTree.updateHeightsLoop t p) ∧
      (∀ x, x ∉ addrs t → h'.mem x = h.mem x) := by
  induction p generalizing h t a fuel with
  | nil =>
    cases fuel with
    | zero => simp at hf
    | succ fuel =>
      cases t with
      | null => simp at ha
      | node l k av hh r =>
        simp only [nodeAt_nil, addr_node, Option.some.injEq] at ha
        subst ha
        have hc := hrep.1
        have h1 := heightOrZero_rep h _ l hrep.2.1
        have h2 := heightOrZero_rep h _ r hrep.2.2
        have hstep := setHeight_rep h _ [] hrep hnd l r k av hh rfl
          (max (AVLNode.heightOrZero l) (AVLNode.heightOrZero r) + 1)
        refine ⟨_, ?_, ?_, hstep, ?_⟩
        · simp only [updateHeights, getLeft, getRight, Heap.getParent, setHeight, assign, hc,
            h1, h2, mem_modify_same, Option.map_some', Option.bind_eq_bind, Option.some_bind,
            Option.isSome_some, if_true]
        · rfl
        · intro x hx
          apply mem_modify_ne
          intro e
          apply hx
          simp [e]
  | cons d q ih =>
    cases fuel with
    | zero => simp at hf
    | succ fuel =>
      cases hn : nodeAt t (d :: q) with
      | null => simp [hn] at ha
      | node l k av hh r =>
        rw [hn] at ha
        simp only [addr_node, Option.some.injEq] at ha
        subst ha
        have hc := mem_of_nodeAt h.mem none t (d :: q) hrep _ _ _ _ _ hn
        have hsub := repAt_nodeAt h.mem none t (d :: q) hrep
        rw [hn, repAt_node] at hsub
        have h1 := heightOrZero_rep h _ l hsub.2.1
        have h2 := heightOrZero_rep h _ r hsub.2.2
        have hstep := setHeight_rep h t (d :: q) hrep hnd l r k av hh hn
          (max (AVLNode.heightOrZero l) (AVLNode.heightOrZero r) + 1)
        obtain ⟨pl, pk, pav, ph, pr, e1, _, _, _⟩ :=
          parent_of_nodeAt t hnd d q (by rw [hn]; simp)
        have hlist : toList (node l k av
            (max (AVLNode.heightOrZero l) (AVLNode.heightOrZero r) + 1) r) =
            toList (nodeAt t (d :: q)) := by rw [hn]; simp
        have hadd := addrs_setAt t (d :: q) _ hlist
        have hpa : addr (nodeAt (setAt t (d :: q) (node l k av
            (max (AVLNode.heightOrZero l) (AVLNode.heightOrZero r) + 1) r)) q) = some pav.1 := by
          rw [nodeAt_setAt_parent _ _ _ _ (by rw [e1]; simp), addr_setChild, e1]
          rfl
        obtain ⟨h', e', r', hrep', hfr'⟩ := ih fuel _ _ hstep (by rw [hadd]; exact hnd) pav.1 hpa
          (by simpa using hf)
        refine ⟨h', ?_, ?_, ?_, ?_⟩
        · simp only [updateHeights, getLeft, getRight, Heap.getParent, setHeight, assign, hc,
            h1, h2, mem_modify_same, Option.map_some', Option.bind_eq_bind, Option.some_bind,
            Option.isSome_some, if_true, parentAt_cons, e1, addr_node]
          exact e'
        · rw [r']
          rfl
        · rw [AVLTree.updateHeightsLoop_cons, hn]
          exact hrep'
        · intro x hx
          rw [hfr' x (by rw [hadd]; exact hx)]
          apply mem_modify_ne
          intro e
          apply hx
          apply mem_addrs_of_nodeAt t (d :: q)
          rw [hn, e]
          simp

/-- The function `updateHeights` on a pointer that is `NULL` or designates the node at a place
of the tree. -/
theorem updateHeights_rep_opt (fuel : Nat) (h : Heap K V) (t : AVLNode K (Nat × V))
    (x : Option NodePtr) (hrep : RepAt h.mem none t) (hnd : (addrs t).Nodup)
    (hx : ∀ p, x = some p → nodeAt t p ≠ null ∧ p.length < fuel) :
    ∃ h', updateHeights fuel h (x.bind fun p => addr (nodeAt t p)) = some h' ∧
      h'.root_ = h.root_ ∧ RepAt h'.mem none (AVLTree.updateHeights t x) ∧
      (∀ y, y ∉ addrs t → h'.mem y = h.mem y) := by
  cases x with
  | none =>
    refine ⟨h, ?_, rfl, hrep, fun _ _ => rfl⟩
    cases fuel <;> rfl
  | some p =>
    obtain ⟨h1, h2⟩ := hx p rfl
    cases hn : nodeAt t p with
    | null => exact absurd hn h1
    | node l k av hh r =>
      simp only [Option.some_bind, hn, addr_node, AVLTree.updateHeights]
      exact updateHeights_rep fuel h t p hrep hnd av.1 (by rw [hn]; rfl) h2

end HeapAVL

/-! ## What `findXYZ` and `balance` do to the places of a tree -/

namespace AVLTree

open AVLNode BinarySearchTree

variable {K V : Type}

theorem leftRotate_some (R r : AVLNode K V) (p : NodePtr) (h : leftRotate R p = some r) :
    ∃ a k v hh b rk rv rh c, nodeAt R p = node a k v hh (node b rk rv rh c) ∧
      r = setAt R p (node (node a k v hh b) rk rv rh c) := by
  unfold leftRotate at h
  split at h
  · rename_i a k v hh b rk rv rh c hn
    simp only [Option.some.injEq] at h
    exact ⟨a, k, v, hh, b, rk, rv, rh, c, hn, h.symm⟩
  · exact absurd h (by simp)

theorem rightRotate_some (R r : AVLNode K V) (p : NodePtr) (h : rightRotate R p = some r) :
    ∃ a lk lv lh b k v hh c, nodeAt R p = node (node a lk lv lh b) k v hh c ∧
      r = setAt R p (node a lk lv lh (node b k v hh c)) := by
  unfold rightRotate at h
  split at h
  · rename_i a lk lv lh b k v hh c hn
    simp only [Option.some.injEq] at h
    exact ⟨a, lk, lv, lh, b, k, v, hh, c, hn, h.symm⟩
  · exact absurd h (by simp)

/-- The result of `findXYZ` by the two choices it makes: `fl` is `firstLeft`, `sl` is
`secondLeft`. -/
theorem findXYZ_cases (R : AVLNode K V) (z : NodePtr)
    (res : Option NodePtr × NodePtr × NodePtr × Nat) (h : findXYZ R z = some res) :
    ∃ fl sl : Bool, res.2.1 = (!fl) :: z ∧ res.2.2.1 = z ∧
      res.1 = (if isNull (nodeAt R ((!sl) :: (!fl) :: z)) then none
        else some ((!sl) :: (!fl) :: z)) ∧
      res.2.2.2 = (if fl && sl then 2 else if !fl && !sl then 1
        else if fl && !sl then 3 else 4) ∧
      nodeAt R ((!fl) :: z) ≠ null := by
  unfold findXYZ at h
  cases hn : nodeAt R z with
  | null => rw [hn] at h; exact absurd h (by simp)
  | node zl zk zv zh zr =>
    rw [hn] at h
    simp only at h
    cases hfl : decide (heightOrZero zl > heightOrZero zr) with
    | false =>
      rw [hfl] at h
      simp only [Bool.false_eq_true, if_false, Bool.not_false] at h
      cases zr with
      | null => exact absurd h (by simp)
      | node yl yk yv yh yr =>
        simp only [Option.some.injEq] at h
        subst h
        generalize (if heightOrZero yl > heightOrZero yr then true
          else if heightOrZero yl = heightOrZero yr then false else false) = sl
        refine ⟨false, sl, rfl, rfl, ?_, rfl, ?_⟩
        · cases sl <;> simp [hn]
        · simp [hn]
    | true =>
      rw [hfl] at h
      simp only [if_true, Bool.not_true] at h
      cases zl with
      | null => exact absurd h (by simp)
      | node yl yk yv yh yr =>
        simp only [Option.some.injEq] at h
        subst h
        generalize (if heightOrZero yl > heightOrZero yr then true
          else if heightOrZero yl = heightOrZero yr then true else false) = sl
        refine ⟨true, sl, rfl, rfl, ?_, rfl, ?_⟩
        · cases sl <;> simp [hn]
        · simp [hn]

theorem getItem_updateHeight (R : AVLNode K V) : getItem (updateHeight R) = getItem R := by
  cases R <;> rfl

theorem getItem_setChild (d : Bool) (s R : AVLNode K V) :
    getItem (setChild d s R) = getItem R := by
  cases R with
  | null => rfl
  | node l k v h r => cases d <;> rfl

/-- The function `updateHeights` moves no node: every place holds the item it held. -/
theorem getItem_nodeAt_updateHeightsLoop (R : AVLNode K V) (s q : NodePtr) :
    getItem (nodeAt (updateHeightsLoop R s) q) = getItem (nodeAt R q) := by
  induction s using List.reverseRecOn generalizing R q with
  | nil =>
    rcases List.eq_nil_or_concat q with rfl | ⟨q0, e, rfl⟩
    · exact getItem_updateHeight R
    · simp [nodeAt_snoc]
  | append_singleton p d ih =>
    by_cases hR : R = null
    · subst hR
      simp [updateHeightsLoop_null]
    · rw [updateHeightsLoop_snoc R hR]
      rcases List.eq_nil_or_concat q with rfl | ⟨q0, e, rfl⟩
      · simp only [nodeAt_nil, getItem_updateHeight, getItem_setChild]
      · simp only [List.concat_eq_append, nodeAt_snoc, child_updateHeight]
        by_cases he : e = d
        · subst he
          rw [child_setChild _ _ _ hR]
          exact ih _ _
        · rw [child_setChild_ne _ _ _ _ he]

theorem getItem_nodeAt_updateHeights (R : AVLNode K V) (s : Option NodePtr) (q : NodePtr) :
    getItem (nodeAt (updateHeights R s) q) = getItem (nodeAt R q) := by
  cases s with
  | none => rfl
  | some s => exact getItem_nodeAt_updateHeightsLoop R s q

end AVLTree

namespace Heap

open AVLNode

variable {K V : Type}

theorem addr_eq_getItem (t : AVLNode K (Nat × V)) :
    addr t = (getItem t).map fun kv => kv.2.1 := by
  cases t <;> rfl

theorem addr_nodeAt_updateHeights (t : AVLNode K (Nat × V)) (s : Option NodePtr)
    (q : NodePtr) : addr (nodeAt (AVLTree.updateHeights t s) q) = addr (nodeAt t q) := by
  rw [addr_eq_getItem, addr_eq_getItem, AVLTree.getItem_nodeAt_updateHeights]

theorem ne_null_of_addr (t : AVLNode K (Nat × V)) (a : Nat) (h : addr t = some a) :
    t ≠ null := by
  rintro rfl
  simp at h

theorem addrs_updateHeights (t : AVLNode K (Nat × V)) (s : Option NodePtr) :
    addrs (AVLTree.updateHeights t s) = addrs t :=
  addrs_eq_of_toList_eq _ _ (AVLTree.toList_updateHeights t s)

end Heap

namespace HeapAVL

open AVLNode Heap

variable {K V : Type}

/-- The function `calculateBF` on the node at `p` of a tree in the store. -/
theorem calculateBF_rep (h : Heap K V) (t : AVLNode K (Nat × V)) (p : NodePtr)
    (hrep : RepAt h.mem none t) (a : Nat) (ha : addr (nodeAt t p) = some a) :
    HeapAVL.calculateBF h a = some (AVLTree.calculateBF (nodeAt t p)) := by
  cases hn : nodeAt t p with
  | null => simp [hn] at ha
  | node l k av hh r =>
    rw [hn] at ha
    simp only [addr_node, Option.some.injEq] at ha
    subst ha
    have hc := mem_of_nodeAt h.mem none t p hrep _ _ _ _ _ hn
    have hsub := repAt_nodeAt h.mem none t p hrep
    rw [hn, repAt_node] at hsub
    have h1 := heightOrZero_rep h _ l hsub.2.1
    have h2 := heightOrZero_rep h _ r hsub.2.2
    simp only [HeapAVL.calculateBF, getLeft, getRight, hc, h1, h2, Option.map_some',
      Option.bind_eq_bind, Option.some_bind, Option.pure_def, AVLTree.calculateBF_node]

/-- The function `findXYZ` on the node at `z` of a tree in the store: it returns the
addresses of the nodes whose places `findXYZ` returns on the tree, and the same code. -/
theorem findXYZ_rep (h : Heap K V) (t : AVLNode K (Nat × V)) (z : NodePtr)
    (hrep : RepAt h.mem none t) (a : Nat) (ha : addr (nodeAt t z) = some a)
    (res : Option NodePtr × NodePtr × NodePtr × Nat) (hf : AVLTree.findXYZ t z = some res) :
    ∃ ya, addr (nodeAt t res.2.1) = some ya ∧
      HeapAVL.findXYZ h a =
        some (res.1.bind fun xp => addr (nodeAt t xp), ya, a, res.2.2.2) := by
  unfold AVLTree.findXYZ at hf
  cases hn : nodeAt t z with
  | null => simp [hn] at ha
  | node zl zk zav zh zr =>
    rw [hn] at ha hf
    simp only [addr_node, Option.some.injEq] at ha
    subst ha
    have hc := mem_of_nodeAt h.mem none t z hrep _ _ _ _ _ hn
    have hsub := repAt_nodeAt h.mem none t z hrep
    rw [hn, repAt_node] at hsub
    have h1 := heightOrZero_rep h _ zl hsub.2.1
    have h2 := heightOrZero_rep h _ zr hsub.2.2
    simp only at hf
    cases hfl : decide (AVLNode.heightOrZero zl > AVLNode.heightOrZero zr) with
    | false =>
      rw [hfl] at hf
      simp only [Bool.false_eq_true, if_false, Bool.not_false] at hf
      cases zr with
      | null => exact absurd hf (by simp)
      | node yl yk yav yh yr =>
        simp only [Option.some.injEq] at hf
        subst hf
        have hy := hsub.2.2
        rw [repAt_node] at hy
        have h3 := heightOrZero_rep h _ yl hy.2.1
        have h4 := heightOrZero_rep h _ yr hy.2.2
        refine ⟨yav.1, by simp [hn], ?_⟩
        have hyc := hy.1
        simp only [addr_node] at h2 hc
        unfold HeapAVL.findXYZ
        simp only [getLeft, getRight, hc, Option.map_some', Option.bind_eq_bind,
          Option.some_bind, h1, h2, hfl, Bool.false_eq_true, if_false, hyc, h3, h4,
          Option.pure_def]
        generalize (if AVLNode.heightOrZero yl > AVLNode.heightOrZero yr then true
          else if AVLNode.heightOrZero yl = AVLNode.heightOrZero yr then false else false) = sl
        cases sl <;> cases yl <;> cases yr <;> simp [hn]
    | true =>
      rw [hfl] at hf
      simp only [if_true, Bool.not_true] at hf
      cases zl with
      | null => exact absurd hf (by simp)
      | node yl yk yav yh yr =>
        simp only [Option.some.injEq] at hf
        subst hf
        have hy := hsub.2.1
        rw [repAt_node] at hy
        have h3 := heightOrZero_rep h _ yl hy.2.1
        have h4 := heightOrZero_rep h _ yr hy.2.2
        refine ⟨yav.1, by simp [hn], ?_⟩
        have hyc := hy.1
        simp only [addr_node] at h1 hc
        unfold HeapAVL.findXYZ
        simp only [getLeft, getRight, hc, Option.map_some', Option.bind_eq_bind,
          Option.some_bind, h1, h2, hfl, if_true, hyc, h3, h4,
          Option.pure_def]
        generalize (if AVLNode.heightOrZero yl > AVLNode.heightOrZero yr then true
          else if AVLNode.heightOrZero yl = AVLNode.heightOrZero yr then true else false) = sl
        cases sl <;> cases yl <;> cases yr <;> simp [hn]

end HeapAVL

/-! ## Rotations and `balance` on a tree in the store -/

namespace Heap

open AVLNode

variable {K V : Type}

theorem addr_eq_none_iff (t : AVLNode K (Nat × V)) : addr t = none ↔ t = null := by
  cases t <;> simp

theorem addr_of_isNull_ite (t : AVLNode K (Nat × V)) (q : NodePtr) :
    ((if isNull (nodeAt t q) then (none : Option NodePtr) else some q).bind
      fun p => addr (nodeAt t p)) = addr (nodeAt t q) := by
  cases hn : nodeAt t q <;> simp [hn, isNull]

/-- No node below the root has the address of the root. -/
theorem addr_nodeAt_cons_ne (t : AVLNode K (Nat × V)) (hnd : (addrs t).Nodup) (d : Bool)
    (q : NodePtr) (a : Nat) (ha : addr (nodeAt t (d :: q)) = some a) : addr t ≠ some a := by
  rcases List.eq_nil_or_concat (d :: q) with h | ⟨q0, e, h⟩
  · exact absurd h (by simp)
  · rw [h, List.concat_eq_append, nodeAt_snoc] at ha
    cases t with
    | null => simp
    | node l k av hh r =>
      rw [nodup_node] at hnd
      have hm := mem_addrs_of_nodeAt _ _ _ (addr_mem_addrs _ _ ha)
      simp only [addr_node, ne_eq, Option.some.injEq]
      rintro rfl
      cases e
      · exact hnd.2.2.1 hm
      · exact hnd.2.2.2.1 hm

theorem nodeAt_ne_null_of_append (t : AVLNode K (Nat × V)) (e q : NodePtr)
    (h : nodeAt t (e ++ q) ≠ null) : nodeAt t q ≠ null := by
  induction e with
  | nil => exact h
  | cons c e ih =>
    apply ih
    intro hn
    apply h
    rw [List.cons_append, nodeAt_cons, hn]
    rfl

/-- Putting a subtree at a place keeps the address of every node above the place. -/
theorem addr_nodeAt_setAt_above (t : AVLNode K (Nat × V)) (e : NodePtr) (d : Bool)
    (q : NodePtr) (s : AVLNode K (Nat × V)) (hq : nodeAt t q ≠ null) :
    addr (nodeAt (setAt t (e ++ d :: q) s) q) = addr (nodeAt t q) := by
  induction e generalizing s with
  | nil => rw [List.nil_append, nodeAt_setAt_parent t d q s hq, addr_setChild]
  | cons c e ih =>
    rw [List.cons_append, setAt_cons]
    exact ih _

end Heap

namespace HeapAVL

open AVLNode Heap

variable {K V : Type}

/-- The statement `if (z == this->root_) this->root_ = top;` after the rotations at `z`: the
root reference designates the root of the rotated tree. -/
theorem setRootIf_root (h1 : Heap K V) (t r : AVLNode K (Nat × V)) (z : NodePtr) (za : Nat)
    (hroot : h1.root_ = addr t) (hnd : (addrs t).Nodup) (ha : addr (nodeAt t z) = some za)
    (top : Option Nat) (htop : addr (nodeAt r z) = top)
    (hpar : z ≠ [] → addr r = addr t) :
    (setRootIf h1 za top).root_ = addr r ∧ (setRootIf h1 za top).mem = h1.mem := by
  unfold setRootIf
  cases z with
  | nil =>
    simp only [nodeAt_nil] at ha htop
    rw [if_pos (by rw [hroot, ha])]
    exact ⟨htop.symm, rfl⟩
  | cons d q =>
    have hne := addr_nodeAt_cons_ne t hnd d q za ha
    rw [if_neg (by rw [hroot]; exact hne)]
    exact ⟨by rw [hroot, hpar (by simp)], rfl⟩

/-- The function `leftRotate` on the store follows `leftRotate` on the tree. -/
theorem leftRotate_sim (h : Heap K V) (t r : AVLNode K (Nat × V)) (p : NodePtr)
    (hrep : RepAt h.mem none t) (hnd : (addrs t).Nodup)
    (hr : AVLTree.leftRotate t p = some r) (a : Nat) (ha : addr (nodeAt t p) = some a) :
    ∃ h', leftRotate h a = some h' ∧ h'.root_ = h.root_ ∧ RepAt h'.mem none r ∧
      (addrs r).Nodup ∧ (∀ x, x ∉ addrs t → h'.mem x = h.mem x) ∧ toList r = toList t ∧
      addr (nodeAt r p) = addr (nodeAt t (true :: p)) ∧
      addr (nodeAt r (false :: p)) = some a ∧
      addr (nodeAt r (true :: p)) = addr (nodeAt t (true :: true :: p)) ∧
      (∀ e d q, p = e ++ d :: q → addr (nodeAt r q) = addr (nodeAt t q)) ∧
      (p ≠ [] → addr r = addr t) := by
  obtain ⟨ta, k, av, hh, tb, rk, rav, rh, tc, hn, rfl⟩ := AVLTree.leftRotate_some t r p hr
  have hav : av.1 = a := by
    rw [hn] at ha
    simpa using ha
  subst hav
  obtain ⟨h', e1, e2, e3, e4, _⟩ := leftRotate_rep h t p hrep hnd ta tb tc k rk av rav hh rh hn
  have hnn : nodeAt t p ≠ null := by rw [hn]; simp
  have htl : toList (setAt t p (node (node ta k av hh tb) rk rav rh tc)) = toList t :=
    AVLTree.toList_leftRotate t _ p hr
  have hself := nodeAt_setAt_of_node t p (node (node ta k av hh tb) rk rav rh tc) hnn
  refine ⟨h', e1, e2, e3, ?_, e4, htl, ?_, ?_, ?_, ?_, ?_⟩
  · rw [addrs_eq_of_toList_eq _ _ htl]
    exact hnd
  · rw [hself, nodeAt_cons, hn]
    rfl
  · rw [nodeAt_cons, hself]
    rfl
  · rw [nodeAt_cons, hself, nodeAt_cons, nodeAt_cons, hn]
    rfl
  · rintro e d q rfl
    have hq : nodeAt t q ≠ null := by
      apply nodeAt_ne_null_of_append t (e ++ [d]) q
      rw [List.append_assoc]
      exact hnn
    exact addr_nodeAt_setAt_above t e d q _ hq
  · intro hp
    cases p with
    | nil => exact absurd rfl hp
    | cons d q => exact addr_setAt_cons t d q _

/-- The function `rightRotate` on the store follows `rightRotate` on the tree. -/
theorem rightRotate_sim (h : Heap K V) (t r : AVLNode K (Nat × V)) (p : NodePtr)
    (hrep : RepAt h.mem none t) (hnd : (addrs t).Nodup)
    (hr : AVLTree.rightRotate t p = some r) (a : Nat) (ha : addr (nodeAt t p) = some a) :
    ∃ h', rightRotate h a = some h' ∧ h'.root_ = h.root_ ∧ RepAt h'.mem none r ∧
      (addrs r).Nodup ∧ (∀ x, x ∉ addrs t → h'.mem x = h.mem x) ∧ toList r = toList t ∧
      addr (nodeAt r p) = addr (nodeAt t (false :: p)) ∧
      addr (nodeAt r (true :: p)) = some a ∧
      addr (nodeAt r (false :: p)) = addr (nodeAt t (false :: false :: p)) ∧
      (∀ e d q, p = e ++ d :: q → addr (nodeAt r q) = addr (nodeAt t q)) ∧
      (p ≠ [] → addr r = addr t) := by
  obtain ⟨ta, lk, lav, lh, tb, k, av, hh, tc, hn, rfl⟩ := AVLTree.rightRotate_some t r p hr
  have hav : av.1 = a := by
    rw [hn] at ha
    simpa using ha
  subst hav
  obtain ⟨h', e1, e2, e3, e4, _⟩ := rightRotate_rep h t p hrep hnd ta tb tc k lk av lav hh lh hn
  have hnn : nodeAt t p ≠ null := by rw [hn]; simp
  have htl : toList (setAt t p (node ta lk lav lh (node tb k av hh tc))) = toList t :=
    AVLTree.toList_rightRotate t _ p hr
  have hself := nodeAt_setAt_of_node t p (node ta lk lav lh (node tb k av hh tc)) hnn
  refine ⟨h', e1, e2, e3, ?_, e4, htl, ?_, ?_, ?_, ?_, ?_⟩
  · rw [addrs_eq_of_toList_eq _ _ htl]
    exact hnd
  · rw [hself, nodeAt_cons, hn]
    rfl
  · rw [nodeAt_cons, hself]
    rfl
  · rw [nodeAt_cons, hself, nodeAt_cons, nodeAt_cons, hn]
    rfl
  · rintro e d q rfl
    have hq : nodeAt t q ≠ null := by
      apply nodeAt_ne_null_of_append t (e ++ [d]) q
      rw [List.append_assoc]
      exact hnn
    exact addr_nodeAt_setAt_above t e d q _ hq
  · intro hp
    cases p with
    | nil => exact absurd rfl hp
    | cons d q => exact addr_setAt_cons t d q _

end HeapAVL

namespace HeapAVL

open AVLNode Heap

variable {K V : Type}

/-- The function `updateHeights` on the store follows `updateHeights` on the tree. -/
theorem updateHeights_sim (fuel : Nat) (h : Heap K V) (t : AVLNode K (Nat × V))
    (p : NodePtr) (hrep : RepAt h.mem none t) (hnd : (addrs t).Nodup) (a : Nat)
    (ha : addr (nodeAt t p) = some a) (hf : p.length < fuel) :
    ∃ h', updateHeights fuel h (some a) = some h' ∧ h'.root_ = h.root_ ∧
      RepAt h'.mem none (AVLTree.updateHeights t (some p)) ∧
      (addrs (AVLTree.updateHeights t (some p))).Nodup ∧
      (∀ x, x ∉ addrs t → h'.mem x = h.mem x) := by
  obtain ⟨h', e1, e2, e3, e4⟩ := updateHeights_rep fuel h t p hrep hnd a ha hf
  exact ⟨h', e1, e2, e3, by rw [addrs_updateHeights]; exact hnd, e4⟩

/-- The function `updateHeights` on the store, called with a pointer that may be `NULL`. -/
theorem updateHeights_sim_opt (fuel : Nat) (h : Heap K V) (t : AVLNode K (Nat × V))
    (x : Option NodePtr) (xa : Option Nat) (hrep : RepAt h.mem none t)
    (hnd : (addrs t).Nodup) (hxa : (x.bind fun p => addr (nodeAt t p)) = xa)
    (hx : ∀ p, x = some p → nodeAt t p ≠ null ∧ p.length < fuel) :
    ∃ h', updateHeights fuel h xa = some h' ∧ h'.root_ = h.root_ ∧
      RepAt h'.mem none (AVLTree.updateHeights t x) ∧
      (addrs (AVLTree.updateHeights t x)).Nodup ∧
      (∀ y, y ∉ addrs t → h'.mem y = h.mem y) := by
  subst hxa
  obtain ⟨h', e1, e2, e3, e4⟩ := updateHeights_rep_opt fuel h t x hrep hnd hx
  exact ⟨h', e1, e2, e3, by rw [addrs_updateHeights]; exact hnd, e4⟩

/-- Mode 1 of `balance` on the store follows mode 1 of `balance` on the tree. -/
theorem balance_rep_1 (fuel : Nat) (h : Heap K V) (t t' : AVLNode K (Nat × V)) (z : NodePtr)
    (hrep : Rep h t) (x : Option NodePtr)
    (hx : x = if isNull (nodeAt t (true :: true :: z)) then none
      else some (true :: true :: z))
    (hb : AVLTree.balance t x (true :: z) z 1 = some t')
    (hfuel : z.length + 1 < fuel) (za ya : Nat) (ha : addr (nodeAt t z) = some za)
    (hy : addr (nodeAt t (true :: z)) = some ya) :
    ∃ h', HeapAVL.balance fuel h (x.bind fun xp => addr (nodeAt t xp)) ya za 1 = some h' ∧
      Rep h' t' ∧ (∀ a, a ∉ addrs t → h'.mem a = h.mem a) ∧
      addr (nodeAt t' z) = some ya ∧ addr (nodeAt t' (false :: z)) = some za ∧
      addr (nodeAt t' (true :: z)) = (x.bind fun xp => addr (nodeAt t xp)) ∧
      (∀ d q, z = d :: q → addr (nodeAt t' q) = addr (nodeAt t q)) := by
  obtain ⟨hroot, hr, hnd⟩ := hrep
  have hxa : (x.bind fun xp => addr (nodeAt t xp)) = addr (nodeAt t (true :: true :: z)) := by
    rw [hx]
    exact addr_of_isNull_ite t _
  rw [hxa]
  simp only [AVLTree.balance, if_true, Option.map_eq_some'] at hb
  obtain ⟨r1, hr1, rfl⟩ := hb
  obtain ⟨h1, f1, g1, rep1, nd1, fr1, tl1, p1, p2, p3, p4, p5⟩ :=
    leftRotate_sim h t r1 z hr hnd hr1 za ha
  obtain ⟨g2, m2⟩ := setRootIf_root h1 t r1 z za (g1.trans hroot) hnd ha (some ya)
    (by rw [p1, hy]) p5
  have rep2 : RepAt (setRootIf h1 za (some ya)).mem none r1 := by rw [m2]; exact rep1
  obtain ⟨h3, f3, g3, rep3, nd3, fr3⟩ := updateHeights_sim_opt fuel (setRootIf h1 za (some ya))
    r1 (x.map fun _ => true :: z) (addr (nodeAt t (true :: true :: z))) rep2 nd1
    (by
      rw [hx]
      cases hn : nodeAt t (true :: true :: z) with
      | null => simp [isNull]
      | node l k av hh r =>
        simp only [isNull, Bool.false_eq_true, if_false, Option.map_some', Option.some_bind]
        rw [p3, hn])
    (by
      intro p hp
      rw [hx] at hp
      cases hn : nodeAt t (true :: true :: z) with
      | null => simp [hn, isNull] at hp
      | node l k av hh r =>
        simp only [hn, isNull, Bool.false_eq_true, if_false, Option.map_some',
          Option.some.injEq] at hp
        subst hp
        refine ⟨?_, by simp only [List.length_cons]; omega⟩
        apply ne_null_of_addr _ av.1
        rw [p3, hn]
        rfl)
  obtain ⟨h4, f4, g4, rep4, nd4, fr4⟩ := updateHeights_sim fuel h3 _ (false :: z) rep3 nd3 za
    (by rw [addr_nodeAt_updateHeights, p2]) (by simp only [List.length_cons]; omega)
  have ad1 : addrs r1 = addrs t := addrs_eq_of_toList_eq _ _ tl1
  refine ⟨h4, ?_, ⟨?_, rep4, nd4⟩, ?_, ?_, ?_, ?_, ?_⟩
  · simp only [HeapAVL.balance, if_true, f1, Option.bind_eq_bind, Option.some_bind, f3, f4]
  · rw [g4, g3, g2]
    have e1 := addr_nodeAt_updateHeights (AVLTree.updateHeights r1 (x.map fun _ => true :: z))
      (some (false :: z)) []
    have e2 := addr_nodeAt_updateHeights r1 (x.map fun _ => true :: z) []
    simp only [nodeAt_nil] at e1 e2
    rw [e1, e2]
  · intro a hna
    rw [fr4 a (by rw [addrs_updateHeights, ad1]; exact hna), fr3 a (by rw [ad1]; exact hna),
      m2, fr1 a hna]
  · rw [addr_nodeAt_updateHeights, addr_nodeAt_updateHeights, p1, hy]
  · rw [addr_nodeAt_updateHeights, addr_nodeAt_updateHeights, p2]
  · rw [addr_nodeAt_updateHeights, addr_nodeAt_updateHeights, p3]
  · intro d q hz
    rw [addr_nodeAt_updateHeights, addr_nodeAt_updateHeights, p4 [] d q hz]

/-- Mode 2 of `balance` on the store follows mode 2 of `balance` on the tree. -/
theorem balance_rep_2 (fuel : Nat) (h : Heap K V) (t t' : AVLNode K (Nat × V)) (z : NodePtr)
    (hrep : Rep h t) (x : Option NodePtr)
    (hx : x = if isNull (nodeAt t (false :: false :: z)) then none
      else some (false :: false :: z))
    (hb : AVLTree.balance t x (false :: z) z 2 = some t')
    (hfuel : z.length + 1 < fuel) (za ya : Nat) (ha : addr (nodeAt t z) = some za)
    (hy : addr (nodeAt t (false :: z)) = some ya) :
    ∃ h', HeapAVL.balance fuel h (x.bind fun xp => addr (nodeAt t xp)) ya za 2 = some h' ∧
      Rep h' t' ∧ (∀ a, a ∉ addrs t → h'.mem a = h.mem a) ∧
      addr (nodeAt t' z) = some ya ∧ addr (nodeAt t' (true :: z)) = some za ∧
      addr (nodeAt t' (false :: z)) = (x.bind fun xp => addr (nodeAt t xp)) ∧
      (∀ d q, z = d :: q → addr (nodeAt t' q) = addr (nodeAt t q)) := by
  obtain ⟨hroot, hr, hnd⟩ := hrep
  have hxa : (x.bind fun xp => addr (nodeAt t xp)) = addr (nodeAt t (false :: false :: z)) := by
    rw [hx]
    exact addr_of_isNull_ite t _
  rw [hxa]
  simp only [AVLTree.balance, if_true, OfNat.ofNat_ne_one, if_false, Option.map_eq_some'] at hb
  obtain ⟨r1, hr1, rfl⟩ := hb
  obtain ⟨h1, f1, g1, rep1, nd1, fr1, tl1, p1, p2, p3, p4, p5⟩ :=
    rightRotate_sim h t r1 z hr hnd hr1 za ha
  obtain ⟨g2, m2⟩ := setRootIf_root h1 t r1 z za (g1.trans hroot) hnd ha (some ya)
    (by rw [p1, hy]) p5
  have rep2 : RepAt (setRootIf h1 za (some ya)).mem none r1 := by rw [m2]; exact rep1
  obtain ⟨h3, f3, g3, rep3, nd3, fr3⟩ := updateHeights_sim_opt fuel (setRootIf h1 za (some ya))
    r1 (x.map fun _ => false :: z) (addr (nodeAt t (false :: false :: z))) rep2 nd1
    (by
      rw [hx]
      cases hn : nodeAt t (false :: false :: z) with
      | null => simp [isNull]
      | node l k av hh r =>
        simp only [isNull, Bool.false_eq_true, if_false, Option.map_some', Option.some_bind]
        rw [p3, hn])
    (by
      intro p hp
      rw [hx] at hp
      cases hn : nodeAt t (false :: false :: z) with
      | null => simp [hn, isNull] at hp
      | node l k av hh r =>
        simp only [hn, isNull, Bool.false_eq_true, if_false, Option.map_some',
          Option.some.injEq] at hp
        subst hp
        refine ⟨?_, by simp only [List.length_cons]; omega⟩
        apply ne_null_of_addr _ av.1
        rw [p3, hn]
        rfl)
  obtain ⟨h4, f4, g4, rep4, nd4, fr4⟩ := updateHeights_sim fuel h3 _ (true :: z) rep3 nd3 za
    (by rw [addr_nodeAt_updateHeights, p2]) (by simp only [List.length_cons]; omega)
  have ad1 : addrs r1 = addrs t := addrs_eq_of_toList_eq _ _ tl1
  refine ⟨h4, ?_, ⟨?_, rep4, nd4⟩, ?_, ?_, ?_, ?_, ?_⟩
  · simp only [HeapAVL.balance, if_true, OfNat.ofNat_ne_one, if_false, f1, Option.bind_eq_bind, Option.some_bind, f3, f4]
  · rw [g4, g3, g2]
    have e1 := addr_nodeAt_updateHeights (AVLTree.updateHeights r1 (x.map fun _ => false :: z))
      (some (true :: z)) []
    have e2 := addr_nodeAt_updateHeights r1 (x.map fun _ => false :: z) []
    simp only [nodeAt_nil] at e1 e2
    rw [e1, e2]
  · intro a hna
    rw [fr4 a (by rw [addrs_updateHeights, ad1]; exact hna), fr3 a (by rw [ad1]; exact hna),
      m2, fr1 a hna]
  · rw [addr_nodeAt_updateHeights, addr_nodeAt_updateHeights, p1, hy]
  · rw [addr_nodeAt_updateHeights, addr_nodeAt_updateHeights, p2]
  · rw [addr_nodeAt_updateHeights, addr_nodeAt_updateHeights, p3]
  · intro d q hz
    rw [addr_nodeAt_updateHeights, addr_nodeAt_updateHeights, p4 [] d q hz]


/-- Mode 3 of `balance` on the store follows mode 3 of `balance` on the tree. -/
theorem balance_rep_3 (fuel : Nat) (h : Heap K V) (t t' : AVLNode K (Nat × V)) (z : NodePtr)
    (hrep : Rep h t) (x : Option NodePtr)
    (hx : x = if isNull (nodeAt t (true :: false :: z)) then none
      else some (true :: false :: z))
    (hb : AVLTree.balance t x (false :: z) z 3 = some t')
    (hfuel : z.length + 1 < fuel) (za ya : Nat) (ha : addr (nodeAt t z) = some za)
    (hy : addr (nodeAt t (false :: z)) = some ya) :
    ∃ h', HeapAVL.balance fuel h (x.bind fun xp => addr (nodeAt t xp)) ya za 3 = some h' ∧
      Rep h' t' ∧ (∀ a, a ∉ addrs t → h'.mem a = h.mem a) ∧
      addr (nodeAt t' z) = (x.bind fun xp => addr (nodeAt t xp)) ∧
      addr (nodeAt t' (false :: z)) = some ya ∧
      addr (nodeAt t' (true :: z)) = some za ∧
      (∀ d q, z = d :: q → addr (nodeAt t' q) = addr (nodeAt t q)) := by
  obtain ⟨hroot, hr, hnd⟩ := hrep
  have hxa : (x.bind fun xp => addr (nodeAt t xp)) = addr (nodeAt t (true :: false :: z)) := by
    rw [hx]
    exact addr_of_isNull_ite t _
  rw [hxa]
  have hm : AVLTree.balance t x (false :: z) z 3 =
      (AVLTree.leftRotate t (false :: z)).bind fun r1 => (AVLTree.rightRotate r1 z).map fun r2 =>
        AVLTree.updateHeights (AVLTree.updateHeights r2 (some (false :: z)))
          (some (true :: z)) := by
    simp [AVLTree.balance]
  rw [hm] at hb
  simp only [Option.bind_eq_some, Option.map_eq_some'] at hb
  obtain ⟨r1, hr1, r2, hr2, rfl⟩ := hb
  obtain ⟨h1, f1, g1, rep1, nd1, fr1, tl1, p1, p2, p3, p4, p5⟩ :=
    leftRotate_sim h t r1 (false :: z) hr hnd hr1 ya hy
  have ha1 : addr (nodeAt r1 z) = some za := by rw [p4 [] false z rfl, ha]
  have ad1 : addrs r1 = addrs t := addrs_eq_of_toList_eq _ _ tl1
  obtain ⟨h2, f2, g2, rep2, nd2, fr2, tl2, q1, q2, q3, q4, q5⟩ :=
    rightRotate_sim h1 r1 r2 z rep1 nd1 hr2 za ha1
  have ad2 : addrs r2 = addrs t := (addrs_eq_of_toList_eq _ _ tl2).trans ad1
  have hroot1 : h2.root_ = addr r1 := by rw [g2, g1, hroot, p5 (by simp)]
  obtain ⟨g3, m3⟩ := setRootIf_root h2 r1 r2 z za hroot1 nd1 ha1
    (addr (nodeAt t (true :: false :: z))) (by rw [q1, p1]) q5
  have rep3 : RepAt (setRootIf h2 za (addr (nodeAt t (true :: false :: z)))).mem none r2 := by
    rw [m3]
    exact rep2
  obtain ⟨h4, f4, g4, rep4, nd4, fr4⟩ := updateHeights_sim fuel _ r2 (false :: z) rep3 nd2 ya
    (by rw [q3, p2]) (by simp only [List.length_cons]; omega)
  obtain ⟨h5, f5, g5, rep5, nd5, fr5⟩ := updateHeights_sim fuel h4 _ (true :: z) rep4 nd4 za
    (by rw [addr_nodeAt_updateHeights, q2]) (by simp only [List.length_cons]; omega)
  refine ⟨h5, ?_, ⟨?_, rep5, nd5⟩, ?_, ?_, ?_, ?_, ?_⟩
  · have hmh : HeapAVL.balance fuel h (addr (nodeAt t (true :: false :: z))) ya za 3 =
        (leftRotate h ya).bind fun h1 => (rightRotate h1 za).bind fun h2 =>
          (updateHeights fuel (setRootIf h2 za (addr (nodeAt t (true :: false :: z))))
            (some ya)).bind fun h4 => updateHeights fuel h4 (some za) := by
      simp [HeapAVL.balance]
    rw [hmh]
    simp only [f1, f2, f4, f5, Option.some_bind]
  · rw [g5, g4, g3]
    have e1 := addr_nodeAt_updateHeights
      (AVLTree.updateHeights r2 (some (false :: z))) (some (true :: z)) []
    have e2 := addr_nodeAt_updateHeights r2 (some (false :: z)) []
    simp only [nodeAt_nil] at e1 e2
    rw [e1, e2]
  · intro a hna
    rw [fr5 a (by rw [addrs_updateHeights, ad2]; exact hna), fr4 a (by rw [ad2]; exact hna),
      m3, fr2 a (by rw [ad1]; exact hna), fr1 a hna]
  · rw [addr_nodeAt_updateHeights, addr_nodeAt_updateHeights, q1, p1]
  · rw [addr_nodeAt_updateHeights, addr_nodeAt_updateHeights, q3, p2]
  · rw [addr_nodeAt_updateHeights, addr_nodeAt_updateHeights, q2]
  · intro d q hz
    rw [addr_nodeAt_updateHeights, addr_nodeAt_updateHeights, q4 [] d q hz]
    subst hz
    exact p4 [false] d q rfl

/-- Mode 4 of `balance` on the store follows mode 4 of `balance` on the tree. -/
theorem balance_rep_4 (fuel : Nat) (h : Heap K V) (t t' : AVLNode K (Nat × V)) (z : NodePtr)
    (hrep : Rep h t) (x : Option NodePtr)
    (hx : x = if isNull (nodeAt t (false :: true :: z)) then none
      else some (false :: true :: z))
    (hb : AVLTree.balance t x (true :: z) z 4 = some t')
    (hfuel : z.length + 1 < fuel) (za ya : Nat) (ha : addr (nodeAt t z) = some za)
    (hy : addr (nodeAt t (true :: z)) = some ya) :
    ∃ h', HeapAVL.balance fuel h (x.bind fun xp => addr (nodeAt t xp)) ya za 4 = some h' ∧
      Rep h' t' ∧ (∀ a, a ∉ addrs t → h'.mem a = h.mem a) ∧
      addr (nodeAt t' z) = (x.bind fun xp => addr (nodeAt t xp)) ∧
      addr (nodeAt t' (true :: z)) = some ya ∧
      addr (nodeAt t' (false :: z)) = some za ∧
      (∀ d q, z = d :: q → addr (nodeAt t' q) = addr (nodeAt t q)) := by
  obtain ⟨hroot, hr, hnd⟩ := hrep
  have hxa : (x.bind fun xp => addr (nodeAt t xp)) = addr (nodeAt t (false :: true :: z)) := by
    rw [hx]
    exact addr_of_isNull_ite t _
  rw [hxa]
  have hm : AVLTree.balance t x (true :: z) z 4 =
      (AVLTree.rightRotate t (true :: z)).bind fun r1 => (AVLTree.leftRotate r1 z).map fun r2 =>
        AVLTree.updateHeights (AVLTree.updateHeights r2 (some (true :: z)))
          (some (false :: z)) := by
    simp [AVLTree.balance]
  rw [hm] at hb
  simp only [Option.bind_eq_some, Option.map_eq_some'] at hb
  obtain ⟨r1, hr1, r2, hr2, rfl⟩ := hb
  obtain ⟨h1, f1, g1, rep1, nd1, fr1, tl1, p1, p2, p3, p4, p5⟩ :=
    rightRotate_sim h t r1 (true :: z) hr hnd hr1 ya hy
  have ha1 : addr (nodeAt r1 z) = some za := by rw [p4 [] true z rfl, ha]
  have ad1 : addrs r1 = addrs t := addrs_eq_of_toList_eq _ _ tl1
  obtain ⟨h2, f2, g2, rep2, nd2, fr2, tl2, q1, q2, q3, q4, q5⟩ :=
    leftRotate_sim h1 r1 r2 z rep1 nd1 hr2 za ha1
  have ad2 : addrs r2 = addrs t := (addrs_eq_of_toList_eq _ _ tl2).trans ad1
  have hroot1 : h2.root_ = addr r1 := by rw [g2, g1, hroot, p5 (by simp)]
  obtain ⟨g3, m3⟩ := setRootIf_root h2 r1 r2 z za hroot1 nd1 ha1
    (addr (nodeAt t (false :: true :: z))) (by rw [q1, p1]) q5
  have rep3 : RepAt (setRootIf h2 za (addr (nodeAt t (false :: true :: z)))).mem none r2 := by
    rw [m3]
    exact rep2
  obtain ⟨h4, f4, g4, rep4, nd4, fr4⟩ := updateHeights_sim fuel _ r2 (true :: z) rep3 nd2 ya
    (by rw [q3, p2]) (by simp only [List.length_cons]; omega)
  obtain ⟨h5, f5, g5, rep5, nd5, fr5⟩ := updateHeights_sim fuel h4 _ (false :: z) rep4 nd4 za
    (by rw [addr_nodeAt_updateHeights, q2]) (by simp only [List.length_cons]; omega)
  refine ⟨h5, ?_, ⟨?_, rep5, nd5⟩, ?_, ?_, ?_, ?_, ?_⟩
  · have hmh : HeapAVL.balance fuel h (addr (nodeAt t (false :: true :: z))) ya za 4 =
        (rightRotate h ya).bind fun h1 => (leftRotate h1 za).bind fun h2 =>
          (updateHeights fuel (setRootIf h2 za (addr (nodeAt t (false :: true :: z))))
            (some ya)).bind fun h4 => updateHeights fuel h4 (some za) := by
      simp [HeapAVL.balance]
    rw [hmh]
    simp only [f1, f2, f4, f5, Option.some_bind]
  · rw [g5, g4, g3]
    have e1 := addr_nodeAt_updateHeights
      (AVLTree.updateHeights r2 (some (true :: z))) (some (false :: z)) []
    have e2 := addr_nodeAt_updateHeights r2 (some (true :: z)) []
    simp only [nodeAt_nil] at e1 e2
    rw [e1, e2]
  · intro a hna
    rw [fr5 a (by rw [addrs_updateHeights, ad2]; exact hna), fr4 a (by rw [ad2]; exact hna),
      m3, fr2 a (by rw [ad1]; exact hna), fr1 a hna]
  · rw [addr_nodeAt_updateHeights, addr_nodeAt_updateHeights, q1, p1]
  · rw [addr_nodeAt_updateHeights, addr_nodeAt_updateHeights, q3, p2]
  · rw [addr_nodeAt_updateHeights, addr_nodeAt_updateHeights, q2]
  · intro d q hz
    rw [addr_nodeAt_updateHeights, addr_nodeAt_updateHeights, q4 [] d q hz]
    subst hz
    exact p4 [true] d q rfl


end HeapAVL

/-! ## The heights after `balance` -/

namespace AVLTree

open AVLNode BinarySearchTree

variable {K V : Type}

theorem heightsExact_lift (d : Bool) (s R : AVLNode K V) (hs : HeightsExact s)
    (ho : HeightsExact (child (!d) R)) : HeightsExact (updateHeight (setChild d s R)) := by
  cases R with
  | null => trivial
  | node l k v h r =>
    cases d
    · exact ⟨rfl, hs, ho⟩
    · exact ⟨rfl, ho, hs⟩

/-- The heights after `balance` at the root of a tree: the node on top and its two children
store `1 + max` of the heights of their children, and every height is exact when the two
subtrees of `z` stored exact heights. -/
theorem balance_heights_root (t t' : AVLNode K V)
    (res : Option NodePtr × NodePtr × NodePtr × Nat) (hf : findXYZ t [] = some res)
    (hb : balance t res.1 res.2.1 res.2.2.1 res.2.2.2 = some t') :
    LocalExact t' ∧ LocalExact (child false t') ∧ LocalExact (child true t') ∧
      (HeightsExact (child false t) → HeightsExact (child true t) → HeightsExact t') := by
  obtain ⟨fl, sl, e1, e2, e3, e4, e5⟩ := findXYZ_cases t [] res hf
  obtain ⟨x, y, z, m⟩ := res
  simp only at e1 e2 e3 e4 hb
  subst e1 e2 e3 e4
  cases fl <;> cases sl
  · -- first right, then right: mode 1
    simp only [Bool.not_false, Bool.false_and, Bool.and_self, Bool.false_eq_true, if_false,
      if_true, balance, Option.map_eq_some'] at hb
    obtain ⟨r1, hr1, rfl⟩ := hb
    obtain ⟨a, k, v, hh, b, rk, rv, rh, c, hn, rfl⟩ := leftRotate_some t r1 [] hr1
    simp only [nodeAt_nil] at hn
    subst hn
    cases c <;>
      simp [updateHeights, updateHeightsLoop, updateHeight, LocalExact, HeightsExact, isNull]
    all_goals tauto
  · -- first right, then left: mode 4
    have hm : balance t (if isNull (nodeAt t [false, true]) then none else some [false, true])
        [true] [] 4 = (rightRotate t [true]).bind fun r1 => (leftRotate r1 []).map fun r2 =>
          updateHeights (updateHeights r2 (some [true])) (some [false]) := by
      simp [balance]
    simp only [Bool.not_false, Bool.not_true, Bool.false_and, Bool.and_true, Bool.and_false,
      Bool.false_eq_true, if_false, if_true, Bool.true_and] at hb
    rw [hm] at hb
    simp only [Option.bind_eq_some, Option.map_eq_some'] at hb
    obtain ⟨r1, hr1, r2, hr2, rfl⟩ := hb
    obtain ⟨a, lk, lv, lh, b, k, v, hh, c, hn, rfl⟩ := rightRotate_some t r1 [true] hr1
    cases t with
    | null => simp at hn
    | node zl zk zv zh zr =>
      simp only [nodeAt_cons, nodeAt_nil, child_true_node] at hn
      subst hn
      simp [leftRotate, setChild] at hr2
      subst hr2
      simp [updateHeights, updateHeightsLoop, updateHeight, LocalExact, HeightsExact]
      tauto
  · -- first left, then right: mode 3
    have hm : balance t (if isNull (nodeAt t [true, false]) then none else some [true, false])
        [false] [] 3 = (leftRotate t [false]).bind fun r1 => (rightRotate r1 []).map fun r2 =>
          updateHeights (updateHeights r2 (some [false])) (some [true]) := by
      simp [balance]
    simp only [Bool.not_false, Bool.not_true, Bool.false_and, Bool.and_true, Bool.and_false,
      Bool.false_eq_true, if_false, if_true, Bool.true_and] at hb
    rw [hm] at hb
    simp only [Option.bind_eq_some, Option.map_eq_some'] at hb
    obtain ⟨r1, hr1, r2, hr2, rfl⟩ := hb
    obtain ⟨a, k, v, hh, b, rk, rv, rh, c, hn, rfl⟩ := leftRotate_some t r1 [false] hr1
    cases t with
    | null => simp at hn
    | node zl zk zv zh zr =>
      simp only [nodeAt_cons, nodeAt_nil, child_false_node] at hn
      subst hn
      simp [rightRotate, setChild] at hr2
      subst hr2
      simp [updateHeights, updateHeightsLoop, updateHeight, LocalExact, HeightsExact]
      tauto
  · -- first left, then left: mode 2
    simp only [Bool.not_true, Bool.and_self, if_true, balance, OfNat.ofNat_ne_one, if_false,
      Option.map_eq_some'] at hb
    obtain ⟨r1, hr1, rfl⟩ := hb
    obtain ⟨a, lk, lv, lh, b, k, v, hh, c, hn, rfl⟩ := rightRotate_some t r1 [] hr1
    simp only [nodeAt_nil] at hn
    subst hn
    cases a <;>
      simp [updateHeights, updateHeightsLoop, updateHeight, LocalExact, HeightsExact, isNull]
    all_goals tauto

/-- The heights after `balance` at `z`: the node that takes the place of `z`, its two
children and every node above store `1 + max` of the heights of their children; and every
height of the tree is exact when the heights off the way from `z` to the root were. -/
theorem balance_heights (t t' : AVLNode K V) (z : NodePtr)
    (res : Option NodePtr × NodePtr × NodePtr × Nat) (hf : findXYZ t z = some res)
    (hb : balance t res.1 res.2.1 res.2.2.1 res.2.2.2 = some t') :
    (∀ q, q <:+ z ∨ q = false :: z ∨ q = true :: z → LocalExact (nodeAt t' q)) ∧
      (ExactOffPath t z → HeightsExact t') := by
  induction z using List.reverseRecOn generalizing t t' res with
  | nil =>
    obtain ⟨h1, h2, h3, h4⟩ := balance_heights_root t t' res hf hb
    refine ⟨?_, ?_⟩
    · rintro q (hq | rfl | rfl)
      · rw [List.suffix_nil.1 hq]
        exact h1
      · exact h2
      · exact h3
    · intro hex
      exact h4 hex.1 hex.2.1
  | append_singleton z0 d ih =>
    have hR : t ≠ null := by
      rintro rfl
      simp [findXYZ] at hf
    rw [findXYZ_snoc] at hf
    simp only [Option.map_eq_some'] at hf
    obtain ⟨r0, hr0, rfl⟩ := hf
    simp only at hb
    rw [balance_snoc t hR r0.1 r0.2.1 r0.2.2.1 d r0.2.2.2 (findXYZ_mode _ _ _ hr0)] at hb
    simp only [Option.map_eq_some'] at hb
    obtain ⟨s, hs, rfl⟩ := hb
    obtain ⟨ihL, ihE⟩ := ih (child d t) s r0 hr0 hs
    refine ⟨?_, ?_⟩
    · intro q hq
      rcases List.eq_nil_or_concat q with rfl | ⟨q0, e, rfl⟩
      · exact localExact_updateHeight _
      · rw [List.concat_eq_append] at hq ⊢
        have key : e = d ∧ (q0 <:+ z0 ∨ q0 = false :: z0 ∨ q0 = true :: z0) := by
          rcases hq with hq | hq | hq
          · rcases (suffix_snoc_iff _ _ _).1 hq with h0 | ⟨q1, h1, h2⟩
            · simp at h0
            · obtain ⟨e1, e2⟩ := List.append_inj' h1 rfl
              simp only [List.cons.injEq, and_true] at e2
              subst e1
              exact ⟨e2, Or.inl h2⟩
          · rw [← List.cons_append] at hq
            obtain ⟨e1, e2⟩ := List.append_inj' hq rfl
            simp only [List.cons.injEq, and_true] at e2
            exact ⟨e2, Or.inr (Or.inl e1)⟩
          · rw [← List.cons_append] at hq
            obtain ⟨e1, e2⟩ := List.append_inj' hq rfl
            simp only [List.cons.injEq, and_true] at e2
            exact ⟨e2, Or.inr (Or.inr e1)⟩
        obtain ⟨rfl, hq0⟩ := key
        rw [nodeAt_snoc, child_updateHeight, child_setChild _ _ _ hR]
        exact ihL q0 hq0
    · intro hex
      rw [exactOffPath_snoc] at hex
      exact heightsExact_lift d s t (ihE hex.1) hex.2

/-- An unbalanced node can be rebalanced: `findXYZ` finds `y`, and `balance` with what
`findXYZ` returns dereferences no `NULL`. -/
theorem balance_of_unbalanced (t : AVLNode K V) (z : NodePtr)
    (hb : calculateBF (nodeAt t z) ≥ 2) :
    ∃ res t', findXYZ t z = some res ∧
      balance t res.1 res.2.1 res.2.2.1 res.2.2.2 = some t' := by
  induction z using List.reverseRecOn generalizing t with
  | nil =>
    have h := removeStep_root t
    unfold removeStep at h
    rw [if_pos hb] at h
    simp only [Option.bind_eq_some] at h
    obtain ⟨res, h1, h2⟩ := h
    exact ⟨res, _, h1, h2⟩
  | append_singleton z0 d ih =>
    rw [nodeAt_snoc] at hb
    obtain ⟨r0, s, h1, h2⟩ := ih (child d t) hb
    have hR : t ≠ null := by
      rintro rfl
      simp [findXYZ] at h1
    refine ⟨(r0.1.map fun x => x ++ [d], r0.2.1 ++ [d], r0.2.2.1 ++ [d], r0.2.2.2),
      updateHeight (setChild d s t), ?_, ?_⟩
    · rw [findXYZ_snoc, h1]
      rfl
    · simp only
      rw [balance_snoc t hR r0.1 r0.2.1 r0.2.2.1 d r0.2.2.2 (findXYZ_mode _ _ _ h1), h2]
      rfl

end AVLTree

namespace Heap

open AVLNode

variable {K V : Type}

/-- What the getters return for the node at `p` of a tree in the store. -/
theorem getters_of_rep (h : Heap K V) (t : AVLNode K (Nat × V)) (p : NodePtr)
    (hrep : RepAt h.mem none t) (a : Nat) (ha : addr (nodeAt t p) = some a) :
    getLeft h a = some (addr (nodeAt t (false :: p))) ∧
      getRight h a = some (addr (nodeAt t (true :: p))) ∧
      Heap.getParent h a = some (parentAt none t p) ∧
      Heap.getHeight h a = some (AVLNode.heightOrZero (nodeAt t p)) := by
  cases hn : nodeAt t p with
  | null => simp [hn] at ha
  | node l k av hh r =>
    rw [hn] at ha
    simp only [addr_node, Option.some.injEq] at ha
    subst ha
    have hc := mem_of_nodeAt h.mem none t p hrep _ _ _ _ _ hn
    simp only [getLeft, getRight, Heap.getParent, Heap.getHeight, hc, Option.map_some',
      nodeAt_cons, hn, child_false_node, child_true_node, heightOrZero_node, and_self]

end Heap

namespace HeapAVL

open AVLNode Heap

variable {K V : Type}

/-- The function `balance` on the store follows `balance` on the tree, whatever the mode; the
three nodes are afterwards at the place of `z` and at the places of its two children. -/
theorem balance_rep (fuel : Nat) (h : Heap K V) (t t' : AVLNode K (Nat × V)) (z : NodePtr)
    (hrep : Rep h t) (res : Option NodePtr × NodePtr × NodePtr × Nat)
    (hf : AVLTree.findXYZ t z = some res)
    (hb : AVLTree.balance t res.1 res.2.1 res.2.2.1 res.2.2.2 = some t')
    (hfuel : z.length + 1 < fuel) (za ya : Nat) (ha : addr (nodeAt t z) = some za)
    (hy : addr (nodeAt t res.2.1) = some ya) :
    ∃ h', HeapAVL.balance fuel h (res.1.bind fun xp => addr (nodeAt t xp)) ya za res.2.2.2 =
        some h' ∧
      Rep h' t' ∧ (∀ a, a ∉ addrs t → h'.mem a = h.mem a) ∧
      addr (nodeAt t' z) = (if res.2.2.2 = 1 ∨ res.2.2.2 = 2 then some ya
        else res.1.bind fun xp => addr (nodeAt t xp)) ∧
      addr (nodeAt t' (false :: z)) = (if res.2.2.2 = 1 ∨ res.2.2.2 = 4 then some za
        else if res.2.2.2 = 2 then res.1.bind fun xp => addr (nodeAt t xp) else some ya) ∧
      addr (nodeAt t' (true :: z)) = (if res.2.2.2 = 1 then
          res.1.bind fun xp => addr (nodeAt t xp)
        else if res.2.2.2 = 4 then some ya else some za) ∧
      (∀ d q, z = d :: q → addr (nodeAt t' q) = addr (nodeAt t q)) ∧
      (res.2.2.2 = 3 ∨ res.2.2.2 = 4 →
        ∃ xa, (res.1.bind fun xp => addr (nodeAt t xp)) = some xa) := by
  obtain ⟨fl, sl, e1, e2, e3, e4, e5⟩ := AVLTree.findXYZ_cases t z res hf
  obtain ⟨x, y, z', m⟩ := res
  simp only at e1 e2 e3 e4 hb hy ⊢
  have e2' := e2.symm
  subst e1 e2' e4
  cases fl <;> cases sl
  · simp only [Bool.not_false, Bool.false_and, Bool.and_self, Bool.false_eq_true, if_false,
      if_true] at hb hy e3 ⊢
    obtain ⟨h', c1, c2, c3, c4, c5, c6, c7⟩ :=
      balance_rep_1 fuel h t t' z hrep x e3 hb hfuel za ya ha hy
    refine ⟨h', c1, c2, c3, ?_, ?_, ?_, c7, ?_⟩
    · simpa using c4
    · simpa using c5
    · simpa using c6
    · simp
  · simp only [Bool.not_false, Bool.not_true, Bool.false_and, Bool.and_true, Bool.and_false,
      Bool.false_eq_true, if_false, if_true, Bool.true_and] at hb hy e3 ⊢
    obtain ⟨h', c1, c2, c3, c4, c5, c6, c7⟩ :=
      balance_rep_4 fuel h t t' z hrep x e3 hb hfuel za ya ha hy
    refine ⟨h', c1, c2, c3, ?_, ?_, ?_, c7, ?_⟩
    · simpa using c4
    · simpa using c6
    · simpa using c5
    · intro _
      have hm : AVLTree.balance t x (true :: z) z 4 =
          (AVLTree.rightRotate t (true :: z)).bind fun r1 =>
            (AVLTree.leftRotate r1 z).map fun r2 =>
              AVLTree.updateHeights (AVLTree.updateHeights r2 (some (true :: z)))
                (some (false :: z)) := by
        simp [AVLTree.balance]
      rw [hm] at hb
      simp only [Option.bind_eq_some] at hb
      obtain ⟨r1, hr1, _⟩ := hb
      obtain ⟨a, lk, lv, lh, b, k, v, hh, c, hn, _⟩ :=
        AVLTree.rightRotate_some t r1 (true :: z) hr1
      refine ⟨lv.1, ?_⟩
      rw [e3, addr_of_isNull_ite, nodeAt_cons, hn]
      rfl
  · simp only [Bool.not_false, Bool.not_true, Bool.false_and, Bool.and_true, Bool.and_false,
      Bool.false_eq_true, if_false, if_true, Bool.true_and] at hb hy e3 ⊢
    obtain ⟨h', c1, c2, c3, c4, c5, c6, c7⟩ :=
      balance_rep_3 fuel h t t' z hrep x e3 hb hfuel za ya ha hy
    refine ⟨h', c1, c2, c3, ?_, ?_, ?_, c7, ?_⟩
    · simpa using c4
    · simpa using c5
    · simpa using c6
    · intro _
      have hm : AVLTree.balance t x (false :: z) z 3 =
          (AVLTree.leftRotate t (false :: z)).bind fun r1 =>
            (AVLTree.rightRotate r1 z).map fun r2 =>
              AVLTree.updateHeights (AVLTree.updateHeights r2 (some (false :: z)))
                (some (true :: z)) := by
        simp [AVLTree.balance]
      rw [hm] at hb
      simp only [Option.bind_eq_some] at hb
      obtain ⟨r1, hr1, _⟩ := hb
      obtain ⟨a, k, v, hh, b, rk, rv, rh, c, hn, _⟩ :=
        AVLTree.leftRotate_some t r1 (false :: z) hr1
      refine ⟨rv.1, ?_⟩
      rw [e3, addr_of_isNull_ite, nodeAt_cons, hn]
      rfl
  · simp only [Bool.not_true, Bool.and_self, if_true] at hb hy e3 ⊢
    obtain ⟨h', c1, c2, c3, c4, c5, c6, c7⟩ :=
      balance_rep_2 fuel h t t' z hrep x e3 hb hfuel za ya ha hy
    refine ⟨h', c1, c2, c3, ?_, ?_, ?_, c7, ?_⟩
    · simpa using c4
    · simpa using c6
    · simpa using c5
    · simp

end HeapAVL

namespace HeapAVL

open AVLNode Heap

variable {K V : Type}

/-- C24: `balance` installs the right subtree root.  Let `h` be a store holding the tree `t`
(`Rep h t`), and let `z` be the node at the place `zp`, unbalanced (`calculateBF(z) >= 2`).
Then `findXYZ` returns `(x, y, z, m)` with `m` one of 1, 2, 3, 4, and `balance(x, y, z, m)`
returns, leaving a store `h'` that holds a tree `t'` with the same items in the same order.
The node `top` at the former place of `z` is `y` when `m` is 1 or 2 and `x` when `m` is 3 or
4: it has the parent `z` had; when `z` was the root, `root_` designates `top`, and otherwise
the child slot of the old parent of `z` that designated `z` designates `top`.  The children
of `top` are `z` and `x` (mode 1), `x` and `z` (mode 2), `y` and `z` (mode 3), `z` and `y`
(mode 4), and they have `top` as parent.  Afterwards the node at the place of `z`, its two
children and every node above store `1 + max` of the heights stored in their children; and
when the subtrees hanging off the way from `z` to the root stored exact heights before, every
node of the tree stores its exact height. -/
theorem balance_installs_subtree_root (fuel : Nat) (h : Heap K V) (t : AVLNode K (Nat × V))
    (zp : NodePtr) (hrep : Rep h t) (hbf : AVLTree.calculateBF (nodeAt t zp) ≥ 2)
    (hfuel : zp.length + 1 < fuel) :
    ∃ z y m x h' t' top,
      addr (nodeAt t zp) = some z ∧
      HeapAVL.calculateBF h z = some (AVLTree.calculateBF (nodeAt t zp)) ∧
      HeapAVL.findXYZ h z = some (x, y, z, m) ∧
      HeapAVL.balance fuel h x y z m = some h' ∧
      Rep h' t' ∧ toList t' = toList t ∧
      (m = 1 ∨ m = 2 ∨ m = 3 ∨ m = 4) ∧
      (m = 1 ∨ m = 2 → top = y) ∧ (m = 3 ∨ m = 4 → x = some top) ∧
      addr (nodeAt t' zp) = some top ∧
      Heap.getParent h' top = Heap.getParent h z ∧
      (zp = [] → h.root_ = some z ∧ h'.root_ = some top ∧ Heap.getParent h' top = some none) ∧
      (∀ d q, zp = d :: q → ∃ pa, Heap.getParent h z = some (some pa) ∧
        (if d then getRight h pa else getLeft h pa) = some (some z) ∧
        (if d then getRight h' pa else getLeft h' pa) = some (some top)) ∧
      (m = 1 → getLeft h' top = some (some z) ∧ getRight h' top = some x) ∧
      (m = 2 → getLeft h' top = some x ∧ getRight h' top = some (some z)) ∧
      (m = 3 → getLeft h' top = some (some y) ∧ getRight h' top = some (some z)) ∧
      (m = 4 → getLeft h' top = some (some z) ∧ getRight h' top = some (some y)) ∧
      Heap.getParent h' z = some (some top) ∧
      (m = 3 ∨ m = 4 → Heap.getParent h' y = some (some top)) ∧
      (m = 1 ∨ m = 2 → ∀ xa, x = some xa → Heap.getParent h' xa = some (some top)) ∧
      (∀ q, q <:+ zp ∨ q = false :: zp ∨ q = true :: zp →
        AVLTree.LocalExact (nodeAt t' q)) ∧
      (AVLTree.ExactOffPath t zp → HeightsExact t') := by
  obtain ⟨res, t', hf, hb⟩ := AVLTree.balance_of_unbalanced t zp hbf
  have hz : ∃ z, addr (nodeAt t zp) = some z := by
    cases hn : nodeAt t zp with
    | null => rw [hn] at hbf; simp at hbf
    | node l k av hh r => exact ⟨av.1, rfl⟩
  obtain ⟨z, hz⟩ := hz
  obtain ⟨y, hy, hfx⟩ := findXYZ_rep h t zp hrep.2.1 z hz res hf
  obtain ⟨h', c1, c2, _, c4, c5, c6, c7, c8⟩ :=
    balance_rep fuel h t t' zp hrep res hf hb hfuel z y hz hy
  obtain ⟨k1, k2⟩ := AVLTree.balance_heights t t' zp res hf hb
  have hm := AVLTree.findXYZ_mode t zp res hf
  have htop : ∃ top, (if res.2.2.2 = 1 ∨ res.2.2.2 = 2 then some y
      else res.1.bind fun xp => addr (nodeAt t xp)) = some top := by
    by_cases h12 : res.2.2.2 = 1 ∨ res.2.2.2 = 2
    · exact ⟨y, by rw [if_pos h12]⟩
    · rw [if_neg h12]
      apply c8
      omega
  obtain ⟨top, htop⟩ := htop
  rw [htop] at c4
  have gz := getters_of_rep h t zp hrep.2.1 z hz
  have gtop := getters_of_rep h' t' zp c2.2.1 top c4
  have hpar : parentAt none t' zp = parentAt none t zp := by
    cases zp with
    | nil => rfl
    | cons d q => exact c7 d q rfl
  have hchild : ∀ (d : Bool) (a : Nat), addr (nodeAt t' (d :: zp)) = some a →
      Heap.getParent h' a = some (some top) := by
    intro d a hda
    have g := (getters_of_rep h' t' (d :: zp) c2.2.1 a hda).2.2.1
    rw [g, parentAt_cons, c4]
  refine ⟨z, y, res.2.2.2, res.1.bind fun xp => addr (nodeAt t xp), h', t', top, hz,
    calculateBF_rep h t zp hrep.2.1 z hz, hfx, c1, c2, AVLTree.toList_balance _ _ _ _ _ _ hb,
    hm, ?_, ?_, c4, ?_, ?_, ?_, ?_, ?_, ?_, ?_, ?_, ?_, ?_, k1, k2⟩
  · intro h12
    rw [if_pos h12] at htop
    exact (Option.some.inj htop).symm
  · intro h34
    rw [if_neg (by omega)] at htop
    exact htop
  · rw [gtop.2.2.1, gz.2.2.1, hpar]
  · rintro rfl
    simp only [nodeAt_nil] at hz c4
    refine ⟨by rw [hrep.1, hz], by rw [c2.1, c4], ?_⟩
    rw [gtop.2.2.1]
    rfl
  · rintro d q rfl
    have hq : ∃ pa, addr (nodeAt t q) = some pa := by
      cases hn : nodeAt t q with
      | null => simp [hn] at hz
      | node l k av hh r => exact ⟨av.1, rfl⟩
    obtain ⟨pa, hq⟩ := hq
    have gp := getters_of_rep h t q hrep.2.1 pa hq
    have gp' := getters_of_rep h' t' q c2.2.1 pa (by rw [c7 d q rfl, hq])
    refine ⟨pa, by rw [gz.2.2.1, parentAt_cons, hq], ?_, ?_⟩
    · cases d
      · simp only [Bool.false_eq_true, if_false]
        rw [gp.1, hz]
      · simp only [if_true]
        rw [gp.2.1, hz]
    · cases d
      · simp only [Bool.false_eq_true, if_false]
        rw [gp'.1, c4]
      · simp only [if_true]
        rw [gp'.2.1, c4]
  · intro h1
    rw [gtop.1, gtop.2.1, c5, c6]
    simp [h1]
  · intro h2
    rw [gtop.1, gtop.2.1, c5, c6]
    simp [h2]
  · intro h3
    rw [gtop.1, gtop.2.1, c5, c6]
    simp [h3]
  · intro h4
    rw [gtop.1, gtop.2.1, c5, c6]
    simp [h4]
  · rcases hm with h1 | h2 | h3 | h4
    · exact hchild false z (by rw [c5]; simp [h1])
    · exact hchild true z (by rw [c6]; simp [h2])
    · exact hchild true z (by rw [c6]; simp [h3])
    · exact hchild false z (by rw [c5]; simp [h4])
  · rintro (h3 | h4)
    · exact hchild false y (by rw [c5]; simp [h3])
    · exact hchild true y (by rw [c6]; simp [h4])
  · rintro (h1 | h2) xa hxa
    · exact hchild true xa (by rw [c6, ← hxa]; simp [h1])
    · exact hchild false xa (by rw [c5, ← hxa]; simp [h2])

theorem balance_installs_subtree_root_witness :
    Rep chainHeap chainTree ∧ AVLTree.calculateBF (nodeAt chainTree []) ≥ 2 ∧
      ∃ h', HeapAVL.balance 3 chainHeap (some 2) 1 0 1 = some h' ∧ h'.root_ = some 1 ∧
        getLeft h' 1 = some (some 0) ∧ getRight h' 1 = some (some 2) ∧
        Heap.getParent h' 0 = some (some 1) ∧ Heap.getParent h' 2 = some (some 1) := by
  refine ⟨by decide, by decide, ?_⟩
  obtain ⟨z, y, m, x, h', t', top, e1, _, e3, e4, _, _, _, e8, _, _, _, e12, _, e14, _, _, _,
    e18, _, e20, _⟩ :=
    balance_installs_subtree_root 3 chainHeap chainTree [] (by decide) (by decide) (by decide)
  have hz : z = 0 := by
    have : addr (nodeAt chainTree []) = some 0 := by decide
    rw [this] at e1
    exact (Option.some.inj e1).symm
  subst hz
  have hfx : HeapAVL.findXYZ chainHeap 0 = some (some 2, 1, 0, 1) := by decide
  rw [hfx] at e3
  simp only [Option.some.injEq, Prod.mk.injEq, true_and] at e3
  obtain ⟨rfl, rfl, rfl⟩ := e3
  have ht : top = 1 := e8 (Or.inl rfl)
  subst ht
  exact ⟨h', e4, (e12 rfl).2.1, (e14 rfl).1, (e14 rfl).2, e18, e20 (Or.inl rfl) 2 rfl⟩

end HeapAVL
